import Mathlib

/-!
# wavetools: a shallow embedding of the waveform engine

This development embeds the WAV container codec (`subsys/wavfile.cpp`), the
raw PCM file reader (`subsys/rawpcmfile.cpp`), the sample codec and the
load/save glue (`libsrc/waveformload.cpp`, `libsrc/waveformsave.cpp`), the
`Waveform` container (`libsrc/waveform.cpp`) and the noise gate of
`tools/wavegate.cpp`, and proves properties of them.

Conventions of the embedding.

* A byte is a `Fin 256`; a file is the list of its bytes.  A stdio stream is a
  file together with the position of its file pointer.
* `unsigned`, `uint32_t` and `unsigned long` (the sources are built with the
  Microsoft toolchain: `_wfopen_s`, `_fseeki64`) are naturals reduced
  modulo `2^32`; `unsigned short` modulo `2^16`; `size_t` modulo `2^64`.
* A finite `float` or `double` value is the rational it denotes; infinities
  and NaN have no counterpart.  In the sample codec (`ConvertFloatSample`,
  `ConvertWAVSampleToFloat`, `ConvertRawSampleToFloat`, the MP3 loader) and in
  `ConvertToMono`, `Silence`, `Stretch`, `Resample` and `Normalize` every
  arithmetic result, every converted integer and every decimal literal is
  rounded to the nearest value of its format, ties to even (`roundF32` with 24
  significant bits for `float`, `roundF64` with 53 for `double`, subnormal
  numbers included), one rounding per operation as the statements are written
  (no fused multiply-add).  An integer constant converted to `float` is the
  value the compiler evaluates, so `static_cast<float>(0x7FFFFFFF)` is
  `2147483648`.  Where such a function would store a value beyond `FLT_MAX`
  (an infinity in the program) its result is `none`; a value that is only
  compared or clamped is kept as the rounded number, which compares as the
  infinity does.  `Multiply`, `Add`, `Fit` and the time conversions are
  written with exact arithmetic.
* The conversion of a floating value to an unsigned integer type is defined
  only when the truncated value fits the type; otherwise the behaviour is
  undefined (`Res.fault`).
* A function that can leave defined behaviour (an access outside a buffer, a
  division by zero, an exception that nobody catches) has a result type in
  which that outcome is visible (`Res.fault`, or `none` for the `Waveform`
  operations).
* Library functions that are not part of the sources (`powf`, the frame
  decoder of minimp3) are parameters of the models that call them.
-/

namespace WaveTools

/-! ## Bytes, words and streams -/

/-- One byte of a file or of a raw sample buffer. -/
abbrev Byte : Type := Fin 256

/-- Outcome of a routine of the codec layer: `ok` when the C++ function
returns `true` (with what it produced), `fail` when it returns `false`,
`fault` when it leaves defined behaviour, `timeout` when the chunk scan was
cut off by the step budget of the model. -/
inductive Res (α : Type) where
  | ok : α → Res α
  | fail : Res α
  | fault : Res α
  | timeout : Res α
deriving DecidableEq, Repr

def U16 : Nat := 2 ^ 16
def U32 : Nat := 2 ^ 32
def SIZE : Nat := 2 ^ 64

/-- Byte number `i` of the little-endian image of `n`. -/
def byteOf (n i : Nat) : Byte := ⟨n / 256 ^ i % 256, Nat.mod_lt _ (by decide)⟩

/-- Memory image of an `unsigned short`. -/
def le16 (n : Nat) : List Byte := [byteOf n 0, byteOf n 1]

/-- Memory image of a `uint32_t`. -/
def le32 (n : Nat) : List Byte := [byteOf n 0, byteOf n 1, byteOf n 2, byteOf n 3]

/-- Value of a little-endian word given by its bytes. -/
def leVal : List Byte → Nat
  | [] => 0
  | b :: bs => b.val + 256 * leVal bs

/-- What a buffer holding `old` contains after `fread` stored `got` at its
start: a short read leaves the tail of the buffer as it was. -/
def overlay (got old : List Byte) : List Byte := got ++ old.drop got.length

/-- An open stdio stream on a regular file. -/
structure FILE where
  content : List Byte
  pos : Nat
deriving DecidableEq, Repr

/-- Model of `fread(buf, 1, n, fp)`: the bytes obtained (fewer than `n` at the
end of the file) and the advanced stream. -/
def fread (fp : FILE) (n : Nat) : List Byte × FILE :=
  let got := (fp.content.drop fp.pos).take n
  (got, { fp with pos := fp.pos + got.length })

/-- Conversion of a 32-bit unsigned value to `long` (32 bits wide here). -/
def toLong (u : Nat) : Int := if u % U32 < 2 ^ 31 then (u % U32 : Nat) else (u % U32 : Nat) - (2 ^ 32 : Int)

/-- Model of `fseek(fp, off, SEEK_CUR)`: `none` when the call reports an error
(the target lies before the start of the file); seeking past the end is
allowed. -/
def fseekCur (fp : FILE) (off : Int) : Option FILE :=
  if 0 ≤ (fp.pos : Int) + off then some { fp with pos := ((fp.pos : Int) + off).toNat } else none

def tagRIFF : List Byte := [0x52, 0x49, 0x46, 0x46]
def tagWAVE : List Byte := [0x57, 0x41, 0x56, 0x45]
def tagFmt : List Byte := [0x66, 0x6D, 0x74, 0x20]
def tagData : List Byte := [0x64, 0x61, 0x74, 0x61]
def tagJUNK : List Byte := [0x4A, 0x55, 0x4E, 0x4B]

/-! ## subsys/wavfile.h, subsys/wavfile.cpp -/

/-- Format description of a WAV file (`struct WAVInfo`); all numeric fields
are `unsigned`. -/
structure WAVInfo where
  m_rate : Nat := 48000
  m_channels : Nat := 1
  m_bits : Nat := 16
  m_is_float : Bool := false
  m_sample_count : Nat := 0
deriving DecidableEq, Repr

/-- Number of bytes needed to hold the sample data, in `unsigned`
arithmetic: `m_channels * m_bits / 8 * m_sample_count`. -/
def WAVInfo.CalculateBufferSize (h : WAVInfo) : Nat :=
  (h.m_channels * h.m_bits % U32 / 8 * h.m_sample_count) % U32

/-- The packed format record of a WAV file (`WAVFHDR`): with 32-bit
`unsigned long` it occupies 2+2+4+4+2+2 = 16 bytes. -/
structure WAVFHDR where
  wFmtTag : Nat
  nChannels : Nat
  Rate : Nat
  BPS : Nat
  nAlign : Nat
  nBits : Nat
deriving DecidableEq, Repr

/-- Value of `sizeof(WAVFHDR)`. -/
def sizeofWAVFHDR : Nat := 16

/-- Memory image of a format record. -/
def WAVFHDR.bytes (h : WAVFHDR) : List Byte :=
  le16 h.wFmtTag ++ le16 h.nChannels ++ le32 h.Rate ++ le32 h.BPS ++ le16 h.nAlign ++ le16 h.nBits

/-- Format record held in 16 bytes of memory. -/
def WAVFHDR.ofBytes (b : List Byte) : WAVFHDR :=
  { wFmtTag := leVal ((b.drop 0).take 2)
    nChannels := leVal ((b.drop 2).take 2)
    Rate := leVal ((b.drop 4).take 4)
    BPS := leVal ((b.drop 8).take 4)
    nAlign := leVal ((b.drop 12).take 2)
    nBits := leVal ((b.drop 14).take 2) }

/-- Model of `read_and_confirm_wav_signature`: `none` when it returns false,
otherwise the stream it leaves behind. -/
def read_and_confirm_wav_signature (fp : FILE) : Option FILE :=
  let (signature, fp1) := fread fp 16
  if signature.length ≠ 16 then none
  else if signature.take 4 ≠ tagRIFF then none
  else if (signature.drop 8).take 4 ≠ tagWAVE then none
  else if (signature.drop 12).take 4 = tagJUNK then
    -- the results of these three calls are not checked by the source
    let (offb, fp2) := fread fp1 4
    let offset := leVal (overlay offb [0, 0, 0, 0])
    let fp3 := (fseekCur fp2 (toLong offset)).getD fp2
    let (tag, fp4) := fread fp3 4
    if overlay tag tagJUNK ≠ tagFmt then none else some fp4
  else if (signature.drop 12).take 4 ≠ tagFmt then none
  else some fp1

/-- Model of `read_and_confirm_format_header`. -/
def read_and_confirm_format_header (fp : FILE) : Option (WAVFHDR × FILE) :=
  let (szb, fp1) := fread fp 4
  if szb.length ≠ 4 then none
  else
    let hdr_size := leVal szb
    if hdr_size < sizeofWAVFHDR then none
    else
      let (hb, fp2) := fread fp1 sizeofWAVFHDR
      if hb.length ≠ sizeofWAVFHDR then none
      else
        let hdr := WAVFHDR.ofBytes hb
        if hdr.nBits ≠ 8 ∧ hdr.nBits ≠ 16 ∧ hdr.nBits ≠ 32 then none
        else if hdr.wFmtTag ≠ 1 ∧ hdr.wFmtTag ≠ 3 then none
        else if hdr.nChannels < 1 ∨ hdr.nChannels > 5 then none
        else
          match fseekCur fp2 (toLong (hdr_size - sizeofWAVFHDR)) with
          | none => none
          | some fp3 => some (hdr, fp3)

/-- Model of `read_and_confirm_data_header`: the chunk scan, one loop
iteration per unit of budget.  The result carries `datasize` and the stream
positioned on the sample data. -/
def read_and_confirm_data_header : Nat → FILE → Res (Nat × FILE)
  | 0, _ => Res.timeout
  | budget + 1, fp =>
    let (datasig, fp1) := fread fp 4
    if datasig.length ≠ 4 then Res.ok (0, fp1)
    else
      let (szb, fp2) := fread fp1 4
      if szb.length ≠ 4 then Res.fail
      else
        let datasize := leVal szb
        if datasig = tagData then Res.ok (datasize, fp2)
        else
          match fseekCur fp2 (toLong datasize) with
          | none => Res.fail
          | some fp3 => read_and_confirm_data_header budget fp3

/-- The three header stages shared by `WAVFileReadHeader` and
`WAVFileReadSamples`. -/
def readHeaders (budget : Nat) (file : List Byte) : Res (WAVFHDR × Nat × FILE) :=
  match read_and_confirm_wav_signature { content := file, pos := 0 } with
  | none => Res.fail
  | some fp1 =>
    match read_and_confirm_format_header fp1 with
    | none => Res.fail
    | some (hdr, fp2) =>
      match read_and_confirm_data_header budget fp2 with
      | Res.ok (datasize, fp3) => Res.ok (hdr, datasize, fp3)
      | Res.fail => Res.fail
      | Res.fault => Res.fault
      | Res.timeout => Res.timeout

/-- Model of `WAVFileReadHeader` on a file that exists and can be opened. -/
def WAVFileReadHeader (budget : Nat) (file : List Byte) : Res WAVInfo :=
  match readHeaders budget file with
  | Res.ok (hdr, datasize, _) =>
    Res.ok { m_rate := hdr.Rate
             m_channels := hdr.nChannels
             m_bits := hdr.nBits
             m_is_float := (hdr.wFmtTag == 3)
             m_sample_count := datasize / hdr.nChannels / (hdr.nBits / 8) }
  | Res.fail => Res.fail
  | Res.fault => Res.fault
  | Res.timeout => Res.timeout

/-- Model of `WAVFileReadSamples` with a caller buffer of `buffer_size`
bytes: on success, the bytes stored at the start of the buffer. -/
def WAVFileReadSamples (budget : Nat) (file : List Byte) (buffer_size : Nat) : Res (List Byte) :=
  if buffer_size = 0 then Res.fail
  else
    match readHeaders budget file with
    | Res.ok (_, data_size, fp) =>
      if buffer_size < data_size then Res.fail
      else
        let (got, _) := fread fp data_size
        if got.length ≠ data_size then Res.fail else Res.ok got
    | Res.fail => Res.fail
    | Res.fault => Res.fault
    | Res.timeout => Res.timeout

/-- Model of `WAVFileWrite` on a file that can be created and written: the
content of the file.  Reading `data_size` bytes from a shorter sample buffer
is a fault. -/
def WAVFileWrite (header : WAVInfo) (samples : List Byte) : Res (List Byte) :=
  if header.m_sample_count = 0 then Res.fail
  else if header.m_bits ≠ 8 ∧ header.m_bits ≠ 16 ∧ header.m_bits ≠ 32 then Res.fail
  else
    let offset := (16 + sizeofWAVFHDR + header.CalculateBufferSize) % U32
    let hdr_size := sizeofWAVFHDR % U32
    let wfhdr : WAVFHDR :=
      { wFmtTag := if header.m_is_float then 3 else 1
        nChannels := header.m_channels % U16
        Rate := header.m_rate % U32
        BPS := header.m_rate * (header.m_bits / 8) % U32
        nAlign := header.m_bits / 8 * header.m_channels % U32 % U16
        nBits := header.m_bits % U16 }
    let data_size := header.CalculateBufferSize
    if samples.length < data_size then Res.fault
    else
      Res.ok (tagRIFF ++ le32 offset ++ (tagWAVE ++ tagFmt) ++ le32 hdr_size ++ wfhdr.bytes
        ++ tagData ++ le32 data_size ++ samples.take data_size)


/-- The bytes of one RIFF chunk: a 4-byte tag, the 4-byte length of the body
and the body. -/
def riffChunk (tag body : List Byte) : List Byte := tag ++ le32 body.length ++ body

/-- The bytes of a sequence of RIFF chunks, each given by its tag and its
body. -/
def riffChunks (cs : List (List Byte × List Byte)) : List Byte :=
  cs.flatMap fun c => riffChunk c.1 c.2

/-- A chunk that the chunk scan skips with a forward seek: a 4-byte tag other
than `data` and a body shorter than 2^31 bytes (the length, converted to the
32-bit `long` that `fseek` takes, is then not negative). -/
def foreignChunk (c : List Byte × List Byte) : Prop :=
  c.1.length = 4 ∧ c.1 ≠ tagData ∧ c.2.length < 2 ^ 31

/-! ## Floating-point arithmetic -/

/-- Round to the nearest integer, ties to even. -/
def roundEven (q : ℚ) : Int :=
  let f := ⌊q⌋
  let r := q - (f : ℚ)
  if r < 1 / 2 then f else if r > 1 / 2 then f + 1 else if f % 2 = 0 then f else f + 1

/-- The power of two with an integer exponent. -/
def pow2 (k : Int) : ℚ := if 0 ≤ k then (2 : ℚ) ^ k.toNat else 1 / (2 : ℚ) ^ (-k).toNat

/-- Exponent of the binade of a positive rational `a`: the `k` with
`2^k ≤ a < 2^(k+1)`. -/
def binadeOf (a : ℚ) : Int :=
  let k0 : Int := (Nat.log2 a.num.natAbs : Int) - (Nat.log2 a.den : Int)
  if a < pow2 k0 then k0 - 1 else k0

/-- Rounding to the nearest number of the binary format with `p` significant
bits and least exponent `emin`, ties to even; below `2^emin` the spacing is
that of the subnormal numbers.  The exponent range is not bounded above. -/
def roundTo (p : Nat) (emin : Int) (q : ℚ) : ℚ :=
  if q = 0 then 0
  else
    let e := max (binadeOf |q|) emin
    (roundEven (q / pow2 (e + 1 - (p : Int))) : ℚ) * pow2 (e + 1 - (p : Int))

/-- Rounding of a result to `float` (IEEE-754 binary32). -/
def roundF32 (q : ℚ) : ℚ := roundTo 24 (-126) q

/-- Rounding of a result to `double` (IEEE-754 binary64). -/
def roundF64 (q : ℚ) : ℚ := roundTo 53 (-1022) q

/-- Value of `FLT_MAX`. -/
def FLT_MAX : ℚ := 340282346638528859811704183484516925440

/-- A `float` result that is to be stored: `none` when it is not a finite
number. -/
def finite32 (q : ℚ) : Option ℚ := if |q| ≤ FLT_MAX then some q else none

/-- Truncation toward zero, the value part of a float-to-integer cast. -/
def truncQ (q : ℚ) : Int := if 0 ≤ q then ⌊q⌋ else -⌊-q⌋

/-! ## include/waveform.h, libsrc/waveform.cpp -/

/-- Results of a sequence of reads or conversions: `none` as soon as one of
them is `none`. -/
def collect {α : Type} : List (Option α) → Option (List α)
  | [] => some []
  | none :: _ => none
  | some a :: rest => (collect rest).map fun r => a :: r

/-- Largest element count of a `std::vector<float>`: a request beyond it
throws `std::length_error`. -/
def vectorMaxSize : Nat := (2 ^ 64 - 1) / 4

/-- Container for a PCM waveform (`class Waveform`): interleaved samples,
sample rate (`unsigned`) and channel count (`size_t`). -/
structure Waveform where
  m_data : List ℚ
  m_rate : Nat
  m_numChannels : Nat
deriving DecidableEq, Repr

/-- The value-initialised object `Waveform()`. -/
def Waveform.fresh : Waveform := { m_data := [], m_rate := 48000, m_numChannels := 0 }

/-- The fields hold values of their C++ types and the vector is one that can
exist. -/
def Waveform.representable (w : Waveform) : Prop :=
  w.m_data.length ≤ vectorMaxSize ∧ w.m_rate < U32 ∧ w.m_numChannels < SIZE

instance (w : Waveform) : Decidable w.representable := by
  unfold Waveform.representable
  infer_instance

/-- Data-model invariant of the buffer: the stored samples are whole frames
and the channel count is between 1 and 256. -/
def Waveform.invariant (w : Waveform) : Prop :=
  w.m_numChannels ∣ w.m_data.length ∧ 1 ≤ w.m_numChannels ∧ w.m_numChannels ≤ 256

instance (w : Waveform) : Decidable w.invariant := by
  unfold Waveform.invariant
  infer_instance

def Waveform.SetRate (w : Waveform) (Hz : Nat) : Waveform := { w with m_rate := Hz }

def Waveform.GetRate (w : Waveform) : Nat := w.m_rate

def Waveform.GetNumChannels (w : Waveform) : Nat := w.m_numChannels

/-- Model of `Waveform::Populate`; `none` when `resize` throws
`std::length_error` or when `memcpy` would read past the caller's data. -/
def Waveform.Populate (w : Waveform) (numSamples numChannels : Nat)
    (sampleData : Option (List ℚ)) : Option (Bool × Waveform) :=
  if numChannels < 1 ∨ numChannels > 256 then some (false, w)
  else
    let newSize := numSamples * numChannels % SIZE
    if newSize > vectorMaxSize then none
    else
      let resized := w.m_data.take newSize ++ List.replicate (newSize - w.m_data.length) 0
      let numBytes := numSamples * numChannels * 4 % SIZE
      if numBytes > 0 then
        match sampleData with
        | some src =>
          if src.length * 4 < numBytes then none
          else some (true, { w with m_numChannels := numChannels
                                    m_data := src.take (numBytes / 4) ++ resized.drop (numBytes / 4) })
        | none => some (true, { w with m_numChannels := numChannels
                                       m_data := List.replicate (numBytes / 4) 0 ++ resized.drop (numBytes / 4) })
      else some (true, { w with m_numChannels := numChannels, m_data := resized })

/-- Model of `Waveform::GetNumSamples`: the number of frames. -/
def Waveform.GetNumSamples (w : Waveform) : Nat :=
  if w.m_numChannels = 0 ∨ w.m_data = [] then 0 else w.m_data.length / w.m_numChannels

def Waveform.GetTotalBytes (w : Waveform) : Nat := w.m_data.length

def Waveform.GetDurationInSeconds (w : Waveform) : ℚ :=
  if w.m_rate = 0 ∨ w.m_data = [] then 0 else (w.GetNumSamples : ℚ) / (w.m_rate : ℚ)

def Waveform.SampleIndexToTime (w : Waveform) (index : Nat) : ℚ :=
  let numSamples := w.GetNumSamples
  if numSamples = 0 then 0 else ((index : ℚ) / (numSamples : ℚ)) * w.GetDurationInSeconds

/-- Model of `Waveform::TimeToSampleIndex`; `none` when the quotient is not
a finite value that fits `size_t` (the cast is then undefined). -/
def Waveform.TimeToSampleIndex (w : Waveform) (seconds : ℚ) : Option Nat :=
  if seconds ≤ 0 ∨ w.m_data = [] then some 0
  else
    let numSamples := w.GetNumSamples
    if numSamples = 0 then some 0
    else if w.GetDurationInSeconds = 0 then none
    else
      let r := truncQ (seconds / w.GetDurationInSeconds * (numSamples : ℚ))
      if r < (SIZE : Int) then some r.toNat else none

/-- Model of `Waveform::GetSample`; `none` when the element read lies outside
the sample storage. -/
def Waveform.GetSample (w : Waveform) (sampleIndex channel : Nat) : Option ℚ :=
  if sampleIndex > w.GetNumSamples ∨ channel ≥ w.m_numChannels ∨ w.m_data = [] then some 0
  else w.m_data[sampleIndex * w.m_numChannels + channel]?

/-- Model of `Waveform::GetHighestSample`. -/
def Waveform.GetHighestSample (w : Waveform) : Option ℚ :=
  if w.m_numChannels < 1 ∨ w.m_data = [] then some 0
  else
    (List.range w.m_data.length).foldlM
      (fun highest index => (w.m_data[index]?).map fun x => if x > highest then x else highest)
      (-FLT_MAX)

/-- Model of `Waveform::GetLowestSample`. -/
def Waveform.GetLowestSample (w : Waveform) : Option ℚ :=
  if w.m_numChannels < 1 ∨ w.m_data = [] then some 0
  else
    (List.range w.m_data.length).foldlM
      (fun lowest index => (w.m_data[index]?).map fun x => if x < lowest then x else lowest)
      FLT_MAX

/-- Model of `Waveform::FindHighestSample`. -/
def Waveform.FindHighestSample (w : Waveform) (channel : Nat) : Option Nat :=
  if w.m_data = [] ∨ channel ≥ w.m_numChannels then some 0
  else
    ((List.range w.GetNumSamples).foldlM
      (fun (st : ℚ × Nat) index =>
        (w.m_data[index * w.m_numChannels + channel]?).map fun sample =>
          if sample > st.1 then (sample, index) else st)
      (-FLT_MAX, 0)).map Prod.snd

/-- Model of `Waveform::FindLowestSample`. -/
def Waveform.FindLowestSample (w : Waveform) (channel : Nat) : Option Nat :=
  if w.m_data = [] ∨ channel ≥ w.m_numChannels then some 0
  else
    ((List.range w.GetNumSamples).foldlM
      (fun (st : ℚ × Nat) index =>
        (w.m_data[index * w.m_numChannels + channel]?).map fun sample =>
          if sample < st.1 then (sample, index) else st)
      (FLT_MAX, 0)).map Prod.snd

/-- Model of `Waveform::SetSample`. -/
def Waveform.SetSample (w : Waveform) (sampleIndex channel : Nat) (value : ℚ) : Bool × Waveform :=
  let numSamples := w.GetNumSamples
  if sampleIndex ≥ numSamples ∨ channel ≥ w.m_numChannels then (false, w)
  else (true, { w with m_data := w.m_data.set (sampleIndex * w.m_numChannels + channel) value })

/-- Model of `Waveform::ConvertToMono`: per frame, `val += GetSample(index,
channel) / m_numChannels` with the channel count converted to `float`, the
quotient and the sum rounded to `float`.  `none` when `GetSample` reads outside
the storage or a sum is not finite. -/
def Waveform.ConvertToMono (w : Waveform) : Option (Bool × Waveform) :=
  if w.m_data = [] then some (true, { w with m_numChannels := 1 })
  else if w.m_numChannels = 1 then some (true, w)
  else if w.m_numChannels < 1 then some (false, w)
  else
    let numSamples := w.GetNumSamples
    (collect ((List.range numSamples).map fun index =>
        (List.range w.m_numChannels).foldlM
          (fun val channel => (w.GetSample index channel).bind fun s =>
            finite32 (roundF32 (val + roundF32 (s / roundF32 (w.m_numChannels : ℚ)))))
          (0 : ℚ))).map
      fun newData => (true, { w with m_data := newData, m_numChannels := 1 })

/-- Model of `Waveform::ConvertToStereo`; the new vector of
`numSamples * 2` elements is subject to the vector size limit. -/
def Waveform.ConvertToStereo (w : Waveform) : Option (Bool × Waveform) :=
  if w.m_data = [] then some (true, { w with m_numChannels := 2 })
  else if w.m_numChannels < 1 ∨ w.m_numChannels > 2 then some (false, w)
  else if w.m_numChannels = 2 then some (true, w)
  else
    let numSamples := w.GetNumSamples
    if numSamples * 2 % SIZE > vectorMaxSize then none
    else
      (collect ((List.range numSamples).map fun index => w.GetSample index 0)).map
        fun vals => (true, { w with m_data := vals.flatMap (fun val => [val, val]), m_numChannels := 2 })

/-- Model of `Waveform::Silence`; `none` when the loop stores outside the
sample storage or a ramped value is not finite.  The ramp is
`value * static_cast<float>(n - 1 - index) / n`: the product and the quotient
are rounded to `float`, `n` being converted to `float` for the division. -/
def Waveform.Silence (w : Waveform) (start count : Nat) (soft : Bool) : Option Waveform :=
  if w.m_data = [] ∨ w.m_numChannels < 1 ∨ count < 1 then some w
  else
    let numSamples := w.m_data.length / w.m_numChannels
    if start ≥ numSamples then some w
    else
      let count := if (count + start) % SIZE > numSamples then numSamples - start else count
      let stop := count * w.m_numChannels % SIZE
      let first := start * w.m_numChannels
      let numSamplesToSoftSilence := w.m_rate * w.m_numChannels % SIZE / 10
      if first + stop > w.m_data.length then none
      else
        (collect (w.m_data.mapIdx fun j value =>
          if first ≤ j ∧ j < first + stop then
            if soft = true ∧ j - first < numSamplesToSoftSilence then
              finite32 (roundF32 (roundF32 (value
                  * roundF32 ((numSamplesToSoftSilence - 1 - (j - first) : Nat) : ℚ))
                / roundF32 (numSamplesToSoftSilence : ℚ)))
            else some 0
          else some value)).map fun newData => { w with m_data := newData }

/-- Model of `Waveform::Delete`; `none` when the range handed to `erase` is
not a valid range of the vector. -/
def Waveform.Delete (w : Waveform) (start count : Nat) : Option (Bool × Waveform) :=
  if w.m_data = [] then some (true, w)
  else
    let numSamples := w.GetNumSamples
    if start ≥ numSamples then some (false, w)
    else
      let count := if (start + count) % SIZE ≥ numSamples then numSamples - start else count
      let first := start * w.m_numChannels % SIZE
      let last := (start + count) % SIZE * w.m_numChannels % SIZE
      if first ≤ last ∧ last ≤ w.m_data.length then
        some (true, { w with m_data := w.m_data.take first ++ w.m_data.drop last })
      else none

/-- Model of `Waveform::Insert`; `none` when the vector would exceed its
size limit. -/
def Waveform.Insert (w : Waveform) (start count : Nat) : Option (Bool × Waveform) :=
  if w.m_data = [] then
    if start = 0 then w.Populate count w.m_numChannels none else some (false, w)
  else
    let numSamples := w.GetNumSamples
    if start > numSamples then some (false, w)
    else
      let extra := count * w.m_numChannels % SIZE
      if w.m_data.length + extra > vectorMaxSize then none
      else
        let first := start * w.m_numChannels
        some (true, { w with m_data := w.m_data.take first ++ List.replicate extra 0 ++ w.m_data.drop first })

/-- The source index of `Waveform::Stretch`:
`static_cast<size_t>(newIndex * static_cast<double>(numSamples) / newNumSamples)`,
computed in `double`: the three integers are converted, the product and the
quotient are rounded, and the quotient is truncated.  (For `newIndex <
newNumSamples` the quotient is at most `numSamples`, which fits `size_t`.) -/
def stretchSourceIndex (newIndex numSamples newNumSamples : Nat) : Nat :=
  (truncQ (roundF64 (roundF64 (roundF64 (newIndex : ℚ) * roundF64 (numSamples : ℚ))
    / roundF64 (newNumSamples : ℚ)))).toNat

/-- Model of `Waveform::Stretch`.  The
result of the inner `Populate`
is not checked by the source: when it fails the channel count of the
temporary is indeterminate, and when the element count wrapped the copy loop
stores outside the temporary; both are `none`. -/
def Waveform.Stretch (w : Waveform) (newNumSamples : Nat) : Option (Bool × Waveform) :=
  if newNumSamples < 1 then some (false, w)
  else if w.m_data.length ≤ 1 then some (true, w)
  else
    let numSamples := w.GetNumSamples
    match ({ Waveform.fresh with m_rate := w.m_rate } : Waveform).Populate newNumSamples w.m_numChannels none with
    | none => none
    | some (false, _) => none
    | some (true, newWav) =>
      if newNumSamples * w.m_numChannels ≥ SIZE ∧ numSamples ≠ 0 then none
      else
        some (true, { newWav with m_data := newWav.m_data.mapIdx fun j zero =>
          let newIndex := j / w.m_numChannels
          let oldIndex := stretchSourceIndex newIndex numSamples newNumSamples
          if oldIndex ≥ numSamples then zero
          else (w.m_data[oldIndex * w.m_numChannels + j % w.m_numChannels]?).getD 0 })

/-- Model of `Waveform::Resample`.  The new frame count is the integer part
of `numSamples * static_cast<double>(Hz) / m_rate`, computed in `double`;
`none` when it is not a finite value that fits `size_t`. -/
def Waveform.Resample (w : Waveform) (Hz : Nat) : Option (Bool × Waveform) :=
  if Hz < 1 then some (false, w)
  else if w.m_data.length ≤ 1 then some (true, { w with m_rate := Hz })
  else
    let numSamples := w.GetNumSamples
    if w.m_rate = 0 then none
    else
      let r := truncQ (roundF64 (roundF64 (roundF64 (numSamples : ℚ) * roundF64 (Hz : ℚ))
        / roundF64 (w.m_rate : ℚ)))
      if r ≥ (SIZE : Int) then none
      else
        let newNumSamples := if r.toNat < 1 then 1 else r.toNat
        match w.Stretch newNumSamples with
        | none => none
        | some (false, w1) => some (false, w1)
        | some (true, w1) => some (true, { w1 with m_rate := Hz })

/-- The elements visited by the loops `index < numSamples`, `channel <
m_numChannels` are exactly those at positions below `numSamples *
m_numChannels`. -/
def Waveform.mapFrames (w : Waveform) (f : ℚ → ℚ) : List ℚ :=
  w.m_data.mapIdx fun j x => if j < w.GetNumSamples * w.m_numChannels then f x else x

/-- Model of `Waveform::Multiply`. -/
def Waveform.Multiply (w : Waveform) (value : ℚ) : Bool × Waveform :=
  if w.m_data = [] then (false, w)
  else (true, { w with m_data := w.mapFrames fun x => x * value })

/-- Model of `Waveform::Add`. -/
def Waveform.Add (w : Waveform) (value : ℚ) : Bool × Waveform :=
  if w.m_data = [] then (false, w)
  else (true, { w with m_data := w.mapFrames fun x => x + value })

/-- Model of `Waveform::Clip`. -/
def Waveform.Clip (w : Waveform) (lowest highest : ℚ) : Bool × Waveform :=
  if w.m_data = [] then (true, w)
  else
    (true, { w with m_data := w.mapFrames fun sample =>
      let sample := if sample < lowest then lowest else sample
      if sample > highest then highest else sample })

/-- Model of `Waveform::Fit`. -/
def Waveform.Fit (w : Waveform) (lowest highest : ℚ) : Option (Bool × Waveform) :=
  if w.m_data = [] then some (true, w)
  else if lowest ≥ highest then some (false, w)
  else
    match w.FindLowestSample 0, w.FindHighestSample 0 with
    | some indexLowest, some indexHighest =>
      match w.GetSample indexLowest 0, w.GetSample indexHighest 0 with
      | some dataLowest, some dataHighest =>
        let delta := highest - lowest
        let dataDelta := dataHighest - dataLowest
        let tiny_value : ℚ := 1 / 1000000
        if delta < tiny_value ∨ dataDelta < tiny_value then some (false, w)
        else
          some (true, { w with m_data := w.mapFrames fun sample =>
            (sample - dataLowest) * delta / dataDelta + lowest })
      | _, _ => none
    | _, _ => none

/-- One iteration of the chunk loop of `Waveform::Normalize` on the state
(samples, gain).  Every product and quotient is rounded to `float`; the
literals `1.05f` and `0.02f` are the `float` values nearest to the decimal
fractions.  `none` when an element outside the storage is accessed or when a
value that is stored is not finite. -/
def normalizeChunk (maxVol : ℚ) (samplesPerChunk numChunks : Nat) (st : List ℚ × ℚ) (chunk : Nat) :
    Option (List ℚ × ℚ) :=
  let data := st.1
  let gain := st.2
  let isample := chunk * samplesPerChunk % U32
  match (List.range samplesPerChunk).foldlM
      (fun local_peak subsample =>
        (data[(isample + subsample) % U32]?).map fun x => if |x| > local_peak then |x| else local_peak)
      (0 : ℚ) with
  | none => none
  | some local_peak =>
    let gain := if local_peak < maxVol ∧ gain < 100 then roundF32 (gain * roundF32 (105 / 100)) else gain
    let gain :=
      if roundF32 (local_peak * gain) > maxVol then
        if local_peak < roundF32 (2 / 100) then roundF32 (maxVol / roundF32 (2 / 100))
        else roundF32 (maxVol / local_peak)
      else gain
    let count := if chunk = (numChunks + U32 - 1) % U32 then (data.length + SIZE - isample) % SIZE
      else samplesPerChunk
    if isample + count > data.length then none
    else if |gain| > FLT_MAX then none
    else
      (collect (data.mapIdx fun j x =>
        if isample ≤ j ∧ j < isample + count then finite32 (roundF32 (x * gain)) else some x)).map
        fun newData => (newData, gain)

/-- Model of `Waveform::Normalize`.  The library function `powf` is a
parameter.  The chunk length is `static_cast<unsigned>(m_rate * 0.01f *
m_numChannels)`, computed in `float`: the rate and the channel count are
converted, both products are rounded.  The result is `none` when the chunk
length is zero (division by zero) or does not fit `unsigned`. -/
def Waveform.Normalize (powf : ℚ → ℚ → ℚ) (w : Waveform) (dbLevel : ℚ) : Option Waveform :=
  let dbLevel := if dbLevel > 0 then 0 else dbLevel
  let dbLevel := if dbLevel < -100 then -100 else dbLevel
  if w.m_data = [] ∨ w.m_numChannels < 1 ∨ w.m_rate < 1 then some w
  else
    let maxVol := powf 10 (roundF32 (dbLevel / 20))
    let spc := truncQ (roundF32 (roundF32 (roundF32 (w.m_rate : ℚ) * roundF32 (1 / 100))
      * roundF32 (w.m_numChannels : ℚ)))
    if spc ≥ (U32 : Int) then none
    else
      let samplesPerChunk := spc.toNat
      if samplesPerChunk = 0 then none
      else
        let numChunks := w.m_data.length / samplesPerChunk % U32
        ((List.range numChunks).foldlM (normalizeChunk maxVol samplesPerChunk numChunks) (w.m_data, 1)).map
          fun st => { w with m_data := st.1 }

/-! ## IEEE-754 images of sample values -/

/-- Bit pattern of the IEEE-754 number nearest to `q` in the format with
`ebits` exponent bits and `mbits` fraction bits (8 and 23 for `float`, 11 and
52 for `double`). -/
def ieeeBits (ebits mbits : Nat) (q : ℚ) : Nat :=
  let bias : Int := 2 ^ (ebits - 1) - 1
  let sign : Nat := if q < 0 then 2 ^ (ebits + mbits) else 0
  let a := |q|
  if a = 0 then 0
  else
    let k0 : Int := (Nat.log2 a.num.natAbs : Int) - (Nat.log2 a.den : Int)
    let k : Int := if a < pow2 k0 then k0 - 1 else k0
    let e : Int := max (k + bias) 1
    let m : Int := roundEven (a * pow2 ((mbits : Int) + bias - e))
    let body : Nat := ((e - 1) * 2 ^ mbits + m).toNat
    let inf : Nat := (2 ^ ebits - 1) * 2 ^ mbits
    sign + (if body ≥ inf then inf else body)

/-- Value of a finite IEEE-754 bit pattern. -/
def ieeeVal (ebits mbits bits : Nat) : ℚ :=
  let bias : Int := 2 ^ (ebits - 1) - 1
  let s : ℚ := if bits / 2 ^ (ebits + mbits) % 2 = 1 then -1 else 1
  let e := bits / 2 ^ mbits % 2 ^ ebits
  let m := bits % 2 ^ mbits
  if e = 0 then s * (m : ℚ) * pow2 (1 - bias - (mbits : Int))
  else s * ((2 ^ mbits + m : Nat) : ℚ) * pow2 ((e : Int) - bias - (mbits : Int))

/-- Little-endian memory image of `n` in `width` bytes. -/
def leBytes (n width : Nat) : List Byte := (List.range width).map (byteOf n)

/-- Two's-complement reading of a `width`-bit word. -/
def toSigned (width n : Nat) : Int :=
  if n % 2 ^ width < 2 ^ (width - 1) then (n % 2 ^ width : Nat) else (n % 2 ^ width : Nat) - (2 ^ width : Int)

/-- Conversion of a floating value to an unsigned integer of `width` bits:
truncation toward zero; `none` when the truncated value cannot be represented
in the type (the behaviour of the conversion is then undefined). -/
def castUnsigned (width : Nat) (q : ℚ) : Option Nat :=
  if 0 ≤ truncQ q ∧ truncQ q < (2 ^ width : Int) then some (truncQ q).toNat else none

/-- The `float` nearest to the integer `n`, ties to even: the value of
`static_cast<float>(n)`.  An integer of magnitude up to `2^24` converts
exactly; a larger one keeps 24 significant bits. -/
def floatOfInt (n : Int) : ℚ :=
  let a := n.natAbs
  let q := 2 ^ (Nat.log2 a - 23)
  let f := a / q
  let r := a % q
  let m := if 2 * r < q then f else if 2 * r > q then f + 1 else if f % 2 = 0 then f else f + 1
  if n < 0 then -((m * q : Nat) : ℚ) else ((m * q : Nat) : ℚ)

/-- The finite values of the IEEE-754 format with `ebits` exponent bits and
`mbits` fraction bits: an integer of at most `mbits + 1` bits times a power of
two between the smallest subnormal and the unit of the largest binade. -/
def isIeee (ebits mbits : Nat) (x : ℚ) : Prop :=
  ∃ (m : Nat) (e : Int), m < 2 ^ (mbits + 1) ∧ 2 - 2 ^ (ebits - 1) - (mbits : Int) ≤ e ∧
    e ≤ 2 ^ (ebits - 1) - 1 - (mbits : Int) ∧ (x = (m : ℚ) * pow2 e ∨ x = -((m : ℚ) * pow2 e))

/-! ## libsrc/waveformsave.cpp, libsrc/waveformload.cpp -/

/-- Model of `ConvertFloatSample`: `ok` with the bytes stored at `outsample`,
`fail` when the function returns false, `fault` when the clamped value is
converted to an unsigned type that cannot represent its integer part.  The
scaled value is computed in `float`, one rounding per operation. -/
def ConvertFloatSample (insample : ℚ) (isFloat : Bool) (bytesPerSample : Nat) : Res (List Byte) :=
  if isFloat then
    if bytesPerSample = 4 then Res.ok (le32 (ieeeBits 8 23 insample))
    else if bytesPerSample = 8 then Res.ok (leBytes (ieeeBits 11 52 insample) 8)
    else Res.fail
  else
    if bytesPerSample = 1 then
      let sample := roundF32 (roundF32 (insample * 127) + 128)
      let sample := if sample < 0 then 0 else sample
      let sample := if sample > 255 then 255 else sample
      match castUnsigned 8 sample with
      | some n => Res.ok [byteOf n 0]
      | none => Res.fault
    else if bytesPerSample = 2 then
      let sample := roundF32 (insample * 32767)
      let sample := if sample < -32767 then -32767 else sample
      let sample := if sample > 32767 then 32767 else sample
      match castUnsigned 16 sample with
      | some n => Res.ok (le16 n)
      | none => Res.fault
    else if bytesPerSample = 4 then
      let sample := roundF32 (insample * 2147483648)
      let sample := if sample < -2147483648 then -2147483648 else sample
      let sample := if sample > 2147483648 then 2147483648 else sample
      match castUnsigned 32 sample with
      | some n => Res.ok (le32 n)
      | none => Res.fault
    else Res.fail

/-- Model of `ConvertWAVSampleToFloat` reading at the start of `psample`;
`none` when the bytes of the sample are not all inside the buffer.  The
sample word is converted to `float` and the difference and the quotient are
rounded to `float`. -/
def ConvertWAVSampleToFloat (hdr : WAVInfo) (psample : List Byte) : Option ℚ :=
  let word (n : Nat) : Option Nat := if psample.length < n then none else some (leVal (psample.take n))
  if hdr.m_is_float then
    if hdr.m_bits = 32 then (word 4).map (ieeeVal 8 23)
    else if hdr.m_bits = 64 then (word 8).map fun bits => roundF32 (ieeeVal 11 52 bits)
    else some 0
  else
    if hdr.m_bits = 8 then
      (word 1).map fun rawsample => roundF32 (roundF32 (floatOfInt (rawsample : Int) - 128) / 127)
    else if hdr.m_bits = 16 then
      (word 2).map fun rawsample => roundF32 (floatOfInt (toSigned 16 rawsample) / 32767)
    else if hdr.m_bits = 32 then
      (word 4).map fun rawsample => roundF32 (floatOfInt (toSigned 32 rawsample) / 2147483648)
    else some 0

/-- Model of `ConvertRawSampleToFloat` reading at the start of `psample`;
`none` when the bytes of the sample are not all inside the buffer.  The
arithmetic is that of `ConvertWAVSampleToFloat`. -/
def ConvertRawSampleToFloat (isFloat : Bool) (bytesPerSample : Nat) (psample : List Byte) : Option ℚ :=
  let word (n : Nat) : Option Nat := if psample.length < n then none else some (leVal (psample.take n))
  if isFloat then
    if bytesPerSample = 4 then (word 4).map (ieeeVal 8 23)
    else if bytesPerSample = 8 then (word 8).map fun bits => roundF32 (ieeeVal 11 52 bits)
    else some 0
  else
    if bytesPerSample = 1 then
      (word 1).map fun rawsample => roundF32 (roundF32 (floatOfInt (rawsample : Int) - 128) / 127)
    else if bytesPerSample = 2 then
      (word 2).map fun rawsample => roundF32 (floatOfInt (toSigned 16 rawsample) / 32767)
    else if bytesPerSample = 4 then
      (word 4).map fun rawsample => roundF32 (floatOfInt (toSigned 32 rawsample) / 2147483648)
    else some 0

/-- The progress callback: absent, or a function of the completion value. -/
abbrev StatusCallback : Type := Option (ℚ → Bool)

/-- The test `status_callback_func && !status_callback_func(context, completion)`. -/
def cancelled (cb : StatusCallback) (completion : ℚ) : Bool :=
  match cb with
  | none => false
  | some f => !f completion

/-- Model of `WaveformLoadFromWAV` on a file that exists: the value returned
and the state of `wav` afterwards. -/
def WaveformLoadFromWAV (budget : Nat) (file : List Byte) (wav : Waveform) (cb : StatusCallback) :
    Res (Bool × Waveform) :=
  if cancelled cb 0 then Res.ok (false, wav)
  else
    match WAVFileReadHeader budget file with
    | Res.fail => Res.ok (false, wav)
    | Res.fault => Res.fault
    | Res.timeout => Res.timeout
    | Res.ok hdr =>
      let wav := wav.SetRate hdr.m_rate
      if cancelled cb (1 / 10) then Res.ok (false, wav)
      else
        let dataSize := hdr.m_channels * hdr.m_sample_count % U32 * hdr.m_bits % U32 / 8
        match WAVFileReadSamples budget file dataSize with
        | Res.fail => Res.ok (false, wav)
        | Res.fault => Res.fault
        | Res.timeout => Res.timeout
        | Res.ok got =>
          let data := got ++ List.replicate (dataSize - got.length) 0
          if cancelled cb (3 / 10) then Res.ok (false, wav)
          else
            match wav.Populate hdr.m_sample_count hdr.m_channels none with
            | none => Res.fault
            | some (false, wav) => Res.ok (false, wav)
            | some (true, wav) =>
              if cancelled cb (4 / 10) then Res.ok (false, wav)
              else
                match collect ((List.range (hdr.m_sample_count * hdr.m_channels)).map
                    fun k => ConvertWAVSampleToFloat hdr (data.drop (k * (hdr.m_bits / 8)))) with
                | none => Res.fault
                | some samples =>
                  if samples.length > wav.m_data.length then Res.fault
                  else
                    let wav := { wav with m_data := samples ++ wav.m_data.drop samples.length }
                    if cancelled cb 1 then Res.ok (false, Waveform.fresh)
                    else Res.ok (true, wav)

/-- Model of `RawPCMFileGetSizeInBytes` (`subsys/rawpcmfile.cpp`) on a file
that exists: the size of
the file (zero for an empty file). -/
def RawPCMFileGetSizeInBytes (file : List Byte) : Nat :=
  let bytes := file.length
  if bytes < 1 then 0 else bytes

/-- Model of `RawPCMFileRead` (`subsys/rawpcmfile.cpp`) on a file that
exists: the buffer afterwards,
`none` when the function returns false. -/
def RawPCMFileRead (file : List Byte) (numSamples numChannels bytesPerSample : Nat) (buffer : List Byte) :
    Option (List Byte) :=
  let bytesToRead := numSamples * numChannels % SIZE * bytesPerSample % SIZE
  if bytesToRead > buffer.length then none
  else
    let (got, _) := fread { content := file, pos := 0 } bytesToRead
    if got.length ≠ bytesToRead then none else some (overlay got buffer)

/-- Model of `WaveformLoadFromRawPCM` on a file that exists: the value
returned and the state of `wav` afterwards. -/
def WaveformLoadFromRawPCM (file : List Byte) (wav : Waveform) (rate bytesPerSample numChannels : Nat)
    (isFloat : Bool) (cb : StatusCallback) : Res (Bool × Waveform) :=
  if cancelled cb 0 then Res.ok (false, wav)
  else
    let fileBytes := RawPCMFileGetSizeInBytes file
    if fileBytes < 1 then Res.ok (false, wav)
    else if numChannels * bytesPerSample % U32 = 0 then Res.fault
    else
      let numSamples := fileBytes / (numChannels * bytesPerSample % U32)
      if numSamples < 1 then Res.ok (false, wav)
      else if cancelled cb (1 / 10) then Res.ok (false, wav)
      else
        let dataSize := numChannels * numSamples % SIZE * bytesPerSample % SIZE
        match RawPCMFileRead file numSamples numChannels bytesPerSample (List.replicate dataSize 0) with
        | none => Res.ok (false, wav)
        | some data =>
          if cancelled cb (3 / 10) then Res.ok (false, wav)
          else
            match wav.Populate numSamples numChannels none with
            | none => Res.fault
            | some (false, wav) => Res.ok (false, wav)
            | some (true, wav) =>
              if cancelled cb (4 / 10) then Res.ok (false, wav)
              else
                match collect ((List.range (numSamples * numChannels)).map
                    fun k => ConvertRawSampleToFloat isFloat bytesPerSample (data.drop (k * bytesPerSample))) with
                | none => Res.fault
                | some samples =>
                  if samples.length > wav.m_data.length then Res.fault
                  else
                    let wav := { wav with m_data := samples ++ wav.m_data.drop samples.length }
                    if cancelled cb 1 then Res.ok (false, Waveform.fresh)
                    else Res.ok (true, wav.SetRate rate)

/-- The fields of `mp3dec_frame_info_t` that the loader reads. -/
structure mp3dec_frame_info_t where
  frame_bytes : Int
  channels : Int
  hz : Int
deriving DecidableEq, Repr

/-- What one call of `mp3dec_decode_frame` leaves behind: the value returned
(`frame_samples`), the memory image of the array `pcm_frame`, the frame
information and the decoder object. -/
structure Mp3Step (σ : Type) where
  frame_samples : Int
  pcm_frame : List Byte
  info : mp3dec_frame_info_t
  mp3d : σ

/-- The frame decoder `mp3dec_decode_frame` of the minimp3 library, which the
loader calls with the decoder object, the bytes from the read position on and
their number.  The library is not part of these sources, so the decoder is a
parameter of the model. -/
abbrev Mp3Decoder (σ : Type) : Type := σ → List Byte → Int → Mp3Step σ

/-- The local variables of the decode loop of `WaveformLoadFromMP3`. -/
structure Mp3Loop (σ : Type) where
  mp3d : σ
  frame_offset : Int
  rate_found : Int
  channels_found : Int
  pcmdata : List Byte

/-- Size limit of a `std::vector<uint8_t>`. -/
def byteVectorMaxSize : Nat := 2 ^ 63 - 1

/-- The decode loop of `WaveformLoadFromMP3`, one iteration per unit of
budget.  A read position outside the file data, a `resize` beyond the size
limit and a `memcpy` that leaves the source array or the destination vector
are faults. -/
def mp3DecodeLoop {σ : Type} (decode : Mp3Decoder σ) (filedata : List Byte) :
    Nat → Mp3Loop σ → Res (Mp3Loop σ)
  | 0, _ => Res.timeout
  | budget + 1, st =>
    if st.frame_offset < 0 ∨ st.frame_offset > (filedata.length : Int) then Res.fault
    else
      let r := decode st.mp3d (filedata.drop st.frame_offset.toNat)
        (toSigned 32 filedata.length - st.frame_offset)
      if r.frame_samples > 0 then
        let newBytes := (r.frame_samples * 2 * r.info.channels % (SIZE : Int)).toNat
        let newSize := (st.pcmdata.length + newBytes) % SIZE
        if newSize > byteVectorMaxSize then Res.fault
        else if newSize < st.pcmdata.length + newBytes then Res.fault
        else if newBytes > r.pcm_frame.length then Res.fault
        else
          mp3DecodeLoop decode filedata budget
            { mp3d := r.mp3d
              frame_offset := st.frame_offset + r.info.frame_bytes
              rate_found := r.info.hz
              channels_found := r.info.channels
              pcmdata := st.pcmdata ++ r.pcm_frame.take newBytes }
      else Res.ok st

/-- Model of `WaveformLoadFromMP3` on a file that exists: the value returned
and the state of `wav` afterwards.  The result of `Populate` is not checked
by the source; the conversion loop then stores `numNewSamples *
channels_found` samples through the pointer to the sample storage. -/
def WaveformLoadFromMP3 {σ : Type} (decode : Mp3Decoder σ) (mp3d : σ) (budget : Nat) (file : List Byte)
    (wav : Waveform) (cb : StatusCallback) : Res (Bool × Waveform) :=
  if cancelled cb 0 then Res.ok (false, wav)
  else
    let filedata := file
    if filedata = [] then Res.ok (false, wav)
    else
      match mp3DecodeLoop decode filedata budget
          { mp3d := mp3d, frame_offset := 0, rate_found := 0, channels_found := 0, pcmdata := [] } with
      | Res.fail => Res.fail
      | Res.fault => Res.fault
      | Res.timeout => Res.timeout
      | Res.ok st =>
        let channels_found := (st.channels_found % (SIZE : Int)).toNat
        if channels_found = 0 then Res.fault
        else
          let numNewSamples := st.pcmdata.length / 2 / channels_found
          let wav := wav.SetRate (st.rate_found % (U32 : Int)).toNat
          match wav.Populate numNewSamples channels_found none with
          | none => Res.fault
          | some (_, wav) =>
            let count := numNewSamples * channels_found
            if count > wav.m_data.length then Res.fault
            else
              let samples := (List.range count).map fun k =>
                roundF32 (floatOfInt (toSigned 16 (leVal ((st.pcmdata.drop (2 * k)).take 2))) / 32767)
              let wav := { wav with m_data := samples ++ wav.m_data.drop count }
              if cancelled cb 1 then Res.ok (false, Waveform.fresh)
              else Res.ok (true, wav)

/-- The conversion loop of `WaveformSaveToWAV`: the converted samples in
order, up to the first one whose conversion does not return true. -/
def convertSamples (useFloat : Bool) (useBytesPerSample : Nat) : List ℚ → Res (List (List Byte))
  | [] => Res.ok []
  | insample :: rest =>
    match ConvertFloatSample insample useFloat useBytesPerSample with
    | Res.ok bytes =>
      match convertSamples useFloat useBytesPerSample rest with
      | Res.ok chunks => Res.ok (bytes :: chunks)
      | r => r
    | Res.fail => Res.fail
    | Res.fault => Res.fault
    | Res.timeout => Res.timeout

/-- Model of `WaveformSaveToWAV`: the value returned and the file written,
if one was written; `fault` when the conversion of a sample leaves defined
behaviour. -/
def WaveformSaveToWAV (wav : Waveform) (cb : StatusCallback) (useFloat : Bool) (useBytesPerSample : Nat) :
    Res (Bool × Option (List Byte)) :=
  if cancelled cb 0 then Res.ok (false, none)
  else
    let useBytesPerSample := if useFloat = true ∧ useBytesPerSample = 8 then 4 else useBytesPerSample
    let numChannels := wav.GetNumChannels
    let numSamples := wav.GetNumSamples
    match convertSamples useFloat useBytesPerSample (wav.m_data.take (numSamples * numChannels)) with
    | Res.fault => Res.fault
    | Res.ok chunks =>
      let data := chunks.flatten
      let info : WAVInfo :=
        { m_rate := wav.GetRate
          m_channels := numChannels % U32
          m_bits := useBytesPerSample * 8 % U32
          m_is_float := useFloat
          m_sample_count := numSamples % U32 }
      match WAVFileWrite info data with
      | Res.ok file => if cancelled cb 1 then Res.ok (false, some file) else Res.ok (true, some file)
      | Res.fault => Res.fault
      | _ => Res.ok (false, none)
    | _ => Res.ok (false, none)

/-! ## tools/wavegate.cpp -/

/-- The local variables of the scan loop of `NoiseGateFilter`. -/
structure GateScan where
  wav : Waveform
  isample : Nat
  firstSilentSample : Nat
  firstSilentCount : Nat
  lastSilentSample : Nat
  lastSilentCount : Nat
deriving DecidableEq, Repr

/-- The scan loop of `NoiseGateFilter`, one iteration of the outer `while`
per unit of fuel (every iteration advances `isample`, so `numSamples` units
are enough).  The inner loop of the quiet branch starts from `qcount = 1` and
advances while `isample + qcount < numSamples` and the sample at that index is
quiet: it runs as many times as there are quiet samples at the start of
`samples[isample + 1 .. numSamples)`.  The inner loop of the other branch
advances `isample` over the samples at the start of
`samples[isample .. numSamples)` that are not quiet.  `none` when `Silence`
leaves defined behaviour. -/
def gateScan (threshold : ℚ) (numQuietSamplesForSilence numSamples numChannels : Nat) :
    Nat → GateScan → Option GateScan
  | 0, st => if st.isample < numSamples then none else some st
  | fuel + 1, st =>
    if st.isample < numSamples then
      let samples := st.wav.m_data
      if |samples.getD st.isample 0| < threshold then
        let isample := st.isample + 1
        let qcount := 1 + (((samples.take numSamples).drop (isample + 1)).takeWhile
          fun x => decide (|x| < threshold)).length
        if qcount ≥ numQuietSamplesForSilence then
          match st.wav.Silence (isample / numChannels) (qcount / numChannels) true with
          | none => none
          | some wav =>
            gateScan threshold numQuietSamplesForSilence numSamples numChannels fuel
              { wav := wav
                isample := isample + qcount
                firstSilentSample := if st.firstSilentCount = 0 then isample else st.firstSilentSample
                firstSilentCount := if st.firstSilentCount = 0 then qcount else st.firstSilentCount
                lastSilentSample := isample
                lastSilentCount := qcount }
        else
          gateScan threshold numQuietSamplesForSilence numSamples numChannels fuel
            { st with isample := isample + qcount }
      else
        let skip := (((samples.take numSamples).drop st.isample).takeWhile
          fun x => decide (|x| ≥ threshold)).length
        gateScan threshold numQuietSamplesForSilence numSamples numChannels fuel
          { st with isample := st.isample + skip }
    else some st

/-- Model of `NoiseGateFilter`: the value returned and the waveform
afterwards; `none` when a call of `Silence` or `Delete` leaves defined
behaviour. -/
def NoiseGateFilter (wav : Waveform) (threshold : ℚ) (removeLeading removeTrailing : Bool) :
    Option (Bool × Waveform) :=
  let numQuietSamplesForSilence := wav.GetRate * wav.GetNumChannels % SIZE / 5
  let numSamples := wav.GetNumSamples * wav.GetNumChannels % SIZE
  let numChannels := wav.GetNumChannels
  match gateScan threshold numQuietSamplesForSilence numSamples numChannels numSamples
      { wav := wav, isample := 0, firstSilentSample := 0, firstSilentCount := 0,
        lastSilentSample := 0, lastSilentCount := 0 } with
  | none => none
  | some st =>
    let numChannels := st.wav.GetNumChannels
    let numSamples := st.wav.GetNumSamples
    let trailing :=
      if removeTrailing = true ∧ st.firstSilentSample ≠ st.lastSilentSample ∧ st.lastSilentCount > 0 ∧
          (st.lastSilentSample + st.lastSilentCount) % SIZE
            ≥ (numSamples * numChannels % SIZE + SIZE - 10) % SIZE then
        (st.wav.Delete (st.lastSilentSample / numChannels) (st.lastSilentCount / numChannels)).map Prod.snd
      else some st.wav
    match trailing with
    | none => none
    | some wav =>
      let leading :=
        if removeLeading = true ∧ st.firstSilentCount > 0 ∧ st.firstSilentSample < 10 then
          (wav.Delete (st.firstSilentSample / numChannels) (st.firstSilentCount / numChannels)).map Prod.snd
        else some wav
      leading.map fun wav => (true, wav)

/-- Stand-in for the library function `powf` used when a model is evaluated
on concrete data: the `float` nearest to `x ^ y` whenever the exponent `y` is
an integer. -/
def powfInt (x y : ℚ) : ℚ := roundF32 (x ^ ⌊y⌋)

/-- The WAV file written for the one-sample mono waveform `[1.0]` at 48000 Hz
with 32-bit integer samples. -/
def fullScaleFile : List Byte :=
  [82, 73, 70, 70, 36, 0, 0, 0, 87, 65, 86, 69, 102, 109, 116, 32, 16, 0, 0, 0,
   1, 0, 1, 0, 128, 187, 0, 0, 0, 238, 2, 0, 4, 0, 32, 0, 100, 97, 116, 97, 4, 0, 0, 0,
   0, 0, 0, 128]

/-- Bit depth that the format record of a file declares: the 16-bit field 14
bytes into the record, the record being what follows the 4-byte chunk size
after the `fmt ` tag of the RIFF/WAVE prologue (with or without a leading
`JUNK` chunk).  `none` when the file has no such prologue. -/
def declaredBits (file : List Byte) : Option Nat :=
  (read_and_confirm_wav_signature { content := file, pos := 0 }).map
    fun fp => leVal ((file.drop (fp.pos + 4 + 14)).take 2)

/-- A WAV file of one mono frame whose format record declares 24 bits per
sample. -/
def depth24File : List Byte :=
  [82, 73, 70, 70, 35, 0, 0, 0, 87, 65, 86, 69, 102, 109, 116, 32, 16, 0, 0, 0,
   1, 0, 1, 0, 128, 187, 0, 0, 128, 50, 2, 0, 3, 0, 24, 0, 100, 97, 116, 97, 3, 0, 0, 0,
   1, 2, 3]

/-- A progress callback that asks to stop exactly when it is told the
completion value `stop` and to continue otherwise. -/
def cancelAt (stop : ℚ) : StatusCallback := some fun completion => decide (completion ≠ stop)

/-- A raw PCM file of one stereo frame of 16-bit samples. -/
def oneFrameRawFile : List Byte := [1, 2, 3, 4]

/-- The WAV file written for one mono frame holding the 8-bit sample 7 at
48000 Hz. -/
def oneByteWavFile : List Byte :=
  [82, 73, 70, 70, 33, 0, 0, 0, 87, 65, 86, 69, 102, 109, 116, 32, 16, 0, 0, 0,
   1, 0, 1, 0, 128, 187, 0, 0, 128, 187, 0, 0, 1, 0, 8, 0, 100, 97, 116, 97, 1, 0, 0, 0, 7]

/-- A frame decoder that finds no frame in any data. -/
def noFrameDecoder : Mp3Decoder Unit := fun mp3d _ _ =>
  { frame_samples := 0, pcm_frame := [], info := { frame_bytes := 0, channels := 0, hz := 0 }, mp3d := mp3d }

/-- A WAV file of one 8-bit mono frame that has a `JUNK` chunk with an empty
body between `WAVE` and `fmt `. -/
def junkWavFile : List Byte :=
  [82, 73, 70, 70, 41, 0, 0, 0, 87, 65, 86, 69, 74, 85, 78, 75, 0, 0, 0, 0, 102, 109, 116, 32, 16, 0, 0, 0,
   1, 0, 1, 0, 128, 187, 0, 0, 128, 187, 0, 0, 1, 0, 8, 0, 100, 97, 116, 97, 1, 0, 0, 0, 7]

/-- The file `junkWavFile` with one more empty `JUNK` chunk inserted between
`WAVE` and `fmt `. -/
def twoJunkWavFile : List Byte :=
  [82, 73, 70, 70, 41, 0, 0, 0, 87, 65, 86, 69, 74, 85, 78, 75, 0, 0, 0, 0, 74, 85, 78, 75, 0, 0, 0, 0,
   102, 109, 116, 32, 16, 0, 0, 0,
   1, 0, 1, 0, 128, 187, 0, 0, 128, 187, 0, 0, 1, 0, 8, 0, 100, 97, 116, 97, 1, 0, 0, 0, 7]

/-- The WAV file written for one stereo frame of 16-bit samples at 48000 Hz. -/
def stereoWavFile : List Byte :=
  [82, 73, 70, 70, 36, 0, 0, 0, 87, 65, 86, 69, 102, 109, 116, 32, 16, 0, 0, 0,
   1, 0, 2, 0, 128, 187, 0, 0, 0, 119, 1, 0, 4, 0, 16, 0, 100, 97, 116, 97, 4, 0, 0, 0, 1, 2, 3, 4]

/-- A mono waveform at 100 Hz that holds 2^32 samples, all equal to 2. -/
def hugeBuffer : Waveform := { m_data := List.replicate (2 ^ 32) 2, m_rate := 100, m_numChannels := 1 }

/-- A WAV file (16-bit mono) whose data chunk declares 3 bytes: one frame and
a partial trailing frame. -/
def partialFrameFile : List Byte :=
  [82, 73, 70, 70, 35, 0, 0, 0, 87, 65, 86, 69, 102, 109, 116, 32, 16, 0, 0, 0,
   1, 0, 1, 0, 128, 187, 0, 0, 0, 119, 1, 0, 2, 0, 16, 0, 100, 97, 116, 97, 3, 0, 0, 0, 1, 2, 3]

/-- A mono waveform of 94906269 frames in which frame `i` holds the value
`i mod 2`. -/
def longRamp : Waveform :=
  { m_data := (List.range 94906269).map fun i => ((i % 2 : Nat) : ℚ), m_rate := 48000, m_numChannels := 1 }

/-! ## Auxiliary facts: words and streams -/

theorem byteOf_val (n i : Nat) : (byteOf n i).val = n / 256 ^ i % 256 := rfl

theorem leVal_le32 (n : Nat) (h : n < 2 ^ 32) : leVal (le32 n) = n := by
  simp only [le32, leVal, byteOf_val]
  omega

theorem leVal_le16 (n : Nat) (h : n < 2 ^ 16) : leVal (le16 n) = n := by
  simp only [le16, leVal, byteOf_val]
  omega

theorem sig_written (off : Nat) (rest : List Byte) :
    read_and_confirm_wav_signature { content := tagRIFF ++ le32 off ++ (tagWAVE ++ tagFmt) ++ rest, pos := 0 }
      = some { content := tagRIFF ++ le32 off ++ (tagWAVE ++ tagFmt) ++ rest, pos := 16 } := by
  simp [read_and_confirm_wav_signature, fread, tagRIFF, tagWAVE, tagFmt, tagJUNK, le32]


theorem WAVFHDR.bytes_length (wf : WAVFHDR) : wf.bytes.length = 16 := rfl

theorem WAVFHDR.ofBytes_bytes (wf : WAVFHDR)
    (h1 : wf.wFmtTag < 2 ^ 16) (h2 : wf.nChannels < 2 ^ 16)
    (h3 : wf.Rate < 2 ^ 32) (h4 : wf.BPS < 2 ^ 32) (h5 : wf.nAlign < 2 ^ 16)
    (h6 : wf.nBits < 2 ^ 16) : WAVFHDR.ofBytes wf.bytes = wf := by
  cases wf with
  | mk a b c d e f =>
    simp only at h1 h2 h3 h4 h5 h6
    have e1 := leVal_le16 a h1
    have e2 := leVal_le16 b h2
    have e3 := leVal_le32 c h3
    have e4 := leVal_le32 d h4
    have e5 := leVal_le16 e h5
    have e6 := leVal_le16 f h6
    simp only [le16, le32] at e1 e2 e3 e4 e5 e6
    simp [WAVFHDR.ofBytes, WAVFHDR.bytes, le16, le32, e1, e2, e3, e4, e5, e6]

theorem fread_mid (pre x rest : List Byte) (p n : Nat) (hp : pre.length = p) (hn : x.length = n) :
    fread { content := pre ++ (x ++ rest), pos := p } n
      = (x, { content := pre ++ (x ++ rest), pos := p + n }) := by
  subst hn hp
  simp [fread]

theorem fmt_written (pre : List Byte) (hpre : pre.length = 16) (wf : WAVFHDR) (rest : List Byte)
    (h1 : wf.wFmtTag = 1 ∨ wf.wFmtTag = 3) (h2 : 1 ≤ wf.nChannels ∧ wf.nChannels ≤ 5)
    (h3 : wf.Rate < 2 ^ 32) (h4 : wf.BPS < 2 ^ 32) (h5 : wf.nAlign < 2 ^ 16)
    (h6 : wf.nBits = 8 ∨ wf.nBits = 16 ∨ wf.nBits = 32) :
    read_and_confirm_format_header { content := pre ++ (le32 16 ++ wf.bytes ++ rest), pos := 16 }
      = some (wf, { content := pre ++ (le32 16 ++ wf.bytes ++ rest), pos := 36 }) := by
  have hof : WAVFHDR.ofBytes wf.bytes = wf :=
    WAVFHDR.ofBytes_bytes wf (by omega) (by omega) h3 h4 h5 (by omega)
  have r1 : fread { content := pre ++ (le32 16 ++ wf.bytes ++ rest), pos := 16 } 4
      = (le32 16, { content := pre ++ (le32 16 ++ wf.bytes ++ rest), pos := 20 }) := by
    have := fread_mid pre (le32 16) (wf.bytes ++ rest) 16 4 hpre rfl
    simpa [List.append_assoc] using this
  have r2 : fread { content := pre ++ (le32 16 ++ wf.bytes ++ rest), pos := 20 } sizeofWAVFHDR
      = (wf.bytes, { content := pre ++ (le32 16 ++ wf.bytes ++ rest), pos := 36 }) := by
    have := fread_mid (pre ++ le32 16) wf.bytes rest 20 16 (by simp [hpre, le32]) rfl
    simpa [List.append_assoc, sizeofWAVFHDR] using this
  have hv : leVal (le32 16) = 16 := leVal_le32 16 (by norm_num)
  unfold read_and_confirm_format_header
  rw [r1]
  simp only [hv]
  rw [r2]
  simp only [hof, WAVFHDR.bytes_length]
  have hs : fseekCur { content := pre ++ (le32 16 ++ wf.bytes ++ rest), pos := 36 } (toLong (16 - sizeofWAVFHDR))
      = some { content := pre ++ (le32 16 ++ wf.bytes ++ rest), pos := 36 } := by
    simp [fseekCur, toLong, sizeofWAVFHDR, U32]
  rw [hs]
  have hb : ¬ (wf.nBits ≠ 8 ∧ wf.nBits ≠ 16 ∧ wf.nBits ≠ 32) := by omega
  have ht : ¬ (wf.wFmtTag ≠ 1 ∧ wf.wFmtTag ≠ 3) := by omega
  have hc : ¬ (wf.nChannels < 1 ∨ wf.nChannels > 5) := by omega
  simp [le32, sizeofWAVFHDR, hb, ht]
  omega


theorem data_written (pre : List Byte) (hpre : pre.length = 36) (ds budget : Nat) (hds : ds < 2 ^ 32)
    (rest : List Byte) :
    read_and_confirm_data_header (budget + 1) { content := pre ++ (tagData ++ le32 ds ++ rest), pos := 36 }
      = Res.ok (ds, { content := pre ++ (tagData ++ le32 ds ++ rest), pos := 44 }) := by
  have r1 : fread { content := pre ++ (tagData ++ le32 ds ++ rest), pos := 36 } 4
      = (tagData, { content := pre ++ (tagData ++ le32 ds ++ rest), pos := 40 }) := by
    have := fread_mid pre tagData (le32 ds ++ rest) 36 4 hpre rfl
    simpa [List.append_assoc] using this
  have r2 : fread { content := pre ++ (tagData ++ le32 ds ++ rest), pos := 40 } 4
      = (le32 ds, { content := pre ++ (tagData ++ le32 ds ++ rest), pos := 44 }) := by
    have := fread_mid (pre ++ tagData) (le32 ds) rest 40 4 (by simp [hpre, tagData]) rfl
    simpa [List.append_assoc] using this
  unfold read_and_confirm_data_header
  rw [r1]
  simp only
  rw [r2]
  have hv := leVal_le32 ds hds
  have hl : (le32 ds).length = 4 := rfl
  simp [hv, hl, tagData]

/-- The file image that `WAVFileWrite` produces, as a function of the record and payload. -/
theorem readHeaders_written (off ds budget : Nat) (wf : WAVFHDR) (payload : List Byte)
    (h1 : wf.wFmtTag = 1 ∨ wf.wFmtTag = 3) (h2 : 1 ≤ wf.nChannels ∧ wf.nChannels ≤ 5)
    (h3 : wf.Rate < 2 ^ 32) (h4 : wf.BPS < 2 ^ 32) (h5 : wf.nAlign < 2 ^ 16)
    (h6 : wf.nBits = 8 ∨ wf.nBits = 16 ∨ wf.nBits = 32) (hds : ds < 2 ^ 32) :
    readHeaders (budget + 1)
        (tagRIFF ++ le32 off ++ (tagWAVE ++ tagFmt) ++ le32 16 ++ wf.bytes ++ tagData ++ le32 ds ++ payload)
      = Res.ok (wf, ds,
          { content := tagRIFF ++ le32 off ++ (tagWAVE ++ tagFmt) ++ le32 16 ++ wf.bytes ++ tagData
              ++ le32 ds ++ payload, pos := 44 }) := by
  have e1 : tagRIFF ++ le32 off ++ (tagWAVE ++ tagFmt) ++ le32 16 ++ wf.bytes ++ tagData ++ le32 ds ++ payload
      = tagRIFF ++ le32 off ++ (tagWAVE ++ tagFmt) ++ (le32 16 ++ wf.bytes ++ (tagData ++ le32 ds ++ payload)) := by
    simp only [List.append_assoc]
  have e2 : tagRIFF ++ le32 off ++ (tagWAVE ++ tagFmt) ++ (le32 16 ++ wf.bytes ++ (tagData ++ le32 ds ++ payload))
      = (tagRIFF ++ le32 off ++ (tagWAVE ++ tagFmt) ++ le32 16 ++ wf.bytes) ++ (tagData ++ le32 ds ++ payload) := by
    simp only [List.append_assoc]
  unfold readHeaders
  rw [e1, sig_written]
  simp only
  rw [fmt_written (tagRIFF ++ le32 off ++ (tagWAVE ++ tagFmt)) rfl wf _ h1 h2 h3 h4 h5 h6]
  simp only
  rw [e2, data_written _ (by simp [tagRIFF, le32, tagWAVE, tagFmt, WAVFHDR.bytes_length]) ds budget hds]


theorem bufsize_eq (c b n : Nat) (hb : b = 8 ∨ b = 16 ∨ b = 32) (hc : 1 ≤ c ∧ c ≤ 5)
    (hs : c * (b / 8) * n < 2 ^ 32) :
    (c * b % U32 / 8 * n) % U32 = c * (b / 8) * n ∧ c * (b / 8) * n / c / (b / 8) = n := by
  obtain ⟨hc1, hc5⟩ := hc
  simp only [U32]
  interval_cases c <;> rcases hb with rfl | rfl | rfl <;> norm_num at hs ⊢ <;> omega

theorem wav_container_round_trip (info : WAVInfo) (samples : List Byte) (budget : Nat)
    (hbits : info.m_bits = 8 ∨ info.m_bits = 16 ∨ info.m_bits = 32)
    (hch : 1 ≤ info.m_channels ∧ info.m_channels ≤ 5)
    (hcount : 1 ≤ info.m_sample_count)
    (hrate : info.m_rate < 2 ^ 32)
    (hsize : info.m_channels * (info.m_bits / 8) * info.m_sample_count < 2 ^ 32)
    (hlen : samples.length = info.CalculateBufferSize) :
    ∃ file, WAVFileWrite info samples = Res.ok file ∧
      WAVFileReadHeader (budget + 1) file = Res.ok info ∧
      WAVFileReadSamples (budget + 1) file info.CalculateBufferSize = Res.ok samples := by
  obtain ⟨rate, c, b, fl, n⟩ := info
  simp only at hbits hch hcount hrate hsize
  obtain ⟨hbs, hdiv⟩ := bufsize_eq c b n hbits hch hsize
  have hcalc : (WAVInfo.mk rate c b fl n).CalculateBufferSize = c * (b / 8) * n := hbs
  rw [hcalc] at hlen ⊢
  have hpos : 0 < c * (b / 8) * n := by
    have h8 : 0 < b / 8 := by omega
    exact Nat.mul_pos (Nat.mul_pos (by omega) h8) (by omega)
  set wf : WAVFHDR :=
    { wFmtTag := if fl then 3 else 1
      nChannels := c % U16
      Rate := rate % U32
      BPS := rate * (b / 8) % U32
      nAlign := b / 8 * c % U32 % U16
      nBits := b % U16 } with hwf
  have hw : WAVFileWrite (WAVInfo.mk rate c b fl n) samples
      = Res.ok (tagRIFF ++ le32 ((16 + sizeofWAVFHDR + c * (b / 8) * n) % U32) ++ (tagWAVE ++ tagFmt)
          ++ le32 16 ++ wf.bytes ++ tagData ++ le32 (c * (b / 8) * n) ++ samples) := by
    unfold WAVFileWrite
    have hn0 : n ≠ 0 := by omega
    have hb : ¬ (b ≠ 8 ∧ b ≠ 16 ∧ b ≠ 32) := by omega
    have ht : List.take (c * (b / 8) * n) samples = samples := by
      rw [← hlen]
      exact List.take_length samples
    simp only [hcalc, hn0, hb, if_false, hlen, lt_irrefl, ht]
    rfl
  have hrd := readHeaders_written ((16 + sizeofWAVFHDR + c * (b / 8) * n) % U32) (c * (b / 8) * n) budget wf
    samples (by simp only [hwf]; cases fl <;> simp) (by simp only [hwf, U16]; omega)
    (by simp only [hwf, U32]; omega) (by simp only [hwf, U32]; omega) (by simp only [hwf, U32, U16]; omega)
    (by simp only [hwf, U16]; omega) hsize
  refine ⟨_, hw, ?_, ?_⟩
  · unfold WAVFileReadHeader
    rw [hrd]
    have e1 : rate % U32 = rate := Nat.mod_eq_of_lt hrate
    have e2 : c % U16 = c := Nat.mod_eq_of_lt (by simp only [U16]; omega)
    have e3 : b % U16 = b := Nat.mod_eq_of_lt (by simp only [U16]; omega)
    simp only [hwf, e1, e2, e3, hdiv]
    cases fl <;> simp
  · unfold WAVFileReadSamples
    rw [hrd]
    have hne : c * (b / 8) * n ≠ 0 := by omega
    have hfr := fread_mid (tagRIFF ++ le32 ((16 + sizeofWAVFHDR + c * (b / 8) * n) % U32) ++ (tagWAVE ++ tagFmt)
          ++ le32 16 ++ wf.bytes ++ tagData ++ le32 (c * (b / 8) * n)) samples [] 44 (c * (b / 8) * n)
          (by simp [tagRIFF, le32, tagWAVE, tagFmt, tagData, WAVFHDR.bytes_length]) hlen
    simp only [List.append_nil] at hfr
    simp only [hne, if_false, lt_irrefl, hfr, hlen, ne_eq, not_true_eq_false]

theorem wav_container_round_trip_witness :
    ∃ file, WAVFileWrite { m_rate := 44100, m_channels := 2, m_bits := 16, m_sample_count := 1 } [1, 2, 3, 4]
        = Res.ok file ∧
      WAVFileReadHeader 1 file
        = Res.ok { m_rate := 44100, m_channels := 2, m_bits := 16, m_sample_count := 1 } ∧
      WAVFileReadSamples 1 file
        (WAVInfo.CalculateBufferSize { m_rate := 44100, m_channels := 2, m_bits := 16, m_sample_count := 1 })
        = Res.ok [1, 2, 3, 4] :=
  wav_container_round_trip { m_rate := 44100, m_channels := 2, m_bits := 16, m_sample_count := 1 }
    [1, 2, 3, 4] 0 (by decide) (by decide) (by decide) (by decide) (by decide) (by decide)


/-! ## Auxiliary facts: loops -/

theorem foldlM_range_inv {σ : Type} (f : σ → Nat → Option σ) (P : Nat → σ → Prop) (init : σ) (n : Nat)
    (h0 : P 0 init)
    (hstep : ∀ i s, i < n → P i s → ∃ s', f s i = some s' ∧ P (i + 1) s') :
    ∃ s, (List.range n).foldlM f init = some s ∧ P n s := by
  induction n with
  | zero => exact ⟨init, rfl, h0⟩
  | succ m ih =>
    obtain ⟨s, hs, hP⟩ := ih (fun i s hi hp => hstep i s (Nat.lt_succ_of_lt hi) hp)
    obtain ⟨s', hs', hP'⟩ := hstep m s (Nat.lt_succ_self m) hP
    refine ⟨s', ?_, hP'⟩
    rw [List.range_succ, List.foldlM_append, hs]
    simp [hs']

theorem foldlM_preserve {σ α : Type} (f : σ → α → Option σ) (Q : σ → Prop)
    (hstep : ∀ s a s', f s a = some s' → Q s → Q s') :
    ∀ (l : List α) (init s : σ), l.foldlM f init = some s → Q init → Q s := by
  intro l
  induction l with
  | nil =>
    intro init s h hq
    simp at h
    exact h ▸ hq
  | cons a l ih =>
    intro init s h hq
    rw [List.foldlM_cons] at h
    cases hfa : f init a with
    | none => simp [hfa] at h
    | some s1 =>
      rw [hfa] at h
      exact ih s1 s h (hstep init a s1 hfa hq)

theorem collect_map_some {α β : Type} (g : α → β) (f : α → Option β) :
    ∀ l : List α, (∀ a ∈ l, f a = some (g a)) → collect (l.map f) = some (l.map g) := by
  intro l
  induction l with
  | nil => intro _; rfl
  | cons a l ih =>
    intro h
    have ha := h a (List.mem_cons_self a l)
    have hl := ih (fun b hb => h b (List.mem_cons_of_mem a hb))
    simp only [List.map_cons, ha, collect, hl, Option.map_some']

theorem collect_length {α : Type} :
    ∀ (l : List (Option α)) (r : List α), collect l = some r → r.length = l.length := by
  intro l
  induction l with
  | nil =>
    intro r h
    simp only [collect, Option.some.injEq] at h
    subst h
    rfl
  | cons a l ih =>
    intro r h
    cases a with
    | none => simp [collect] at h
    | some a =>
      cases hc : collect l with
      | none => simp [collect, hc] at h
      | some r' =>
        simp only [collect, hc, Option.map_some', Option.some.injEq] at h
        subst h
        simp [ih r' hc]

theorem collect_map_some_self {α : Type} (r : List α) : collect (r.map some) = some r := by
  induction r with
  | nil => rfl
  | cons a r ih => simp only [List.map_cons, collect, ih, Option.map_some']

theorem collect_eq_some {α : Type} :
    ∀ (l : List (Option α)) (r : List α), collect l = some r → l = r.map some := by
  intro l
  induction l with
  | nil =>
    intro r h
    simp only [collect, Option.some.injEq] at h
    subst h
    rfl
  | cons a l ih =>
    intro r h
    cases a with
    | none => simp [collect] at h
    | some a =>
      cases hc : collect l with
      | none => simp [collect, hc] at h
      | some r' =>
        simp only [collect, hc, Option.map_some', Option.some.injEq] at h
        subst h
        rw [List.map_cons, ← ih r' hc]

theorem collect_getElem? {α : Type} (l : List (Option α)) (r : List α) (h : collect l = some r) (j : Nat) :
    l[j]? = (r[j]?).map some := by
  rw [collect_eq_some l r h, List.getElem?_map]

theorem collect_mapIdx {α β : Type} (f : Nat → α → Option β) (g : Nat → α → β) (l : List α)
    (h : ∀ j x, l[j]? = some x → f j x = some (g j x)) :
    collect (l.mapIdx f) = some (l.mapIdx g) := by
  have e : l.mapIdx f = (l.mapIdx g).map some := by
    apply List.ext_getElem?
    intro j
    rw [List.getElem?_map, List.getElem?_mapIdx, List.getElem?_mapIdx]
    cases hj : l[j]? with
    | none => rfl
    | some x => simp only [Option.map_some', h j x hj]
  rw [e, collect_map_some_self]

/-! ## Auxiliary facts: IEEE-754 images -/

theorem pow2_eq_zpow (k : Int) : pow2 k = (2 : ℚ) ^ k := by
  unfold pow2
  split_ifs with h
  · conv_rhs => rw [← Int.toNat_of_nonneg h]
    rw [zpow_natCast]
  · have h' : 0 ≤ -k := by omega
    have e : k = -((-k).toNat : Int) := by rw [Int.toNat_of_nonneg h']; ring
    conv_rhs => rw [e]
    rw [zpow_neg, zpow_natCast, one_div]

theorem roundEven_intCast (n : Int) : roundEven (n : ℚ) = n := by
  simp [roundEven]

theorem zpow_two_unique (a : ℚ) (j k : Int) (hj1 : (2 : ℚ) ^ j ≤ a) (hj2 : a < (2 : ℚ) ^ (j + 1))
    (hk1 : (2 : ℚ) ^ k ≤ a) (hk2 : a < (2 : ℚ) ^ (k + 1)) : j = k := by
  have h1 : (2 : ℚ) ^ j < (2 : ℚ) ^ (k + 1) := lt_of_le_of_lt hj1 hk2
  have h2 : (2 : ℚ) ^ k < (2 : ℚ) ^ (j + 1) := lt_of_le_of_lt hk1 hj2
  have h3 := (zpow_lt_zpow_iff_right₀ (by norm_num : (1 : ℚ) < 2)).mp h1
  have h4 := (zpow_lt_zpow_iff_right₀ (by norm_num : (1 : ℚ) < 2)).mp h2
  omega

theorem ieee_exponent (a : ℚ) (ha : 0 < a) :
    (2 : ℚ) ^ (if a < pow2 ((Nat.log2 a.num.natAbs : Int) - (Nat.log2 a.den : Int))
        then (Nat.log2 a.num.natAbs : Int) - (Nat.log2 a.den : Int) - 1
        else (Nat.log2 a.num.natAbs : Int) - (Nat.log2 a.den : Int)) ≤ a ∧
      a < (2 : ℚ) ^ ((if a < pow2 ((Nat.log2 a.num.natAbs : Int) - (Nat.log2 a.den : Int))
        then (Nat.log2 a.num.natAbs : Int) - (Nat.log2 a.den : Int) - 1
        else (Nat.log2 a.num.natAbs : Int) - (Nat.log2 a.den : Int)) + 1) := by
  have hnum : 0 < a.num := Rat.num_pos.mpr ha
  have hN0 : a.num.natAbs ≠ 0 := by omega
  have hD0 : a.den ≠ 0 := a.den_nz
  have hN1 : 2 ^ Nat.log2 a.num.natAbs ≤ a.num.natAbs := Nat.log2_self_le hN0
  have hN2 : a.num.natAbs < 2 ^ (Nat.log2 a.num.natAbs + 1) := Nat.lt_log2_self
  have hD1 : 2 ^ Nat.log2 a.den ≤ a.den := Nat.log2_self_le hD0
  have hD2 : a.den < 2 ^ (Nat.log2 a.den + 1) := Nat.lt_log2_self
  have hcast : ((a.num.natAbs : Nat) : ℚ) = (a.num : ℚ) := by
    rw [Nat.cast_natAbs, abs_of_pos hnum]
  have ha_eq : a = ((a.num.natAbs : Nat) : ℚ) / ((a.den : Nat) : ℚ) := by
    rw [hcast]
    exact (Rat.num_div_den a).symm
  generalize Nat.log2 a.num.natAbs = P at *
  generalize Nat.log2 a.den = Q at *
  generalize a.num.natAbs = N at *
  generalize a.den = D at *
  have hDpos : (0 : ℚ) < (D : ℚ) := by
    have : 0 < D := Nat.pos_of_ne_zero hD0
    exact_mod_cast this
  have hN1q : (2 : ℚ) ^ P ≤ (N : ℚ) := by exact_mod_cast hN1
  have hN2q : (N : ℚ) < (2 : ℚ) ^ (P + 1) := by exact_mod_cast hN2
  have hD1q : (2 : ℚ) ^ Q ≤ (D : ℚ) := by exact_mod_cast hD1
  have hD2q : (D : ℚ) < (2 : ℚ) ^ (Q + 1) := by exact_mod_cast hD2
  have hpP : (0 : ℚ) < (2 : ℚ) ^ P := by positivity
  have hpQ : (0 : ℚ) < (2 : ℚ) ^ Q := by positivity
  have z0 : (2 : ℚ) ^ ((P : Int) - (Q : Int)) = (2 : ℚ) ^ P / (2 : ℚ) ^ Q := by
    rw [zpow_sub₀ (by norm_num), zpow_natCast, zpow_natCast]
  have zm : (2 : ℚ) ^ ((P : Int) - (Q : Int) - 1) = (2 : ℚ) ^ P / (2 : ℚ) ^ (Q + 1) := by
    have : (P : Int) - (Q : Int) - 1 = (P : Int) - ((Q + 1 : Nat) : Int) := by push_cast; ring
    rw [this, zpow_sub₀ (by norm_num), zpow_natCast, zpow_natCast]
  have zp : (2 : ℚ) ^ ((P : Int) - (Q : Int) + 1) = (2 : ℚ) ^ (P + 1) / (2 : ℚ) ^ Q := by
    have : (P : Int) - (Q : Int) + 1 = ((P + 1 : Nat) : Int) - (Q : Int) := by push_cast; ring
    rw [this, zpow_sub₀ (by norm_num), zpow_natCast, zpow_natCast]
  have lower : (2 : ℚ) ^ P / (2 : ℚ) ^ (Q + 1) ≤ a := by
    rw [ha_eq, div_le_div_iff₀ (by positivity) hDpos]
    have : (2 : ℚ) ^ P * (D : ℚ) ≤ (N : ℚ) * (2 : ℚ) ^ (Q + 1) :=
      mul_le_mul hN1q (le_of_lt hD2q) (le_of_lt hDpos) (le_trans (le_of_lt hpP) hN1q)
    exact this
  have upper : a < (2 : ℚ) ^ (P + 1) / (2 : ℚ) ^ Q := by
    rw [ha_eq, div_lt_div_iff₀ hDpos hpQ]
    calc (N : ℚ) * (2 : ℚ) ^ Q < (2 : ℚ) ^ (P + 1) * (2 : ℚ) ^ Q := by
          exact mul_lt_mul_of_pos_right hN2q hpQ
      _ ≤ (2 : ℚ) ^ (P + 1) * (D : ℚ) := by
          exact mul_le_mul_of_nonneg_left hD1q (by positivity)
  rw [pow2_eq_zpow]
  split_ifs with h
  · refine ⟨by rw [zm]; exact lower, ?_⟩
    have : (P : Int) - (Q : Int) - 1 + 1 = (P : Int) - (Q : Int) := by ring
    rw [this]
    exact h
  · exact ⟨not_lt.mp h, by rw [zp]; exact upper⟩

theorem fields_split (W V E frac s : Nat) (hW : 0 < W) (hV : 0 < V) (hf : frac < W) (hE : E < V) :
    (s * (V * W) + (E * W + frac)) % W = frac ∧ (s * (V * W) + (E * W + frac)) / W % V = E ∧
      (s * (V * W) + (E * W + frac)) / (V * W) = s := by
  have hbits : s * (V * W) + (E * W + frac) = frac + W * (s * V + E) := by ring
  have hd : (s * (V * W) + (E * W + frac)) / W = s * V + E := by
    rw [hbits, Nat.add_mul_div_left _ _ hW, Nat.div_eq_of_lt hf, zero_add]
  refine ⟨?_, ?_, ?_⟩
  · rw [hbits, Nat.add_mul_mod_self_left, Nat.mod_eq_of_lt hf]
  · rw [hd, Nat.add_comm, Nat.add_mul_mod_self_right, Nat.mod_eq_of_lt hE]
  · conv_lhs => arg 2; rw [Nat.mul_comm]
    rw [← Nat.div_div_eq_div_mul, hd, Nat.add_comm, Nat.add_mul_div_right _ _ hV,
      Nat.div_eq_of_lt hE, zero_add]

theorem ieeeVal_of_fields (ebits mbits E frac : Nat) (sgn : Bool) (hf : frac < 2 ^ mbits)
    (hE : E < 2 ^ ebits) :
    ieeeVal ebits mbits ((if sgn then 2 ^ (ebits + mbits) else 0) + (E * 2 ^ mbits + frac))
      = (if sgn then -1 else 1) *
        (if E = 0 then (frac : ℚ) * (2 : ℚ) ^ (1 - ((2 : Int) ^ (ebits - 1) - 1) - (mbits : Int))
          else ((2 ^ mbits + frac : Nat) : ℚ)
            * (2 : ℚ) ^ ((E : Int) - ((2 : Int) ^ (ebits - 1) - 1) - (mbits : Int))) := by
  have hW : 0 < 2 ^ mbits := Nat.pow_pos (by norm_num)
  have hV : 0 < 2 ^ ebits := Nat.pow_pos (by norm_num)
  have hVW : 2 ^ (ebits + mbits) = 2 ^ ebits * 2 ^ mbits := pow_add 2 ebits mbits
  cases sgn
  · obtain ⟨h2, h1, h0⟩ := fields_split (2 ^ mbits) (2 ^ ebits) E frac 0 hW hV hf hE
    simp only [zero_mul, zero_add] at h0 h1 h2
    simp only [ieeeVal, hVW, Bool.false_eq_true, if_false, zero_add, h0, h1, h2, pow2_eq_zpow]
    split_ifs <;> first | contradiction | omega | (push_cast; ring)
  · obtain ⟨h2, h1, h0⟩ := fields_split (2 ^ mbits) (2 ^ ebits) E frac 1 hW hV hf hE
    simp only [one_mul] at h0 h1 h2
    simp only [ieeeVal, hVW, if_true, h0, h1, h2, pow2_eq_zpow]
    split_ifs <;> first | contradiction | omega | (push_cast; ring)

theorem ieeeBits_of_repr (ebits mbits : Nat) (heb : 1 ≤ ebits) (m : Nat) (e : Int) (hm0 : 0 < m)
    (hm : m < 2 ^ (mbits + 1)) (he1 : 2 - (2 : Int) ^ (ebits - 1) - (mbits : Int) ≤ e)
    (he2 : e ≤ (2 : Int) ^ (ebits - 1) - 1 - (mbits : Int)) (x : ℚ)
    (hx : |x| = (m : ℚ) * (2 : ℚ) ^ e) :
    ∃ E frac : Nat,
      ieeeBits ebits mbits x = (if x < 0 then 2 ^ (ebits + mbits) else 0) + (E * 2 ^ mbits + frac) ∧
      frac < 2 ^ mbits ∧ E < 2 ^ ebits ∧
      (if E = 0 then (frac : ℚ) * (2 : ℚ) ^ (1 - ((2 : Int) ^ (ebits - 1) - 1) - (mbits : Int))
        else ((2 ^ mbits + frac : Nat) : ℚ)
          * (2 : ℚ) ^ ((E : Int) - ((2 : Int) ^ (ebits - 1) - 1) - (mbits : Int))) = |x| := by
  have h2 : (2 : ℚ) ≠ 0 := by norm_num
  have ha : 0 < |x| := by
    rw [hx]
    positivity
  have hane : ¬ (|x| = 0) := ne_of_gt ha
  -- the binade of the significand
  have hp1 : 2 ^ Nat.log2 m ≤ m := Nat.log2_self_le (by omega)
  have hp2 : m < 2 ^ (Nat.log2 m + 1) := Nat.lt_log2_self
  have hpm : Nat.log2 m < mbits + 1 := (Nat.log2_lt (by omega)).mpr hm
  generalize Nat.log2 m = p at hp1 hp2 hpm
  have hp1q : (2 : ℚ) ^ p ≤ (m : ℚ) := by exact_mod_cast hp1
  have hp2q : (m : ℚ) < (2 : ℚ) ^ (p + 1) := by exact_mod_cast hp2
  have hepos : (0 : ℚ) < (2 : ℚ) ^ e := by positivity
  have hlow : (2 : ℚ) ^ ((p : Int) + e) ≤ |x| := by
    rw [hx, zpow_add₀ h2, zpow_natCast]
    exact mul_le_mul_of_nonneg_right hp1q (le_of_lt hepos)
  have hupp : |x| < (2 : ℚ) ^ ((p : Int) + e + 1) := by
    have : (p : Int) + e + 1 = ((p + 1 : Nat) : Int) + e := by push_cast; ring
    rw [hx, this, zpow_add₀ h2, zpow_natCast]
    exact mul_lt_mul_of_pos_right hp2q hepos
  obtain ⟨hk1, hk2⟩ := ieee_exponent |x| ha
  have hk := zpow_two_unique |x| _ _ hk1 hk2 hlow hupp
  -- the powers of two that occur as naturals
  have hTpos : 0 < 2 ^ (ebits - 1) := Nat.pow_pos (by norm_num)
  have hV : 2 ^ ebits = 2 * 2 ^ (ebits - 1) := by
    conv_lhs => rw [show ebits = (ebits - 1) + 1 by omega]
    rw [pow_succ, Nat.mul_comm]
  have hTc : (2 : Int) ^ (ebits - 1) = ((2 ^ (ebits - 1) : Nat) : Int) := by push_cast; rfl
  have hWc : (2 : Int) ^ mbits = ((2 ^ mbits : Nat) : Int) := by push_cast; rfl
  have hWpos : 0 < 2 ^ mbits := Nat.pow_pos (by norm_num)
  unfold ieeeBits
  simp only [hane, if_false, hk]
  by_cases hnorm : 1 ≤ (p : Int) + e + ((2 : Int) ^ (ebits - 1) - 1)
  · -- a normal number
    rw [max_eq_left hnorm]
    have hsc : (mbits : Int) + ((2 : Int) ^ (ebits - 1) - 1) - ((p : Int) + e + ((2 : Int) ^ (ebits - 1) - 1))
        = ((mbits - p : Nat) : Int) - e := by
      rw [Nat.cast_sub (by omega)]
      ring
    have hM : |x| * pow2 ((mbits : Int) + ((2 : Int) ^ (ebits - 1) - 1)
        - ((p : Int) + e + ((2 : Int) ^ (ebits - 1) - 1))) = (((m * 2 ^ (mbits - p) : Nat) : Int) : ℚ) := by
      rw [pow2_eq_zpow, hsc, hx, zpow_sub₀ h2, zpow_natCast]
      push_cast
      field_simp
      try ring
    rw [hM, roundEven_intCast]
    have hMlo : 2 ^ mbits ≤ m * 2 ^ (mbits - p) := by
      calc 2 ^ mbits = 2 ^ p * 2 ^ (mbits - p) := by rw [← pow_add]; congr 1; omega
        _ ≤ m * 2 ^ (mbits - p) := Nat.mul_le_mul_right _ hp1
    have hMhi : m * 2 ^ (mbits - p) < 2 * 2 ^ mbits := by
      calc m * 2 ^ (mbits - p) < 2 ^ (p + 1) * 2 ^ (mbits - p) :=
            Nat.mul_lt_mul_of_pos_right hp2 (Nat.pow_pos (by norm_num))
        _ = 2 * 2 ^ mbits := by rw [← pow_add, show p + 1 + (mbits - p) = mbits + 1 by omega, pow_succ]; ring
    generalize m * 2 ^ (mbits - p) = M at hM hMlo hMhi ⊢
    have hEnn : 0 ≤ (p : Int) + e + ((2 : Int) ^ (ebits - 1) - 1) := by omega
    obtain ⟨E, hE⟩ := Int.eq_ofNat_of_zero_le hEnn
    have hE1 : 1 ≤ E := by omega
    have hE2 : E + 2 ≤ 2 ^ ebits := by
      have : (E : Int) + 2 ≤ 2 * ((2 ^ (ebits - 1) : Nat) : Int) := by omega
      have : E + 2 ≤ 2 * 2 ^ (ebits - 1) := by exact_mod_cast this
      omega
    have hbody : (((p : Int) + e + ((2 : Int) ^ (ebits - 1) - 1) - 1) * (2 : Int) ^ mbits + (M : Int)).toNat
        = E * 2 ^ mbits + (M - 2 ^ mbits) := by
      rw [hE, hWc]
      have : ((E : Int) - 1) * ((2 ^ mbits : Nat) : Int) + (M : Int)
          = ((E * 2 ^ mbits + (M - 2 ^ mbits) : Nat) : Int) := by
        rw [Nat.cast_add, Nat.cast_mul, Nat.cast_sub hMlo]
        ring
      rw [this, Int.toNat_ofNat]
    have hlt : E * 2 ^ mbits + (M - 2 ^ mbits) < (2 ^ ebits - 1) * 2 ^ mbits := by
      have h1 : (E + 1) * 2 ^ mbits ≤ (2 ^ ebits - 1) * 2 ^ mbits := Nat.mul_le_mul_right _ (by omega)
      rw [Nat.add_mul, one_mul] at h1
      omega
    refine ⟨E, M - 2 ^ mbits, ?_, by omega, by omega, ?_⟩
    · rw [hbody, if_neg (show ¬ (E * 2 ^ mbits + (M - 2 ^ mbits) ≥ (2 ^ ebits - 1) * 2 ^ mbits) by omega)]
    · rw [if_neg (by omega), show 2 ^ mbits + (M - 2 ^ mbits) = M by omega]
      have hMq : (M : ℚ) = |x| * (2 : ℚ) ^ (((mbits - p : Nat) : Int) - e) := by
        rw [← hsc, ← pow2_eq_zpow, hM]
        norm_cast
      have hexp : (E : Int) - ((2 : Int) ^ (ebits - 1) - 1) - (mbits : Int)
          = -(((mbits - p : Nat) : Int) - e) := by
        rw [← hE, Nat.cast_sub (by omega)]
        ring
      rw [hMq, hexp, mul_assoc, ← zpow_add₀ h2, add_neg_cancel, zpow_zero, mul_one]
  · -- a subnormal number
    rw [max_eq_right (by omega)]
    have hd : 0 ≤ e + (mbits : Int) + (2 : Int) ^ (ebits - 1) - 2 := by omega
    obtain ⟨d, hdn⟩ := Int.eq_ofNat_of_zero_le hd
    have hsc : (mbits : Int) + ((2 : Int) ^ (ebits - 1) - 1) - 1 = (d : Int) - e := by omega
    have hM : |x| * pow2 ((mbits : Int) + ((2 : Int) ^ (ebits - 1) - 1) - 1)
        = (((m * 2 ^ d : Nat) : Int) : ℚ) := by
      rw [pow2_eq_zpow, hsc, hx, zpow_sub₀ h2, zpow_natCast]
      push_cast
      field_simp
      try ring
    rw [hM, roundEven_intCast]
    have hMhi : m * 2 ^ d < 2 ^ mbits := by
      calc m * 2 ^ d < 2 ^ (p + 1) * 2 ^ d := Nat.mul_lt_mul_of_pos_right hp2 (Nat.pow_pos (by norm_num))
        _ = 2 ^ (p + 1 + d) := by rw [← pow_add]
        _ ≤ 2 ^ mbits := Nat.pow_le_pow_right (by norm_num) (by omega)
    generalize m * 2 ^ d = M at hM hMhi ⊢
    have hbody : ((1 - 1) * (2 : Int) ^ mbits + (M : Int)).toNat = M := by
      simp
    have hlt : M < (2 ^ ebits - 1) * 2 ^ mbits := by
      have h1 : 1 * 2 ^ mbits ≤ (2 ^ ebits - 1) * 2 ^ mbits := Nat.mul_le_mul_right _ (by omega)
      omega
    refine ⟨0, M, ?_, hMhi, by omega, ?_⟩
    · rw [hbody, if_neg (show ¬ (M ≥ (2 ^ ebits - 1) * 2 ^ mbits) by omega)]
      simp
    · rw [if_pos rfl]
      have hMq : (M : ℚ) = |x| * (2 : ℚ) ^ ((d : Int) - e) := by
        rw [← hsc, ← pow2_eq_zpow, hM]
        norm_cast
      have hexp : 1 - ((2 : Int) ^ (ebits - 1) - 1) - (mbits : Int) = -((d : Int) - e) := by omega
      rw [hMq, hexp, mul_assoc, ← zpow_add₀ h2, add_neg_cancel, zpow_zero, mul_one]
/-! ## Auxiliary facts: rounding to a binary floating-point format -/

theorem binadeOf_spec (a : ℚ) (ha : 0 < a) :
    (2 : ℚ) ^ binadeOf a ≤ a ∧ a < (2 : ℚ) ^ (binadeOf a + 1) :=
  ieee_exponent a ha

theorem binadeOf_eq (a : ℚ) (k : Int) (h1 : (2 : ℚ) ^ k ≤ a) (h2 : a < (2 : ℚ) ^ (k + 1)) :
    binadeOf a = k := by
  have ha : 0 < a := lt_of_lt_of_le (by positivity) h1
  obtain ⟨h3, h4⟩ := binadeOf_spec a ha
  exact zpow_two_unique a _ _ h3 h4 h1 h2

theorem roundEven_err (y : ℚ) : |((roundEven y : Int) : ℚ) - y| ≤ 1 / 2 := by
  unfold roundEven
  have h1 : ((⌊y⌋ : Int) : ℚ) ≤ y := Int.floor_le y
  have h2 : y < ((⌊y⌋ : Int) : ℚ) + 1 := Int.lt_floor_add_one y
  simp only
  split_ifs with a b c
  · rw [abs_le]; constructor <;> linarith
  · rw [abs_le]; push_cast; constructor <;> linarith
  · rw [abs_le]; constructor <;> linarith
  · rw [abs_le]; push_cast; constructor <;> linarith

theorem int_eq_of_abs_sub_lt_one (a b : Int) (h : |((a : Int) : ℚ) - (b : ℚ)| < 1) : a = b := by
  have h4 : |a - b| < 1 := by
    have : ((|a - b| : Int) : ℚ) < 1 := by
      push_cast
      exact h
    exact_mod_cast this
  have := abs_lt.mp h4
  omega

theorem roundEven_eq_of_close (y : ℚ) (n : Int) (h : |y - (n : ℚ)| < 1 / 2) : roundEven y = n := by
  have h1 := roundEven_err y
  apply int_eq_of_abs_sub_lt_one
  have : ((roundEven y : Int) : ℚ) - (n : ℚ) = (((roundEven y : Int) : ℚ) - y) + (y - (n : ℚ)) := by ring
  rw [this]
  calc |(((roundEven y : Int) : ℚ) - y) + (y - (n : ℚ))| ≤ |((roundEven y : Int) : ℚ) - y| + |y - (n : ℚ)| :=
        abs_add _ _
    _ < 1 := by linarith

theorem roundEven_le_of_le (y : ℚ) (n : Int) (h : y ≤ (n : ℚ)) : roundEven y ≤ n := by
  have h1 := abs_le.mp (roundEven_err y)
  have : ((roundEven y : Int) : ℚ) < (n : ℚ) + 1 := by linarith [h1.2]
  have : roundEven y < n + 1 := by exact_mod_cast this
  omega

theorem roundEven_ge_of_ge (y : ℚ) (n : Int) (h : (n : ℚ) ≤ y) : n ≤ roundEven y := by
  have h1 := abs_le.mp (roundEven_err y)
  have : (n : ℚ) - 1 < ((roundEven y : Int) : ℚ) := by linarith [h1.1]
  have : n - 1 < roundEven y := by exact_mod_cast this
  omega

theorem roundTo_zero (p : Nat) (emin : Int) : roundTo p emin 0 = 0 := by
  simp [roundTo]

theorem roundTo_of_ne (p : Nat) (emin : Int) (q : ℚ) (hq : q ≠ 0) :
    roundTo p emin q
      = ((roundEven (q / (2 : ℚ) ^ (max (binadeOf |q|) emin + 1 - (p : Int))) : Int) : ℚ)
        * (2 : ℚ) ^ (max (binadeOf |q|) emin + 1 - (p : Int)) := by
  simp only [roundTo, hq, if_false, pow2_eq_zpow]

theorem roundTo_err (p : Nat) (emin : Int) (q : ℚ) (hq : q ≠ 0) :
    |roundTo p emin q - q| ≤ (2 : ℚ) ^ (max (binadeOf |q|) emin - (p : Int)) := by
  rw [roundTo_of_ne p emin q hq]
  generalize max (binadeOf |q|) emin = e
  have hP : (0 : ℚ) < (2 : ℚ) ^ (e + 1 - (p : Int)) := by positivity
  have h1 := roundEven_err (q / (2 : ℚ) ^ (e + 1 - (p : Int)))
  have e1 : ((roundEven (q / (2 : ℚ) ^ (e + 1 - (p : Int))) : Int) : ℚ) * (2 : ℚ) ^ (e + 1 - (p : Int)) - q
      = (((roundEven (q / (2 : ℚ) ^ (e + 1 - (p : Int))) : Int) : ℚ) - q / (2 : ℚ) ^ (e + 1 - (p : Int)))
        * (2 : ℚ) ^ (e + 1 - (p : Int)) := by
    field_simp
  have e2 : (2 : ℚ) ^ (e - (p : Int)) = 1 / 2 * (2 : ℚ) ^ (e + 1 - (p : Int)) := by
    have : e + 1 - (p : Int) = (e - (p : Int)) + 1 := by ring
    rw [this, zpow_add₀ (by norm_num : (2 : ℚ) ≠ 0), zpow_one]
    ring
  rw [e1, abs_mul, abs_of_pos hP, e2]
  exact mul_le_mul_of_nonneg_right h1 (le_of_lt hP)

theorem binadeOf_ge (a : ℚ) (k : Int) (h : (2 : ℚ) ^ k ≤ a) : k ≤ binadeOf a := by
  have ha : 0 < a := lt_of_lt_of_le (by positivity) h
  obtain ⟨_, h4⟩ := binadeOf_spec a ha
  have := (zpow_lt_zpow_iff_right₀ (by norm_num : (1 : ℚ) < 2)).mp (lt_of_le_of_lt h h4)
  omega

theorem binadeOf_lt (a : ℚ) (k : Int) (ha : 0 < a) (h : a < (2 : ℚ) ^ k) : binadeOf a < k := by
  obtain ⟨h3, _⟩ := binadeOf_spec a ha
  exact (zpow_lt_zpow_iff_right₀ (by norm_num : (1 : ℚ) < 2)).mp (lt_of_le_of_lt h3 h)

/-- Relative error of rounding in the normal range. -/
theorem roundTo_rel_err (p : Nat) (emin : Int) (q : ℚ) (hn : (2 : ℚ) ^ emin ≤ |q|) :
    |roundTo p emin q - q| ≤ |q| * (2 : ℚ) ^ (-(p : Int)) := by
  have ha : 0 < |q| := lt_of_lt_of_le (by positivity) hn
  have hq : q ≠ 0 := abs_pos.mp ha
  have h1 := roundTo_err p emin q hq
  have hk : emin ≤ binadeOf |q| := binadeOf_ge _ _ hn
  rw [max_eq_left hk] at h1
  obtain ⟨h3, _⟩ := binadeOf_spec |q| ha
  have e2 : (2 : ℚ) ^ (binadeOf |q| - (p : Int)) = (2 : ℚ) ^ binadeOf |q| * (2 : ℚ) ^ (-(p : Int)) := by
    rw [sub_eq_add_neg, zpow_add₀ (by norm_num : (2 : ℚ) ≠ 0)]
  rw [e2] at h1
  exact le_trans h1 (mul_le_mul_of_nonneg_right h3 (by positivity))

/-- Error of rounding, anywhere. -/
theorem roundTo_abs_err (p : Nat) (emin : Int) (q : ℚ) :
    |roundTo p emin q - q| ≤ |q| * (2 : ℚ) ^ (-(p : Int)) + (2 : ℚ) ^ (emin - (p : Int)) := by
  by_cases hq : q = 0
  · subst hq
    rw [roundTo_zero]
    simp
    positivity
  · by_cases hn : (2 : ℚ) ^ emin ≤ |q|
    · have := roundTo_rel_err p emin q hn
      have h2 : (0 : ℚ) < (2 : ℚ) ^ (emin - (p : Int)) := by positivity
      linarith
    · have h1 := roundTo_err p emin q hq
      have hk : binadeOf |q| < emin := binadeOf_lt _ _ (abs_pos.mpr hq) (not_le.mp hn)
      rw [max_eq_right (le_of_lt hk)] at h1
      have h2 : (0 : ℚ) ≤ |q| * (2 : ℚ) ^ (-(p : Int)) := by positivity
      linarith

theorem zpow_two_sub_natCast (a b : Int) (h : b ≤ a) :
    (2 : ℚ) ^ (a - b) = (((2 : Int) ^ (a - b).toNat : Int) : ℚ) := by
  have : a - b = (((a - b).toNat : Nat) : Int) := by rw [Int.toNat_of_nonneg (by omega)]
  conv_lhs => rw [this]
  rw [zpow_natCast]
  push_cast
  rfl

/-- A multiple of the unit in the last place of `q` that bounds `q` from above
also bounds the rounded value. -/
theorem roundTo_le_of_le_mul (p : Nat) (emin : Int) (q : ℚ) (hq : q ≠ 0) (j : Int)
    (h : q ≤ (j : ℚ) * (2 : ℚ) ^ (max (binadeOf |q|) emin + 1 - (p : Int))) :
    roundTo p emin q ≤ (j : ℚ) * (2 : ℚ) ^ (max (binadeOf |q|) emin + 1 - (p : Int)) := by
  rw [roundTo_of_ne p emin q hq]
  generalize max (binadeOf |q|) emin + 1 - (p : Int) = s at h ⊢
  have hP : (0 : ℚ) < (2 : ℚ) ^ s := by positivity
  have h1 : q / (2 : ℚ) ^ s ≤ (j : ℚ) := by
    rw [div_le_iff₀ hP]
    exact h
  have h2 := roundEven_le_of_le _ _ h1
  have h3 : ((roundEven (q / (2 : ℚ) ^ s) : Int) : ℚ) ≤ (j : ℚ) := by exact_mod_cast h2
  exact mul_le_mul_of_nonneg_right h3 (le_of_lt hP)

theorem roundTo_ge_of_ge_mul (p : Nat) (emin : Int) (q : ℚ) (hq : q ≠ 0) (j : Int)
    (h : (j : ℚ) * (2 : ℚ) ^ (max (binadeOf |q|) emin + 1 - (p : Int)) ≤ q) :
    (j : ℚ) * (2 : ℚ) ^ (max (binadeOf |q|) emin + 1 - (p : Int)) ≤ roundTo p emin q := by
  rw [roundTo_of_ne p emin q hq]
  generalize max (binadeOf |q|) emin + 1 - (p : Int) = s at h ⊢
  have hP : (0 : ℚ) < (2 : ℚ) ^ s := by positivity
  have h1 : (j : ℚ) ≤ q / (2 : ℚ) ^ s := by
    rw [le_div_iff₀ hP]
    exact h
  have h2 := roundEven_ge_of_ge _ _ h1
  have h3 : (j : ℚ) ≤ ((roundEven (q / (2 : ℚ) ^ s) : Int) : ℚ) := by exact_mod_cast h2
  exact mul_le_mul_of_nonneg_right h3 (le_of_lt hP)

/-- The exponent of the unit in the last place of `q` is at most the exponent
`E` of any value `m * 2^E` of the format whose magnitude is at least that of `q`. -/
theorem ulp_exponent_le (p : Nat) (emin : Int) (q : ℚ) (hq : q ≠ 0) (m : Nat) (E : Int)
    (hm : m < 2 ^ p) (hE : emin + 1 - (p : Int) ≤ E) (h : |q| ≤ (m : ℚ) * (2 : ℚ) ^ E) :
    max (binadeOf |q|) emin + 1 - (p : Int) ≤ E := by
  have ha : 0 < |q| := abs_pos.mpr hq
  obtain ⟨h3, _⟩ := binadeOf_spec |q| ha
  have hmq : (m : ℚ) < (2 : ℚ) ^ (p : Int) := by
    rw [zpow_natCast]
    exact_mod_cast hm
  have hlt : (2 : ℚ) ^ binadeOf |q| < (2 : ℚ) ^ ((p : Int) + E) := by
    rw [zpow_add₀ (by norm_num : (2 : ℚ) ≠ 0)]
    calc (2 : ℚ) ^ binadeOf |q| ≤ |q| := h3
      _ ≤ (m : ℚ) * (2 : ℚ) ^ E := h
      _ < (2 : ℚ) ^ (p : Int) * (2 : ℚ) ^ E := mul_lt_mul_of_pos_right hmq (by positivity)
  have := (zpow_lt_zpow_iff_right₀ (by norm_num : (1 : ℚ) < 2)).mp hlt
  rcases max_cases (binadeOf |q|) emin with ⟨h1, _⟩ | ⟨h1, _⟩ <;> rw [h1] <;> omega

theorem mul_zpow_eq_int_mul (m : Int) (E s : Int) (h : s ≤ E) :
    (m : ℚ) * (2 : ℚ) ^ E = ((m * (2 : Int) ^ (E - s).toNat : Int) : ℚ) * (2 : ℚ) ^ s := by
  have e1 : E = (E - s) + s := by ring
  conv_lhs => rw [e1, zpow_add₀ (by norm_num : (2 : ℚ) ≠ 0), zpow_two_sub_natCast E s h]
  push_cast
  ring

/-- A value of the format is not changed by rounding. -/
theorem roundTo_of_repr (p : Nat) (emin : Int) (m : Int) (E : Int) (hm : m.natAbs < 2 ^ p)
    (hE : emin + 1 - (p : Int) ≤ E) :
    roundTo p emin ((m : ℚ) * (2 : ℚ) ^ E) = (m : ℚ) * (2 : ℚ) ^ E := by
  by_cases hq : (m : ℚ) * (2 : ℚ) ^ E = 0
  · rw [hq, roundTo_zero]
  · have habs : |(m : ℚ) * (2 : ℚ) ^ E| ≤ ((m.natAbs : Nat) : ℚ) * (2 : ℚ) ^ E := by
      rw [abs_mul, abs_of_pos (by positivity : (0 : ℚ) < (2 : ℚ) ^ E), Nat.cast_natAbs]
      push_cast
      exact le_refl _
    have hs := ulp_exponent_le p emin _ hq m.natAbs E hm hE habs
    rw [roundTo_of_ne p emin _ hq]
    generalize max (binadeOf |(m : ℚ) * (2 : ℚ) ^ E|) emin + 1 - (p : Int) = s at hs ⊢
    have hP : (0 : ℚ) < (2 : ℚ) ^ s := by positivity
    rw [mul_zpow_eq_int_mul m E s hs, mul_div_assoc, div_self (ne_of_gt hP), mul_one, roundEven_intCast]

/-- A value of the format that bounds the magnitude of `q` also bounds the
magnitude of the rounded value. -/
theorem roundTo_abs_le (p : Nat) (emin : Int) (q : ℚ) (m : Nat) (E : Int)
    (hm : m < 2 ^ p) (hE : emin + 1 - (p : Int) ≤ E) (h : |q| ≤ (m : ℚ) * (2 : ℚ) ^ E) :
    |roundTo p emin q| ≤ (m : ℚ) * (2 : ℚ) ^ E := by
  by_cases hq : q = 0
  · subst hq
    rw [roundTo_zero]
    simpa using h
  · have hs := ulp_exponent_le p emin q hq m E hm hE h
    have e1 := mul_zpow_eq_int_mul (m : Int) E _ hs
    have e1' : (m : ℚ) * (2 : ℚ) ^ E = (((m : Int) * (2 : Int) ^ (E - (max (binadeOf |q|) emin + 1 - (p : Int))).toNat : Int) : ℚ)
        * (2 : ℚ) ^ (max (binadeOf |q|) emin + 1 - (p : Int)) := by
      rw [← e1]
      push_cast
      rfl
    have hle := (abs_le.mp h)
    rw [abs_le]
    constructor
    · have := roundTo_ge_of_ge_mul p emin q hq
        (-((m : Int) * (2 : Int) ^ (E - (max (binadeOf |q|) emin + 1 - (p : Int))).toNat))
        (by
          have hh := hle.1
          rw [e1'] at hh
          push_cast at hh ⊢
          linarith)
      rw [e1']
      push_cast at this ⊢
      linarith
    · have := roundTo_le_of_le_mul p emin q hq
        ((m : Int) * (2 : Int) ^ (E - (max (binadeOf |q|) emin + 1 - (p : Int))).toNat)
        (by
          have hh := hle.2
          rw [e1'] at hh
          exact hh)
      rw [e1']
      exact this

theorem roundEven_tie (f : Int) :
    roundEven ((f : ℚ) + 1 / 2) = if f % 2 = 0 then f else f + 1 := by
  have hf : ⌊(f : ℚ) + 1 / 2⌋ = f := by
    rw [Int.floor_eq_iff]
    constructor <;> linarith
  unfold roundEven
  simp only [hf]
  have e : (f : ℚ) + 1 / 2 - (f : ℚ) = 1 / 2 := by ring
  rw [e]
  simp

theorem roundEven_strict_or_tie (y : ℚ) :
    |y - ((roundEven y : Int) : ℚ)| < 1 / 2 ∨ y = ((⌊y⌋ : Int) : ℚ) + 1 / 2 := by
  have h1 : ((⌊y⌋ : Int) : ℚ) ≤ y := Int.floor_le y
  have h2 : y < ((⌊y⌋ : Int) : ℚ) + 1 := Int.lt_floor_add_one y
  by_cases ht : y - ((⌊y⌋ : Int) : ℚ) = 1 / 2
  · right
    linarith
  · left
    unfold roundEven
    simp only
    split_ifs with a b c
    · rw [abs_lt]; constructor <;> linarith
    · rw [abs_lt]; push_cast; constructor <;> linarith
    · exact absurd (le_antisymm (not_lt.mp b) (not_lt.mp a)) ht
    · exact absurd (le_antisymm (not_lt.mp b) (not_lt.mp a)) ht

theorem roundEven_neg (y : ℚ) : roundEven (-y) = -roundEven y := by
  rcases roundEven_strict_or_tie y with h | h
  · apply roundEven_eq_of_close
    have : -y - ((-roundEven y : Int) : ℚ) = -(y - ((roundEven y : Int) : ℚ)) := by push_cast; ring
    rw [this, abs_neg]
    exact h
  · generalize ⌊y⌋ = f at h
    have e : -y = ((-f - 1 : Int) : ℚ) + 1 / 2 := by
      rw [h]
      push_cast
      ring
    rw [e, roundEven_tie, h, roundEven_tie]
    split_ifs <;> omega

theorem roundTo_neg (p : Nat) (emin : Int) (q : ℚ) : roundTo p emin (-q) = -roundTo p emin q := by
  by_cases hq : q = 0
  · subst hq
    simp [roundTo_zero]
  · have hq' : -q ≠ 0 := neg_ne_zero.mpr hq
    rw [roundTo_of_ne p emin _ hq', roundTo_of_ne p emin _ hq, abs_neg, neg_div, roundEven_neg]
    push_cast
    ring

/-- Evaluation of a rounding at a value whose binade is known and whose
quotient by the unit in the last place is within 1/2 of an integer. -/
theorem roundTo_eval (p : Nat) (emin : Int) (q : ℚ) (k n : Int) (h1 : (2 : ℚ) ^ k ≤ |q|)
    (h2 : |q| < (2 : ℚ) ^ (k + 1))
    (hn : |q / (2 : ℚ) ^ (max k emin + 1 - (p : Int)) - (n : ℚ)| < 1 / 2) :
    roundTo p emin q = (n : ℚ) * (2 : ℚ) ^ (max k emin + 1 - (p : Int)) := by
  have ha : 0 < |q| := lt_of_lt_of_le (by positivity) h1
  have hq : q ≠ 0 := abs_pos.mp ha
  rw [roundTo_of_ne p emin q hq, binadeOf_eq _ k h1 h2, roundEven_eq_of_close _ n hn]

/-- Evaluation of a rounding at a value that lies half-way between two
neighbours. -/
theorem roundTo_eval_tie (p : Nat) (emin : Int) (q : ℚ) (k f : Int) (h1 : (2 : ℚ) ^ k ≤ |q|)
    (h2 : |q| < (2 : ℚ) ^ (k + 1))
    (hn : q / (2 : ℚ) ^ (max k emin + 1 - (p : Int)) = (f : ℚ) + 1 / 2) :
    roundTo p emin q
      = ((if f % 2 = 0 then f else f + 1 : Int) : ℚ) * (2 : ℚ) ^ (max k emin + 1 - (p : Int)) := by
  have ha : 0 < |q| := lt_of_lt_of_le (by positivity) h1
  have hq : q ≠ 0 := abs_pos.mp ha
  rw [roundTo_of_ne p emin q hq, binadeOf_eq _ k h1 h2, hn, roundEven_tie]

theorem roundTo_natCast (p : Nat) (emin : Int) (hemin : emin + 1 ≤ (p : Int)) (n : Nat) (hn : n < 2 ^ p) :
    roundTo p emin (n : ℚ) = (n : ℚ) := by
  have := roundTo_of_repr p emin (n : Int) 0 (by simpa using hn) (by omega)
  simpa using this

theorem roundTo_intCast (p : Nat) (emin : Int) (hemin : emin + 1 ≤ (p : Int)) (n : Int)
    (hn : n.natAbs < 2 ^ p) : roundTo p emin (n : ℚ) = (n : ℚ) := by
  have := roundTo_of_repr p emin n 0 hn (by omega)
  simpa using this

theorem roundTo_nonneg (p : Nat) (emin : Int) (q : ℚ) (hq : 0 ≤ q) : 0 ≤ roundTo p emin q := by
  by_cases h0 : q = 0
  · rw [h0, roundTo_zero]
  · have := roundTo_ge_of_ge_mul p emin q h0 0 (by simpa using hq)
    simpa using this

/-- An integer below a value smaller than `2^p` is also below the rounded value. -/
theorem roundTo_ge_natCast (p : Nat) (emin : Int) (hemin : emin + 1 ≤ (p : Int)) (q : ℚ) (n : Nat)
    (hlt : q < (2 : ℚ) ^ (p : Int)) (h : (n : ℚ) ≤ q) : (n : ℚ) ≤ roundTo p emin q := by
  by_cases h0 : q = 0
  · rw [h0, roundTo_zero]
    rw [h0] at h
    exact h
  · have hq0 : 0 ≤ q := le_trans (Nat.cast_nonneg n) h
    have ha : 0 < |q| := abs_pos.mpr h0
    have hk : binadeOf |q| < (p : Int) := binadeOf_lt _ _ ha (by rw [abs_of_nonneg hq0]; exact hlt)
    have hs : max (binadeOf |q|) emin + 1 - (p : Int) ≤ 0 := by
      rcases max_cases (binadeOf |q|) emin with ⟨h1, _⟩ | ⟨h1, _⟩ <;> rw [h1] <;> omega
    have e1 := mul_zpow_eq_int_mul (n : Int) 0 _ hs
    simp only [zpow_zero, mul_one] at e1
    have e2 : (n : ℚ) = ((n : Int) : ℚ) := by push_cast; rfl
    have := roundTo_ge_of_ge_mul p emin q h0 _ (by rw [← e1, ← e2]; exact h)
    rw [← e1, ← e2] at this
    exact this

/-- The integer part of a correctly rounded quotient of two naturals is the
integer quotient, as long as the dividend is below `2^p` (and the quotient is
not in the subnormal range). -/
theorem floor_roundTo_div (p : Nat) (emin : Int) (hemin : emin + 1 ≤ (p : Int)) (a b : Nat) (hb : 0 < b)
    (ha : a < 2 ^ p) (hnorm : (b : ℚ) * (2 : ℚ) ^ emin ≤ 1) :
    ⌊roundTo p emin ((a : ℚ) / (b : ℚ))⌋ = ((a / b : Nat) : Int) := by
  have hbq : (0 : ℚ) < (b : ℚ) := by exact_mod_cast hb
  have hdiv : (a : ℚ) = (b : ℚ) * ((a / b : Nat) : ℚ) + ((a % b : Nat) : ℚ) := by
    have := Nat.div_add_mod a b
    exact_mod_cast this.symm
  have hmod : ((a % b : Nat) : ℚ) + 1 ≤ (b : ℚ) := by
    have := Nat.mod_lt a hb
    exact_mod_cast this
  have haq : (a : ℚ) < (2 : ℚ) ^ (p : Int) := by
    rw [zpow_natCast]
    exact_mod_cast ha
  have hy1 : ((a / b : Nat) : ℚ) ≤ (a : ℚ) / (b : ℚ) := by
    rw [le_div_iff₀ hbq, hdiv]
    have : (0 : ℚ) ≤ ((a % b : Nat) : ℚ) := Nat.cast_nonneg _
    linarith
  have hy2 : (a : ℚ) / (b : ℚ) ≤ ((a / b : Nat) : ℚ) + 1 - 1 / (b : ℚ) := by
    rw [div_le_iff₀ hbq]
    have : (((a / b : Nat) : ℚ) + 1 - 1 / (b : ℚ)) * (b : ℚ) = (b : ℚ) * ((a / b : Nat) : ℚ) + (b : ℚ) - 1 := by
      field_simp
      ring
    rw [this]
    conv_lhs => rw [hdiv]
    linarith
  have hyle : (a : ℚ) / (b : ℚ) ≤ (a : ℚ) := by
    rw [div_le_iff₀ hbq]
    have h1 : (1 : ℚ) ≤ (b : ℚ) := by exact_mod_cast hb
    have h0 : (0 : ℚ) ≤ (a : ℚ) := Nat.cast_nonneg _
    nlinarith
  rw [Int.floor_eq_iff]
  constructor
  · have := roundTo_ge_natCast p emin hemin ((a : ℚ) / (b : ℚ)) (a / b) (lt_of_le_of_lt hyle haq) hy1
    exact_mod_cast this
  · by_cases ha0 : a = 0
    · subst ha0
      simp [roundTo_zero]
    · have ha1 : (1 : ℚ) ≤ (a : ℚ) := by
        have : 1 ≤ a := Nat.one_le_iff_ne_zero.mpr ha0
        exact_mod_cast this
      have hypos : 0 < (a : ℚ) / (b : ℚ) := by positivity
      have hn : (2 : ℚ) ^ emin ≤ |(a : ℚ) / (b : ℚ)| := by
        rw [abs_of_pos hypos, le_div_iff₀ hbq]
        have h2 : (0 : ℚ) < (2 : ℚ) ^ emin := by positivity
        nlinarith
      have herr := roundTo_rel_err p emin _ hn
      rw [abs_of_pos hypos] at herr
      have herr2 := (abs_le.mp herr).2
      have hsmall : (a : ℚ) / (b : ℚ) * (2 : ℚ) ^ (-(p : Int)) < 1 / (b : ℚ) := by
        rw [zpow_neg, div_mul_eq_mul_div, div_lt_div_iff₀ hbq hbq]
        have hpp : (0 : ℚ) < (2 : ℚ) ^ (p : Int) := by positivity
        have : (a : ℚ) * ((2 : ℚ) ^ (p : Int))⁻¹ < 1 := by
          rw [mul_inv_lt_iff₀ hpp]
          linarith
        nlinarith
      rw [Int.cast_natCast]
      linarith


theorem roundF32_zero : roundF32 0 = 0 := roundTo_zero 24 (-126)

theorem roundF64_zero : roundF64 0 = 0 := roundTo_zero 53 (-1022)

theorem roundF32_intCast (n : Int) (hn : n.natAbs < 2 ^ 24) : roundF32 (n : ℚ) = (n : ℚ) :=
  roundTo_intCast 24 (-126) (by norm_num) n hn

theorem roundF32_natCast (n : Nat) (hn : n < 2 ^ 24) : roundF32 (n : ℚ) = (n : ℚ) :=
  roundTo_natCast 24 (-126) (by norm_num) n hn

theorem roundF64_natCast (n : Nat) (hn : n < 2 ^ 53) : roundF64 (n : ℚ) = (n : ℚ) :=
  roundTo_natCast 53 (-1022) (by norm_num) n hn

theorem roundF32_neg (q : ℚ) : roundF32 (-q) = -roundF32 q := roundTo_neg 24 (-126) q

theorem finite32_of_le (q : ℚ) (h : |q| ≤ FLT_MAX) : finite32 q = some q := by
  simp [finite32, h]

theorem FLT_MAX_eq : FLT_MAX = ((16777215 : Nat) : ℚ) * (2 : ℚ) ^ (104 : Int) := by
  norm_num [FLT_MAX]

/-- A bound by a power of two up to `2^127` passes through a rounding to
`float` and keeps the value finite. -/
theorem roundF32_abs_le_pow2 (q : ℚ) (E : Int) (hE : -149 ≤ E) (h : |q| ≤ (2 : ℚ) ^ E) :
    |roundF32 q| ≤ (2 : ℚ) ^ E := by
  have := roundTo_abs_le 24 (-126) q 1 E (by norm_num) (by push_cast; omega) (by simpa using h)
  simpa [roundF32] using this

theorem pow2_le_FLT_MAX (E : Int) (hE : E ≤ 127) : (2 : ℚ) ^ E ≤ FLT_MAX := by
  calc (2 : ℚ) ^ E ≤ (2 : ℚ) ^ (127 : Int) := zpow_le_zpow_right₀ (by norm_num) hE
    _ ≤ FLT_MAX := by norm_num [FLT_MAX]

/-- The source index of `Stretch` and the frame count of `Resample`: when the
integers and their product are below `2^53`, the integer part of the quotient
computed in `double` is the integer quotient. -/
theorem double_index_exact (i N n : Nat) (hn : 0 < n) (hiN : i * N < 2 ^ 53) (hi : i < 2 ^ 53)
    (hN : N < 2 ^ 53) (hn53 : n < 2 ^ 53) :
    truncQ (roundF64 (roundF64 (roundF64 (i : ℚ) * roundF64 (N : ℚ)) / roundF64 (n : ℚ)))
      = ((i * N / n : Nat) : Int) := by
  rw [roundF64_natCast i hi, roundF64_natCast N hN, roundF64_natCast n hn53]
  have e : (i : ℚ) * (N : ℚ) = ((i * N : Nat) : ℚ) := by push_cast; rfl
  rw [e, roundF64_natCast _ hiN]
  have hnorm : (n : ℚ) * (2 : ℚ) ^ (-1022 : Int) ≤ 1 := by
    have h1 : (n : ℚ) ≤ (2 : ℚ) ^ (53 : Nat) := by exact_mod_cast le_of_lt hn53
    have h2 : (2 : ℚ) ^ (53 : Nat) * (2 : ℚ) ^ (-1022 : Int) ≤ 1 := by
      rw [← zpow_natCast, ← zpow_add₀ (by norm_num : (2 : ℚ) ≠ 0)]
      exact zpow_le_one_of_nonpos₀ (by norm_num) (by norm_num)
    calc (n : ℚ) * (2 : ℚ) ^ (-1022 : Int) ≤ (2 : ℚ) ^ (53 : Nat) * (2 : ℚ) ^ (-1022 : Int) :=
          mul_le_mul_of_nonneg_right h1 (by positivity)
      _ ≤ 1 := h2
  have hfl := floor_roundTo_div 53 (-1022) (by norm_num) (i * N) n hn hiN hnorm
  have hnn : 0 ≤ roundF64 (((i * N : Nat) : ℚ) / (n : ℚ)) := roundTo_nonneg _ _ _ (by positivity)
  rw [truncQ, if_pos hnn]
  exact hfl

theorem stretchSourceIndex_exact (i N n : Nat) (hn : 0 < n) (hiN : i * N < 2 ^ 53) (hi : i < 2 ^ 53)
    (hN : N < 2 ^ 53) (hn53 : n < 2 ^ 53) : stretchSourceIndex i N n = i * N / n := by
  rw [stretchSourceIndex, double_index_exact i N n hn hiN hi hN hn53, Int.toNat_ofNat]

theorem roundF32_pow2_mul (m : Int) (E : Int) (hm : m.natAbs < 2 ^ 24) (hE : -149 ≤ E) :
    roundF32 ((m : ℚ) * (2 : ℚ) ^ E) = (m : ℚ) * (2 : ℚ) ^ E :=
  roundTo_of_repr 24 (-126) m E hm (by push_cast; omega)

theorem isIeee_float_round (x : ℚ) (h : isIeee 8 23 x) : roundF32 x = x ∧ |x| ≤ FLT_MAX := by
  obtain ⟨m, e, hm, he1, he2, hx⟩ := h
  have he1' : (-149 : Int) ≤ e := by norm_num at he1; omega
  have he2' : e ≤ 104 := by norm_num at he2; omega
  have hpos : (0 : ℚ) < (2 : ℚ) ^ e := by positivity
  have hbound : (m : ℚ) * (2 : ℚ) ^ e ≤ FLT_MAX := by
    rw [FLT_MAX_eq]
    have h1 : (m : ℚ) ≤ ((16777215 : Nat) : ℚ) := by
      have : m ≤ 16777215 := by
        have : (2 : Nat) ^ (23 + 1) = 16777216 := by norm_num
        omega
      exact_mod_cast this
    have h2 : (2 : ℚ) ^ e ≤ (2 : ℚ) ^ (104 : Int) := zpow_le_zpow_right₀ (by norm_num) he2'
    exact mul_le_mul h1 h2 (le_of_lt hpos) (by positivity)
  rw [pow2_eq_zpow] at hx
  rcases hx with hx | hx
  · constructor
    · have := roundF32_pow2_mul (m : Int) e (by simpa using hm) he1'
      rw [hx]
      simpa using this
    · rw [hx, abs_of_nonneg (by positivity)]
      exact hbound
  · constructor
    · have := roundF32_pow2_mul (m : Int) e (by simpa using hm) he1'
      rw [hx, roundF32_neg]
      simpa using this
    · rw [hx, abs_neg, abs_of_nonneg (by positivity)]
      exact hbound

theorem finite32_zero : finite32 0 = some 0 := finite32_of_le 0 (by norm_num [FLT_MAX])

theorem zpow_two_nat_sub (k m : Nat) : (2 : ℚ) ^ ((k : Int) - (m : Int)) = (2 : ℚ) ^ k / (2 : ℚ) ^ m := by
  rw [zpow_sub₀ (two_ne_zero), zpow_natCast, zpow_natCast]

/-- Scaling by a power of two commutes with rounding as long as both the
value and the scaled value are in the normal range. -/
theorem roundTo_zpow_mul (p : Nat) (emin : Int) (q : ℚ) (s : Int) (hq : (2 : ℚ) ^ emin ≤ |q|)
    (hs : (2 : ℚ) ^ emin ≤ |(2 : ℚ) ^ s * q|) :
    roundTo p emin ((2 : ℚ) ^ s * q) = (2 : ℚ) ^ s * roundTo p emin q := by
  have h2s : (0 : ℚ) < (2 : ℚ) ^ s := by positivity
  have hq0 : q ≠ 0 := by
    intro h
    rw [h, abs_zero] at hq
    have : (0 : ℚ) < (2 : ℚ) ^ emin := by positivity
    linarith
  have hsq0 : (2 : ℚ) ^ s * q ≠ 0 := mul_ne_zero (ne_of_gt h2s) hq0
  have habs : |(2 : ℚ) ^ s * q| = (2 : ℚ) ^ s * |q| := by rw [abs_mul, abs_of_pos h2s]
  obtain ⟨b1, b2⟩ := binadeOf_spec |q| (abs_pos.mpr hq0)
  have hb : binadeOf |(2 : ℚ) ^ s * q| = binadeOf |q| + s := by
    apply binadeOf_eq
    · rw [habs, zpow_add₀ (two_ne_zero), mul_comm]
      exact mul_le_mul_of_nonneg_left b1 (le_of_lt h2s)
    · rw [habs, show binadeOf |q| + s + 1 = (binadeOf |q| + 1) + s by ring, zpow_add₀ (two_ne_zero), mul_comm]
      exact mul_lt_mul_of_pos_right b2 h2s
  have e1 : emin ≤ binadeOf |q| := binadeOf_ge _ _ hq
  have e2 : emin ≤ binadeOf |q| + s := by
    rw [← hb]
    exact binadeOf_ge _ _ hs
  rw [roundTo_of_ne p emin _ hsq0, roundTo_of_ne p emin _ hq0, hb, max_eq_left e1, max_eq_left e2]
  have e3 : (2 : ℚ) ^ (binadeOf |q| + s + 1 - (p : Int)) = (2 : ℚ) ^ s * (2 : ℚ) ^ (binadeOf |q| + 1 - (p : Int)) := by
    rw [← zpow_add₀ (two_ne_zero)]
    congr 1
    ring
  have hu : (0 : ℚ) < (2 : ℚ) ^ (binadeOf |q| + 1 - (p : Int)) := by positivity
  rw [e3, mul_div_mul_left _ _ (ne_of_gt h2s)]
  ring

theorem roundF32_zpow_mul (q : ℚ) (s : Int) (hq : (2 : ℚ) ^ (-126 : Int) ≤ |q|)
    (hs : (2 : ℚ) ^ (-126 : Int) ≤ |(2 : ℚ) ^ s * q|) :
    roundF32 ((2 : ℚ) ^ s * q) = (2 : ℚ) ^ s * roundF32 q := roundTo_zpow_mul 24 (-126) q s hq hs
/-! ## Auxiliary facts: the sample codec -/

theorem ConvertFloatSample_int8 (x : ℚ) :
    ConvertFloatSample x false 1
      = match castUnsigned 8
          (if (if roundF32 (roundF32 (x * 127) + 128) < 0 then 0 else roundF32 (roundF32 (x * 127) + 128)) > 255
            then 255
            else if roundF32 (roundF32 (x * 127) + 128) < 0 then 0
              else roundF32 (roundF32 (x * 127) + 128)) with
        | some n => Res.ok [byteOf n 0]
        | none => Res.fault := rfl

theorem ConvertFloatSample_int16 (x : ℚ) :
    ConvertFloatSample x false 2
      = match castUnsigned 16
          (if (if roundF32 (x * 32767) < -32767 then -32767 else roundF32 (x * 32767)) > 32767 then 32767
            else if roundF32 (x * 32767) < -32767 then -32767 else roundF32 (x * 32767)) with
        | some n => Res.ok (le16 n)
        | none => Res.fault := rfl

theorem ConvertFloatSample_int32 (x : ℚ) :
    ConvertFloatSample x false 4
      = match castUnsigned 32
          (if (if roundF32 (x * 2147483648) < -2147483648 then -2147483648 else roundF32 (x * 2147483648))
              > 2147483648 then 2147483648
            else if roundF32 (x * 2147483648) < -2147483648 then -2147483648
              else roundF32 (x * 2147483648)) with
        | some n => Res.ok (le32 n)
        | none => Res.fault := rfl

theorem truncQ_intCast (t : Int) : truncQ (t : ℚ) = t := by
  unfold truncQ
  split_ifs with h
  · exact Int.floor_intCast t
  · rw [← Int.cast_neg, Int.floor_intCast]
    ring

theorem truncQ_natCast (n : Nat) : truncQ (n : ℚ) = (n : Int) := by
  have := truncQ_intCast (n : Int)
  simpa using this

theorem castUnsigned_natCast (width n : Nat) (h : n < 2 ^ width) :
    castUnsigned width (n : ℚ) = some n := by
  have h1 : (n : Int) < (2 : Int) ^ width := by exact_mod_cast h
  simp [castUnsigned, truncQ_natCast, h1]

theorem castUnsigned_negative (width : Nat) (q : ℚ) (h : q ≤ -1) : castUnsigned width q = none := by
  have hneg : ¬ (0 ≤ q) := by linarith
  have hfl : (1 : Int) ≤ ⌊-q⌋ := by
    rw [Int.le_floor]
    push_cast
    linarith
  have : ¬ (0 ≤ truncQ q) := by
    rw [truncQ, if_neg hneg]
    omega
  simp [castUnsigned, this]


theorem decode_int32 (hdr : WAVInfo) (b : List Byte) (x : ℚ) (hf : hdr.m_is_float = false)
    (hbits : hdr.m_bits = 32) (hb : b.length = 4)
    (hx : roundF32 (floatOfInt (toSigned 32 (leVal b)) / 2147483648) = x) :
    ConvertWAVSampleToFloat hdr b = some x := by
  have ht : List.take 4 b = b := List.take_of_length_le (le_of_eq hb)
  simp [ConvertWAVSampleToFloat, hf, hbits, hb, ht, hx]

theorem clamp_eq (s lo hi : ℚ) :
    (if (if s < lo then lo else s) > hi then hi else (if s < lo then lo else s)) = min (max s lo) hi := by
  simp only [max_def, min_def]
  split_ifs <;> first | rfl | linarith

theorem clamp_bounds (s lo hi : ℚ) (h : lo ≤ hi) : lo ≤ min (max s lo) hi ∧ min (max s lo) hi ≤ hi :=
  ⟨le_min (le_max_right _ _) h, min_le_right _ _⟩

theorem roundF32_nonneg (q : ℚ) (hq : 0 ≤ q) : 0 ≤ roundF32 q := roundTo_nonneg 24 (-126) q hq

/-- The conversion to an unsigned type of a value above -1 whose integer part
is below `2^width`. -/
theorem castUnsigned_of_gt (width : Nat) (t : ℚ) (b : Int) (h1 : -1 < t) (h2 : t ≤ (b : ℚ))
    (hb : b < 2 ^ width) :
    ∃ n : Nat, castUnsigned width t = some n ∧ (n : Int) ≤ b ∧
      (n : Int) = if 0 ≤ t then ⌊t⌋ else ⌈t⌉ := by
  by_cases h0 : 0 ≤ t
  · have hfl0 : 0 ≤ ⌊t⌋ := Int.floor_nonneg.mpr h0
    have hfl1 : ⌊t⌋ ≤ b := by
      have := Int.floor_le_floor h2
      rwa [Int.floor_intCast] at this
    refine ⟨⌊t⌋.toNat, ?_, ?_, ?_⟩
    · have hc : 0 ≤ truncQ t ∧ truncQ t < (2 ^ width : Int) := by
        rw [truncQ, if_pos h0]
        exact ⟨hfl0, lt_of_le_of_lt hfl1 hb⟩
      rw [castUnsigned, if_pos hc, truncQ, if_pos h0]
    · rw [Int.toNat_of_nonneg hfl0]
      exact hfl1
    · rw [Int.toNat_of_nonneg hfl0, if_pos h0]
  · have hneg : 0 < -t := by linarith
    have hfl : ⌊-t⌋ = 0 := by
      rw [Int.floor_eq_iff]
      constructor
      · push_cast
        linarith
      · push_cast
        linarith
    have hceil : ⌈t⌉ = 0 := by
      rw [Int.ceil_eq_iff]
      constructor
      · push_cast
        linarith
      · push_cast
        linarith
    have hb0 : 0 ≤ b := by
      by_contra hb0
      have : b ≤ -1 := by omega
      have : (b : ℚ) ≤ -1 := by exact_mod_cast this
      linarith
    refine ⟨0, ?_, ?_, ?_⟩
    · have hc : 0 ≤ truncQ t ∧ truncQ t < (2 ^ width : Int) := by
        rw [truncQ, if_neg h0, hfl]
        exact ⟨by norm_num, by positivity⟩
      rw [castUnsigned, if_pos hc, truncQ, if_neg h0, hfl]
      rfl
    · exact_mod_cast hb0
    · rw [if_neg h0, hceil]
      rfl

theorem floatOfInt_small (n : Int) (h : n.natAbs < 2 ^ 24) : floatOfInt n = (n : ℚ) := by
  have hl : Nat.log2 n.natAbs - 23 = 0 := by
    rcases Nat.eq_zero_or_pos n.natAbs with h0 | h0
    · rw [h0]
      simp [Nat.log2]
    · have := (Nat.log2_lt (Nat.pos_iff_ne_zero.mp h0)).mpr h
      omega
  unfold floatOfInt
  simp only [hl, pow_zero, Nat.div_one, Nat.mod_one, mul_zero, Nat.lt_one_iff, if_true, mul_one]
  split_ifs with hn
  · rw [Nat.cast_natAbs, abs_of_neg hn]
    push_cast
    ring
  · rw [Nat.cast_natAbs, abs_of_nonneg (not_lt.mp hn)]

/-- The result of `static_cast<float>` is an integer of fewer than 24 bits
times a power of two. -/
theorem floatOfInt_repr (n : Int) :
    ∃ (m : Int) (E : Nat), m.natAbs < 2 ^ 24 ∧ floatOfInt n = (m : ℚ) * (2 : ℚ) ^ ((E : Nat) : Int) := by
  have hq : ∀ (a : Nat), ∃ (m E : Nat), m < 2 ^ 24 ∧
      ((if 2 * (a % 2 ^ (Nat.log2 a - 23)) < 2 ^ (Nat.log2 a - 23) then a / 2 ^ (Nat.log2 a - 23)
        else if 2 * (a % 2 ^ (Nat.log2 a - 23)) > 2 ^ (Nat.log2 a - 23) then a / 2 ^ (Nat.log2 a - 23) + 1
        else if a / 2 ^ (Nat.log2 a - 23) % 2 = 0 then a / 2 ^ (Nat.log2 a - 23)
        else a / 2 ^ (Nat.log2 a - 23) + 1) * 2 ^ (Nat.log2 a - 23) : Nat) = m * 2 ^ E := by
    intro a
    have hf : a / 2 ^ (Nat.log2 a - 23) < 2 ^ 24 := by
      rw [Nat.div_lt_iff_lt_mul (Nat.pow_pos (by norm_num))]
      by_cases hL : 23 ≤ Nat.log2 a
      · have e : 2 ^ 24 * 2 ^ (Nat.log2 a - 23) = 2 ^ (Nat.log2 a + 1) := by
          rw [← pow_add]
          congr 1
          omega
        rw [e]
        exact Nat.lt_log2_self
      · have e : Nat.log2 a - 23 = 0 := by omega
        rw [e, pow_zero, mul_one]
        have h1 : a < 2 ^ (Nat.log2 a + 1) := Nat.lt_log2_self
        have h2 : 2 ^ (Nat.log2 a + 1) ≤ 2 ^ 24 := Nat.pow_le_pow_right (by norm_num) (by omega)
        omega
    generalize a / 2 ^ (Nat.log2 a - 23) = f at hf ⊢
    generalize a % 2 ^ (Nat.log2 a - 23) = r
    generalize Nat.log2 a - 23 = E
    have hstep : ∃ (m E' : Nat), m < 2 ^ 24 ∧ (f + 1) * 2 ^ E = m * 2 ^ E' := by
      by_cases h : f + 1 < 2 ^ 24
      · exact ⟨f + 1, E, h, rfl⟩
      · have h2 : f + 1 = 2 ^ 24 := by omega
        refine ⟨2 ^ 23, E + 1, by norm_num, ?_⟩
        rw [h2, pow_succ]
        ring
    split_ifs
    · exact ⟨f, E, hf, rfl⟩
    · exact hstep
    · exact ⟨f, E, hf, rfl⟩
    · exact hstep
  obtain ⟨m, E, hm, he⟩ := hq n.natAbs
  unfold floatOfInt
  simp only
  rw [he]
  split_ifs with hn
  · refine ⟨-(m : Int), E, by simpa using hm, ?_⟩
    push_cast
    rw [zpow_natCast]
    ring
  · refine ⟨(m : Int), E, by simpa using hm, ?_⟩
    push_cast
    rw [zpow_natCast]

theorem clamp_none (s lo hi : ℚ) (h1 : lo ≤ s) (h2 : s ≤ hi) :
    (if (if s < lo then lo else s) > hi then hi else (if s < lo then lo else s)) = s := by
  rw [if_neg (not_lt.mpr h1), if_neg (not_lt.mpr h2)]

theorem encode_int8_of (x : ℚ) (n : Nat) (hn : n ≤ 255)
    (h : roundF32 (roundF32 (x * 127) + 128) = (n : ℚ)) :
    ConvertFloatSample x false 1 = Res.ok [byteOf n 0] := by
  have h1 : (0 : ℚ) ≤ (n : ℚ) := Nat.cast_nonneg n
  have h2 : (n : ℚ) ≤ 255 := by exact_mod_cast hn
  rw [ConvertFloatSample_int8, h, clamp_none _ _ _ h1 h2, castUnsigned_natCast 8 n (by norm_num; omega)]

theorem encode_int16_of (x : ℚ) (n : Nat) (hn : n ≤ 32767) (h : roundF32 (x * 32767) = (n : ℚ)) :
    ConvertFloatSample x false 2 = Res.ok (le16 n) := by
  have h1 : (-32767 : ℚ) ≤ (n : ℚ) := le_trans (by norm_num) (Nat.cast_nonneg n)
  have h2 : (n : ℚ) ≤ 32767 := by exact_mod_cast hn
  rw [ConvertFloatSample_int16, h, clamp_none _ _ _ h1 h2, castUnsigned_natCast 16 n (by norm_num; omega)]

theorem encode_int32_of (x : ℚ) (n : Nat) (hn : n ≤ 2147483648) (h : roundF32 (x * 2147483648) = (n : ℚ)) :
    ConvertFloatSample x false 4 = Res.ok (le32 n) := by
  have h1 : (-2147483648 : ℚ) ≤ (n : ℚ) := le_trans (by norm_num) (Nat.cast_nonneg n)
  have h2 : (n : ℚ) ≤ 2147483648 := by exact_mod_cast hn
  rw [ConvertFloatSample_int32, h, clamp_none _ _ _ h1 h2, castUnsigned_natCast 32 n (by norm_num; omega)]

theorem decode_int8 (hdr : WAVInfo) (v : Byte) (x : ℚ) (hf : hdr.m_is_float = false)
    (hbits : hdr.m_bits = 8)
    (hx : roundF32 (roundF32 (floatOfInt ((v.val : Nat) : Int) - 128) / 127) = x) :
    ConvertWAVSampleToFloat hdr [v] = some x := by
  have e : leVal [v] = v.val := by simp [leVal]
  simp [ConvertWAVSampleToFloat, hf, hbits, e, hx]

theorem decode_int16 (hdr : WAVInfo) (b : List Byte) (x : ℚ) (hf : hdr.m_is_float = false)
    (hbits : hdr.m_bits = 16) (hb : b.length = 2)
    (hx : roundF32 (floatOfInt (toSigned 16 (leVal b)) / 32767) = x) :
    ConvertWAVSampleToFloat hdr b = some x := by
  have ht : List.take 2 b = b := List.take_of_length_le (le_of_eq hb)
  simp [ConvertWAVSampleToFloat, hf, hbits, hb, ht, hx]

/-- Dividing an integer by 2^n - 1 and multiplying the quotient back, both in
`float`, returns the integer when it is not a power of two and lies below
2^n - 1. -/
theorem recip_round_trip (a k n : Nat) (hn : n ≤ 23) (hk : 2 ^ k < a) (hk2 : a < 2 ^ (k + 1))
    (had : a + 1 < 2 ^ n) :
    roundF32 (roundF32 ((a : ℚ) / ((2 : ℚ) ^ n - 1)) * ((2 : ℚ) ^ n - 1)) = (a : ℚ) := by
  have hkn : k + 1 ≤ n := by
    by_contra h
    have h1 : n ≤ k := by omega
    have : 2 ^ n ≤ 2 ^ k := Nat.pow_le_pow_right (by norm_num) h1
    omega
  have hAB : 2 ^ (k + 1) ≤ 2 ^ n := Nat.pow_le_pow_right (by norm_num) hkn
  have hk22 : 2 ^ k ≤ 2 ^ 22 := Nat.pow_le_pow_right (by norm_num) (by omega)
  -- the rational powers
  obtain ⟨P, hP⟩ : ∃ P : ℚ, P = (2 : ℚ) ^ k := ⟨_, rfl⟩
  obtain ⟨D, hD⟩ : ∃ D : ℚ, D = (2 : ℚ) ^ n := ⟨_, rfl⟩
  have hPpos : 0 < P := by rw [hP]; positivity
  have hDpos : 0 < D := by rw [hD]; positivity
  have hPa : P + 1 ≤ (a : ℚ) := by
    have : 2 ^ k + 1 ≤ a := hk
    rw [hP]
    exact_mod_cast this
  have haP : (a : ℚ) + 1 ≤ 2 * P := by
    have : a + 1 ≤ 2 * 2 ^ k := by rw [pow_succ] at hk2; omega
    rw [hP]
    exact_mod_cast this
  have haD : (a : ℚ) + 2 ≤ D := by
    have : a + 2 ≤ 2 ^ n := by omega
    rw [hD]
    exact_mod_cast this
  have hPD : 2 * P ≤ D := by
    have : 2 * 2 ^ k ≤ 2 ^ n := by rw [pow_succ] at hAB; omega
    rw [hP, hD]
    exact_mod_cast this
  have hP22 : P ≤ 4194304 := by
    rw [hP]
    exact_mod_cast hk22
  have hapos : (0 : ℚ) < (a : ℚ) := by linarith
  have hd : (0 : ℚ) < D - 1 := by linarith
  rw [← hD]
  -- the quotient lies in the binade k - n
  have hz1 : (2 : ℚ) ^ ((k : Int) - (n : Int)) = P / D := by rw [zpow_two_nat_sub, hP, hD]
  have hz2 : (2 : ℚ) ^ ((k : Int) - (n : Int) + 1) = 2 * P / D := by
    rw [zpow_add₀ (two_ne_zero), hz1]
    norm_num
    ring
  have hq0 : 0 < (a : ℚ) / (D - 1) := div_pos hapos hd
  have hl : P / D ≤ (a : ℚ) / (D - 1) := by
    rw [div_le_div_iff₀ hDpos hd]
    nlinarith
  have hu : (a : ℚ) / (D - 1) < 2 * P / D := by
    rw [div_lt_div_iff₀ hd hDpos]
    by_cases hc : (a : ℚ) + 2 ≤ 2 * P
    · nlinarith
    · have hc2 : (a : ℚ) + 1 = 2 * P := by
        have h1 : a + 1 ≤ 2 * 2 ^ k := by rw [pow_succ] at hk2; omega
        have h2 : ¬ (a + 2 ≤ 2 * 2 ^ k) := by
          intro h
          apply hc
          rw [hP]
          exact_mod_cast h
        have h3 : a + 1 = 2 * 2 ^ k := by omega
        rw [hP]
        exact_mod_cast h3
      nlinarith
  have hb : binadeOf |(a : ℚ) / (D - 1)| = (k : Int) - (n : Int) := by
    rw [abs_of_pos hq0]
    apply binadeOf_eq
    · rw [hz1]
      exact hl
    · rw [hz2]
      exact hu
  have herr := roundTo_err 24 (-126) ((a : ℚ) / (D - 1)) (ne_of_gt hq0)
  rw [hb, max_eq_left (by omega)] at herr
  have hz3 : (2 : ℚ) ^ ((k : Int) - (n : Int) - ((24 : Nat) : Int)) = P / D / 16777216 := by
    rw [zpow_sub₀ (two_ne_zero), hz1]
    norm_num
  rw [hz3] at herr
  -- the product is within half a unit in the last place of a
  have hy : |roundF32 ((a : ℚ) / (D - 1)) * (D - 1) - (a : ℚ)| < P / 16777216 := by
    have e : roundF32 ((a : ℚ) / (D - 1)) * (D - 1) - (a : ℚ)
        = (roundTo 24 (-126) ((a : ℚ) / (D - 1)) - (a : ℚ) / (D - 1)) * (D - 1) := by
      rw [roundF32]
      field_simp
    rw [e, abs_mul, abs_of_pos hd]
    have h1 : |roundTo 24 (-126) ((a : ℚ) / (D - 1)) - (a : ℚ) / (D - 1)| * (D - 1)
        ≤ P / D / 16777216 * (D - 1) := mul_le_mul_of_nonneg_right herr (le_of_lt hd)
    have h2 : P / D / 16777216 * (D - 1) < P / 16777216 := by
      rw [div_div, div_mul_eq_mul_div, div_lt_div_iff₀ (by positivity) (by norm_num)]
      nlinarith
    linarith
  rw [abs_lt] at hy
  generalize roundF32 ((a : ℚ) / (D - 1)) * (D - 1) = y at hy
  have hypos : 0 < y := by nlinarith
  have hz4 : (2 : ℚ) ^ (max (k : Int) (-126) + 1 - ((24 : Nat) : Int)) = P / 8388608 := by
    rw [max_eq_left (by omega), show (k : Int) + 1 - ((24 : Nat) : Int) = (k : Int) - ((23 : Nat) : Int) by norm_num; ring,
      zpow_two_nat_sub, hP]
    norm_num
  have h := roundTo_eval 24 (-126) y (k : Int) ((a * 2 ^ (23 - k) : Nat) : Int)
    (by
      rw [abs_of_pos hypos, zpow_natCast, ← hP]
      linarith)
    (by
      rw [abs_of_pos hypos, zpow_add₀ (two_ne_zero), zpow_natCast, ← hP]
      norm_num
      linarith)
    (by
      rw [hz4]
      have e2 : (((a * 2 ^ (23 - k) : Nat) : Int) : ℚ) = (a : ℚ) * (8388608 / P) := by
        have : (2 : ℚ) ^ (23 - k) = 8388608 / P := by
          rw [hP, eq_div_iff (by positivity), ← pow_add]
          have : 23 - k + k = 23 := by omega
          rw [this]
          norm_num
        push_cast
        rw [this]
      rw [e2]
      have e3 : y / (P / 8388608) - (a : ℚ) * (8388608 / P) = (y - (a : ℚ)) * (8388608 / P) := by
        field_simp
        ring
      rw [e3, abs_mul, abs_of_pos (by positivity : (0 : ℚ) < 8388608 / P)]
      have : |y - (a : ℚ)| < P / 16777216 := abs_lt.mpr hy
      calc |y - (a : ℚ)| * (8388608 / P) < P / 16777216 * (8388608 / P) :=
            mul_lt_mul_of_pos_right this (by positivity)
        _ = 1 / 2 := by
            field_simp
            ring)
  rw [roundF32, h, hz4]
  have e2 : (((a * 2 ^ (23 - k) : Nat) : Int) : ℚ) = (a : ℚ) * (8388608 / P) := by
    have : (2 : ℚ) ^ (23 - k) = 8388608 / P := by
      rw [hP, eq_div_iff (by positivity), ← pow_add]
      have : 23 - k + k = 23 := by omega
      rw [this]
      norm_num
    push_cast
    rw [this]
  rw [e2]
  field_simp

theorem exists_binade (a : Nat) (ha : 0 < a) : ∃ k : Nat, 2 ^ k ≤ a ∧ a < 2 ^ (k + 1) :=
  ⟨Nat.log2 a, Nat.log2_self_le (by omega), Nat.lt_log2_self⟩

/-- The power-of-two case of the reciprocal round trip, from the case 1. -/
theorem recip_round_trip_pow2 (d c : ℚ) (hd1 : 1 ≤ d) (hd2 : d ≤ 65536) (h1 : roundF32 (1 / d) = c)
    (h2 : roundF32 (c * d) = 1) (hcd : 1 / 2 ≤ c * d) (k : Nat) :
    roundF32 (roundF32 ((2 : ℚ) ^ k / d) * d) = (2 : ℚ) ^ k := by
  have hdpos : 0 < d := by linarith
  have hk1 : (1 : ℚ) ≤ (2 : ℚ) ^ ((k : Nat) : Int) := by
    rw [zpow_natCast]
    exact one_le_pow₀ (by norm_num)
  have hsmall : (2 : ℚ) ^ (-126 : Int) ≤ 1 / 65536 := by
    rw [show (1 : ℚ) / 65536 = (2 : ℚ) ^ (-16 : Int) by norm_num]
    exact zpow_le_zpow_right₀ (by norm_num) (by norm_num)
  have hrec : (1 : ℚ) / 65536 ≤ 1 / d := one_div_le_one_div_of_le hdpos hd2
  have hrpos : (0 : ℚ) < 1 / d := by positivity
  have e1 : (2 : ℚ) ^ k / d = (2 : ℚ) ^ ((k : Nat) : Int) * (1 / d) := by
    rw [zpow_natCast]
    ring
  have s1 : roundF32 ((2 : ℚ) ^ ((k : Nat) : Int) * (1 / d)) = (2 : ℚ) ^ ((k : Nat) : Int) * c := by
    rw [roundF32_zpow_mul, h1]
    · rw [abs_of_pos hrpos]
      linarith
    · rw [abs_of_pos (by positivity)]
      nlinarith
  have hcdpos : 0 < c * d := by linarith
  have s2 : roundF32 ((2 : ℚ) ^ ((k : Nat) : Int) * (c * d)) = (2 : ℚ) ^ ((k : Nat) : Int) * 1 := by
    rw [roundF32_zpow_mul, h2]
    · rw [abs_of_pos hcdpos]
      exact le_trans hsmall (le_trans (by norm_num) hcd)
    · rw [abs_of_pos (by positivity)]
      exact le_trans hsmall (le_trans (by norm_num) (le_trans hcd
        (le_mul_of_one_le_left (le_of_lt hcdpos) hk1)))
  rw [e1, s1, mul_assoc, s2, mul_one, zpow_natCast]

theorem recip_127 : roundF32 (1 / 127) = 8454660 / 1073741824 ∧
    roundF32 (8454660 / 1073741824 * 127) = 1 := by
  constructor
  · have h := roundTo_eval 24 (-126) ((1 : ℚ) / 127) (-7) 8454660
      (by norm_num [abs_of_pos]) (by norm_num [abs_of_pos]) (by norm_num [abs_lt])
    rw [roundF32, h]
    norm_num
  · have h := roundTo_eval 24 (-126) ((8454660 : ℚ) / 1073741824 * 127) (-1) 16777216
      (by norm_num [abs_of_pos]) (by norm_num [abs_of_pos]) (by norm_num [abs_lt])
    rw [roundF32, h]
    norm_num

theorem recip_32767 : roundF32 (1 / 32767) = 8388864 / 274877906944 ∧
    roundF32 (8388864 / 274877906944 * 32767) = 1 := by
  constructor
  · have h := roundTo_eval 24 (-126) ((1 : ℚ) / 32767) (-15) 8388864
      (by norm_num [abs_of_pos]) (by norm_num [abs_of_pos]) (by norm_num [abs_lt])
    rw [roundF32, h]
    norm_num
  · have h := roundTo_eval 24 (-126) ((8388864 : ℚ) / 274877906944 * 32767) (-1) 16777216
      (by norm_num [abs_of_pos]) (by norm_num [abs_of_pos]) (by norm_num [abs_lt])
    rw [roundF32, h]
    norm_num

/-- Dividing by 32767 and multiplying back in `float` returns every integer of
[0, 32767]. -/
theorem scale16_round_trip (a : Nat) (ha : a ≤ 32767) :
    roundF32 (roundF32 ((a : ℚ) / 32767) * 32767) = (a : ℚ) := by
  rcases Nat.eq_zero_or_pos a with h0 | hpos
  · rw [h0]
    simp [roundF32_zero]
  by_cases hd : a = 32767
  · rw [hd]
    have e : ((32767 : Nat) : ℚ) / 32767 = ((1 : Nat) : ℚ) := by norm_num
    rw [e, roundF32_natCast 1 (by norm_num)]
    have e2 : ((1 : Nat) : ℚ) * 32767 = ((32767 : Nat) : ℚ) := by norm_num
    rw [e2, roundF32_natCast 32767 (by norm_num)]
  obtain ⟨k, hk1, hk2⟩ := exists_binade a hpos
  by_cases hp : a = 2 ^ k
  · have := recip_round_trip_pow2 32767 _ (by norm_num) (by norm_num) recip_32767.1 recip_32767.2
      (by norm_num) k
    rw [hp]
    push_cast
    exact this
  · have h := recip_round_trip a k 15 (by norm_num) (by omega) hk2 (by norm_num; omega)
    have e : (2 : ℚ) ^ 15 - 1 = 32767 := by norm_num
    rw [e] at h
    exact h

/-- Dividing by 127 and multiplying back in `float` returns every integer of
[-128, 128]. -/
theorem scale8_round_trip (w : Int) (hw : w.natAbs ≤ 128) :
    roundF32 (roundF32 ((w : ℚ) / 127) * 127) = (w : ℚ) := by
  have key : ∀ a : Nat, a ≤ 128 → roundF32 (roundF32 ((a : ℚ) / 127) * 127) = (a : ℚ) := by
    intro a ha
    rcases Nat.eq_zero_or_pos a with h0 | hpos
    · rw [h0]
      simp [roundF32_zero]
    by_cases hd : a = 127
    · rw [hd]
      have e : ((127 : Nat) : ℚ) / 127 = ((1 : Nat) : ℚ) := by norm_num
      rw [e, roundF32_natCast 1 (by norm_num)]
      have e2 : ((1 : Nat) : ℚ) * 127 = ((127 : Nat) : ℚ) := by norm_num
      rw [e2, roundF32_natCast 127 (by norm_num)]
    obtain ⟨k, hk1, hk2⟩ := exists_binade a hpos
    by_cases hp : a = 2 ^ k
    · have := recip_round_trip_pow2 127 _ (by norm_num) (by norm_num) recip_127.1 recip_127.2
        (by norm_num) k
      rw [hp]
      push_cast
      exact this
    · have h128 : a ≠ 128 := by
        intro h
        have hk7 : k = 7 := by
          rw [h] at hk1 hk2
          have h1 : k < 8 := (Nat.pow_lt_pow_iff_right (by norm_num : 1 < 2)).mp (by omega : 2 ^ k < 2 ^ 8)
          have h2 : 6 < k + 1 := (Nat.pow_lt_pow_iff_right (by norm_num : 1 < 2)).mp (by omega : 2 ^ 6 < 2 ^ (k + 1))
          have h3 : 7 < k + 1 := (Nat.pow_lt_pow_iff_right (by norm_num : 1 < 2)).mp (by omega : 2 ^ 7 < 2 ^ (k + 1))
          omega
        apply hp
        rw [h, hk7]
        norm_num
      have h := recip_round_trip a k 7 (by norm_num) (by omega) hk2 (by norm_num; omega)
      have e : (2 : ℚ) ^ 7 - 1 = 127 := by norm_num
      rw [e] at h
      exact h
  obtain ⟨a, rfl | rfl⟩ := Int.eq_nat_or_neg w
  · have ha : a ≤ 128 := by simpa using hw
    have hk := key a ha
    rw [Int.cast_natCast]
    exact hk
  · have ha : a ≤ 128 := by simpa using hw
    have hk := key a ha
    rw [Int.cast_neg, Int.cast_natCast, neg_div, roundF32_neg, neg_mul, roundF32_neg, hk]

/-! ## C2: saving and loading a waveform -/

theorem encode_full_scale : ConvertFloatSample 1 false 4 = Res.ok [0, 0, 0, 128] := by
  have hr : roundF32 (1 * 2147483648) = 2147483648 := by
    have := roundF32_pow2_mul 1 31 (by norm_num) (by norm_num)
    norm_num at this
    norm_num
    exact this
  have e1 : ¬ ((2147483648 : ℚ) < -2147483648) := by norm_num
  have e2 : ¬ ((2147483648 : ℚ) > 2147483648) := by norm_num
  have hc : castUnsigned 32 (2147483648 : ℚ) = some 2147483648 := by
    have := castUnsigned_natCast 32 2147483648 (by norm_num)
    simpa using this
  have hb : le32 2147483648 = [0, 0, 0, 128] := by decide
  rw [ConvertFloatSample_int32, hr]
  simp only [e1, e2, if_false, hc, hb]

theorem save_single_sample (x : ℚ) (rate : Nat) (b file : List Byte)
    (h : ConvertFloatSample x false 4 = Res.ok b)
    (hw : WAVFileWrite (WAVInfo.mk rate 1 32 false 1) b = Res.ok file) :
    WaveformSaveToWAV (Waveform.mk [x] rate 1) none false 4 = Res.ok (true, some file) := by
  have h3 : convertSamples false 4 [x] = Res.ok [b] := by
    rw [convertSamples, h, convertSamples]
  have h4 : (Waveform.mk [x] rate 1).GetNumSamples = 1 := by
    simp [Waveform.GetNumSamples]
  have h5 : List.take (1 * 1) [x] = [x] := rfl
  have h7 : [b].flatten = b := by simp
  simp only [WaveformSaveToWAV, cancelled, Waveform.GetNumChannels, Waveform.GetRate, h4, h5]
  norm_num [U32]
  rw [h3]
  simp only [h7, hw]

theorem load_single_int32 (x : ℚ) (b : List Byte) (file : List Byte) (rate : Nat)
    (h1 : WAVFileReadHeader 1 file = Res.ok (WAVInfo.mk rate 1 32 false 1))
    (h2 : WAVFileReadSamples 1 file 4 = Res.ok b) (hb : b.length = 4)
    (hx : roundF32 (floatOfInt (toSigned 32 (leVal b)) / 2147483648) = x) :
    WaveformLoadFromWAV 1 file Waveform.fresh none = Res.ok (true, Waveform.mk [x] rate 1) := by
  have ht : List.take 4 b = b := List.take_of_length_le (le_of_eq hb)
  have hd : (4 - b.length) = 0 := by omega
  simp [WaveformLoadFromWAV, cancelled, h1, Waveform.SetRate, U32, h2, Waveform.Populate,
    Waveform.fresh, SIZE, vectorMaxSize, ConvertWAVSampleToFloat, hb, hx, ht, collect]

/-- Claim C2 at a failing input.  A mono waveform holding the single sample
+1.0 is saved as 32-bit integer WAV and loaded back: the scaled value
2147483648 passes the clamp, is stored as the word 0x80000000, and is read
back as -1.0, so the loaded sample differs from the original by 2, which is
not below the quantization step 1/2147483647. -/
theorem save_load_int32_full_scale :
    WaveformSaveToWAV (Waveform.mk [1] 48000 1) none false 4 = Res.ok (true, some fullScaleFile) ∧
      WaveformLoadFromWAV 1 fullScaleFile Waveform.fresh none
        = Res.ok (true, Waveform.mk [-1] 48000 1) ∧
      ¬ (|(-1 : ℚ) - 1| < 1 / 2147483647) := by
  refine ⟨?_, ?_, by norm_num [abs_of_neg]⟩
  · have h2 : WAVFileWrite (WAVInfo.mk 48000 1 32 false 1) [0, 0, 0, 128] = Res.ok fullScaleFile := by
      decide
    exact save_single_sample 1 48000 _ _ encode_full_scale h2
  · have h1 : WAVFileReadHeader 1 fullScaleFile = Res.ok (WAVInfo.mk 48000 1 32 false 1) := by decide
    have h2 : WAVFileReadSamples 1 fullScaleFile 4 = Res.ok [0, 0, 0, 128] := by decide
    have h3 : leVal [0, 0, 0, 128] = 2147483648 := by decide
    have h4 : toSigned 32 2147483648 = -2147483648 := by decide
    have h5 : floatOfInt (-2147483648) = -2147483648 := by norm_num [floatOfInt, Nat.log2]
    have h6 : roundF32 (-1) = -1 := by
      have := roundF32_intCast (-1) (by norm_num)
      simpa using this
    refine load_single_int32 (-1) [0, 0, 0, 128] fullScaleFile 48000 h1 h2 rfl ?_
    rw [h3, h4, h5]
    norm_num
    exact h6
/-! ## C3: Normalize -/

theorem peak_scan (data : List ℚ) (b n : Nat) (hb : b + n ≤ data.length) (h32 : data.length < U32) :
    ∃ p, (List.range n).foldlM
        (fun local_peak subsample =>
          (data[(b + subsample) % U32]?).map fun x => if |x| > local_peak then |x| else local_peak)
        (0 : ℚ) = some p ∧ 0 ≤ p ∧ (∀ s x, s < n → data[b + s]? = some x → |x| ≤ p) ∧
        (p = 0 ∨ ∃ s x, s < n ∧ data[b + s]? = some x ∧ p = |x|) := by
  apply foldlM_range_inv _ (fun i p => 0 ≤ p ∧ (∀ s x, s < i → data[b + s]? = some x → |x| ≤ p) ∧
    (p = 0 ∨ ∃ s x, s < i ∧ data[b + s]? = some x ∧ p = |x|))
  · exact ⟨le_refl 0, fun s x hs _ => absurd hs (Nat.not_lt_zero s), Or.inl rfl⟩
  · intro i p hi ⟨hp0, hpb, hpw⟩
    have hlt : b + i < data.length := by omega
    have hmod : (b + i) % U32 = b + i := Nat.mod_eq_of_lt (by omega)
    rw [hmod, List.getElem?_eq_getElem hlt]
    simp only [Option.map_some']
    refine ⟨_, rfl, ?_, ?_, ?_⟩
    · split_ifs
      · exact abs_nonneg _
      · exact hp0
    · intro s x hs hx
      rcases Nat.lt_succ_iff_lt_or_eq.mp hs with h | h
      · have := hpb s x h hx
        split_ifs with hc
        · exact le_trans this (le_of_lt hc)
        · exact this
      · subst h
        rw [List.getElem?_eq_getElem hlt] at hx
        simp only [Option.some.injEq] at hx
        subst hx
        split_ifs with hc
        · exact le_refl _
        · exact not_lt.mp hc
    · split_ifs with hc
      · exact Or.inr ⟨i, data[b + i], Nat.lt_succ_self i, List.getElem?_eq_getElem hlt, rfl⟩
      · rcases hpw with h | ⟨s, x, hs, hx, hpx⟩
        · exact Or.inl h
        · exact Or.inr ⟨s, x, Nat.lt_succ_of_lt hs, hx, hpx⟩

/-- Relative error of one `float` rounding in the normal range. -/
theorem roundF32_rel (q : ℚ) (h : (1 : ℚ) / 2 ^ 126 ≤ |q|) : |roundF32 q - q| ≤ |q| / 16777216 := by
  have e : (2 : ℚ) ^ (-126 : Int) = 1 / 2 ^ 126 := by
    rw [zpow_neg, one_div]
    norm_cast
  have h1 := roundTo_rel_err 24 (-126) q (by rw [e]; exact h)
  have e2 : (2 : ℚ) ^ (-((24 : Nat) : Int)) = 1 / 16777216 := by
    rw [zpow_neg, one_div]
    norm_num
  rw [e2] at h1
  rw [roundF32]
  linarith

/-- Error of one `float` rounding, subnormal results included. -/
theorem roundF32_abs (q : ℚ) : |roundF32 q - q| ≤ |q| / 16777216 + 1 / 2 ^ 150 := by
  have h1 := roundTo_abs_err 24 (-126) q
  have e2 : (2 : ℚ) ^ (-((24 : Nat) : Int)) = 1 / 16777216 := by
    rw [zpow_neg, one_div]
    norm_num
  have e3 : (2 : ℚ) ^ ((-126 : Int) - ((24 : Nat) : Int)) = 1 / 2 ^ 150 := by
    rw [show ((-126 : Int) - ((24 : Nat) : Int)) = -((150 : Nat) : Int) by norm_num, zpow_neg, one_div,
      zpow_natCast]
  rw [e2, e3] at h1
  rw [roundF32]
  linarith

theorem roundF32_hundredth : roundF32 (1 / 100) = 5368709 / 536870912 := by
  have h := roundTo_eval 24 (-126) ((1 : ℚ) / 100) (-7) 10737418
    (by norm_num [abs_of_pos]) (by norm_num [abs_of_pos]) (by norm_num [abs_lt])
  rw [roundF32, h]
  norm_num

theorem roundF32_fiftieth : roundF32 (2 / 100) = 5368709 / 268435456 := by
  have h := roundTo_eval 24 (-126) ((2 : ℚ) / 100) (-6) 10737418
    (by norm_num [abs_of_pos]) (by norm_num [abs_of_pos]) (by norm_num [abs_lt])
  rw [roundF32, h]
  norm_num

theorem roundF32_gain_up : roundF32 (105 / 100) = 4404019 / 4194304 := by
  have h := roundTo_eval 24 (-126) ((105 : ℚ) / 100) 0 8808038
    (by norm_num [abs_of_pos]) (by norm_num [abs_of_pos]) (by norm_num [abs_lt])
  rw [roundF32, h]
  norm_num

/-- The gain that a chunk is scaled with: it stays in [0, 128] and the peak
times the gain exceeds the ceiling by at most the relative error 2^-23. -/
theorem gain_step (L p g : ℚ) (hL1 : 1 / 131072 ≤ L) (hL2 : L ≤ 1) (hp0 : 0 ≤ p)
    (hp : p ≤ 2 ^ 100) (hg0 : 0 ≤ g) (hg : g ≤ 128) :
    0 ≤ (if roundF32 (p * (if p < L ∧ g < 100 then roundF32 (g * roundF32 (105 / 100)) else g)) > L then
          (if p < roundF32 (2 / 100) then roundF32 (L / roundF32 (2 / 100)) else roundF32 (L / p))
        else (if p < L ∧ g < 100 then roundF32 (g * roundF32 (105 / 100)) else g)) ∧
      (if roundF32 (p * (if p < L ∧ g < 100 then roundF32 (g * roundF32 (105 / 100)) else g)) > L then
          (if p < roundF32 (2 / 100) then roundF32 (L / roundF32 (2 / 100)) else roundF32 (L / p))
        else (if p < L ∧ g < 100 then roundF32 (g * roundF32 (105 / 100)) else g)) ≤ 128 ∧
      p * (if roundF32 (p * (if p < L ∧ g < 100 then roundF32 (g * roundF32 (105 / 100)) else g)) > L then
          (if p < roundF32 (2 / 100) then roundF32 (L / roundF32 (2 / 100)) else roundF32 (L / p))
        else (if p < L ∧ g < 100 then roundF32 (g * roundF32 (105 / 100)) else g))
        ≤ L * (1 + 1 / 8388608) := by
  have hLpos : 0 < L := lt_of_lt_of_le (by norm_num) hL1
  rw [roundF32_gain_up, roundF32_fiftieth]
  have hg1 : 0 ≤ (if p < L ∧ g < 100 then roundF32 (g * (4404019 / 4194304)) else g) ∧
      (if p < L ∧ g < 100 then roundF32 (g * (4404019 / 4194304)) else g) ≤ 128 := by
    split_ifs with h
    · constructor
      · exact roundF32_nonneg _ (mul_nonneg hg0 (by norm_num))
      · have hq : |g * (4404019 / 4194304)| ≤ (2 : ℚ) ^ (7 : Int) := by
          rw [abs_of_nonneg (mul_nonneg hg0 (by norm_num))]
          have := h.2
          norm_num
          linarith
        have := roundF32_abs_le_pow2 _ 7 (by norm_num) hq
        have e : (2 : ℚ) ^ (7 : Int) = 128 := by norm_num
        rw [e] at this
        exact le_trans (le_abs_self _) this
    · exact ⟨hg0, hg⟩
  generalize (if p < L ∧ g < 100 then roundF32 (g * (4404019 / 4194304)) else g) = g1 at hg1 ⊢
  obtain ⟨hg10, hg11⟩ := hg1
  have hsmall : (1 : ℚ) / 2 ^ 126 ≤ 1 / 2 ^ 117 :=
    one_div_le_one_div_of_le (by positivity) (pow_le_pow_right₀ (by norm_num) (by norm_num))
  have hquot : ∀ d : ℚ, 5368709 / 268435456 ≤ d → d ≤ 2 ^ 100 →
      0 ≤ roundF32 (L / d) ∧ roundF32 (L / d) ≤ 128 ∧ d * roundF32 (L / d) ≤ L * (1 + 1 / 8388608) := by
    intro d hd1 hd2
    have hdpos : 0 < d := lt_of_lt_of_le (by norm_num) hd1
    have hqpos : 0 < L / d := div_pos hLpos hdpos
    have hqle : L / d ≤ 64 := by
      rw [div_le_iff₀ hdpos]
      nlinarith
    have hqge : (1 : ℚ) / 2 ^ 126 ≤ |L / d| := by
      rw [abs_of_pos hqpos]
      apply le_trans hsmall
      rw [le_div_iff₀ hdpos]
      have h1 : (1 : ℚ) / 2 ^ 117 * d ≤ 1 / 2 ^ 117 * 2 ^ 100 :=
        mul_le_mul_of_nonneg_left hd2 (by positivity)
      have h2 : (1 : ℚ) / 2 ^ 117 * 2 ^ 100 = 1 / 131072 := by norm_num
      linarith
    have herr := roundF32_rel (L / d) hqge
    rw [abs_of_pos hqpos, abs_le] at herr
    have h0 := roundF32_nonneg (L / d) (le_of_lt hqpos)
    refine ⟨h0, by linarith, ?_⟩
    have h3 : roundF32 (L / d) ≤ L / d * (1 + 1 / 16777216) := by linarith
    have h4 : d * roundF32 (L / d) ≤ d * (L / d * (1 + 1 / 16777216)) :=
      mul_le_mul_of_nonneg_left h3 (le_of_lt hdpos)
    have h5 : d * (L / d * (1 + 1 / 16777216)) = L * (1 + 1 / 16777216) := by
      field_simp
      ring
    rw [h5] at h4
    linarith
  split_ifs with h1 h2
  · -- the peak is below 0.02f
    obtain ⟨a1, a2, a3⟩ := hquot (5368709 / 268435456) (le_refl _) (by norm_num)
    refine ⟨a1, a2, ?_⟩
    have : p * roundF32 (L / (5368709 / 268435456))
        ≤ 5368709 / 268435456 * roundF32 (L / (5368709 / 268435456)) :=
      mul_le_mul_of_nonneg_right (le_of_lt h2) a1
    linarith
  · exact hquot p (not_lt.mp h2) hp
  · refine ⟨hg10, hg11, ?_⟩
    have hle : roundF32 (p * g1) ≤ L := not_lt.mp h1
    have herr := roundF32_abs (p * g1)
    have hq0 : 0 ≤ p * g1 := mul_nonneg hp0 hg10
    rw [abs_of_nonneg hq0, abs_le] at herr
    have hT : (1 : ℚ) / 2 ^ 150 ≤ 1 / 4398046511104 := by norm_num
    linarith [herr.1]

/-- A sample scaled with the gain of its chunk ends within the relative error
2^-22 of the ceiling. -/
theorem scaled_sample_bound (L x p g : ℚ) (hL1 : 1 / 131072 ≤ L) (hx : |x| ≤ p) (hg0 : 0 ≤ g)
    (hpg : p * g ≤ L * (1 + 1 / 8388608)) :
    |roundF32 (x * g)| ≤ L * (1 + 1 / 4194304) := by
  have hq : |x * g| ≤ L * (1 + 1 / 8388608) := by
    rw [abs_mul, abs_of_nonneg hg0]
    exact le_trans (mul_le_mul_of_nonneg_right hx hg0) hpg
  have herr := roundF32_abs (x * g)
  have h1 : |roundF32 (x * g)| ≤ |x * g| + |roundF32 (x * g) - x * g| := by
    have := abs_add (x * g) (roundF32 (x * g) - x * g)
    have e : x * g + (roundF32 (x * g) - x * g) = roundF32 (x * g) := by ring
    rw [e] at this
    exact this
  have hT : (1 : ℚ) / 2 ^ 150 ≤ 1 / 4398046511104 := by norm_num
  linarith

theorem normalizeChunk_whole (L : ℚ) (hL1 : 1 / 131072 ≤ L) (hL2 : L ≤ 1) (C k : Nat) (hC : 1 ≤ C)
    (data : List ℚ) (gain : ℚ) (i : Nat) (hi : i < k) (hlen : data.length = k * C)
    (h32 : data.length < U32) (hg0 : 0 ≤ gain) (hg : gain ≤ 128)
    (hB : ∀ (j : Nat) (x : ℚ), data[j]? = some x → |x| ≤ 2 ^ 100)
    (hdone : ∀ (j : Nat) (x : ℚ), j < i * C → data[j]? = some x → |x| ≤ L * (1 + 1 / 4194304)) :
    ∃ st, normalizeChunk L C k (data, gain) i = some st ∧ st.1.length = k * C ∧ 0 ≤ st.2 ∧ st.2 ≤ 128 ∧
      (∀ (j : Nat) (x : ℚ), st.1[j]? = some x → |x| ≤ 2 ^ 100) ∧
      ∀ (j : Nat) (x : ℚ), j < (i + 1) * C → st.1[j]? = some x → |x| ≤ L * (1 + 1 / 4194304) := by
  have hiC : i * C + C ≤ k * C := by
    have : (i + 1) * C ≤ k * C := Nat.mul_le_mul_right C hi
    simpa [Nat.add_mul] using this
  have hkU : k < U32 := by
    have : k * 1 ≤ k * C := Nat.mul_le_mul_left k hC
    omega
  have hmod : i * C % U32 = i * C := Nat.mod_eq_of_lt (by omega)
  obtain ⟨p, hpeak, hp0, hpb, hpw⟩ := peak_scan data (i * C) C (by omega) h32
  have hp100 : p ≤ 2 ^ 100 := by
    rcases hpw with h | ⟨s, x, _, hx, hpx⟩
    · rw [h]
      positivity
    · rw [hpx]
      exact hB _ x hx
  obtain ⟨hg2, hg2le, hpg⟩ := gain_step L p gain hL1 hL2 hp0 hp100 hg0 hg
  have hlast : (k + U32 - 1) % U32 = k - 1 := by
    have : k + U32 - 1 = (k - 1) + U32 := by omega
    rw [this, Nat.add_mod_right]
    exact Nat.mod_eq_of_lt (by omega)
  have hcount : (if i = (k + U32 - 1) % U32 then (data.length + SIZE - i * C) % SIZE else C) = C := by
    rw [hlast]
    split_ifs with h
    · have h1 : i * C + C = k * C := by
        subst h
        have : k - 1 + 1 = k := by omega
        calc (k - 1) * C + C = (k - 1 + 1) * C := by ring
          _ = k * C := by rw [this]
      have h2 : data.length + SIZE - i * C = C + SIZE := by omega
      rw [h2, Nat.add_mod_right]
      have hUS : U32 < SIZE := by norm_num [U32, SIZE]
      have hCk : C ≤ k * C := by omega
      exact Nat.mod_eq_of_lt (by omega)
    · rfl
  unfold normalizeChunk
  simp only [hmod, hpeak, hcount]
  have hnot : ¬ (i * C + C > data.length) := by omega
  simp only [hnot, if_false]
  generalize (if roundF32 (p * (if p < L ∧ gain < 100 then roundF32 (gain * roundF32 (105 / 100)) else gain)) > L
      then (if p < roundF32 (2 / 100) then roundF32 (L / roundF32 (2 / 100)) else roundF32 (L / p))
      else (if p < L ∧ gain < 100 then roundF32 (gain * roundF32 (105 / 100)) else gain)) = g2 at hg2 hg2le hpg ⊢
  have hfin : ¬ (|g2| > FLT_MAX) := by
    rw [abs_of_nonneg hg2]
    have h128 : (128 : ℚ) ≤ FLT_MAX := by norm_num [FLT_MAX]
    linarith
  simp only [hfin, if_false]
  have hLbound : L * (1 + 1 / 4194304) ≤ 2 := by linarith
  have hstore : ∀ j x, data[j]? = some x → i * C ≤ j ∧ j < i * C + C →
      |roundF32 (x * g2)| ≤ L * (1 + 1 / 4194304) := by
    intro j x hx hin
    have hy : |x| ≤ p := by
      have e : i * C + (j - i * C) = j := by omega
      exact hpb (j - i * C) x (by omega) (by rw [e]; exact hx)
    exact scaled_sample_bound L x p g2 hL1 hy hg2 hpg
  rw [collect_mapIdx _ (fun j x => if i * C ≤ j ∧ j < i * C + C then roundF32 (x * g2) else x) data (by
    intro j x hx
    simp only
    split_ifs with hin
    · apply finite32_of_le
      have h2 : (2 : ℚ) ≤ FLT_MAX := by norm_num [FLT_MAX]
      exact le_trans (hstore j x hx hin) (le_trans hLbound h2)
    · rfl)]
  refine ⟨_, rfl, by simp [hlen], hg2, hg2le, ?_, ?_⟩
  · intro j x hx
    simp only [List.getElem?_mapIdx] at hx
    cases hd : data[j]? with
    | none => simp [hd] at hx
    | some y =>
      simp only [hd, Option.map_some', Option.some.injEq] at hx
      by_cases hin : i * C ≤ j ∧ j < i * C + C
      · rw [if_pos hin] at hx
        rw [← hx]
        have h2 : (2 : ℚ) ≤ 2 ^ 100 := by norm_num
        exact le_trans (hstore j y hd hin) (le_trans hLbound h2)
      · rw [if_neg hin] at hx
        rw [← hx]
        exact hB j y hd
  · intro j x hj hx
    simp only [List.getElem?_mapIdx] at hx
    cases hd : data[j]? with
    | none => simp [hd] at hx
    | some y =>
      simp only [hd, Option.map_some', Option.some.injEq] at hx
      by_cases hin : i * C ≤ j ∧ j < i * C + C
      · rw [if_pos hin] at hx
        rw [← hx]
        exact hstore j y hd hin
      · rw [if_neg hin] at hx
        rw [← hx]
        have hj' : j < i * C := by
          have : (i + 1) * C = i * C + C := by ring
          omega
        exact hdone j y hj' hd

theorem normalize_whole_chunks_bound (powf : ℚ → ℚ → ℚ) (w : Waveform) (dbLevel : ℚ) (C k : Nat)
    (hdb : -100 ≤ dbLevel ∧ dbLevel ≤ 0)
    (hL : 1 / 131072 ≤ powf 10 (roundF32 (dbLevel / 20)) ∧ powf 10 (roundF32 (dbLevel / 20)) ≤ 1)
    (hC : truncQ (roundF32 (roundF32 (roundF32 (w.m_rate : ℚ) * roundF32 (1 / 100))
      * roundF32 (w.m_numChannels : ℚ))) = (C : Int))
    (hC1 : 1 ≤ C) (hk : 1 ≤ k) (hlen : w.m_data.length = k * C) (h32 : w.m_data.length < U32)
    (hB : ∀ x ∈ w.m_data, |x| ≤ 2 ^ 100) :
    ∃ w', Waveform.Normalize powf w dbLevel = some w' ∧ w'.m_rate = w.m_rate ∧
      w'.m_numChannels = w.m_numChannels ∧ w'.m_data.length = w.m_data.length ∧
      ∀ (j : Nat) (x : ℚ), w'.m_data[j]? = some x →
        |x| ≤ powf 10 (roundF32 (dbLevel / 20)) * (1 + 1 / 4194304) := by
  obtain ⟨hdb1, hdb2⟩ := hdb
  obtain ⟨hL1, hL2⟩ := hL
  have hne : w.m_data ≠ [] := by
    intro h
    rw [h] at hlen
    have : 1 * 1 ≤ k * C := Nat.mul_le_mul hk hC1
    simp at hlen
    omega
  have hch : ¬ w.m_numChannels < 1 := by
    intro h
    have h0 : w.m_numChannels = 0 := by omega
    rw [h0] at hC
    simp [truncQ, roundF32_zero] at hC
    omega
  have hrate : ¬ w.m_rate < 1 := by
    intro h
    have h0 : w.m_rate = 0 := by omega
    rw [h0] at hC
    simp [truncQ, roundF32_zero] at hC
    omega
  have hkC : k * C / C = k := Nat.mul_div_cancel k (by omega)
  have hkU : k < U32 := by
    have : k * 1 ≤ k * C := Nat.mul_le_mul_left k hC1
    omega
  have hCU : C < U32 := by
    have : 1 * C ≤ k * C := Nat.mul_le_mul_right C hk
    omega
  obtain ⟨st, hfold, hlen', _, _, _, hbound⟩ :=
    foldlM_range_inv (normalizeChunk (powf 10 (roundF32 (dbLevel / 20))) C k)
      (fun i st => st.1.length = k * C ∧ 0 ≤ st.2 ∧ st.2 ≤ 128 ∧
        (∀ (j : Nat) (x : ℚ), st.1[j]? = some x → |x| ≤ 2 ^ 100) ∧
        ∀ (j : Nat) (x : ℚ), j < i * C → st.1[j]? = some x →
          |x| ≤ powf 10 (roundF32 (dbLevel / 20)) * (1 + 1 / 4194304))
      (w.m_data, 1) k
      ⟨hlen, by norm_num, by norm_num, fun j x hx => hB x (List.getElem?_mem hx),
        fun j x hj _ => absurd hj (by simp)⟩
      (fun i st hi ⟨h1, h2, h3, h4, h5⟩ =>
        normalizeChunk_whole (powf 10 (roundF32 (dbLevel / 20))) hL1 hL2 C k hC1 st.1 st.2 i hi h1
          (by rw [h1, ← hlen]; exact h32) h2 h3 h4 h5)
  refine ⟨{ w with m_data := st.1 }, ?_, rfl, rfl, by simp [hlen', hlen], ?_⟩
  · unfold Waveform.Normalize
    have e1 : (if dbLevel > 0 then 0 else dbLevel) = dbLevel := if_neg (not_lt.mpr hdb2)
    have e2 : (if dbLevel < -100 then -100 else dbLevel) = dbLevel := if_neg (not_lt.mpr hdb1)
    have e3 : ¬ ((C : Int) ≥ (U32 : Int)) := by
      have : (C : Int) < (U32 : Int) := by exact_mod_cast hCU
      omega
    have e4 : ¬ (C = 0) := by omega
    have e5 : k % U32 = k := Nat.mod_eq_of_lt hkU
    simp only [e1, e2, hne, hch, hrate, or_self, if_false, hC, e3, Int.toNat_ofNat, e4, hlen, hkC, e5, hfold,
      Option.map_some']
  · intro j x hx
    have hj : j < k * C := by
      have := List.getElem?_eq_some_iff.mp hx
      obtain ⟨h, _⟩ := this
      simpa [hlen'] using h
    exact hbound j x hj hx

/-- When the chunk count is computed as zero, `Normalize` changes nothing. -/
theorem Normalize_no_chunks (powf : ℚ → ℚ → ℚ) (w : Waveform) (dbLevel : ℚ) (C : Nat)
    (hne : w.m_data ≠ []) (hch : 1 ≤ w.m_numChannels) (hrate : 1 ≤ w.m_rate)
    (hC : truncQ (roundF32 (roundF32 (roundF32 (w.m_rate : ℚ) * roundF32 (1 / 100))
      * roundF32 (w.m_numChannels : ℚ))) = (C : Int))
    (hC1 : 1 ≤ C) (hCU : C < U32) (hzero : w.m_data.length / C % U32 = 0) :
    Waveform.Normalize powf w dbLevel = some w := by
  have e3 : ¬ ((C : Int) ≥ (U32 : Int)) := by
    have : (C : Int) < (U32 : Int) := by exact_mod_cast hCU
    omega
  have e4 : ¬ (C = 0) := by omega
  have h4 : ¬ (w.m_numChannels < 1) := by omega
  have h5 : ¬ (w.m_rate < 1) := by omega
  unfold Waveform.Normalize
  simp only [hne, h4, h5, or_self, if_false, hC, e3, Int.toNat_ofNat, e4, hzero, List.range_zero,
    List.foldlM_nil]
  rfl

/-- The chunk length computed for a mono buffer at 100 Hz is 1. -/
theorem chunk_length_100_mono :
    truncQ (roundF32 (roundF32 (roundF32 ((100 : Nat) : ℚ) * roundF32 (1 / 100)) * roundF32 ((1 : Nat) : ℚ)))
      = ((1 : Nat) : Int) := by
  have h1 : roundF32 ((100 : ℚ) * (5368709 / 536870912)) = 1 := by
    have h := roundTo_eval 24 (-126) ((100 : ℚ) * (5368709 / 536870912)) (-1) 16777216
      (by norm_num [abs_of_pos]) (by norm_num [abs_of_pos]) (by norm_num [abs_lt])
    rw [roundF32, h]
    norm_num
  have e : ((100 : Nat) : ℚ) = 100 := by norm_num
  rw [roundF32_natCast 100 (by norm_num), roundF32_natCast 1 (by norm_num), roundF32_hundredth, e, h1]
  have e2 : (1 : ℚ) * ((1 : Nat) : ℚ) = ((1 : Nat) : ℚ) := by norm_num
  rw [e2, roundF32_natCast 1 (by norm_num), truncQ_natCast]

/-- The chunk length computed for a stereo buffer at 100 Hz is 2. -/
theorem chunk_length_100_stereo :
    truncQ (roundF32 (roundF32 (roundF32 ((100 : Nat) : ℚ) * roundF32 (1 / 100)) * roundF32 ((2 : Nat) : ℚ)))
      = ((2 : Nat) : Int) := by
  have h1 : roundF32 ((100 : ℚ) * (5368709 / 536870912)) = 1 := by
    have h := roundTo_eval 24 (-126) ((100 : ℚ) * (5368709 / 536870912)) (-1) 16777216
      (by norm_num [abs_of_pos]) (by norm_num [abs_of_pos]) (by norm_num [abs_lt])
    rw [roundF32, h]
    norm_num
  have e : ((100 : Nat) : ℚ) = 100 := by norm_num
  rw [roundF32_natCast 100 (by norm_num), roundF32_natCast 2 (by norm_num), roundF32_hundredth, e, h1]
  have e2 : (1 : ℚ) * ((2 : Nat) : ℚ) = ((2 : Nat) : ℚ) := by norm_num
  rw [e2, roundF32_natCast 2 (by norm_num), truncQ_natCast]

theorem powfInt_zero : powfInt 10 (roundF32 (0 / 20)) = 1 := by
  have e : ((0 : ℚ) / 20) = 0 := by norm_num
  rw [e, roundF32_zero, powfInt]
  have e2 : (10 : ℚ) ^ ⌊(0 : ℚ)⌋ = ((1 : Nat) : ℚ) := by norm_num
  rw [e2, roundF32_natCast 1 (by norm_num)]
  norm_num

/-- One chunk of one sample whose magnitude is at least the ceiling and at
least 0.02f: the gain becomes fl(L / s) and the sample fl(s * gain). -/
theorem normalizeChunk_one_sample (L s g y : ℚ) (hsL : L ≤ s) (hsc : roundF32 (2 / 100) ≤ s)
    (hs0 : 0 < s) (hr : roundF32 (s * 1) > L) (hg : roundF32 (L / s) = g) (hgf : |g| ≤ FLT_MAX)
    (hy : roundF32 (s * g) = y) (hyf : |y| ≤ FLT_MAX) :
    normalizeChunk L 1 1 ([s], 1) 0 = some ([y], g) := by
  have hpk : (List.range 1).foldlM
      (fun local_peak subsample =>
        (([s] : List ℚ)[(0 * 1 % U32 + subsample) % U32]?).map fun x =>
          if |x| > local_peak then |x| else local_peak)
      (0 : ℚ) = some s := by
    have e : (0 * 1 % U32 + 0) % U32 = 0 := by norm_num [U32]
    have habs : |s| > 0 := abs_pos.mpr (ne_of_gt hs0)
    have r1 : List.range 1 = [0] := rfl
    simp only [r1, List.foldlM_cons, List.foldlM_nil, e, List.getElem?_cons_zero,
      Option.map_some', if_pos habs, abs_of_pos hs0]
    simp [hs0]
  have h1 : ¬ (s < L ∧ (1 : ℚ) < 100) := fun h => absurd h.1 (not_lt.mpr hsL)
  have h2 : ¬ (s < roundF32 (2 / 100)) := not_lt.mpr hsc
  have hcnt : (if 0 = (1 + U32 - 1) % U32 then (([s] : List ℚ).length + SIZE - 0 * 1 % U32) % SIZE else 1) = 1 := by
    norm_num [U32, SIZE]
  have hfin : ¬ (|g| > FLT_MAX) := not_lt.mpr hgf
  unfold normalizeChunk
  simp only [hpk, if_neg h1, if_pos hr, if_neg h2, hg, hcnt, if_neg hfin]
  have e0 : 0 * 1 % U32 = 0 := by norm_num [U32]
  have hnot : ¬ (0 + 1 > ([s] : List ℚ).length) := by simp
  rw [e0, if_neg hnot]
  have hc : collect (([s] : List ℚ).mapIdx fun j x =>
      if 0 ≤ j ∧ j < 0 + 1 then finite32 (roundF32 (x * g)) else some x) = some [y] := by
    rw [collect_mapIdx _ (fun _ _ => y) [s] (by
      intro j x hx
      have hj : j = 0 := by
        rcases j with _ | j
        · rfl
        · simp at hx
      subst hj
      have hxs : x = s := by simpa using hx.symm
      subst hxs
      simp only [le_refl, zero_add, Nat.lt_one_iff, and_self, if_true, hy]
      exact finite32_of_le y hyf)]
    rfl
  rw [hc]
  rfl

/-- The result of `Normalize` on a one-sample mono buffer with chunk length 1
whose sample is at least the ceiling and at least 0.02f. -/
theorem Normalize_one_sample (powf : ℚ → ℚ → ℚ) (s L g y d : ℚ) (rate : Nat) (dbLevel : ℚ)
    (hrate : 1 ≤ rate)
    (hd : (if (if dbLevel > 0 then 0 else dbLevel) < -100 then -100
      else (if dbLevel > 0 then 0 else dbLevel)) = d)
    (hL : powf 10 (roundF32 (d / 20)) = L)
    (hC : truncQ (roundF32 (roundF32 (roundF32 (rate : ℚ) * roundF32 (1 / 100))
      * roundF32 ((1 : Nat) : ℚ))) = ((1 : Nat) : Int))
    (hsL : L ≤ s) (hsc : roundF32 (2 / 100) ≤ s)
    (hs0 : 0 < s) (hr : roundF32 (s * 1) > L) (hg : roundF32 (L / s) = g) (hgf : |g| ≤ FLT_MAX)
    (hy : roundF32 (s * g) = y) (hyf : |y| ≤ FLT_MAX) :
    Waveform.Normalize powf (Waveform.mk [s] rate 1) dbLevel = some (Waveform.mk [y] rate 1) := by
  have hch := normalizeChunk_one_sample L s g y hsL hsc hs0 hr hg hgf hy hyf
  have h5 : ¬ (rate < 1) := by omega
  have e3 : ¬ (((1 : Nat) : Int) ≥ (U32 : Int)) := by norm_num [U32]
  have e5 : ([s] : List ℚ).length / 1 % U32 = 1 := by norm_num [U32]
  have r1 : List.range 1 = [0] := rfl
  unfold Waveform.Normalize
  simp only [hd, hL, hC, h5, e3, e5, List.cons_ne_nil, Nat.lt_irrefl, or_self, if_false, Int.toNat_ofNat,
    Nat.one_ne_zero, r1, List.foldlM_cons, List.foldlM_nil, hch, Option.map_some',
    Option.bind_eq_bind, Option.some_bind, Option.pure_def]

theorem vectorMaxSize_lt_SIZE : vectorMaxSize < SIZE := by norm_num [vectorMaxSize, SIZE]

theorem GetNumSamples_eq (w : Waveform) (h1 : w.m_data ≠ []) (h2 : w.m_numChannels ≠ 0) :
    w.GetNumSamples = w.m_data.length / w.m_numChannels := by
  simp [Waveform.GetNumSamples, h1, h2]

theorem GetNumSamples_mul_le (w : Waveform) : w.GetNumSamples * w.m_numChannels ≤ w.m_data.length := by
  unfold Waveform.GetNumSamples
  split_ifs
  · simp
  · exact Nat.div_mul_le_self _ _

/-- Claim C4 fails as stated.  On a two-frame mono buffer, `Silence(1, 2^64-1, false)`
computes `count + start` as 0 in `size_t`, so the count is not clamped and the
loop stores outside the sample storage. -/
theorem silence_count_overflow :
    (Waveform.mk [1, 2] 48000 1).Silence 1 (2 ^ 64 - 1) false = none := by
  simp [Waveform.Silence, SIZE]

/-- Claim C4, amended.  For every buffer and every start and count whose sum fits
`size_t` (start + count < 2^64), `Silence(start, count, false)` returns; afterwards
every sample of every channel in frames [start, min(start+count, frameCount)) is
0, every other sample is unchanged, and frame count, channel count and rate are
unchanged. -/
theorem silence_hard_zeroes_range (w : Waveform) (start count : Nat)
    (hrep : w.representable) (hsum : start + count < SIZE) :
    ∃ w', w.Silence start count false = some w' ∧ w'.m_rate = w.m_rate ∧
      w'.m_numChannels = w.m_numChannels ∧ w'.GetNumSamples = w.GetNumSamples ∧
      ∀ j : Nat, w'.m_data[j]? =
        if start ≤ j / w.m_numChannels ∧ j / w.m_numChannels < min (start + count) w.GetNumSamples
          ∧ j < w.m_data.length
        then some 0 else w.m_data[j]? := by
  obtain ⟨hlen, _, _⟩ := hrep
  have hMS := vectorMaxSize_lt_SIZE
  unfold Waveform.Silence
  by_cases h0 : w.m_data = [] ∨ w.m_numChannels < 1 ∨ count < 1
  · rw [if_pos h0]
    refine ⟨w, rfl, rfl, rfl, rfl, ?_⟩
    intro j
    rw [if_neg]
    rintro ⟨h1, h2, h3⟩
    rcases h0 with h | h | h
    · simp [h] at h3
    · have hz : w.m_numChannels = 0 := by omega
      have : w.GetNumSamples = 0 := by simp [Waveform.GetNumSamples, hz]
      omega
    · omega
  · rw [if_neg h0]
    push_neg at h0
    obtain ⟨hne, hc, hcount⟩ := h0
    have hc0 : w.m_numChannels ≠ 0 := by omega
    have hns := GetNumSamples_eq w hne hc0
    rw [← hns]
    by_cases h1 : start ≥ w.GetNumSamples
    · simp only [h1, if_true]
      refine ⟨w, rfl, rfl, rfl, rfl, ?_⟩
      intro j
      rw [if_neg]
      rintro ⟨h2, h3, _⟩
      omega
    · simp only [h1, if_false]
      have hmod : (count + start) % SIZE = count + start := Nat.mod_eq_of_lt (by omega)
      rw [hmod]
      set cnt := (if count + start > w.GetNumSamples then w.GetNumSamples - start else count) with hcnt
      have hcnt_eq : start + cnt = min (start + count) w.GetNumSamples := by
        simp only [hcnt]
        split_ifs <;> omega
      have hle : (start + cnt) * w.m_numChannels ≤ w.m_data.length := by
        have h2 : start + cnt ≤ w.GetNumSamples := by omega
        exact le_trans (Nat.mul_le_mul_right _ h2) (GetNumSamples_mul_le w)
      have hstop : cnt * w.m_numChannels % SIZE = cnt * w.m_numChannels := by
        apply Nat.mod_eq_of_lt
        have : cnt * w.m_numChannels ≤ (start + cnt) * w.m_numChannels :=
          Nat.mul_le_mul_right _ (by omega)
        omega
      rw [hstop]
      have hfit : ¬ (start * w.m_numChannels + cnt * w.m_numChannels > w.m_data.length) := by
        rw [← Nat.add_mul]
        omega
      simp only [hfit, if_false, Bool.false_eq_true, false_and]
      rw [collect_mapIdx _ (fun j value =>
        if start * w.m_numChannels ≤ j ∧ j < start * w.m_numChannels + cnt * w.m_numChannels then 0
        else value) w.m_data (by
          intro j x _
          simp only
          split_ifs <;> rfl)]
      refine ⟨_, rfl, rfl, rfl, ?_, ?_⟩
      · simp [Waveform.GetNumSamples, hne, hc0]
      · intro j
        simp only [List.getElem?_mapIdx]
        have hcpos : 0 < w.m_numChannels := by omega
        have e1 : start * w.m_numChannels ≤ j ↔ start ≤ j / w.m_numChannels :=
          (Nat.le_div_iff_mul_le hcpos).symm
        have e2 : j < start * w.m_numChannels + cnt * w.m_numChannels ↔ j / w.m_numChannels < start + cnt := by
          rw [← Nat.add_mul]
          exact (Nat.div_lt_iff_lt_mul hcpos).symm
        rw [← hcnt_eq]
        by_cases hj : j < w.m_data.length
        · rw [List.getElem?_eq_getElem hj]
          simp only [Option.map_some', e1, e2, hj, and_true]
          split_ifs <;> rfl
        · rw [List.getElem?_eq_none (by omega)]
          simp [hj]

theorem silence_hard_zeroes_range_witness :
    ∃ w', (Waveform.mk [1, 2, 3, 4, 5, 6] 48000 2).Silence 1 1 false = some w' ∧ w'.m_rate = 48000 ∧
      w'.m_numChannels = 2 ∧ w'.GetNumSamples = (Waveform.mk [1, 2, 3, 4, 5, 6] 48000 2).GetNumSamples ∧
      ∀ j : Nat, w'.m_data[j]? =
        if 1 ≤ j / 2 ∧ j / 2 < min (1 + 1) (Waveform.mk [1, 2, 3, 4, 5, 6] 48000 2).GetNumSamples
          ∧ j < 6
        then some 0 else ([1, 2, 3, 4, 5, 6] : List ℚ)[j]? :=
  silence_hard_zeroes_range (Waveform.mk [1, 2, 3, 4, 5, 6] 48000 2) 1 1
    (by norm_num [Waveform.representable, vectorMaxSize, U32, SIZE]) (by norm_num [SIZE])

/-! ## C5: Insert and Delete -/

theorem vectorMaxSize_mul4 : vectorMaxSize * 4 < SIZE := by norm_num [vectorMaxSize, SIZE]

theorem Populate_rejects (w : Waveform) (n c : Nat) (src : Option (List ℚ)) (hc : c < 1 ∨ c > 256) :
    w.Populate n c src = some (false, w) := by
  simp only [Waveform.Populate, hc, if_true]

theorem Populate_zeroes (w : Waveform) (n c : Nat) (hc1 : 1 ≤ c) (hc2 : c ≤ 256)
    (hn : n * c ≤ vectorMaxSize) :
    w.Populate n c none = some (true, Waveform.mk (List.replicate (n * c) 0) w.m_rate c) := by
  have hMS := vectorMaxSize_lt_SIZE
  have hM4 := vectorMaxSize_mul4
  have h1 : ¬ (c < 1 ∨ c > 256) := by omega
  have h2 : n * c % SIZE = n * c := Nat.mod_eq_of_lt (by omega)
  have h3 : n * c * 4 % SIZE = n * c * 4 := Nat.mod_eq_of_lt (by omega)
  have h4 : ¬ (n * c > vectorMaxSize) := by omega
  have h5 : n * c * 4 / 4 = n * c := Nat.mul_div_cancel _ (by norm_num)
  simp only [Waveform.Populate, h1, if_false, h2, h3, h4, h5]
  by_cases hz : n * c * 4 > 0
  · simp only [hz, if_true]
    congr 3
    rw [List.drop_eq_nil_of_le, List.append_nil]
    simp only [List.length_append, List.length_take, List.length_replicate]
    omega
  · simp only [hz, if_false]
    have h0 : n * c = 0 := by omega
    simp [h0]

theorem Delete_in_range (w : Waveform) (start count : Nat) (hrep : w.representable)
    (hstart : start < w.GetNumSamples) (hsum : start + count < SIZE) :
    w.Delete start count = some (true, Waveform.mk
      (w.m_data.take (start * w.m_numChannels)
        ++ w.m_data.drop ((start + min count (w.GetNumSamples - start)) * w.m_numChannels))
      w.m_rate w.m_numChannels) := by
  obtain ⟨hlen, _, _⟩ := hrep
  have hMS := vectorMaxSize_lt_SIZE
  have hnsle := GetNumSamples_mul_le w
  have hne : w.m_data ≠ [] := by
    intro h
    simp [Waveform.GetNumSamples, h] at hstart
  have h1 : ¬ (start ≥ w.GetNumSamples) := by omega
  have h2 : (start + count) % SIZE = start + count := Nat.mod_eq_of_lt hsum
  have hcnt : (if start + count ≥ w.GetNumSamples then w.GetNumSamples - start else count)
      = min count (w.GetNumSamples - start) := by
    split_ifs <;> omega
  have hle : start + min count (w.GetNumSamples - start) ≤ w.GetNumSamples := by omega
  have hle2 : (start + min count (w.GetNumSamples - start)) * w.m_numChannels ≤ w.m_data.length :=
    le_trans (Nat.mul_le_mul_right _ hle) hnsle
  have hle3 : start * w.m_numChannels ≤ (start + min count (w.GetNumSamples - start)) * w.m_numChannels :=
    Nat.mul_le_mul_right _ (by omega)
  have h3 : (start + min count (w.GetNumSamples - start)) % SIZE
      = start + min count (w.GetNumSamples - start) := Nat.mod_eq_of_lt (by omega)
  have h4 : (start + min count (w.GetNumSamples - start)) * w.m_numChannels % SIZE
      = (start + min count (w.GetNumSamples - start)) * w.m_numChannels := Nat.mod_eq_of_lt (by omega)
  have h5 : start * w.m_numChannels % SIZE = start * w.m_numChannels := Nat.mod_eq_of_lt (by omega)
  simp only [Waveform.Delete, hne, if_false, h1, h2, hcnt, h3, h4, h5, hle3, hle2, and_self, if_true]

/-- Claim C5 fails as stated.  On a one-frame stereo buffer, `Insert(0, 2^63)`
computes the number of inserted elements `count * m_numChannels` as 0 in
`size_t` and inserts nothing; `Delete(0, 2^63)` then clamps the count to the
whole buffer and removes the original frame. -/
theorem insert_delete_count_overflow :
    (Waveform.mk [1, 2] 48000 2).Insert 0 (2 ^ 63) = some (true, Waveform.mk [1, 2] 48000 2) ∧
      (Waveform.mk [1, 2] 48000 2).Delete 0 (2 ^ 63) = some (true, Waveform.mk [] 48000 2) ∧
      (Waveform.mk [1, 2] 48000 2).GetNumSamples = 1 ∧ (Waveform.mk [] 48000 2).GetNumSamples = 0 := by
  refine ⟨?_, ?_, ?_, ?_⟩
  · simp [Waveform.Insert, Waveform.GetNumSamples, SIZE, vectorMaxSize]
  · simp [Waveform.Delete, Waveform.GetNumSamples, SIZE]
  · simp [Waveform.GetNumSamples]
  · simp [Waveform.GetNumSamples]

theorem take_drop_insert (l : List ℚ) (a n : Nat) (ha : a ≤ l.length) :
    List.take a (List.take a l ++ List.replicate n 0 ++ List.drop a l)
      ++ List.drop (a + n) (List.take a l ++ List.replicate n 0 ++ List.drop a l) = l := by
  have h1 : (List.take a l).length = a := by simp [ha]
  have h2 : List.take a (List.take a l ++ List.replicate n 0 ++ List.drop a l) = List.take a l := by
    rw [List.append_assoc, List.take_append_eq_append_take]
    simp [h1]
  have h3 : List.drop (a + n) (List.take a l ++ List.replicate n 0 ++ List.drop a l) = List.drop a l := by
    have h4 : (List.take a l ++ List.replicate n (0 : ℚ)).length = a + n := by simp [h1]
    rw [← h4, List.drop_left]
  rw [h2, h3, List.take_append_drop]

/-- Claim C5, amended.  For every buffer, every start <= frameCount and every count
for which the enlarged buffer stays within the vector size limit (in particular
count x channelCount does not wrap), `Insert(start, count)` followed by
`Delete(start, count)` returns the buffer to exactly its original state: the same
samples, channel count and rate. -/
theorem insert_then_delete_restores (w : Waveform) (start count : Nat)
    (hrep : w.representable) (hstart : start ≤ w.GetNumSamples)
    (hfit : w.m_data.length + count * w.m_numChannels ≤ vectorMaxSize) :
    ∃ b1 w1 b2, w.Insert start count = some (b1, w1) ∧ w1.Delete start count = some (b2, w) := by
  obtain ⟨data, rate, c⟩ := w
  obtain ⟨hlen, hr, hcs⟩ := hrep
  simp only at hlen hfit hr hcs
  have hMS := vectorMaxSize_lt_SIZE
  have hcc : count * c % SIZE = count * c := Nat.mod_eq_of_lt (by omega)
  by_cases hne : data = []
  · subst hne
    have hs0 : start = 0 := by
      simp [Waveform.GetNumSamples] at hstart
      exact hstart
    subst hs0
    simp only [List.length_nil, Nat.zero_add] at hfit
    have hins : (Waveform.mk [] rate c).Insert 0 count = (Waveform.mk [] rate c).Populate count c none := by
      simp [Waveform.Insert]
    by_cases hc : c < 1 ∨ c > 256
    · refine ⟨false, Waveform.mk [] rate c, true, ?_, ?_⟩
      · rw [hins, Populate_rejects _ _ _ _ hc]
      · simp [Waveform.Delete]
    · have hc1 : 1 ≤ c := by omega
      refine ⟨true, Waveform.mk (List.replicate (count * c) 0) rate c, true, ?_, ?_⟩
      · rw [hins, Populate_zeroes _ _ _ hc1 (by omega) hfit]
      · by_cases hz : count = 0
        · subst hz
          simp [Waveform.Delete]
        · have hrne : List.replicate (count * c) (0 : ℚ) ≠ [] := by
            intro h
            have h' := congrArg List.length h
            simp at h'
            omega
          have hns : (Waveform.mk (List.replicate (count * c) 0) rate c).GetNumSamples = count := by
            rw [GetNumSamples_eq _ hrne (by simp; omega)]
            simp only [List.length_replicate]
            exact Nat.mul_div_cancel count (by omega)
          have hcle : count * 1 ≤ count * c := Nat.mul_le_mul_left count hc1
          rw [Delete_in_range _ 0 count ⟨by simpa using hfit, hr, hcs⟩ (by rw [hns]; omega) (by omega)]
          simp only [hns, Nat.zero_mul, List.take_zero, List.nil_append, Nat.zero_add, Nat.sub_zero,
            Nat.min_self]
          rw [List.drop_eq_nil_of_le (by simp)]
  · by_cases hc0 : c = 0
    · subst hc0
      have hs0 : start = 0 := by
        simp [Waveform.GetNumSamples] at hstart
        exact hstart
      subst hs0
      refine ⟨true, Waveform.mk data rate 0, false, ?_, ?_⟩
      · have h2 : ¬ (data.length > vectorMaxSize) := by omega
        simp [Waveform.Insert, hne, Waveform.GetNumSamples, h2]
      · simp [Waveform.Delete, hne, Waveform.GetNumSamples]
    · have hc1 : 1 ≤ c := by omega
      have hns : (Waveform.mk data rate c).GetNumSamples = data.length / c := GetNumSamples_eq _ hne hc0
      rw [hns] at hstart
      have hsc : start * c ≤ data.length := by
        calc start * c ≤ data.length / c * c := Nat.mul_le_mul_right c hstart
          _ ≤ data.length := Nat.div_mul_le_self _ _
      have hins : (Waveform.mk data rate c).Insert start count
          = some (true, Waveform.mk (List.take (start * c) data ++ List.replicate (count * c) 0
              ++ List.drop (start * c) data) rate c) := by
        have h1 : ¬ (start > data.length / c) := by omega
        have h2 : ¬ (data.length + count * c > vectorMaxSize) := by omega
        simp only [Waveform.Insert, hne, if_false, hns, h1, hcc, h2]
      have hlen1 : (List.take (start * c) data ++ List.replicate (count * c) 0
              ++ List.drop (start * c) data).length = data.length + count * c := by
        simp only [List.length_append, List.length_take, List.length_replicate, List.length_drop]
        omega
      have hdle : data.length / c ≤ data.length := Nat.div_le_self _ _
      by_cases hz : count = 0
      · subst hz
        have hsame : List.take (start * c) data ++ List.replicate (0 * c) 0 ++ List.drop (start * c) data
            = data := by simp
        rw [hsame] at hins
        by_cases hlast : start = data.length / c
        · refine ⟨true, _, false, hins, ?_⟩
          simp [Waveform.Delete, hne, hns, hlast]
        · refine ⟨true, _, true, hins, ?_⟩
          rw [Delete_in_range _ start 0 ⟨hlen, hr, hcs⟩ (by rw [hns]; omega) (by omega)]
          simp
      · refine ⟨true, _, true, hins, ?_⟩
        have hne1 : List.take (start * c) data ++ List.replicate (count * c) 0
              ++ List.drop (start * c) data ≠ [] := by
          intro h
          have h' := congrArg List.length h
          rw [hlen1] at h'
          have : data.length ≠ 0 := by
            intro h0
            exact hne (List.length_eq_zero.mp h0)
          simp at h'
          omega
        have hns1 : (Waveform.mk (List.take (start * c) data ++ List.replicate (count * c) 0
              ++ List.drop (start * c) data) rate c).GetNumSamples = data.length / c + count := by
          rw [GetNumSamples_eq _ hne1 hc0]
          simp only [hlen1]
          exact Nat.add_mul_div_right _ _ (by omega)
        have hcle : count * 1 ≤ count * c := Nat.mul_le_mul_left count hc1
        rw [Delete_in_range _ start count ⟨by simp only [hlen1]; exact hfit, hr, hcs⟩
          (by rw [hns1]; omega) (by omega)]
        simp only [hns1]
        have hmin : min count (data.length / c + count - start) = count := by omega
        rw [hmin, Nat.add_mul, take_drop_insert data (start * c) (count * c) hsc]

theorem insert_then_delete_restores_witness :
    ∃ b1 w1 b2, (Waveform.mk [1, 2, 3, 4] 48000 2).Insert 1 3 = some (b1, w1) ∧
      w1.Delete 1 3 = some (b2, Waveform.mk [1, 2, 3, 4] 48000 2) :=
  insert_then_delete_restores (Waveform.mk [1, 2, 3, 4] 48000 2) 1 3
    (by norm_num [Waveform.representable, vectorMaxSize, U32, SIZE])
    (by simp [Waveform.GetNumSamples]) (by norm_num [vectorMaxSize])
/-! ## C6: ConvertToStereo and ConvertToMono -/

theorem map_range_getD (l : List ℚ) : (List.range l.length).map (fun i => l.getD i 0) = l := by
  apply List.ext_getElem
  · simp
  · intro i h1 h2
    simp [List.getD_eq_getElem?_getD, List.getElem?_eq_getElem h2]

theorem dup_getElem? : ∀ (l : List ℚ) (i : Nat),
    (l.flatMap fun v => [v, v])[2 * i]? = l[i]? ∧ (l.flatMap fun v => [v, v])[2 * i + 1]? = l[i]? := by
  intro l
  induction l with
  | nil => intro i; simp
  | cons a l ih =>
    intro i
    cases i with
    | zero => simp
    | succ i =>
      have e1 : 2 * (i + 1) = 2 * i + 1 + 1 := by ring
      have e2 : 2 * (i + 1) + 1 = 2 * i + 1 + 1 + 1 := by ring
      obtain ⟨h1, h2⟩ := ih i
      constructor
      · rw [e1]
        simpa using h1
      · rw [e2]
        simpa using h2

theorem dup_length (l : List ℚ) : (l.flatMap fun v => [v, v]).length = 2 * l.length := by
  induction l with
  | nil => rfl
  | cons a l ih =>
    simp only [List.flatMap_cons, List.length_append, List.length_cons, List.length_nil, ih]
    omega

theorem roundF32_two : roundF32 ((2 : Nat) : ℚ) = 2 := by
  have := roundF32_natCast 2 (by norm_num)
  simpa using this

/-- The inner loop of `ConvertToMono` on a stereo frame whose two samples are
`a` and `b`. -/
theorem mono_mix_stereo (w : Waveform) (i : Nat) (a b r : ℚ) (hc : w.m_numChannels = 2)
    (g0 : w.GetSample i 0 = some a) (g1 : w.GetSample i 1 = some b)
    (h1 : |roundF32 (0 + roundF32 (a / 2))| ≤ FLT_MAX)
    (h2 : roundF32 (roundF32 (0 + roundF32 (a / 2)) + roundF32 (b / 2)) = r)
    (h3 : |r| ≤ FLT_MAX) :
    (List.range w.m_numChannels).foldlM
      (fun val channel => (w.GetSample i channel).bind fun s =>
        finite32 (roundF32 (val + roundF32 (s / roundF32 (w.m_numChannels : ℚ)))))
      (0 : ℚ) = some r := by
  have hr : List.range 2 = [0, 1] := rfl
  rw [hc, hr]
  simp only [List.foldlM_cons, List.foldlM_nil, g0, g1, Option.some_bind, roundF32_two,
    finite32_of_le _ h1, Option.bind_eq_bind, h2, finite32_of_le _ h3]
  rfl

/-- Claim C6 fails as stated.  The mono buffer holding the smallest positive
`float`, 2^-149, is converted to stereo and back: `ConvertToMono` halves each
channel sample in `float`, the half 2^-150 rounds to 0, and the result is the
sample 0, not the original. -/
theorem mono_stereo_round_trip_underflow :
    (Waveform.mk [1 / 2 ^ 149] 48000 1).ConvertToStereo
        = some (true, Waveform.mk [1 / 2 ^ 149, 1 / 2 ^ 149] 48000 2) ∧
      (Waveform.mk [1 / 2 ^ 149, 1 / 2 ^ 149] 48000 2).ConvertToMono
        = some (true, Waveform.mk [0] 48000 1) ∧
      isIeee 8 23 (1 / 2 ^ 149) ∧ (1 / 2 ^ 149 : ℚ) ≠ 0 := by
  have hhalf : roundF32 ((1 / 2 ^ 149 : ℚ) / 2) = 0 := by
    have h := roundTo_eval_tie 24 (-126) ((1 / 2 ^ 149 : ℚ) / 2) (-150) 0
      (by norm_num [abs_of_pos]) (by norm_num [abs_of_pos]) (by norm_num)
    rw [roundF32, h]
    norm_num
  refine ⟨?_, ?_, ?_, by norm_num⟩
  · simp [Waveform.ConvertToStereo, Waveform.GetNumSamples, Waveform.GetSample, SIZE, vectorMaxSize,
      List.range_succ, collect]
  · have hns : (Waveform.mk [1 / 2 ^ 149, 1 / 2 ^ 149] 48000 2).GetNumSamples = 1 := by
      simp [Waveform.GetNumSamples]
    have g0 : (Waveform.mk [1 / 2 ^ 149, 1 / 2 ^ 149] 48000 2).GetSample 0 0 = some (1 / 2 ^ 149) := by
      simp [Waveform.GetSample, hns]
    have g1 : (Waveform.mk [1 / 2 ^ 149, 1 / 2 ^ 149] 48000 2).GetSample 0 1 = some (1 / 2 ^ 149) := by
      simp [Waveform.GetSample, hns]
    have hF : (0 : ℚ) ≤ FLT_MAX := by norm_num [FLT_MAX]
    have hmix := mono_mix_stereo (Waveform.mk [1 / 2 ^ 149, 1 / 2 ^ 149] 48000 2) 0 _ _ 0 rfl g0 g1
      (by rw [hhalf]; simpa [roundF32_zero] using hF)
      (by rw [hhalf]; simp [roundF32_zero])
      (by simpa using hF)
    have hne : ([1 / 2 ^ 149, 1 / 2 ^ 149] : List ℚ) ≠ [] := List.cons_ne_nil _ _
    have h21 : ¬ ((2 : Nat) = 1) := by decide
    have h22 : ¬ ((2 : Nat) < 1) := by decide
    have hr1 : List.range 1 = [0] := rfl
    simp only [Waveform.ConvertToMono, hne, if_false, h21, h22, hns, hr1, List.map_cons, List.map_nil]
    rw [hmix]
    rfl
  · refine ⟨1, -149, by norm_num, by norm_num, by norm_num, Or.inl ?_⟩
    rw [pow2_eq_zpow]
    norm_num [zpow_neg]

/-- Claim C6, amended.  For every mono buffer (whose stereo copy is within the
vector size limit) `ConvertToStereo` succeeds and yields a 2-channel buffer with
the same rate and frame count in which both channels of every frame hold the
original mono sample; if every sample x is a `float` value whose half x/2 is a
`float` value too (every normal value of magnitude at least 2^-125, zero, and
the even multiples of 2^-149 below), `ConvertToMono` applied to that result
gives back exactly the original buffer. -/
theorem mono_stereo_round_trip (w : Waveform) (hmono : w.m_numChannels = 1)
    (hfit : 2 * w.m_data.length ≤ vectorMaxSize)
    (hval : ∀ x ∈ w.m_data, isIeee 8 23 x ∧ isIeee 8 23 (x / 2)) :
    ∃ w2, w.ConvertToStereo = some (true, w2) ∧ w2.m_numChannels = 2 ∧ w2.m_rate = w.m_rate ∧
      w2.GetNumSamples = w.GetNumSamples ∧ w2.m_data.length = 2 * w.m_data.length ∧
      (∀ i : Nat, w2.m_data[2 * i]? = w.m_data[i]? ∧ w2.m_data[2 * i + 1]? = w.m_data[i]?) ∧
      w2.ConvertToMono = some (true, w) := by
  obtain ⟨data, rate, c⟩ := w
  simp only at hmono hfit hval
  subst hmono
  have hMS := vectorMaxSize_lt_SIZE
  by_cases hne : data = []
  · subst hne
    refine ⟨Waveform.mk [] rate 2, ?_, rfl, rfl, ?_, rfl, ?_, ?_⟩
    · simp [Waveform.ConvertToStereo]
    · simp [Waveform.GetNumSamples]
    · intro i
      simp
    · simp [Waveform.ConvertToMono]
  · have hns : (Waveform.mk data rate 1).GetNumSamples = data.length := by
      rw [GetNumSamples_eq _ hne (by simp)]
      simp
    have hget : ∀ i ∈ List.range data.length,
        (Waveform.mk data rate 1).GetSample i 0 = some (data.getD i 0) := by
      intro i hi
      have hi' : i < data.length := List.mem_range.mp hi
      have h1 : ¬ (i > data.length) := by omega
      simp [Waveform.GetSample, hns, h1, hne, List.getElem?_eq_getElem hi', List.getD_eq_getElem?_getD]
    have hcol := collect_map_some (fun i => data.getD i 0)
      (fun i => (Waveform.mk data rate 1).GetSample i 0) (List.range data.length) hget
    rw [map_range_getD] at hcol
    have hdne : (data.flatMap fun v => [v, v]) ≠ [] := by
      intro h
      have h' := congrArg List.length h
      rw [dup_length] at h'
      have : data.length ≠ 0 := fun h0 => hne (List.length_eq_zero.mp h0)
      simp only [List.length_nil] at h'
      omega
    have hns2 : (Waveform.mk (data.flatMap fun v => [v, v]) rate 2).GetNumSamples = data.length := by
      rw [GetNumSamples_eq _ hdne (by simp)]
      simp only [dup_length]
      omega
    refine ⟨Waveform.mk (data.flatMap fun v => [v, v]) rate 2, ?_, rfl, rfl, ?_, dup_length data, ?_, ?_⟩
    · have h2 : ¬ (data.length * 2 % SIZE > vectorMaxSize) := by
        have : data.length * 2 % SIZE = data.length * 2 := Nat.mod_eq_of_lt (by omega)
        omega
      simp only [Waveform.ConvertToStereo, hne, if_false, hns, h2, hcol, Option.map_some']
      simp
    · rw [hns2, hns]
    · intro i
      exact dup_getElem? data i
    · have hmix : ∀ i ∈ List.range data.length,
          (List.range (Waveform.mk (data.flatMap fun v => [v, v]) rate 2).m_numChannels).foldlM
            (fun val channel =>
              ((Waveform.mk (data.flatMap fun v => [v, v]) rate 2).GetSample i channel).bind fun s =>
                finite32 (roundF32 (val + roundF32 (s /
                  roundF32 ((Waveform.mk (data.flatMap fun v => [v, v]) rate 2).m_numChannels : ℚ)))))
            (0 : ℚ) = some (data.getD i 0) := by
        intro i hi
        have hi' : i < data.length := List.mem_range.mp hi
        have h1 : ¬ (i > data.length) := by omega
        obtain ⟨d1, d2⟩ := dup_getElem? data i
        have g0 : (Waveform.mk (data.flatMap fun v => [v, v]) rate 2).GetSample i 0 = some data[i] := by
          have e : i * 2 + 0 = 2 * i := by ring
          simp only [Waveform.GetSample, hns2, h1, hdne, e, d1, List.getElem?_eq_getElem hi']
          simp
        have g1 : (Waveform.mk (data.flatMap fun v => [v, v]) rate 2).GetSample i 1 = some data[i] := by
          have e : i * 2 + 1 = 2 * i + 1 := by ring
          simp only [Waveform.GetSample, hns2, h1, hdne, e, d2, List.getElem?_eq_getElem hi']
          simp
        obtain ⟨hx, hx2⟩ := hval data[i] (List.getElem_mem hi')
        obtain ⟨rx, fx⟩ := isIeee_float_round _ hx
        obtain ⟨rx2, fx2⟩ := isIeee_float_round _ hx2
        have e0 : roundF32 (0 + roundF32 (data[i] / 2)) = data[i] / 2 := by
          rw [rx2, zero_add, rx2]
        have e1 : roundF32 (roundF32 (0 + roundF32 (data[i] / 2)) + roundF32 (data[i] / 2)) = data[i] := by
          rw [e0, rx2]
          have : data[i] / 2 + data[i] / 2 = data[i] := by ring
          rw [this, rx]
        have := mono_mix_stereo (Waveform.mk (data.flatMap fun v => [v, v]) rate 2) i _ _ data[i] rfl g0 g1
          (by rw [e0]; exact fx2) e1 fx
        rw [List.getD_eq_getElem _ _ hi']
        exact this
      have hcol2 := collect_map_some (fun i => data.getD i 0) _ (List.range data.length) hmix
      rw [map_range_getD] at hcol2
      have h21 : ¬ ((2 : Nat) = 1) := by decide
      have h22 : ¬ ((2 : Nat) < 1) := by decide
      simp only [Waveform.ConvertToMono, hdne, if_false, h21, h22, hns2]
      simp only at hcol2
      rw [hcol2]
      rfl

theorem mono_stereo_round_trip_witness :
    ∃ w2, (Waveform.mk [1, 2, 3] 48000 1).ConvertToStereo = some (true, w2) ∧ w2.m_numChannels = 2 ∧
      w2.m_rate = 48000 ∧ w2.GetNumSamples = (Waveform.mk [1, 2, 3] 48000 1).GetNumSamples ∧
      w2.m_data.length = 2 * ([1, 2, 3] : List ℚ).length ∧
      (∀ i : Nat, w2.m_data[2 * i]? = ([1, 2, 3] : List ℚ)[i]? ∧
        w2.m_data[2 * i + 1]? = ([1, 2, 3] : List ℚ)[i]?) ∧
      w2.ConvertToMono = some (true, Waveform.mk [1, 2, 3] 48000 1) :=
  mono_stereo_round_trip (Waveform.mk [1, 2, 3] 48000 1) rfl (by norm_num [vectorMaxSize])
    (by
      intro x hx
      simp only [List.mem_cons, List.mem_singleton, List.not_mem_nil, or_false] at hx
      rcases hx with h | h | h
      · subst h
        exact ⟨⟨1, 0, by norm_num, by norm_num, by norm_num, Or.inl (by norm_num [pow2])⟩,
          ⟨1, -1, by norm_num, by norm_num, by norm_num, Or.inl (by norm_num [pow2])⟩⟩
      · subst h
        exact ⟨⟨2, 0, by norm_num, by norm_num, by norm_num, Or.inl (by norm_num [pow2])⟩,
          ⟨1, 0, by norm_num, by norm_num, by norm_num, Or.inl (by norm_num [pow2])⟩⟩
      · subst h
        exact ⟨⟨3, 0, by norm_num, by norm_num, by norm_num, Or.inl (by norm_num [pow2])⟩,
          ⟨3, -1, by norm_num, by norm_num, by norm_num, Or.inl (by norm_num [pow2])⟩⟩)

/-! ## C7: Stretch -/

/-- The samples `Stretch` leaves in a buffer of `newNumSamples` frames. -/
theorem Stretch_result (w : Waveform) (n : Nat) (hc1 : 1 ≤ w.m_numChannels) (hc2 : w.m_numChannels ≤ 256)
    (hlen : 2 ≤ w.m_data.length) (hn : 1 ≤ n) (hfit : n * w.m_numChannels ≤ vectorMaxSize) :
    w.Stretch n = some (true, Waveform.mk
      ((List.replicate (n * w.m_numChannels) (0 : ℚ)).mapIdx fun j zero =>
        if stretchSourceIndex (j / w.m_numChannels) w.GetNumSamples n ≥ w.GetNumSamples then zero
        else (w.m_data[stretchSourceIndex (j / w.m_numChannels) w.GetNumSamples n * w.m_numChannels
          + j % w.m_numChannels]?).getD 0)
      w.m_rate w.m_numChannels) := by
  have hMS := vectorMaxSize_lt_SIZE
  have h1 : ¬ (n < 1) := by omega
  have h2 : ¬ (w.m_data.length ≤ 1) := by omega
  have h3 : ¬ (n * w.m_numChannels ≥ SIZE ∧ w.GetNumSamples ≠ 0) := by omega
  have hp := Populate_zeroes (Waveform.mk Waveform.fresh.m_data w.m_rate Waveform.fresh.m_numChannels)
    n w.m_numChannels hc1 hc2 hfit
  simp only [Waveform.Stretch, h1, h2, if_false, hp, h3]

theorem Stretch_frame_count (w : Waveform) (n : Nat) (hc1 : 1 ≤ w.m_numChannels)
    (hc2 : w.m_numChannels ≤ 256) (hlen : 2 ≤ w.m_data.length) (hn : 1 ≤ n)
    (hfit : n * w.m_numChannels ≤ vectorMaxSize) :
    ∃ w1, w.Stretch n = some (true, w1) ∧ w1.m_numChannels = w.m_numChannels ∧ w1.m_rate = w.m_rate ∧
      w1.m_data.length = n * w.m_numChannels ∧ w1.GetNumSamples = n := by
  refine ⟨_, Stretch_result w n hc1 hc2 hlen hn hfit, rfl, rfl, by simp, ?_⟩
  have hpos : 0 < n * w.m_numChannels := Nat.mul_pos (by omega) (by omega)
  rw [GetNumSamples_eq]
  · simp only [List.length_mapIdx, List.length_replicate]
    exact Nat.mul_div_cancel n (by omega)
  · intro h
    have h' := congrArg List.length h
    simp only [List.length_mapIdx, List.length_replicate, List.length_nil] at h'
    omega
  · simp only
    omega

/-- The sample that `Stretch` leaves in channel `ch` of frame `i` of the new
buffer: the sample of the source frame when the source index is inside the
buffer, zero otherwise. -/
theorem Stretch_frame (w : Waveform) (n : Nat) (hc1 : 1 ≤ w.m_numChannels) (hc2 : w.m_numChannels ≤ 256)
    (hlen : 2 ≤ w.m_data.length) (hn : 1 ≤ n) (hfit : n * w.m_numChannels ≤ vectorMaxSize)
    (w1 : Waveform) (hs : w.Stretch n = some (true, w1)) (i ch : Nat) (hi : i < n)
    (hch : ch < w.m_numChannels) :
    w1.m_data[i * w.m_numChannels + ch]? =
      some (if stretchSourceIndex i w.GetNumSamples n ≥ w.GetNumSamples then 0
        else (w.m_data[stretchSourceIndex i w.GetNumSamples n * w.m_numChannels + ch]?).getD 0) := by
  have hw1 := Stretch_result w n hc1 hc2 hlen hn hfit
  rw [hs] at hw1
  have hd : w1.m_data = (List.replicate (n * w.m_numChannels) (0 : ℚ)).mapIdx fun j zero =>
      if stretchSourceIndex (j / w.m_numChannels) w.GetNumSamples n ≥ w.GetNumSamples then zero
      else (w.m_data[stretchSourceIndex (j / w.m_numChannels) w.GetNumSamples n * w.m_numChannels
        + j % w.m_numChannels]?).getD 0 := by
    have := congrArg (fun r => r.map fun p => p.2.m_data) hw1
    simpa using this
  have hj : (i * w.m_numChannels + ch) / w.m_numChannels = i := by
    rw [Nat.add_comm, Nat.add_mul_div_right _ _ (by omega), Nat.div_eq_of_lt hch, zero_add]
  have hm : (i * w.m_numChannels + ch) % w.m_numChannels = ch := by
    rw [Nat.add_comm, Nat.add_mul_mod_self_right, Nat.mod_eq_of_lt hch]
  have hlt : i * w.m_numChannels + ch < n * w.m_numChannels := by
    have h1 : (i + 1) * w.m_numChannels ≤ n * w.m_numChannels := Nat.mul_le_mul_right _ hi
    rw [Nat.add_mul, one_mul] at h1
    omega
  rw [hd, List.getElem?_mapIdx, List.getElem?_replicate_of_lt hlt]
  simp only [Option.map_some', hj, hm]

/-- Claim C7 fails as stated.  `Stretch` returns at once when the buffer holds at
most one stored sample: a two-frame mono buffer stretched to one frame holds one
sample, and the following `Stretch(2)` leaves it at one frame. -/
theorem stretch_back_from_single_sample :
    (Waveform.mk [1, 2] 48000 1).Stretch 1 = some (true, Waveform.mk [1] 48000 1) ∧
      (Waveform.mk [1] 48000 1).Stretch 2 = some (true, Waveform.mk [1] 48000 1) ∧
      (Waveform.mk [1] 48000 1).GetNumSamples = 1 ∧ (Waveform.mk [1, 2] 48000 1).GetNumSamples = 2 := by
  refine ⟨?_, ?_, ?_, ?_⟩
  · rw [Stretch_result _ 1 (by decide) (by decide) (by decide) (by decide) (by norm_num [vectorMaxSize])]
    have hi : stretchSourceIndex 0 2 1 = 0 :=
      stretchSourceIndex_exact 0 2 1 (by norm_num) (by norm_num) (by norm_num) (by norm_num) (by norm_num)
    simp [Waveform.GetNumSamples, List.mapIdx_cons, hi]
  · simp [Waveform.Stretch]
  · simp [Waveform.GetNumSamples]
  · simp [Waveform.GetNumSamples]

/-- Claim C7, amended.  For every buffer satisfying the data-model invariant with
N >= 1 frames and every n >= 1 for which n x channelCount is within the vector
size limit, provided the intermediate buffer holds more than one stored sample
(n x channelCount >= 2) or N = 1, `Stretch(n)` followed by `Stretch(N)` both
return true and leave a buffer of exactly N frames. -/
theorem stretch_there_and_back (w : Waveform) (n : Nat) (hinv : w.invariant)
    (hrep : w.m_data.length ≤ vectorMaxSize) (hN : 1 ≤ w.GetNumSamples) (hn : 1 ≤ n)
    (hfit : n * w.m_numChannels ≤ vectorMaxSize)
    (hguard : 2 ≤ n * w.m_numChannels ∨ w.GetNumSamples = 1) :
    ∃ w1 w2, w.Stretch n = some (true, w1) ∧ w1.Stretch w.GetNumSamples = some (true, w2) ∧
      w2.GetNumSamples = w.GetNumSamples := by
  obtain ⟨hdvd, hc1, hc2⟩ := hinv
  have hne : w.m_data ≠ [] := by
    intro h
    simp [Waveform.GetNumSamples, h] at hN
  have hns : w.GetNumSamples = w.m_data.length / w.m_numChannels := GetNumSamples_eq w hne (by omega)
  have hNc : w.GetNumSamples * w.m_numChannels = w.m_data.length := by
    rw [hns]
    exact Nat.div_mul_cancel hdvd
  by_cases hlen : w.m_data.length ≤ 1
  · have h1 : ¬ (n < 1) := by omega
    have h2 : ¬ (w.GetNumSamples < 1) := by omega
    refine ⟨w, w, ?_, ?_, rfl⟩
    · simp only [Waveform.Stretch, h1, if_false, hlen, if_true]
    · simp only [Waveform.Stretch, h2, if_false, hlen, if_true]
  · have hlen2 : 2 ≤ w.m_data.length := by omega
    obtain ⟨w1, hs1, hc, _, hl1, _⟩ := Stretch_frame_count w n hc1 hc2 hlen2 hn hfit
    have hnc : 2 ≤ n * w.m_numChannels := by
      rcases hguard with h | h
      · exact h
      · rw [h] at hNc
        have : w.m_numChannels = w.m_data.length := by omega
        have : 1 * w.m_numChannels ≤ n * w.m_numChannels := Nat.mul_le_mul_right _ hn
        omega
    obtain ⟨w2, hs2, _, _, _, hns2⟩ := Stretch_frame_count w1 w.GetNumSamples (by omega) (by omega)
      (by omega) hN (by rw [hc, hNc]; exact hrep)
    exact ⟨w1, w2, hs1, hs2, hns2⟩

theorem stretch_there_and_back_witness :
    ∃ w1 w2, (Waveform.mk [1, 2, 3, 4, 5, 6] 48000 2).Stretch 5 = some (true, w1) ∧
      w1.Stretch (Waveform.mk [1, 2, 3, 4, 5, 6] 48000 2).GetNumSamples = some (true, w2) ∧
      w2.GetNumSamples = (Waveform.mk [1, 2, 3, 4, 5, 6] 48000 2).GetNumSamples :=
  stretch_there_and_back (Waveform.mk [1, 2, 3, 4, 5, 6] 48000 2) 5
    (by norm_num [Waveform.invariant]) (by norm_num [vectorMaxSize])
    (by simp [Waveform.GetNumSamples]) (by norm_num) (by norm_num [vectorMaxSize]) (Or.inl (by norm_num))

/-! ## C8: rejection of corrupt WAV files -/

theorem fread_content (fp : FILE) (n : Nat) : (fread fp n).2.content = fp.content := rfl

theorem fseekCur_content (fp fp1 : FILE) (off : Int) (h : fseekCur fp off = some fp1) :
    fp1.content = fp.content := by
  unfold fseekCur at h
  split_ifs at h
  simp only [Option.some.injEq] at h
  rw [← h]

theorem signature_content (fp fp1 : FILE) (h : read_and_confirm_wav_signature fp = some fp1) :
    fp1.content = fp.content := by
  unfold read_and_confirm_wav_signature at h
  simp only at h
  split_ifs at h
  · simp only [Option.some.injEq] at h
    rw [← h, fread_content]
    cases hs : fseekCur (fread (fread fp 16).2 4).2 (toLong (leVal (overlay (fread (fread fp 16).2 4).1 [0, 0, 0, 0]))) with
    | none => simp [fread_content]
    | some fp3 =>
      have := fseekCur_content _ _ _ hs
      simp [this, fread_content]
  · simp only [Option.some.injEq] at h
    rw [← h, fread_content]

theorem signature_needs_RIFF (file : List Byte) (h : file.take 4 ≠ tagRIFF) :
    read_and_confirm_wav_signature { content := file, pos := 0 } = none := by
  unfold read_and_confirm_wav_signature
  have e : List.take 4 (fread { content := file, pos := 0 } 16).1 = file.take 4 := by
    simp [fread, List.take_take]
  simp only
  by_cases h1 : (fread { content := file, pos := 0 } 16).1.length ≠ 16
  · rw [if_pos h1]
  · rw [if_neg h1, if_pos (by rw [e]; exact h)]

theorem format_header_checks_bits (fp : FILE)
    (h : leVal ((fp.content.drop (fp.pos + 4 + 14)).take 2) ≠ 8 ∧
      leVal ((fp.content.drop (fp.pos + 4 + 14)).take 2) ≠ 16 ∧
      leVal ((fp.content.drop (fp.pos + 4 + 14)).take 2) ≠ 32) :
    read_and_confirm_format_header fp = none := by
  unfold read_and_confirm_format_header
  simp only
  by_cases h1 : (fread fp 4).1.length ≠ 4
  · rw [if_pos h1]
  · rw [if_neg h1]
    by_cases h2 : leVal (fread fp 4).1 < sizeofWAVFHDR
    · rw [if_pos h2]
    · rw [if_neg h2]
      by_cases h3 : (fread (fread fp 4).2 sizeofWAVFHDR).1.length ≠ sizeofWAVFHDR
      · rw [if_pos h3]
      · rw [if_neg h3]
        have hp : (fread fp 4).2.pos = fp.pos + 4 := by
          have hl : (fread fp 4).1.length = 4 := not_not.mp h1
          simp only [fread] at hl ⊢
          rw [hl]
        have e : (WAVFHDR.ofBytes (fread (fread fp 4).2 sizeofWAVFHDR).1).nBits
            = leVal ((fp.content.drop (fp.pos + 4 + 14)).take 2) := by
          have hc : (fread fp 4).2.content = fp.content := rfl
          simp only [WAVFHDR.ofBytes, sizeofWAVFHDR]
          show leVal (List.take 2 (List.drop 14 (List.take 16
            (List.drop (fread fp 4).2.pos (fread fp 4).2.content)))) = _
          rw [hp, hc, List.drop_take, List.take_take, List.drop_drop]
          simp [Nat.add_comm]
        rw [if_pos (by rw [e]; exact h)]

/-- Claim C8.  For every file content whose first four bytes are not "RIFF", or
whose format record declares a bit depth other than 8, 16 or 32, and for every
step budget, target waveform and progress callback, `WAVFileReadHeader` returns
false and `WaveformLoadFromWAV` returns false leaving the target waveform exactly
as it was. -/
theorem wav_corruption_rejected (budget : Nat) (file : List Byte) (wav : Waveform) (cb : StatusCallback)
    (hbad : file.take 4 ≠ tagRIFF ∨ ∃ b, declaredBits file = some b ∧ b ≠ 8 ∧ b ≠ 16 ∧ b ≠ 32) :
    WAVFileReadHeader budget file = Res.fail ∧
      WaveformLoadFromWAV budget file wav cb = Res.ok (false, wav) := by
  have hfail : WAVFileReadHeader budget file = Res.fail := by
    rcases hbad with h | ⟨b, hb, h8, h16, h32⟩
    · simp only [WAVFileReadHeader, readHeaders, signature_needs_RIFF file h]
    · unfold declaredBits at hb
      cases hs : read_and_confirm_wav_signature { content := file, pos := 0 } with
      | none => simp only [WAVFileReadHeader, readHeaders, hs]
      | some fp =>
        rw [hs] at hb
        simp only [Option.map_some', Option.some.injEq] at hb
        have hc : fp.content = file := signature_content _ _ hs
        have hf := format_header_checks_bits fp (by rw [hc, hb]; exact ⟨h8, h16, h32⟩)
        simp only [WAVFileReadHeader, readHeaders, hs, hf]
  refine ⟨hfail, ?_⟩
  unfold WaveformLoadFromWAV
  rw [hfail]
  split_ifs <;> rfl

theorem wav_corruption_rejected_witness :
    WAVFileReadHeader 5 depth24File = Res.fail ∧
      WaveformLoadFromWAV 5 depth24File (Waveform.mk [1, 2] 44100 2) none
        = Res.ok (false, Waveform.mk [1, 2] 44100 2) :=
  wav_corruption_rejected 5 depth24File (Waveform.mk [1, 2] 44100 2) none
    (Or.inr ⟨24, by decide, by decide, by decide, by decide⟩)

/-! ## C9: the buffer invariant -/

theorem Populate_some (w : Waveform) (n c : Nat) (src : Option (List ℚ)) (b : Bool) (w' : Waveform)
    (h : w.Populate n c src = some (b, w')) :
    (b = false ∧ w' = w) ∨
      (b = true ∧ 1 ≤ c ∧ c ≤ 256 ∧ w'.m_numChannels = c ∧ w'.m_rate = w.m_rate ∧
        w'.m_data.length = n * c % SIZE) := by
  have hM4 := vectorMaxSize_mul4
  unfold Waveform.Populate at h
  by_cases hc : c < 1 ∨ c > 256
  · rw [if_pos hc] at h
    simp only [Option.some.injEq, Prod.mk.injEq] at h
    exact Or.inl ⟨h.1.symm, h.2.symm⟩
  · rw [if_neg hc] at h
    simp only at h
    by_cases hbig : n * c % SIZE > vectorMaxSize
    · rw [if_pos hbig] at h
      exact absurd h (by simp)
    · rw [if_neg hbig] at h
      have hb4 : n * c * 4 % SIZE = n * c % SIZE * 4 := by
        have h4 : 4 % SIZE = 4 := by norm_num [SIZE]
        rw [Nat.mul_mod, h4]
        exact Nat.mod_eq_of_lt (by omega)
      have hq : n * c % SIZE * 4 / 4 = n * c % SIZE := Nat.mul_div_cancel _ (by norm_num)
      rw [hb4, hq] at h
      have hres : (List.take (n * c % SIZE) w.m_data
          ++ List.replicate (n * c % SIZE - w.m_data.length) (0 : ℚ)).length = n * c % SIZE := by
        simp only [List.length_append, List.length_take, List.length_replicate]
        omega
      right
      by_cases hz : n * c % SIZE * 4 > 0
      · rw [if_pos hz] at h
        cases src with
        | none =>
          simp only [Option.some.injEq, Prod.mk.injEq] at h
          obtain ⟨hb, hw⟩ := h
          subst hw
          refine ⟨hb.symm, by omega, by omega, rfl, rfl, ?_⟩
          simp only [List.length_append, List.length_replicate, List.length_drop, hres]
          omega
        | some s =>
          simp only at h
          by_cases hs : s.length * 4 < n * c % SIZE * 4
          · rw [if_pos hs] at h
            exact absurd h (by simp)
          · rw [if_neg hs] at h
            simp only [Option.some.injEq, Prod.mk.injEq] at h
            obtain ⟨hb, hw⟩ := h
            subst hw
            refine ⟨hb.symm, by omega, by omega, rfl, rfl, ?_⟩
            simp only [List.length_append, List.length_take, List.length_drop, hres]
            omega
      · rw [if_neg hz] at h
        simp only [Option.some.injEq, Prod.mk.injEq] at h
        obtain ⟨hb, hw⟩ := h
        subst hw
        exact ⟨hb.symm, by omega, by omega, rfl, rfl, hres⟩

theorem mapFrames_length (w : Waveform) (f : ℚ → ℚ) : (w.mapFrames f).length = w.m_data.length := by
  simp [Waveform.mapFrames]

theorem normalizeChunk_length (L : ℚ) (C k : Nat) (st st' : List ℚ × ℚ) (i : Nat)
    (h : normalizeChunk L C k st i = some st') : st'.1.length = st.1.length := by
  unfold normalizeChunk at h
  simp only at h
  split at h
  · exact absurd h (by simp)
  · split_ifs at h
    all_goals
      simp only [Option.map_eq_some'] at h
      obtain ⟨newData, hcol, hst⟩ := h
      rw [← hst]
      simp only
      rw [collect_length _ _ hcol, List.length_mapIdx]

theorem invariant_of_length (w w' : Waveform) (hinv : w.invariant)
    (hc : w'.m_numChannels = w.m_numChannels) (hl : w'.m_data.length = w.m_data.length) :
    w'.invariant := by
  unfold Waveform.invariant at hinv ⊢
  rw [hc, hl]
  exact hinv

theorem Populate_invariant (w : Waveform) (hinv : w.invariant) (n c : Nat) (src : Option (List ℚ))
    (b : Bool) (w' : Waveform) (hn : n * c < SIZE) (h : w.Populate n c src = some (b, w')) :
    w'.invariant := by
  rcases Populate_some w n c src b w' h with ⟨_, hw⟩ | ⟨_, h1, h2, h3, _, h5⟩
  · rw [hw]
    exact hinv
  · rw [Nat.mod_eq_of_lt hn] at h5
    exact ⟨by rw [h3, h5]; exact Dvd.intro_left n rfl, by omega, by omega⟩

theorem ConvertToMono_invariant (w : Waveform) (hinv : w.invariant) (b : Bool) (w' : Waveform)
    (h : w.ConvertToMono = some (b, w')) : w'.invariant := by
  unfold Waveform.ConvertToMono at h
  split_ifs at h with h1 h2 h3
  · simp only [Option.some.injEq, Prod.mk.injEq] at h
    rw [← h.2, Waveform.invariant, h1]
    simp
  · simp only [Option.some.injEq, Prod.mk.injEq] at h
    rw [← h.2]
    exact hinv
  · simp only [Option.some.injEq, Prod.mk.injEq] at h
    rw [← h.2]
    exact hinv
  · simp only [Option.map_eq_some'] at h
    obtain ⟨newData, _, hw⟩ := h
    simp only [Prod.mk.injEq] at hw
    rw [← hw.2]
    exact ⟨one_dvd _, le_refl 1, by norm_num⟩

theorem ConvertToStereo_invariant (w : Waveform) (hinv : w.invariant) (b : Bool) (w' : Waveform)
    (h : w.ConvertToStereo = some (b, w')) : w'.invariant := by
  unfold Waveform.ConvertToStereo at h
  simp only at h
  split_ifs at h with h1 h2 h3 h4
  · simp only [Option.some.injEq, Prod.mk.injEq] at h
    rw [← h.2, Waveform.invariant, h1]
    simp
  · simp only [Option.some.injEq, Prod.mk.injEq] at h
    rw [← h.2]
    exact hinv
  · simp only [Option.some.injEq, Prod.mk.injEq] at h
    rw [← h.2]
    exact hinv
  · simp only [Option.map_eq_some'] at h
    obtain ⟨vals, _, hw⟩ := h
    simp only [Prod.mk.injEq] at hw
    rw [← hw.2]
    refine ⟨?_, by norm_num, by norm_num⟩
    simp only [dup_length]
    exact Dvd.intro _ rfl

theorem Silence_invariant (w : Waveform) (hinv : w.invariant) (start count : Nat) (soft : Bool)
    (w' : Waveform) (h : w.Silence start count soft = some w') : w'.invariant := by
  unfold Waveform.Silence at h
  simp only at h
  split_ifs at h
  all_goals
    first
      | (simp only [Option.some.injEq] at h
         rw [← h]
         exact hinv)
      | (simp only [Option.map_eq_some'] at h
         obtain ⟨newData, hcol, hw⟩ := h
         rw [← hw]
         exact invariant_of_length w _ hinv rfl (by
           simp only
           rw [collect_length _ _ hcol, List.length_mapIdx]))

theorem Delete_invariant (w : Waveform) (hinv : w.invariant) (hrep : w.representable)
    (start count : Nat) (b : Bool) (w' : Waveform) (h : w.Delete start count = some (b, w')) :
    w'.invariant := by
  obtain ⟨hdvd, hc1, hc2⟩ := hinv
  obtain ⟨hlen, _, _⟩ := hrep
  have hMS := vectorMaxSize_lt_SIZE
  have hle := GetNumSamples_mul_le w
  unfold Waveform.Delete at h
  simp only at h
  by_cases h1 : w.m_data = []
  · rw [if_pos h1] at h
    simp only [Option.some.injEq, Prod.mk.injEq] at h
    rw [← h.2]
    exact ⟨hdvd, hc1, hc2⟩
  · rw [if_neg h1] at h
    by_cases h2 : start ≥ w.GetNumSamples
    · rw [if_pos h2] at h
      simp only [Option.some.injEq, Prod.mk.injEq] at h
      rw [← h.2]
      exact ⟨hdvd, hc1, hc2⟩
    · rw [if_neg h2] at h
      have hsc : start * w.m_numChannels < SIZE := by
        have : start * w.m_numChannels ≤ w.GetNumSamples * w.m_numChannels :=
          Nat.mul_le_mul_right _ (by omega)
        omega
      rw [Nat.mod_eq_of_lt hsc] at h
      obtain ⟨s, hs, hsle⟩ : ∃ s, (start + (if (start + count) % SIZE ≥ w.GetNumSamples
          then w.GetNumSamples - start else count)) % SIZE = s ∧ s ≤ w.GetNumSamples := by
        refine ⟨_, rfl, ?_⟩
        split_ifs with h3
        · have : start + (w.GetNumSamples - start) = w.GetNumSamples := by omega
          rw [this]
          exact Nat.mod_le _ _
        · omega
      rw [hs] at h
      have hsc2 : s * w.m_numChannels < SIZE := by
        have : s * w.m_numChannels ≤ w.GetNumSamples * w.m_numChannels := Nat.mul_le_mul_right _ hsle
        omega
      rw [Nat.mod_eq_of_lt hsc2] at h
      split_ifs at h with h4
      simp only [Option.some.injEq, Prod.mk.injEq] at h
      rw [← h.2]
      refine ⟨?_, hc1, hc2⟩
      simp only [List.length_append, List.length_take, List.length_drop]
      have e1 : min (start * w.m_numChannels) w.m_data.length = start * w.m_numChannels := by omega
      rw [e1]
      exact Dvd.dvd.add (Dvd.intro_left _ rfl) (Nat.dvd_sub' hdvd (Dvd.intro_left _ rfl))

theorem Insert_invariant (w : Waveform) (hinv : w.invariant) (start count : Nat) (b : Bool)
    (w' : Waveform) (hn : count * w.m_numChannels < SIZE) (h : w.Insert start count = some (b, w')) :
    w'.invariant := by
  unfold Waveform.Insert at h
  simp only at h
  split_ifs at h with h1 h2 h3 h4
  · exact Populate_invariant w hinv count w.m_numChannels none b w' hn h
  · simp only [Option.some.injEq, Prod.mk.injEq] at h
    rw [← h.2]
    exact hinv
  · simp only [Option.some.injEq, Prod.mk.injEq] at h
    rw [← h.2]
    exact hinv
  · simp only [Option.some.injEq, Prod.mk.injEq] at h
    rw [← h.2]
    obtain ⟨hdvd, hc1, hc2⟩ := hinv
    refine ⟨?_, hc1, hc2⟩
    simp only [List.length_append, List.length_take, List.length_replicate, List.length_drop,
      Nat.mod_eq_of_lt hn]
    have : min (start * w.m_numChannels) w.m_data.length + count * w.m_numChannels
        + (w.m_data.length - start * w.m_numChannels) = w.m_data.length + count * w.m_numChannels := by
      omega
    rw [this]
    exact Dvd.dvd.add hdvd (Dvd.intro_left _ rfl)

theorem Stretch_invariant (w : Waveform) (hinv : w.invariant) (n : Nat) (b : Bool) (w' : Waveform)
    (h : w.Stretch n = some (b, w')) : w'.invariant := by
  unfold Waveform.Stretch at h
  by_cases h1 : n < 1
  · rw [if_pos h1] at h
    simp only [Option.some.injEq, Prod.mk.injEq] at h
    rw [← h.2]
    exact hinv
  · rw [if_neg h1] at h
    by_cases h2 : w.m_data.length ≤ 1
    · rw [if_pos h2] at h
      simp only [Option.some.injEq, Prod.mk.injEq] at h
      rw [← h.2]
      exact hinv
    · rw [if_neg h2] at h
      simp only at h
      obtain ⟨hdvd, hc1, hc2⟩ := hinv
      have hne : w.m_data ≠ [] := by
        intro h0
        rw [h0] at h2
        simp at h2
      have hns : 1 ≤ w.GetNumSamples := by
        rw [GetNumSamples_eq w hne (by omega)]
        obtain ⟨k, hk⟩ := hdvd
        rw [hk, Nat.mul_div_cancel_left k (by omega)]
        rcases Nat.eq_zero_or_pos k with hz | hz
        · rw [hz] at hk
          simp at hk
          exact absurd hk hne
        · exact hz
      cases hp : (Waveform.mk Waveform.fresh.m_data w.m_rate Waveform.fresh.m_numChannels).Populate n
          w.m_numChannels none with
      | none =>
        rw [hp] at h
        exact absurd h (by simp)
      | some r =>
        obtain ⟨pb, newWav⟩ := r
        rw [hp] at h
        rcases Populate_some _ _ _ _ _ _ hp with ⟨hb, _⟩ | ⟨hb, _, _, h3, _, h5⟩
        · subst hb
          exact absurd h (by simp)
        · subst hb
          simp only at h
          split_ifs at h with h4
          simp only [Option.some.injEq, Prod.mk.injEq] at h
          rw [← h.2]
          have hlt : n * w.m_numChannels < SIZE := by
            by_contra hge
            exact h4 ⟨by omega, by omega⟩
          rw [Nat.mod_eq_of_lt hlt] at h5
          refine ⟨?_, by simp only; omega, by simp only; omega⟩
          simp only [List.length_mapIdx, h5, h3]
          exact Dvd.intro_left _ rfl

theorem Resample_tail (w : Waveform) (hinv : w.invariant) (n Hz : Nat) (b : Bool) (w' : Waveform)
    (h : (match w.Stretch n with
      | none => none
      | some (false, w1) => some (false, w1)
      | some (true, w1) => some (true, { w1 with m_rate := Hz })) = some (b, w')) :
    w'.invariant := by
  cases hs : w.Stretch n with
  | none =>
    rw [hs] at h
    exact absurd h (by simp)
  | some r =>
    obtain ⟨sb, w1⟩ := r
    have hi := Stretch_invariant w hinv n sb w1 hs
    rw [hs] at h
    cases sb with
    | false =>
      simp only [Option.some.injEq, Prod.mk.injEq] at h
      rw [← h.2]
      exact hi
    | true =>
      simp only [Option.some.injEq, Prod.mk.injEq] at h
      rw [← h.2]
      exact hi

theorem Resample_invariant (w : Waveform) (hinv : w.invariant) (Hz : Nat) (b : Bool) (w' : Waveform)
    (h : w.Resample Hz = some (b, w')) : w'.invariant := by
  unfold Waveform.Resample at h
  simp only at h
  split_ifs at h with h1 h2 h3 h4
  · simp only [Option.some.injEq, Prod.mk.injEq] at h
    rw [← h.2]
    exact hinv
  · simp only [Option.some.injEq, Prod.mk.injEq] at h
    rw [← h.2]
    exact hinv
  all_goals exact Resample_tail w hinv _ Hz b w' h

theorem Fit_invariant (w : Waveform) (hinv : w.invariant) (lowest highest : ℚ) (b : Bool)
    (w' : Waveform) (h : w.Fit lowest highest = some (b, w')) : w'.invariant := by
  unfold Waveform.Fit at h
  simp only at h
  split_ifs at h with h1 h2
  · simp only [Option.some.injEq, Prod.mk.injEq] at h
    rw [← h.2]
    exact hinv
  · simp only [Option.some.injEq, Prod.mk.injEq] at h
    rw [← h.2]
    exact hinv
  · split at h
    · split at h
      · split_ifs at h
        · simp only [Option.some.injEq, Prod.mk.injEq] at h
          rw [← h.2]
          exact hinv
        · simp only [Option.some.injEq, Prod.mk.injEq] at h
          rw [← h.2]
          exact invariant_of_length w _ hinv rfl (mapFrames_length w _)
      · exact absurd h (by simp)
    · exact absurd h (by simp)

theorem Normalize_invariant (w : Waveform) (hinv : w.invariant) (powf : ℚ → ℚ → ℚ) (dbLevel : ℚ)
    (w' : Waveform) (h : w.Normalize powf dbLevel = some w') : w'.invariant := by
  unfold Waveform.Normalize at h
  simp only at h
  split_ifs at h
  all_goals first
    | (simp only [Option.some.injEq] at h
       rw [← h]
       exact hinv)
    | (simp only [Option.map_eq_some'] at h
       obtain ⟨st, hst, hw⟩ := h
       rw [← hw]
       have hl := foldlM_preserve _ (fun st : List ℚ × ℚ => st.1.length = w.m_data.length)
         (fun s a s' hs hq => by
           show s'.1.length = w.m_data.length
           rw [normalizeChunk_length _ _ _ _ _ _ hs]
           exact hq) _ _ _ hst rfl
       exact invariant_of_length w _ hinv rfl hl)

/-- Claim C9 fails as stated.  `Populate(6148914691236517206, 3)` computes the
element count 6148914691236517206 x 3 = 2^64 + 2 as 2 in `size_t`: the call
succeeds and leaves two stored samples with a channel count of 3. -/
theorem populate_size_overflow :
    (Waveform.mk [] 48000 1).invariant ∧
      (Waveform.mk [] 48000 1).Populate 6148914691236517206 3 none
        = some (true, Waveform.mk [0, 0] 48000 3) ∧
      ¬ (Waveform.mk [0, 0] 48000 3).invariant := by
  refine ⟨by norm_num [Waveform.invariant], ?_, by norm_num [Waveform.invariant]⟩
  norm_num [Waveform.Populate, SIZE, vectorMaxSize]
  rfl

/-- Claim C9, amended.  If a representable Waveform satisfies the invariant (the
number of stored samples is a multiple of channelCount and 1 <= channelCount <=
256), then so does the state left by each of Populate (succeeding or failing),
SetSample, ConvertToMono, ConvertToStereo, Silence, Delete, Insert, Stretch,
Resample, Multiply, Add, Clip, Fit and Normalize whenever the call returns, for
every argument, provided that for Populate and Insert the requested element
count numSamples x numChannels (count x channelCount) is below 2^64. -/
theorem invariant_preserved (w : Waveform) (hinv : w.invariant) (hrep : w.representable) :
    (∀ n c src b w', n * c < SIZE → w.Populate n c src = some (b, w') → w'.invariant) ∧
    (∀ i ch v, (w.SetSample i ch v).2.invariant) ∧
    (∀ b w', w.ConvertToMono = some (b, w') → w'.invariant) ∧
    (∀ b w', w.ConvertToStereo = some (b, w') → w'.invariant) ∧
    (∀ start count soft w', w.Silence start count soft = some w' → w'.invariant) ∧
    (∀ start count b w', w.Delete start count = some (b, w') → w'.invariant) ∧
    (∀ start count b w', count * w.m_numChannels < SIZE →
      w.Insert start count = some (b, w') → w'.invariant) ∧
    (∀ n b w', w.Stretch n = some (b, w') → w'.invariant) ∧
    (∀ Hz b w', w.Resample Hz = some (b, w') → w'.invariant) ∧
    (∀ v, (w.Multiply v).2.invariant) ∧
    (∀ v, (w.Add v).2.invariant) ∧
    (∀ lo hi, (w.Clip lo hi).2.invariant) ∧
    (∀ lo hi b w', w.Fit lo hi = some (b, w') → w'.invariant) ∧
    (∀ powf dbLevel w', w.Normalize powf dbLevel = some w' → w'.invariant) := by
  refine ⟨?_, ?_, ?_, ?_, ?_, ?_, ?_, ?_, ?_, ?_, ?_, ?_, ?_, ?_⟩
  · intro n c src b w' hn h
    exact Populate_invariant w hinv n c src b w' hn h
  · intro i ch v
    unfold Waveform.SetSample
    simp only
    split_ifs
    · exact hinv
    · exact invariant_of_length w _ hinv rfl (by simp)
  · exact ConvertToMono_invariant w hinv
  · exact ConvertToStereo_invariant w hinv
  · exact Silence_invariant w hinv
  · exact Delete_invariant w hinv hrep
  · intro start count b w' hn h
    exact Insert_invariant w hinv start count b w' hn h
  · exact Stretch_invariant w hinv
  · exact Resample_invariant w hinv
  · intro v
    unfold Waveform.Multiply
    split_ifs
    · exact hinv
    · exact invariant_of_length w _ hinv rfl (mapFrames_length w _)
  · intro v
    unfold Waveform.Add
    split_ifs
    · exact hinv
    · exact invariant_of_length w _ hinv rfl (mapFrames_length w _)
  · intro lo hi
    unfold Waveform.Clip
    split_ifs
    · exact hinv
    · exact invariant_of_length w _ hinv rfl (mapFrames_length w _)
  · exact Fit_invariant w hinv
  · intro powf dbLevel w' h
    exact Normalize_invariant w hinv powf dbLevel w' h

theorem invariant_preserved_witness :
    (∀ n c src b w', n * c < SIZE → (Waveform.mk [1, 2, 3, 4] 48000 2).Populate n c src = some (b, w') → w'.invariant) ∧
    (∀ i ch v, ((Waveform.mk [1, 2, 3, 4] 48000 2).SetSample i ch v).2.invariant) ∧
    (∀ b w', (Waveform.mk [1, 2, 3, 4] 48000 2).ConvertToMono = some (b, w') → w'.invariant) ∧
    (∀ b w', (Waveform.mk [1, 2, 3, 4] 48000 2).ConvertToStereo = some (b, w') → w'.invariant) ∧
    (∀ start count soft w', (Waveform.mk [1, 2, 3, 4] 48000 2).Silence start count soft = some w' → w'.invariant) ∧
    (∀ start count b w', (Waveform.mk [1, 2, 3, 4] 48000 2).Delete start count = some (b, w') → w'.invariant) ∧
    (∀ start count b w', count * 2 < SIZE →
      (Waveform.mk [1, 2, 3, 4] 48000 2).Insert start count = some (b, w') → w'.invariant) ∧
    (∀ n b w', (Waveform.mk [1, 2, 3, 4] 48000 2).Stretch n = some (b, w') → w'.invariant) ∧
    (∀ Hz b w', (Waveform.mk [1, 2, 3, 4] 48000 2).Resample Hz = some (b, w') → w'.invariant) ∧
    (∀ v, ((Waveform.mk [1, 2, 3, 4] 48000 2).Multiply v).2.invariant) ∧
    (∀ v, ((Waveform.mk [1, 2, 3, 4] 48000 2).Add v).2.invariant) ∧
    (∀ lo hi, ((Waveform.mk [1, 2, 3, 4] 48000 2).Clip lo hi).2.invariant) ∧
    (∀ lo hi b w', (Waveform.mk [1, 2, 3, 4] 48000 2).Fit lo hi = some (b, w') → w'.invariant) ∧
    (∀ powf dbLevel w', (Waveform.mk [1, 2, 3, 4] 48000 2).Normalize powf dbLevel = some w' → w'.invariant) :=
  invariant_preserved (Waveform.mk [1, 2, 3, 4] 48000 2)
    (by norm_num [Waveform.invariant]) (by norm_num [Waveform.representable, vectorMaxSize, U32, SIZE])

/-! ## C10: queries -/

/-- Claim C10 at a failing input.  On a one-frame mono buffer (which satisfies the
data-model invariant) `GetSample(1, 0)` passes the test `sampleIndex >
GetNumSamples()` and reads `m_data[1]`, one element past the end of the sample
storage, instead of returning 0; `SetSample` rejects the same index. -/
theorem getsample_reads_past_end :
    (Waveform.mk [1 / 2] 48000 1).invariant ∧ (Waveform.mk [1 / 2] 48000 1).GetNumSamples = 1 ∧
      (Waveform.mk [1 / 2] 48000 1).GetSample 1 0 = none ∧
      ((Waveform.mk [1 / 2] 48000 1).SetSample 1 0 0).1 = false := by
  refine ⟨by norm_num [Waveform.invariant], ?_, ?_, ?_⟩
  · simp [Waveform.GetNumSamples]
  · simp [Waveform.GetSample, Waveform.GetNumSamples]
  · simp [Waveform.SetSample, Waveform.GetNumSamples]

/-! ## C11: cancelling a load -/

/-- Claim C11 at a failing input.  Loading into an empty waveform with a
callback that asks to stop at the completion value 0.4 returns false, but the
waveform keeps the buffer that `Populate` allocated just before: one frame for
the one-frame WAV file and one frame for the one-frame raw PCM file, where the
claim promises zero frames.  The same loads cancelled at the completion value
1.0 do reset the waveform to zero frames. -/
theorem load_cancel_after_allocation :
    WaveformLoadFromWAV 1 fullScaleFile Waveform.fresh (cancelAt (4 / 10))
        = Res.ok (false, Waveform.mk [0] 48000 1) ∧
      (Waveform.mk [0] 48000 1).GetNumSamples = 1 ∧
      WaveformLoadFromRawPCM oneFrameRawFile Waveform.fresh 22500 2 2 false (cancelAt (4 / 10))
        = Res.ok (false, Waveform.mk [0, 0] 48000 2) ∧
      (Waveform.mk [0, 0] 48000 2).GetNumSamples = 1 ∧
      WaveformLoadFromWAV 1 fullScaleFile Waveform.fresh (cancelAt 1) = Res.ok (false, Waveform.fresh) ∧
      WaveformLoadFromRawPCM oneFrameRawFile Waveform.fresh 22500 2 2 false (cancelAt 1)
        = Res.ok (false, Waveform.fresh) ∧
      Waveform.fresh.GetNumSamples = 0 := by
  have h1 : WAVFileReadHeader 1 fullScaleFile = Res.ok (WAVInfo.mk 48000 1 32 false 1) := by decide
  have h2 : WAVFileReadSamples 1 fullScaleFile 4 = Res.ok [0, 0, 0, 128] := by decide
  have h3 : leVal [0, 0, 0, 128] = 2147483648 := by decide
  have h4 : toSigned 32 2147483648 = -2147483648 := by decide
  have h5 : floatOfInt (-2147483648) = -2147483648 := by norm_num [floatOfInt, Nat.log2]
  have r1 : RawPCMFileRead oneFrameRawFile 1 2 2 [0, 0, 0, 0] = some [1, 2, 3, 4] := by decide
  have r2 : leVal [1, 2] = 513 := by decide
  have r3 : leVal [3, 4] = 1027 := by decide
  have r4 : toSigned 16 513 = 513 := by decide
  have r5 : toSigned 16 1027 = 1027 := by decide
  have r6 : floatOfInt 513 = 513 := by norm_num [floatOfInt, Nat.log2]
  have r7 : floatOfInt 1027 = 1027 := by norm_num [floatOfInt, Nat.log2]
  refine ⟨?_, by decide, ?_, by decide, ?_, ?_, by decide⟩
  · simp [WaveformLoadFromWAV, cancelAt, cancelled, h1, Waveform.SetRate, U32, h2, Waveform.Populate,
      Waveform.fresh, SIZE, vectorMaxSize]
    norm_num
  · have e : oneFrameRawFile.length = 4 := rfl
    simp [WaveformLoadFromRawPCM, cancelAt, cancelled, RawPCMFileGetSizeInBytes, e, U32, SIZE, r1,
      Waveform.Populate, Waveform.fresh, vectorMaxSize]
    norm_num
  · simp [WaveformLoadFromWAV, cancelAt, cancelled, h1, Waveform.SetRate, U32, h2, Waveform.Populate,
      Waveform.fresh, SIZE, vectorMaxSize, ConvertWAVSampleToFloat, h3, h4, h5, collect]
    norm_num
  · have e : oneFrameRawFile.length = 4 := rfl
    have d0 : List.drop 0 [(1 : Byte), 2, 3, 4] = [1, 2, 3, 4] := rfl
    have d2 : List.drop 2 [(1 : Byte), 2, 3, 4] = [3, 4] := rfl
    have t0 : List.take 2 [(1 : Byte), 2, 3, 4] = [1, 2] := rfl
    have t2 : List.take 2 [(3 : Byte), 4] = [3, 4] := rfl
    simp [WaveformLoadFromRawPCM, cancelAt, cancelled, RawPCMFileGetSizeInBytes, e, U32, SIZE, r1,
      Waveform.Populate, Waveform.fresh, vectorMaxSize, ConvertRawSampleToFloat, List.range_succ, collect,
      d0, d2, t0, t2, r2, r3, r4, r5, r6, r7]
    norm_num
/-! ## C12: encoding a decoded sample -/

/-- Claim C12 fails as stated.  The 32-bit sample 16777217 is rounded to the
`float` 16777216 when it is decoded (the decoded value is 1/128) and is encoded
as 16777216.  The 16-bit sample -32768 decodes to -(1 + 2^-15); the encoder
clamps the product to -32767.0 and converts it with `static_cast<uint16_t>`,
whose behaviour is undefined for a negative value. -/
theorem decode_encode_not_inverse :
    toSigned 32 16777217 = 16777217 ∧
      ConvertWAVSampleToFloat (WAVInfo.mk 48000 1 32 false 1) (le32 16777217) = some (1 / 128) ∧
      ConvertFloatSample (1 / 128) false 4 = Res.ok (le32 16777216) ∧
      le32 16777216 ≠ le32 16777217 ∧
      toSigned 16 32768 = -32768 ∧
      ConvertWAVSampleToFloat (WAVInfo.mk 48000 1 16 false 1) (le16 32768) = some (-8388864 / 8388608) ∧
      ConvertFloatSample (-8388864 / 8388608) false 2 = Res.fault := by
  have a1 : toSigned 16 32768 = -32768 := by decide
  have a2 : leVal (le16 32768) = 32768 := by decide
  have a3 : floatOfInt (-32768) = -32768 := by norm_num [floatOfInt, Nat.log2]
  have b1 : toSigned 32 16777217 = 16777217 := by decide
  have b2 : leVal (le32 16777217) = 16777217 := by decide
  have b3 : floatOfInt 16777217 = 16777216 := by norm_num [floatOfInt, Nat.log2]
  have r1 : roundF32 ((16777216 : ℚ) / 2147483648) = 1 / 128 := by
    have h := roundF32_pow2_mul 1 (-7) (by decide) (by norm_num)
    have e : ((1 : Int) : ℚ) * (2 : ℚ) ^ (-7 : Int) = 1 / 128 := by norm_num
    have e2 : (16777216 : ℚ) / 2147483648 = 1 / 128 := by norm_num
    rw [e] at h
    rw [e2, h]
  have r2 : roundF32 ((1 / 128 : ℚ) * 2147483648) = ((16777216 : Nat) : ℚ) := by
    have h := roundF32_pow2_mul 1 24 (by decide) (by norm_num)
    have e : ((1 : Int) : ℚ) * (2 : ℚ) ^ (24 : Int) = ((16777216 : Nat) : ℚ) := by norm_num
    have e2 : (1 / 128 : ℚ) * 2147483648 = ((16777216 : Nat) : ℚ) := by norm_num
    rw [e] at h
    rw [e2, h]
  have r3 : roundF32 ((-32768 : ℚ) / 32767) = -8388864 / 8388608 := by
    have h := roundTo_eval 24 (-126) ((-32768 : ℚ) / 32767) 0 (-8388864)
      (by norm_num [abs_of_neg]) (by norm_num [abs_of_neg]) (by norm_num [abs_lt])
    rw [roundF32, h]
    norm_num
  have r4 : roundF32 ((-8388864 / 8388608 : ℚ) * 32767) = -32768 := by
    have h := roundTo_eval 24 (-126) ((-8388864 / 8388608 : ℚ) * 32767) 14 (-16777216)
      (by norm_num [abs_of_neg]) (by norm_num [abs_of_neg]) (by norm_num [abs_lt])
    rw [roundF32, h]
    norm_num
  refine ⟨b1, ?_, ?_, by decide, a1, ?_, ?_⟩
  · apply decode_int32 _ (le32 16777217) _ rfl rfl rfl
    rw [b2, b1, b3]
    exact r1
  · exact encode_int32_of (1 / 128) 16777216 (by norm_num) r2
  · apply decode_int16 _ (le16 32768) _ rfl rfl rfl
    rw [a2, a1, a3]
    exact r3
  · rw [ConvertFloatSample_int16, r4]
    have e : (if (if (-32768 : ℚ) < -32767 then (-32767 : ℚ) else -32768) > 32767 then (32767 : ℚ)
        else if (-32768 : ℚ) < -32767 then -32767 else -32768) = -32767 := by norm_num
    rw [e, castUnsigned_negative 16 (-32767) (by norm_num)]

/-- Claim C12, amended.  Encoding the decoded value of a raw integer sample
at the same depth gives back exactly that sample for every unsigned 8-bit
sample, for every 16-bit sample in [0, 32767], and for every 32-bit sample in
[0, 2147483647] that converts to `float` without rounding (at most 24
significant bits).  The scaling arithmetic is that of `float`, one rounding
per operation. -/
theorem decode_then_encode (rate channels count : Nat) :
    (∀ v : Byte, ∃ x, ConvertWAVSampleToFloat (WAVInfo.mk rate channels 8 false count) [v] = some x ∧
        ConvertFloatSample x false 1 = Res.ok [v]) ∧
      (∀ w : Nat, w ≤ 32767 →
        ∃ x, ConvertWAVSampleToFloat (WAVInfo.mk rate channels 16 false count) (le16 w) = some x ∧
          ConvertFloatSample x false 2 = Res.ok (le16 w)) ∧
      (∀ w : Nat, w ≤ 2147483647 → floatOfInt (w : Int) = (w : ℚ) →
        ∃ x, ConvertWAVSampleToFloat (WAVInfo.mk rate channels 32 false count) (le32 w) = some x ∧
          ConvertFloatSample x false 4 = Res.ok (le32 w)) := by
  refine ⟨?_, ?_, ?_⟩
  · intro v
    have hv := v.isLt
    have hf : floatOfInt ((v.val : Nat) : Int) = (v.val : ℚ) := by
      rw [floatOfInt_small _ (by simp only [Int.natAbs_ofNat]; omega)]
      norm_cast
    have hsub : (v.val : ℚ) - 128 = (((v.val : Int) - 128 : Int) : ℚ) := by push_cast; ring
    have hr : roundF32 ((v.val : ℚ) - 128) = (v.val : ℚ) - 128 := by
      rw [hsub]
      exact roundF32_intCast _ (by omega)
    refine ⟨roundF32 (((v.val : ℚ) - 128) / 127), ?_, ?_⟩
    · apply decode_int8 _ _ _ rfl rfl
      rw [hf, hr]
    · have hb : byteOf v.val 0 = v := by
        apply Fin.ext
        rw [byteOf_val]
        omega
      have h := encode_int8_of (roundF32 (((v.val : ℚ) - 128) / 127)) v.val (by omega) (by
        have hs := scale8_round_trip ((v.val : Int) - 128) (by omega)
        rw [← hsub] at hs
        rw [hs]
        have e : (v.val : ℚ) - 128 + 128 = ((v.val : Nat) : ℚ) := by ring
        rw [e]
        exact roundF32_natCast _ (by omega))
      rw [hb] at h
      exact h
  · intro w hw
    have hw16 : w < 2 ^ 16 := by norm_num; omega
    have ht : toSigned 16 w = (w : Int) := by
      unfold toSigned
      have e : w % 2 ^ 16 = w := Nat.mod_eq_of_lt hw16
      rw [e, if_pos (by norm_num; omega)]
    have hf : floatOfInt (w : Int) = (w : ℚ) := by
      rw [floatOfInt_small _ (by simp only [Int.natAbs_ofNat]; omega)]
      norm_cast
    refine ⟨roundF32 ((w : ℚ) / 32767), ?_, ?_⟩
    · apply decode_int16 _ (le16 w) _ rfl rfl rfl
      rw [leVal_le16 w hw16, ht, hf]
    · exact encode_int16_of _ w hw (scale16_round_trip w hw)
  · intro w hw hf
    have hw32 : w < 2 ^ 32 := by norm_num; omega
    have ht : toSigned 32 w = (w : Int) := by
      unfold toSigned
      have e : w % 2 ^ 32 = w := Nat.mod_eq_of_lt hw32
      rw [e, if_pos (by norm_num; omega)]
    obtain ⟨m, E, hm, hrep⟩ := floatOfInt_repr (w : Int)
    rw [hf] at hrep
    have hdiv : (w : ℚ) / 2147483648 = (m : ℚ) * (2 : ℚ) ^ (((E : Nat) : Int) - 31) := by
      rw [hrep, zpow_sub₀ (two_ne_zero)]
      norm_num
      ring
    have hr1 : roundF32 ((w : ℚ) / 2147483648) = (w : ℚ) / 2147483648 := by
      rw [hdiv]
      exact roundF32_pow2_mul m _ hm (by omega)
    have hr2 : roundF32 ((w : ℚ) / 2147483648 * 2147483648) = (w : ℚ) := by
      have e : (w : ℚ) / 2147483648 * 2147483648 = (w : ℚ) := by field_simp
      rw [e]
      nth_rewrite 1 [hrep]
      rw [roundF32_pow2_mul m _ hm (by omega), ← hrep]
    refine ⟨(w : ℚ) / 2147483648, ?_, ?_⟩
    · apply decode_int32 _ (le32 w) _ rfl rfl rfl
      rw [leVal_le32 w hw32, ht, hf]
      exact hr1
    · exact encode_int32_of _ w (by omega) hr2

theorem decode_then_encode_witness :
    (∃ x, ConvertWAVSampleToFloat (WAVInfo.mk 48000 1 16 false 1) (le16 32767) = some x ∧
        ConvertFloatSample x false 2 = Res.ok (le16 32767)) ∧
      (∃ x, ConvertWAVSampleToFloat (WAVInfo.mk 48000 1 32 false 1) (le32 3) = some x ∧
        ConvertFloatSample x false 4 = Res.ok (le32 3)) :=
  ⟨(decode_then_encode 48000 1 1).2.1 32767 (by norm_num),
    (decode_then_encode 48000 1 1).2.2 3 (by norm_num) (floatOfInt_small 3 (by decide))⟩

theorem ieee_round_trip (ebits mbits : Nat) (heb : 1 ≤ ebits) (x : ℚ) (h : isIeee ebits mbits x) :
    ieeeVal ebits mbits (ieeeBits ebits mbits x) = x ∧
      ieeeBits ebits mbits x < 2 ^ (ebits + mbits) + 2 ^ (ebits + mbits) := by
  obtain ⟨m, e, hm, he1, he2, hx⟩ := h
  rw [pow2_eq_zpow] at hx
  have hepos : (0 : ℚ) < (2 : ℚ) ^ e := by positivity
  rcases Nat.eq_zero_or_pos m with h0 | h0
  · have hx0 : x = 0 := by
      rcases hx with hx | hx <;> simp [hx, h0]
    subst hx0
    refine ⟨by simp [ieeeBits, ieeeVal], ?_⟩
    have : 0 < 2 ^ (ebits + mbits) := Nat.pow_pos (by norm_num)
    simp [ieeeBits]
  · have hmq : (0 : ℚ) < (m : ℚ) * (2 : ℚ) ^ e := by positivity
    have habs : |x| = (m : ℚ) * (2 : ℚ) ^ e := by
      rcases hx with hx | hx
      · rw [hx, abs_of_pos hmq]
      · rw [hx, abs_neg, abs_of_pos hmq]
    obtain ⟨E, frac, hb, hf, hE, hv⟩ := ieeeBits_of_repr ebits mbits heb m e h0 hm he1 he2 x habs
    have hval := ieeeVal_of_fields ebits mbits E frac (decide (x < 0)) hf hE
    simp only [decide_eq_true_eq] at hval
    rw [hb, hval, hv]
    constructor
    · split_ifs with hneg
      · rw [abs_of_neg hneg]
        ring
      · rw [abs_of_nonneg (not_lt.mp hneg)]
        ring
    · have h1 : E * 2 ^ mbits + frac < 2 ^ (ebits + mbits) := by
        have h2 : (E + 1) * 2 ^ mbits ≤ 2 ^ ebits * 2 ^ mbits := Nat.mul_le_mul_right _ hE
        rw [← pow_add, Nat.add_mul, one_mul] at h2
        omega
      split_ifs <;> omega

theorem isIeee_float_double (x : ℚ) (h : isIeee 8 23 x) : isIeee 11 52 x := by
  obtain ⟨m, e, hm, he1, he2, hx⟩ := h
  refine ⟨m, e, ?_, ?_, ?_, hx⟩
  · norm_num at hm ⊢
    omega
  · norm_num at he1 ⊢
    omega
  · norm_num at he2 ⊢
    omega

theorem leVal_leBytes8 (n : Nat) (h : n < 2 ^ 64) : leVal (leBytes n 8) = n := by
  have e : leBytes n 8 = [byteOf n 0, byteOf n 1, byteOf n 2, byteOf n 3, byteOf n 4, byteOf n 5,
      byteOf n 6, byteOf n 7] := rfl
  rw [e]
  simp only [leVal, byteOf_val]
  omega

/-! ## C13: encoding clamps -/

/-- Claim C13 fails as stated.  The `float` sample x = 98307 / 2^30
(0x1.8003p-14) has x * 32767 = 2.999999997..., whose integer part is 2; the
code rounds the product to `float` first, which gives 3.0, and stores the
word 3.  And for x = -1 the clamped value -32767.0 is converted with
`static_cast<uint16_t>`, a conversion whose behaviour is undefined for a
value below -1. -/
theorem encode_rounds_before_truncating :
    isIeee 8 23 (98307 / 2 ^ 30) ∧
      ConvertFloatSample (98307 / 2 ^ 30) false 2 = Res.ok (le16 3) ∧
      toSigned 16 (leVal (le16 3)) = 3 ∧
      ⌊min (max ((98307 / 2 ^ 30 : ℚ) * 32767) (-32767)) 32767⌋ = 2 ∧
      ConvertFloatSample (-1) false 2 = Res.fault := by
  have hr : roundF32 ((98307 / 2 ^ 30 : ℚ) * 32767) = 3 := by
    have h := roundTo_eval 24 (-126) ((98307 / 2 ^ 30 : ℚ) * 32767) 1 12582912
      (by norm_num [abs_of_pos]) (by norm_num [abs_of_pos]) (by norm_num [abs_lt])
    rw [roundF32, h]
    norm_num
  have hm : roundF32 ((-1 : ℚ) * 32767) = -32767 := by
    have h := roundF32_intCast (-32767) (by decide)
    have e : ((-1 : ℚ) * 32767) = ((-32767 : Int) : ℚ) := by norm_num
    rw [e, h]
    norm_num
  refine ⟨⟨98307, -30, by norm_num, by norm_num, by norm_num,
    Or.inl (by rw [pow2_eq_zpow]; norm_num)⟩, ?_, ?_, ?_, ?_⟩
  · rw [ConvertFloatSample_int16, hr, clamp_eq]
    have e : min (max (3 : ℚ) (-32767)) 32767 = ((3 : Nat) : ℚ) := by norm_num
    rw [e, castUnsigned_natCast 16 3 (by norm_num)]
  · rw [leVal_le16 3 (by norm_num)]
    decide
  · rw [Int.floor_eq_iff]
    constructor <;> norm_num
  · rw [ConvertFloatSample_int16, hm, clamp_eq]
    have e : min (max (-32767 : ℚ) (-32767)) 32767 = -32767 := by norm_num
    rw [e, castUnsigned_negative 16 (-32767) (by norm_num)]

/-- Claim C13, amended.  With every product and sum rounded to `float` (fl),
`ConvertFloatSample` to an 8-bit integer target stores, for every sample value
x, the byte floor(clamp(fl(fl(x*127)+128), 0, 255)), which lies in [0, 255];
to a 16-bit integer target it stores, for every x whose rounded product
fl(x*32767) is above -1, a word that read as a signed 16-bit integer is the
integer part (toward zero) of clamp(fl(x*32767), -32767, 32767) and lies in
[0, 32767]; when x is a `float` value, the 4-byte and the 8-byte float targets
store bit patterns whose value is x itself. -/
theorem encode_clamps (x : ℚ) :
    (∃ b : Byte, ConvertFloatSample x false 1 = Res.ok [b] ∧
        (b.val : Int) = ⌊min (max (roundF32 (roundF32 (x * 127) + 128)) 0) 255⌋ ∧
        0 ≤ ⌊min (max (roundF32 (roundF32 (x * 127) + 128)) 0) 255⌋ ∧
        ⌊min (max (roundF32 (roundF32 (x * 127) + 128)) 0) 255⌋ ≤ 255) ∧
      (-1 < roundF32 (x * 32767) →
        ∃ w : Nat, ConvertFloatSample x false 2 = Res.ok (le16 w) ∧ leVal (le16 w) = w ∧
          toSigned 16 w = (w : Int) ∧ w ≤ 32767 ∧
          (w : Int) = if 0 ≤ min (max (roundF32 (x * 32767)) (-32767)) 32767
            then ⌊min (max (roundF32 (x * 32767)) (-32767)) 32767⌋
            else ⌈min (max (roundF32 (x * 32767)) (-32767)) 32767⌉) ∧
      (isIeee 8 23 x →
        (∃ bytes, ConvertFloatSample x true 4 = Res.ok bytes ∧ bytes.length = 4 ∧
          ieeeVal 8 23 (leVal bytes) = x) ∧
        (∃ bytes, ConvertFloatSample x true 8 = Res.ok bytes ∧ bytes.length = 8 ∧
          ieeeVal 11 52 (leVal bytes) = x)) := by
  refine ⟨?_, ?_, ?_⟩
  · obtain ⟨h1, h2⟩ := clamp_bounds (roundF32 (roundF32 (x * 127) + 128)) 0 255 (by norm_num)
    obtain ⟨n, hc, hn, hv⟩ := castUnsigned_of_gt 8 (min (max (roundF32 (roundF32 (x * 127) + 128)) 0) 255) 255
      (by linarith) (by exact_mod_cast h2) (by norm_num)
    rw [if_pos h1] at hv
    refine ⟨byteOf n 0, ?_, ?_, ?_, ?_⟩
    · rw [ConvertFloatSample_int8, clamp_eq, hc]
    · rw [byteOf_val, ← hv]
      omega
    · rw [← hv]
      omega
    · rw [← hv]
      exact hn
  · intro hgt
    obtain ⟨h1, h2⟩ := clamp_bounds (roundF32 (x * 32767)) (-32767) 32767 (by norm_num)
    have hgt2 : -1 < min (max (roundF32 (x * 32767)) (-32767)) 32767 :=
      lt_min (lt_of_lt_of_le hgt (le_max_left _ _)) (by norm_num)
    obtain ⟨n, hc, hn, hv⟩ := castUnsigned_of_gt 16 (min (max (roundF32 (x * 32767)) (-32767)) 32767) 32767
      hgt2 (by exact_mod_cast h2) (by norm_num)
    have hn2 : n ≤ 32767 := by omega
    refine ⟨n, ?_, leVal_le16 n (by omega), ?_, hn2, hv⟩
    · rw [ConvertFloatSample_int16, clamp_eq, hc]
    · rw [toSigned]
      have e : n % 2 ^ 16 = n := Nat.mod_eq_of_lt (by omega)
      rw [e, if_pos (by norm_num; omega)]
  · intro hx
    obtain ⟨hv, hlt⟩ := ieee_round_trip 8 23 (by norm_num) x hx
    obtain ⟨hv2, hlt2⟩ := ieee_round_trip 11 52 (by norm_num) x (isIeee_float_double x hx)
    refine ⟨⟨le32 (ieeeBits 8 23 x), by simp [ConvertFloatSample], rfl, ?_⟩,
      ⟨leBytes (ieeeBits 11 52 x) 8, by simp [ConvertFloatSample], rfl, ?_⟩⟩
    · rw [leVal_le32 _ (by norm_num at hlt ⊢; omega), hv]
    · rw [leVal_leBytes8 _ (by norm_num at hlt2 ⊢; omega), hv2]

theorem encode_clamps_witness :
    (∃ w : Nat, ConvertFloatSample (1 / 2) false 2 = Res.ok (le16 w) ∧ leVal (le16 w) = w ∧
        toSigned 16 w = (w : Int) ∧ w ≤ 32767 ∧
        (w : Int) = if 0 ≤ min (max (roundF32 ((1 / 2 : ℚ) * 32767)) (-32767)) 32767
          then ⌊min (max (roundF32 ((1 / 2 : ℚ) * 32767)) (-32767)) 32767⌋
          else ⌈min (max (roundF32 ((1 / 2 : ℚ) * 32767)) (-32767)) 32767⌉) ∧
      ((∃ bytes, ConvertFloatSample (1 / 2) true 4 = Res.ok bytes ∧ bytes.length = 4 ∧
          ieeeVal 8 23 (leVal bytes) = 1 / 2) ∧
        (∃ bytes, ConvertFloatSample (1 / 2) true 8 = Res.ok bytes ∧ bytes.length = 8 ∧
          ieeeVal 11 52 (leVal bytes) = 1 / 2)) :=
  ⟨(encode_clamps (1 / 2)).2.1
      (lt_of_lt_of_le (by norm_num) (roundF32_nonneg ((1 / 2 : ℚ) * 32767) (by norm_num))),
    (encode_clamps (1 / 2)).2.2 ⟨1, -1, by norm_num, by norm_num, by norm_num, Or.inl (by norm_num [pow2])⟩⟩

/-! ## C14: 32-bit integer encoding at full scale -/

/-- Claim C14 at a failing input.  The sample +1.0 encoded to a 4-byte integer
target is scaled to 2147483648, passes the clamp (whose bound is that same
value), and is stored as the bytes 00 00 00 80: read as a signed 32-bit
integer the word is -2147483648, not 2147483647, and it decodes to -1.0, so
the round trip changes the sign of the sample. -/
theorem int32_full_scale_wraps :
    ConvertFloatSample 1 false 4 = Res.ok [0, 0, 0, 128] ∧
      toSigned 32 (leVal [0, 0, 0, 128]) = -2147483648 ∧
      ConvertWAVSampleToFloat (WAVInfo.mk 48000 1 32 false 1) [0, 0, 0, 128] = some (-1) := by
  have h3 : leVal [0, 0, 0, 128] = 2147483648 := by decide
  have h4 : toSigned 32 2147483648 = -2147483648 := by decide
  have h5 : floatOfInt (-2147483648) = -2147483648 := by norm_num [floatOfInt, Nat.log2]
  have h6 : roundF32 (-1) = -1 := by
    have := roundF32_intCast (-1) (by norm_num)
    simpa using this
  refine ⟨encode_full_scale, by rw [h3, h4], ?_⟩
  exact decode_int32 (WAVInfo.mk 48000 1 32 false 1) [0, 0, 0, 128] (-1) rfl rfl rfl
    (by rw [h3, h4, h5]; norm_num; exact h6)

/-! ## C15: Fit -/

/-- Claim C15 at a failing input.  On the stereo buffer whose frames are
(0, 5) and (1, 5), `Fit(-1, 1)` takes the extremes 0 and 1 from channel 0
alone, returns true, and maps the channel-1 samples to 9, which is outside
the requested range [-1, 1]. -/
theorem fit_ignores_other_channels :
    (Waveform.mk [0, 5, 1, 5] 48000 2).Fit (-1) 1 = some (true, Waveform.mk [-1, 9, 1, 9] 48000 2) ∧
      ¬ ((9 : ℚ) ≤ 1) := by
  refine ⟨?_, by norm_num⟩
  have hl : (Waveform.mk [0, 5, 1, 5] 48000 2).FindLowestSample 0 = some 0 := by
    simp [Waveform.FindLowestSample, Waveform.GetNumSamples, List.range_succ, FLT_MAX]
    norm_num
  have hh : (Waveform.mk [0, 5, 1, 5] 48000 2).FindHighestSample 0 = some 1 := by
    simp [Waveform.FindHighestSample, Waveform.GetNumSamples, List.range_succ, FLT_MAX]
  have g0 : (Waveform.mk [0, 5, 1, 5] 48000 2).GetSample 0 0 = some 0 := by
    simp [Waveform.GetSample, Waveform.GetNumSamples]
  have g1 : (Waveform.mk [0, 5, 1, 5] 48000 2).GetSample 1 0 = some 1 := by
    simp [Waveform.GetSample, Waveform.GetNumSamples]
  have ne : ([0, 5, 1, 5] : List ℚ) ≠ [] := List.cons_ne_nil _ _
  simp only [Waveform.Fit, hl, hh, g0, g1]
  norm_num [Waveform.mapFrames, Waveform.GetNumSamples, List.mapIdx_cons, ne]

/-! ## C16: Delete -/

/-- Claim C16 fails as stated.  On a three-frame mono buffer,
`Delete(1, 2^64-1)` computes `start + count` as 0 in `size_t`, so the count is
not clamped and `erase` is handed a range whose end lies before its
beginning: the call has no defined result, where the claim promises the
removal of the two frames from frame 1 on. -/
theorem delete_count_overflow :
    (Waveform.mk [1, 2, 3] 48000 1).Delete 1 (2 ^ 64 - 1) = none ∧
      (Waveform.mk [1, 2, 3] 48000 1).GetNumSamples = 3 := by
  constructor
  · simp [Waveform.Delete, Waveform.GetNumSamples, SIZE]
  · simp [Waveform.GetNumSamples]

/-- Claim C16, amended.  For every buffer and every start and count whose sum
fits `size_t`: on an empty buffer `Delete(start, count)` returns true and
changes nothing; on a non-empty buffer it returns false and changes nothing
when start >= frameCount, and otherwise returns true and leaves the samples
of the frames before `start` followed by those from frame
`start + min(count, frameCount - start)` on, in order, with the rate and the
channel count unchanged. -/
theorem delete_contract (w : Waveform) (start count : Nat) (hrep : w.representable)
    (hsum : start + count < SIZE) :
    (w.m_data = [] → w.Delete start count = some (true, w)) ∧
      (w.m_data ≠ [] → start ≥ w.GetNumSamples → w.Delete start count = some (false, w)) ∧
      (w.m_data ≠ [] → start < w.GetNumSamples →
        w.Delete start count = some (true, Waveform.mk
          (w.m_data.take (start * w.m_numChannels)
            ++ w.m_data.drop ((start + min count (w.GetNumSamples - start)) * w.m_numChannels))
          w.m_rate w.m_numChannels)) := by
  refine ⟨?_, ?_, ?_⟩
  · intro h
    simp [Waveform.Delete, h]
  · intro h hs
    simp [Waveform.Delete, h, hs]
  · intro _ hs
    exact Delete_in_range w start count hrep hs hsum

theorem delete_contract_witness :
    (Waveform.mk [1, 2, 3, 4, 5, 6] 48000 2).Delete 1 1 = some (true, Waveform.mk [1, 2, 5, 6] 48000 2) := by
  have h := (delete_contract (Waveform.mk [1, 2, 3, 4, 5, 6] 48000 2) 1 1
    (by norm_num [Waveform.representable, vectorMaxSize, U32, SIZE])
    (by norm_num [SIZE])).2.2 (by simp) (by simp [Waveform.GetNumSamples])
  simpa [Waveform.GetNumSamples] using h
/-! ## C17: Stretch -/

theorem map_range_getElem? (f : Nat → ℚ) (n i : Nat) (h : i < n) :
    ((List.range n).map f)[i]? = some (f i) := by
  rw [List.getElem?_map, List.getElem?_range h]
  rfl

theorem stretch_index_long : stretchSourceIndex 94906265 94906269 94906269 = 94906264 := by
  have h1 : roundF64 ((94906265 : Nat) : ℚ) = 94906265 := by
    have := roundF64_natCast 94906265 (by norm_num)
    simpa using this
  have h2 : roundF64 ((94906269 : Nat) : ℚ) = 94906269 := by
    have := roundF64_natCast 94906269 (by norm_num)
    simpa using this
  have h3 : roundF64 ((94906265 : ℚ) * 94906269) = 9007199515875284 := by
    have h := roundTo_eval_tie 53 (-1022) ((94906265 : ℚ) * 94906269) 53 4503599757937642
      (by norm_num [abs_of_pos]) (by norm_num [abs_of_pos]) (by norm_num)
    rw [roundF64, h]
    norm_num
  have h4 : roundF64 ((9007199515875284 : ℚ) / 94906269) = 6369051630632959 / 2 ^ 26 := by
    have h := roundTo_eval 53 (-1022) ((9007199515875284 : ℚ) / 94906269) 26 6369051630632959
      (by norm_num [abs_of_pos]) (by norm_num [abs_of_pos]) (by norm_num [abs_lt])
    rw [roundF64, h]
    norm_num
  have h5 : truncQ ((6369051630632959 : ℚ) / 2 ^ 26) = 94906264 := by
    rw [truncQ, if_pos (by norm_num), Int.floor_eq_iff]
    constructor <;> norm_num
  rw [stretchSourceIndex, h1, h2, h3, h4, h5]
  rfl

/-- Facts about the buffer `longRamp`: it has 94906269 mono frames, frame i
holds i mod 2, and `Stretch(94906269)` returns a buffer whose frame 94906265
holds the value of source frame 94906264. -/
theorem longRamp_stretch :
    longRamp.m_data.length = 94906269 ∧ longRamp.m_numChannels = 1 ∧ longRamp.GetNumSamples = 94906269 ∧
      (∀ i, i < 94906269 → longRamp.m_data[i]? = some ((i % 2 : Nat) : ℚ)) ∧
      ∃ w1, longRamp.Stretch 94906269 = some (true, w1) ∧ w1.m_data[94906265]? = some 0 := by
  have hlen : longRamp.m_data.length = 94906269 := by
    simp only [longRamp, List.length_map, List.length_range]
  have hc : longRamp.m_numChannels = 1 := rfl
  have hne : longRamp.m_data ≠ [] := by
    intro h
    rw [h] at hlen
    simp at hlen
  have hN : longRamp.GetNumSamples = 94906269 := by
    rw [GetNumSamples_eq longRamp hne (by rw [hc]; decide), hlen, hc]
  have hat : ∀ i, i < 94906269 → longRamp.m_data[i]? = some ((i % 2 : Nat) : ℚ) := by
    intro i hi
    simp only [longRamp]
    exact map_range_getElem? (fun i => ((i % 2 : Nat) : ℚ)) 94906269 i hi
  refine ⟨hlen, hc, hN, hat, ?_⟩
  obtain ⟨w1, hs, _, _, _, _⟩ := Stretch_frame_count longRamp 94906269
    (by rw [hc]) (by rw [hc]; decide) (by rw [hlen]; norm_num) (by norm_num)
    (by rw [hc]; norm_num [vectorMaxSize])
  refine ⟨w1, hs, ?_⟩
  have hf := Stretch_frame longRamp 94906269
    (by rw [hc]) (by rw [hc]; decide) (by rw [hlen]; norm_num) (by norm_num)
    (by rw [hc]; norm_num [vectorMaxSize]) w1 hs 94906265 0 (by norm_num)
    (by rw [hc]; decide)
  rw [hN, hc, stretch_index_long] at hf
  simp only [Nat.mul_one, Nat.add_zero] at hf
  rw [hf, hat 94906264 (by norm_num)]
  norm_num

/-- Claim C17 fails as stated.  `Stretch` returns true at once when the
buffer holds at most one stored sample: a one-frame mono buffer stretched to
three frames still has one frame.  And the source index is computed in
`double`: on the mono buffer of 94906269 frames in which frame i holds i mod 2,
`Stretch(94906269)` gives frame 94906265 the value 0 of source frame 94906264,
while floor(94906265 x 94906269 / 94906269) = 94906265, a frame that holds
1. -/
theorem stretch_single_sample_unchanged :
    (Waveform.mk [1] 48000 1).Stretch 3 = some (true, Waveform.mk [1] 48000 1) ∧
      (Waveform.mk [1] 48000 1).GetNumSamples = 1 ∧
      longRamp.GetNumSamples = 94906269 ∧
      (∃ w1, longRamp.Stretch 94906269 = some (true, w1) ∧ w1.m_data[94906265]? = some 0) ∧
      longRamp.m_data[94906265 * 94906269 / 94906269]? = some 1 := by
  obtain ⟨_, _, hN, hat, hst⟩ := longRamp_stretch
  refine ⟨by simp [Waveform.Stretch], by simp [Waveform.GetNumSamples], hN, hst, ?_⟩
  have e : 94906265 * 94906269 / 94906269 = 94906265 := by norm_num
  rw [e, hat 94906265 (by norm_num)]
  norm_num

/-- Claim C17, amended.  For every buffer with channel count in [1,256] and
frame count N >= 1 and every n >= 1: `Stretch(0)` returns false and changes
nothing; a buffer holding a single stored sample is left as it is by
`Stretch(n)`, which returns true; and when the buffer holds more than one
stored sample, n x channelCount is within the vector size limit and
n x N < 2^53 (the source index is computed in `double`), `Stretch(n)` returns
true and leaves a buffer of exactly n frames with the same channel count and
rate, whose frame i (i < n) equals original frame floor(i*N/n) in every
channel. -/
theorem stretch_nearest_neighbour (w : Waveform) (n : Nat) (hc1 : 1 ≤ w.m_numChannels)
    (hc2 : w.m_numChannels ≤ 256) (hN : 1 ≤ w.GetNumSamples) (hn : 1 ≤ n) :
    w.Stretch 0 = some (false, w) ∧
      (w.m_data.length ≤ 1 → w.Stretch n = some (true, w)) ∧
      (2 ≤ w.m_data.length → n * w.m_numChannels ≤ vectorMaxSize → n * w.GetNumSamples < 2 ^ 53 →
        ∃ w1, w.Stretch n = some (true, w1) ∧ w1.m_numChannels = w.m_numChannels ∧ w1.m_rate = w.m_rate ∧
          w1.GetNumSamples = n ∧ w1.m_data.length = n * w.m_numChannels ∧
          ∀ (i ch : Nat), i < n → ch < w.m_numChannels →
            i * w.GetNumSamples / n < w.GetNumSamples ∧
            ∃ x : ℚ, w.m_data[i * w.GetNumSamples / n * w.m_numChannels + ch]? = some x ∧
              w1.m_data[i * w.m_numChannels + ch]? = some x) := by
  refine ⟨by simp [Waveform.Stretch], ?_, ?_⟩
  · intro hl
    have h1 : ¬ (n < 1) := by omega
    simp only [Waveform.Stretch, h1, hl, if_true, if_false]
  intro hlen hfit hprec
  obtain ⟨w1, hs, hch, hrate, hl1, hns⟩ := Stretch_frame_count w n hc1 hc2 hlen hn hfit
  refine ⟨w1, hs, hch, hrate, hns, hl1, ?_⟩
  intro i ch hi hchan
  have hiN : i * w.GetNumSamples ≤ n * w.GetNumSamples := Nat.mul_le_mul_right _ (le_of_lt hi)
  have hn53 : n < 2 ^ 53 := by
    have : n * 1 ≤ n * w.GetNumSamples := Nat.mul_le_mul_left _ hN
    omega
  have hN53 : w.GetNumSamples < 2 ^ 53 := by
    have : 1 * w.GetNumSamples ≤ n * w.GetNumSamples := Nat.mul_le_mul_right _ hn
    omega
  have hidx : stretchSourceIndex i w.GetNumSamples n = i * w.GetNumSamples / n :=
    stretchSourceIndex_exact i w.GetNumSamples n (by omega) (by omega) (by omega) hN53 hn53
  have ho : i * w.GetNumSamples / n < w.GetNumSamples :=
    Nat.div_lt_of_lt_mul (Nat.mul_lt_mul_of_pos_right hi (by omega))
  have hin : i * w.GetNumSamples / n * w.m_numChannels + ch < w.m_data.length := by
    have h1 : (i * w.GetNumSamples / n + 1) * w.m_numChannels ≤ w.GetNumSamples * w.m_numChannels :=
      Nat.mul_le_mul_right _ ho
    have h2 := GetNumSamples_mul_le w
    rw [Nat.add_mul, one_mul] at h1
    omega
  refine ⟨ho, w.m_data[i * w.GetNumSamples / n * w.m_numChannels + ch], ?_, ?_⟩
  · exact List.getElem?_eq_getElem hin
  · rw [Stretch_frame w n hc1 hc2 hlen hn hfit w1 hs i ch hi hchan, hidx]
    simp only [ge_iff_le, Nat.not_le.mpr ho, if_false, List.getElem?_eq_getElem hin, Option.getD_some]

theorem stretch_nearest_neighbour_witness :
    ∃ w1, (Waveform.mk [1, 2, 3, 4] 48000 1).Stretch 2 = some (true, w1) ∧ w1.m_numChannels = 1 ∧
        w1.m_rate = 48000 ∧ w1.GetNumSamples = 2 ∧ w1.m_data.length = 2 * 1 ∧
        ∀ (i ch : Nat), i < 2 → ch < 1 →
          i * (Waveform.mk [1, 2, 3, 4] 48000 1).GetNumSamples / 2
              < (Waveform.mk [1, 2, 3, 4] 48000 1).GetNumSamples ∧
          ∃ x : ℚ, [(1 : ℚ), 2, 3, 4][i * (Waveform.mk [1, 2, 3, 4] 48000 1).GetNumSamples / 2 * 1 + ch]?
              = some x ∧
            w1.m_data[i * 1 + ch]? = some x := by
  have hn : (Waveform.mk [1, 2, 3, 4] 48000 1).GetNumSamples = 4 := by simp [Waveform.GetNumSamples]
  exact (stretch_nearest_neighbour (Waveform.mk [1, 2, 3, 4] 48000 1) 2 (by decide) (by decide)
    (by rw [hn]; decide) (by decide)).2.2 (by decide) (by norm_num [vectorMaxSize])
    (by rw [hn]; norm_num)
/-! ## C18: Resample -/

/-- `Resample` on a buffer of more than one stored sample: the buffer is
stretched to max(1, r) frames, r being the frame count computed in `double`,
and the rate is set. -/
theorem Resample_result (w : Waveform) (Hz r : Nat) (hrate : 1 ≤ w.m_rate) (hHz : 1 ≤ Hz)
    (hlen : 2 ≤ w.m_data.length)
    (hr : truncQ (roundF64 (roundF64 (roundF64 (w.GetNumSamples : ℚ) * roundF64 (Hz : ℚ))
      / roundF64 (w.m_rate : ℚ))) = (r : Int))
    (hrS : r < SIZE) (w1 : Waveform) (hs : w.Stretch (max 1 r) = some (true, w1)) :
    w.Resample Hz = some (true, Waveform.mk w1.m_data Hz w1.m_numChannels) := by
  have hH : ¬ (Hz < 1) := by omega
  have hl : ¬ (w.m_data.length ≤ 1) := by omega
  have hr0 : ¬ (w.m_rate = 0) := by omega
  have hnn : (if ((r : Nat) : Int).toNat < 1 then 1 else ((r : Nat) : Int).toNat) = max 1 r := by
    rw [Int.toNat_ofNat]
    split_ifs <;> omega
  have hge : ¬ (((r : Nat) : Int) ≥ (SIZE : Int)) := by
    intro h
    have := Int.ofNat_le.mp h
    omega
  simp only [Waveform.Resample, hH, hl, hr0, if_false, hr, hge, hnn, hs]

/-- `Resample` on a buffer of more than one stored sample, when the frame
count computed in `double` is exact: the buffer is stretched to
max(1, floor(frameCount * Hz / rate)) frames and the rate is set. -/
theorem Resample_exact (w : Waveform) (Hz : Nat) (hrate : 1 ≤ w.m_rate) (hHz : 1 ≤ Hz)
    (hHz32 : Hz < U32) (hr32 : w.m_rate < U32) (hlen : 2 ≤ w.m_data.length)
    (hprec : w.GetNumSamples * Hz < 2 ^ 53) (w1 : Waveform)
    (hs : w.Stretch (max 1 (w.GetNumSamples * Hz / w.m_rate)) = some (true, w1)) :
    w.Resample Hz = some (true, Waveform.mk w1.m_data Hz w1.m_numChannels) := by
  have hN53 : w.GetNumSamples < 2 ^ 53 := by
    have : w.GetNumSamples * 1 ≤ w.GetNumSamples * Hz := Nat.mul_le_mul_left _ hHz
    omega
  have ht := double_index_exact w.GetNumSamples Hz w.m_rate (by omega) hprec hN53
    (by norm_num [U32] at hHz32; omega) (by norm_num [U32] at hr32; omega)
  have hbound : w.GetNumSamples * Hz / w.m_rate < SIZE := by
    have : w.GetNumSamples * Hz / w.m_rate ≤ w.GetNumSamples * Hz := Nat.div_le_self _ _
    norm_num [SIZE]
    omega
  exact Resample_result w Hz _ hrate hHz hlen ht hbound w1 hs

theorem GetSample_in_range (w : Waveform) (i ch : Nat) (hi : i < w.GetNumSamples)
    (hch : ch < w.m_numChannels) :
    w.GetSample i ch = some (w.m_data.getD (i * w.m_numChannels + ch) 0) := by
  have hne : w.m_data ≠ [] := by
    intro h
    simp [Waveform.GetNumSamples, h] at hi
  have hin : i * w.m_numChannels + ch < w.m_data.length := by
    have h1 : (i + 1) * w.m_numChannels ≤ w.GetNumSamples * w.m_numChannels := Nat.mul_le_mul_right _ hi
    have h2 := GetNumSamples_mul_le w
    rw [Nat.add_mul, one_mul] at h1
    omega
  have h1 : ¬ (i > w.GetNumSamples ∨ ch ≥ w.m_numChannels ∨ w.m_data = []) := by
    intro h
    rcases h with h | h | h
    · omega
    · omega
    · exact hne h
  rw [Waveform.GetSample, if_neg h1, List.getElem?_eq_getElem hin, List.getD_eq_getElem _ _ hin]

theorem GetNumSamples_mono (l : List ℚ) (r : Nat) : (Waveform.mk l r 1).GetNumSamples = l.length := by
  cases l <;> simp [Waveform.GetNumSamples]

theorem getD_abs_le (l : List ℚ) (B : ℚ) (hB : 0 ≤ B) (h : ∀ x ∈ l, |x| ≤ B) (j : Nat) :
    |l.getD j 0| ≤ B := by
  by_cases hj : j < l.length
  · rw [List.getD_eq_getElem _ _ hj]
    exact h _ (List.getElem_mem hj)
  · rw [List.getD_eq_default _ _ (by omega)]
    simpa using hB

/-- Claim C19 fails as stated.  On the stereo frame (0.1f, 0.2f) the halves
are exact but their sum 40265319 / 2^28 needs 26 significant bits: the loop
leaves the rounded sum 10066330 / 2^26, which is not the average of the two
samples. -/
theorem mono_average_is_rounded :
    (Waveform.mk [13421773 / 2 ^ 27, 13421773 / 2 ^ 26] 48000 2).ConvertToMono
        = some (true, Waveform.mk [10066330 / 2 ^ 26] 48000 1) ∧
      (10066330 / 2 ^ 26 : ℚ) ≠ (13421773 / 2 ^ 27 + 13421773 / 2 ^ 26) / 2 := by
  refine ⟨?_, by norm_num⟩
  have hns : (Waveform.mk [13421773 / 2 ^ 27, 13421773 / 2 ^ 26] 48000 2).GetNumSamples = 1 := by
    simp [Waveform.GetNumSamples]
  have g0 : (Waveform.mk [13421773 / 2 ^ 27, 13421773 / 2 ^ 26] 48000 2).GetSample 0 0
      = some (13421773 / 2 ^ 27) := by
    simp [Waveform.GetSample, hns]
  have g1 : (Waveform.mk [13421773 / 2 ^ 27, 13421773 / 2 ^ 26] 48000 2).GetSample 0 1
      = some (13421773 / 2 ^ 26) := by
    simp [Waveform.GetSample, hns]
  have ha : roundF32 ((13421773 / 2 ^ 27 : ℚ) / 2) = 13421773 / 2 ^ 28 := by
    have := roundF32_pow2_mul 13421773 (-28) (by norm_num) (by norm_num)
    norm_num [zpow_neg] at this ⊢
    exact this
  have hb : roundF32 ((13421773 / 2 ^ 26 : ℚ) / 2) = 13421773 / 2 ^ 27 := by
    have := roundF32_pow2_mul 13421773 (-27) (by norm_num) (by norm_num)
    norm_num [zpow_neg] at this ⊢
    exact this
  have h0 : roundF32 (0 + roundF32 ((13421773 / 2 ^ 27 : ℚ) / 2)) = 13421773 / 2 ^ 28 := by
    rw [ha, zero_add]
    have := roundF32_pow2_mul 13421773 (-28) (by norm_num) (by norm_num)
    norm_num [zpow_neg] at this ⊢
    exact this
  have hsum : roundF32 ((13421773 / 2 ^ 28 : ℚ) + 13421773 / 2 ^ 27) = 10066330 / 2 ^ 26 := by
    have h := roundTo_eval 24 (-126) ((13421773 / 2 ^ 28 : ℚ) + 13421773 / 2 ^ 27) (-3) 10066330
      (by norm_num [abs_of_pos]) (by norm_num [abs_of_pos]) (by norm_num [abs_lt])
    rw [roundF32, h]
    norm_num
  have hF : (1 : ℚ) ≤ FLT_MAX := by norm_num [FLT_MAX]
  have hmix := mono_mix_stereo (Waveform.mk [13421773 / 2 ^ 27, 13421773 / 2 ^ 26] 48000 2) 0 _ _
    (10066330 / 2 ^ 26) rfl g0 g1
    (by rw [h0, abs_of_pos (by norm_num)]; exact le_trans (by norm_num) hF)
    (by rw [h0, hb, hsum])
    (by rw [abs_of_pos (by norm_num)]; exact le_trans (by norm_num) hF)
  have hne : ([13421773 / 2 ^ 27, 13421773 / 2 ^ 26] : List ℚ) ≠ [] := List.cons_ne_nil _ _
  have h21 : ¬ ((2 : Nat) = 1) := by decide
  have h22 : ¬ ((2 : Nat) < 1) := by decide
  have hr1 : List.range 1 = [0] := rfl
  simp only [Waveform.ConvertToMono, hne, if_false, h21, h22, hns, hr1, List.map_cons, List.map_nil]
  rw [hmix]
  rfl

/-- Claim C19, amended.  For every non-empty buffer with channel count c in
[1, 256] whose samples have magnitude at most 2^119, `ConvertToMono` returns
true, the rate and the frame count are unchanged and the channel count becomes
1; for c >= 2 output frame i is the value obtained by starting from 0 and
adding, for each channel in order, the quotient sample / c, the quotient and
every sum being rounded to `float`; a buffer that is already mono is left
exactly as it was. -/
theorem mono_is_rounded_channel_average (w : Waveform) (hne : w.m_data ≠ []) (hc : 1 ≤ w.m_numChannels)
    (hc2 : w.m_numChannels ≤ 256) (hB : ∀ x ∈ w.m_data, |x| ≤ (2 : ℚ) ^ (119 : Int)) :
    ∃ w1, w.ConvertToMono = some (true, w1) ∧ w1.m_rate = w.m_rate ∧ w1.m_numChannels = 1 ∧
      w1.GetNumSamples = w.GetNumSamples ∧ w1.m_data.length = w.m_data.length / w.m_numChannels ∧
      (2 ≤ w.m_numChannels → ∀ i : Nat, i < w.GetNumSamples →
        w1.m_data[i]? = some ((List.range w.m_numChannels).foldl
          (fun val ch => roundF32 (val + roundF32
            (w.m_data.getD (i * w.m_numChannels + ch) 0 / (w.m_numChannels : ℚ)))) 0)) ∧
      (w.m_numChannels = 1 → w1 = w) := by
  by_cases h1 : w.m_numChannels = 1
  · exact ⟨w, by simp [Waveform.ConvertToMono, hne, h1], rfl, h1, rfl, by rw [h1, Nat.div_one],
      fun h => by omega, fun _ => rfl⟩
  · have h2 : ¬ (w.m_numChannels < 1) := by omega
    have hcq : roundF32 (w.m_numChannels : ℚ) = (w.m_numChannels : ℚ) :=
      roundF32_natCast _ (by norm_num; omega)
    have hcpos : (1 : ℚ) ≤ (w.m_numChannels : ℚ) := by exact_mod_cast hc
    have hB0 : (0 : ℚ) ≤ (2 : ℚ) ^ (119 : Int) := by positivity
    have hfold : ∀ i ∈ List.range w.GetNumSamples,
        (List.range w.m_numChannels).foldlM
          (fun val channel => (w.GetSample i channel).bind fun s =>
            finite32 (roundF32 (val + roundF32 (s / roundF32 (w.m_numChannels : ℚ)))))
          (0 : ℚ)
        = some ((List.range w.m_numChannels).foldl
          (fun val ch => roundF32 (val + roundF32
            (w.m_data.getD (i * w.m_numChannels + ch) 0 / (w.m_numChannels : ℚ)))) 0) := by
      intro i hi
      have hi' : i < w.GetNumSamples := List.mem_range.mp hi
      obtain ⟨s, hs, hP, _⟩ := foldlM_range_inv
        (fun val channel => (w.GetSample i channel).bind fun s =>
            finite32 (roundF32 (val + roundF32 (s / roundF32 (w.m_numChannels : ℚ)))))
        (fun k s => s = (List.range k).foldl
          (fun val ch => roundF32 (val + roundF32
            (w.m_data.getD (i * w.m_numChannels + ch) 0 / (w.m_numChannels : ℚ)))) 0
          ∧ |s| ≤ (k : ℚ) * (2 : ℚ) ^ (119 : Int))
        (0 : ℚ) w.m_numChannels (by simp)
        (by
          intro k s hk ⟨hs, hbs⟩
          have hx := getD_abs_le w.m_data _ hB0 hB (i * w.m_numChannels + k)
          have hq : |w.m_data.getD (i * w.m_numChannels + k) 0 / (w.m_numChannels : ℚ)|
              ≤ (2 : ℚ) ^ (119 : Int) := by
            rw [abs_div, abs_of_pos (by linarith : (0 : ℚ) < (w.m_numChannels : ℚ))]
            rw [div_le_iff₀ (by linarith)]
            nlinarith
          have hrq := roundF32_abs_le_pow2 _ 119 (by norm_num) hq
          have hsum : |s + roundF32 (w.m_data.getD (i * w.m_numChannels + k) 0 / (w.m_numChannels : ℚ))|
              ≤ ((k + 1 : Nat) : ℚ) * (2 : ℚ) ^ (119 : Int) := by
            push_cast
            calc |s + roundF32 (w.m_data.getD (i * w.m_numChannels + k) 0 / (w.m_numChannels : ℚ))|
                ≤ |s| + |roundF32 (w.m_data.getD (i * w.m_numChannels + k) 0 / (w.m_numChannels : ℚ))| :=
                  abs_add _ _
              _ ≤ ((k : ℚ) + 1) * (2 : ℚ) ^ (119 : Int) := by linarith
          have hrs := roundTo_abs_le 24 (-126) _ (k + 1) 119 (by norm_num; omega) (by norm_num) hsum
          have hfin : |roundF32 (s + roundF32 (w.m_data.getD (i * w.m_numChannels + k) 0
              / (w.m_numChannels : ℚ)))| ≤ FLT_MAX := by
            refine le_trans hrs ?_
            have hk1 : ((k + 1 : Nat) : ℚ) ≤ 256 := by
              have : k + 1 ≤ 256 := by omega
              exact_mod_cast this
            calc ((k + 1 : Nat) : ℚ) * (2 : ℚ) ^ (119 : Int) ≤ 256 * (2 : ℚ) ^ (119 : Int) :=
                  mul_le_mul_of_nonneg_right hk1 hB0
              _ ≤ FLT_MAX := by norm_num [FLT_MAX]
          refine ⟨_, ?_, ?_, hrs⟩
          · simp only [GetSample_in_range w i k hi' hk, Option.some_bind, hcq]
            exact finite32_of_le _ hfin
          · rw [List.range_succ, List.foldl_append, ← hs]
            rfl)
      rw [hs, hP]
    have hcol := collect_map_some
      (fun i => (List.range w.m_numChannels).foldl
          (fun val ch => roundF32 (val + roundF32
            (w.m_data.getD (i * w.m_numChannels + ch) 0 / (w.m_numChannels : ℚ)))) 0)
      (fun index => (List.range w.m_numChannels).foldlM
        (fun val channel => (w.GetSample index channel).bind fun s =>
            finite32 (roundF32 (val + roundF32 (s / roundF32 (w.m_numChannels : ℚ)))))
        (0 : ℚ))
      (List.range w.GetNumSamples) hfold
    refine ⟨Waveform.mk ((List.range w.GetNumSamples).map fun i =>
        (List.range w.m_numChannels).foldl
          (fun val ch => roundF32 (val + roundF32
            (w.m_data.getD (i * w.m_numChannels + ch) 0 / (w.m_numChannels : ℚ)))) 0) w.m_rate 1, ?_, rfl, rfl,
      ?_, ?_, ?_, fun h => absurd h h1⟩
    · simp only [Waveform.ConvertToMono, hne, h1, h2, if_false, hcol, Option.map_some']
    · rw [GetNumSamples_mono, List.length_map, List.length_range]
    · rw [List.length_map, List.length_range]
      exact GetNumSamples_eq w hne (by omega)
    · intro _ i hi
      simp [hi]

theorem mono_is_rounded_channel_average_witness :
    ∃ w1, (Waveform.mk [1, 3, 5, 7] 48000 2).ConvertToMono = some (true, w1) ∧ w1.m_rate = 48000 ∧
      w1.m_numChannels = 1 ∧ w1.GetNumSamples = (Waveform.mk [1, 3, 5, 7] 48000 2).GetNumSamples ∧
      w1.m_data.length = [(1 : ℚ), 3, 5, 7].length / 2 ∧
      ∀ i : Nat, i < (Waveform.mk [1, 3, 5, 7] 48000 2).GetNumSamples →
        w1.m_data[i]? = some ((List.range 2).foldl
          (fun val ch => roundF32 (val + roundF32
            ([(1 : ℚ), 3, 5, 7].getD (i * 2 + ch) 0 / ((2 : Nat) : ℚ)))) 0) := by
  obtain ⟨w1, h1, h2, h3, h4, h5, h6, _⟩ :=
    mono_is_rounded_channel_average (Waveform.mk [1, 3, 5, 7] 48000 2) (by simp) (by decide) (by decide)
      (by
        intro x hx
        simp only [List.mem_cons, List.mem_singleton, List.not_mem_nil, or_false] at hx
        have e : (2 : ℚ) ^ (119 : Int) = 664613997892457936451903530140172288 := by norm_num
        rw [e]
        rcases hx with h | h | h | h <;> rw [h] <;> rw [abs_of_pos (by norm_num)] <;> norm_num)
  exact ⟨w1, h1, h2, h3, h4, h5, h6 (by decide)⟩

/-! ## C20: layout of a written WAV file -/

theorem CalculateBufferSize_exact (c b n : Nat) (hb : b = 8 ∨ b = 16 ∨ b = 32) (hcb : c * b < U32)
    (hs : c * (b / 8) * n < U32) : (c * b % U32 / 8 * n) % U32 = c * (b / 8) * n := by
  have h1 : c * b % U32 = c * b := Nat.mod_eq_of_lt hcb
  have h2 : c * b / 8 = c * (b / 8) := by
    rcases hb with rfl | rfl | rfl <;> omega
  rw [h1, h2, Nat.mod_eq_of_lt hs]

/-- Claim C20 fails as stated.  The file written for one 8-bit mono frame has
45 bytes: the chunk size after "fmt " is 16 and the format record occupies
the 16 bytes at offsets 20 to 35, so the "data" tag stands at offset 36, and
what stands 14 bytes after the start of the record is not the "data" tag. -/
theorem wav_format_record_is_16_bytes :
    WAVFileWrite (WAVInfo.mk 48000 1 8 false 1) [7] = Res.ok oneByteWavFile ∧
      oneByteWavFile.length = 45 ∧
      leVal ((oneByteWavFile.drop 16).take 4) = 16 ∧
      (oneByteWavFile.drop 20).take 16 = (WAVFHDR.mk 1 1 48000 48000 1 8).bytes ∧
      (oneByteWavFile.drop 36).take 4 = tagData ∧
      (oneByteWavFile.drop 34).take 4 ≠ tagData := by
  refine ⟨by decide, rfl, by decide, by decide, by decide, by decide⟩

/-- Claim C20, amended.  For every accepted input (frame count >= 1, bits 8,
16 or 32) for which channels x bits and channels x (bits/8) x frameCount fit
32 bits and the sample buffer holds that many bytes, the bytes written by
`WAVFileWrite` are exactly, in order: "RIFF", a 4-byte size field, "WAVE",
"fmt ", the 4-byte chunk size 16, the 16-byte format record (formatTag u16 =
1 for integer or 3 for float, channels u16, rate u32, bytesPerSecond u32,
blockAlign u16, bits u16), "data", the 4-byte data length channels x
(bits/8) x frameCount, and exactly that many sample bytes. -/
theorem wav_write_layout (header : WAVInfo) (samples : List Byte)
    (hcount : header.m_sample_count ≠ 0)
    (hbits : header.m_bits = 8 ∨ header.m_bits = 16 ∨ header.m_bits = 32)
    (hcb : header.m_channels * header.m_bits < U32)
    (hfit : header.m_channels * (header.m_bits / 8) * header.m_sample_count < U32)
    (hlen : header.m_channels * (header.m_bits / 8) * header.m_sample_count ≤ samples.length) :
    ∃ size record : List Byte,
      WAVFileWrite header samples = Res.ok (tagRIFF ++ size ++ tagWAVE ++ tagFmt ++ le32 record.length
        ++ record ++ tagData
        ++ le32 (header.m_channels * (header.m_bits / 8) * header.m_sample_count)
        ++ samples.take (header.m_channels * (header.m_bits / 8) * header.m_sample_count)) ∧
      size.length = 4 ∧ record.length = 16 ∧
      record = le16 (if header.m_is_float then 3 else 1) ++ le16 (header.m_channels % U16)
        ++ le32 (header.m_rate % U32) ++ le32 (header.m_rate * (header.m_bits / 8) % U32)
        ++ le16 (header.m_bits / 8 * header.m_channels % U32 % U16) ++ le16 (header.m_bits % U16) := by
  have hcalc : header.CalculateBufferSize
      = header.m_channels * (header.m_bits / 8) * header.m_sample_count :=
    CalculateBufferSize_exact _ _ _ hbits hcb hfit
  have hb : ¬ (header.m_bits ≠ 8 ∧ header.m_bits ≠ 16 ∧ header.m_bits ≠ 32) := by
    rintro ⟨h1, h2, h3⟩
    rcases hbits with h | h | h
    · exact h1 h
    · exact h2 h
    · exact h3 h
  have hl : ¬ (samples.length < header.m_channels * (header.m_bits / 8) * header.m_sample_count) := by
    omega
  refine ⟨le32 ((16 + sizeofWAVFHDR + header.m_channels * (header.m_bits / 8) * header.m_sample_count)
      % U32), _, ?_, rfl, ?_, rfl⟩
  · simp only [WAVFileWrite, hcount, hb, if_false, hcalc, hl, WAVFHDR.bytes, sizeofWAVFHDR]
    simp [le16, le32, U32, List.append_assoc]
  · simp [le16, le32]

theorem wav_write_layout_witness :
    ∃ size record : List Byte,
      WAVFileWrite (WAVInfo.mk 48000 2 16 false 1) [1, 2, 3, 4]
        = Res.ok (tagRIFF ++ size ++ tagWAVE ++ tagFmt ++ le32 record.length ++ record ++ tagData
          ++ le32 (2 * (16 / 8) * 1) ++ [(1 : Byte), 2, 3, 4].take (2 * (16 / 8) * 1)) ∧
      size.length = 4 ∧ record.length = 16 ∧
      record = le16 (if false = true then 3 else 1) ++ le16 (2 % U16) ++ le32 (48000 % U32)
        ++ le32 (48000 * (16 / 8) % U32) ++ le16 (16 / 8 * 2 % U32 % U16) ++ le16 (16 % U16) :=
  wav_write_layout (WAVInfo.mk 48000 2 16 false 1) [1, 2, 3, 4] (by decide) (by decide)
    (by norm_num [U32]) (by norm_num [U32]) (by decide)

/-! ## C21: MP3 data without a decodable frame -/

/-- Claim C21 at its failing inputs.  For every non-empty file in which the
frame decoder finds no frame at its first call, the decode loop ends at once
with `channels_found = 0`, and `WaveformLoadFromMP3` (called without a
progress callback) then divides the sample count by that zero channel count:
the load has no defined result, where the claim promises a return with an
empty waveform. -/
theorem mp3_no_frame_divides_by_zero {σ : Type} (decode : Mp3Decoder σ) (mp3d : σ) (budget : Nat)
    (file : List Byte) (wav : Waveform) (hfile : file ≠ [])
    (hnone : (decode mp3d file (toSigned 32 file.length)).frame_samples ≤ 0) :
    WaveformLoadFromMP3 decode mp3d (budget + 1) file wav none = Res.fault := by
  have h0 : ¬ ((0 : Int) < 0 ∨ (0 : Int) > (file.length : Int)) := by
    rintro (h | h)
    · exact absurd h (lt_irrefl 0)
    · have := Int.natCast_nonneg file.length
      omega
  have h1 : ¬ ((decode mp3d file (toSigned 32 file.length)).frame_samples > 0) := by omega
  have hloop : mp3DecodeLoop decode file (budget + 1)
      { mp3d := mp3d, frame_offset := 0, rate_found := 0, channels_found := 0, pcmdata := [] }
      = Res.ok { mp3d := mp3d, frame_offset := 0, rate_found := 0, channels_found := 0, pcmdata := [] } := by
    simp only [mp3DecodeLoop, h0, if_false, Int.toNat_zero, List.drop_zero, sub_zero, h1]
  simp only [WaveformLoadFromMP3, cancelled, Bool.false_eq_true, if_false, hfile, hloop]
  simp

theorem mp3_no_frame_divides_by_zero_witness :
    WaveformLoadFromMP3 noFrameDecoder () 1 [0] Waveform.fresh none = Res.fault :=
  mp3_no_frame_divides_by_zero noFrameDecoder () 0 [0] Waveform.fresh (by simp) (by simp [noFrameDecoder])

/-! ## C22, C23: the noise gate -/

/-- Claim C22 at a failing input.  On the mono 10 Hz waveform 0, 1, 0, 1 with
threshold 1/2 (two quiet samples in a row qualify), the scan steps past the
quiet sample at index 0 and then counts from index 1 without testing the
sample there: it silences two samples from index 1 on, so the loud sample 1
at index 1 becomes 0 although it is not below the threshold. -/
theorem noise_gate_silences_loud_sample :
    NoiseGateFilter (Waveform.mk [0, 1, 0, 1] 10 1) (1 / 2) false false
        = some (true, Waveform.mk [0, 0, 0, 1] 10 1) ∧
      ¬ (|(1 : ℚ)| < 1 / 2) := by
  refine ⟨?_, by norm_num⟩
  have hs : (Waveform.mk [0, 1, 0, 1] 10 1).Silence 1 2 true = some (Waveform.mk [0, 0, 0, 1] 10 1) := by
    simp [Waveform.Silence, SIZE, List.mapIdx_cons, roundF32_zero, finite32_zero, collect]
  have hn : (Waveform.mk [0, 1, 0, 1] 10 1).GetNumSamples = 4 := by simp [Waveform.GetNumSamples]
  simp only [NoiseGateFilter, Waveform.GetRate, Waveform.GetNumChannels, hn]
  norm_num [SIZE, gateScan, hs, List.takeWhile]

theorem gateScan_stop (threshold : ℚ) (q n c fuel : Nat) (st : GateScan) (h : ¬ st.isample < n) :
    gateScan threshold q n c fuel st = some st := by
  cases fuel <;> simp [gateScan, h]

theorem gateScan_loud (threshold : ℚ) (q n c fuel : Nat) (st : GateScan) (skip : Nat)
    (h1 : st.isample < n) (h2 : ¬ |st.wav.m_data.getD st.isample 0| < threshold)
    (hskip : (((st.wav.m_data.take n).drop st.isample).takeWhile
      fun x => decide (|x| ≥ threshold)).length = skip) :
    gateScan threshold q n c (fuel + 1) st
      = gateScan threshold q n c fuel { st with isample := st.isample + skip } := by
  rw [gateScan]
  simp only [h1, h2, if_true, if_false, hskip]

theorem gateScan_quiet (threshold : ℚ) (q n c fuel : Nat) (st : GateScan) (more : Nat) (wav : Waveform)
    (h1 : st.isample < n) (h2 : |st.wav.m_data.getD st.isample 0| < threshold)
    (hmore : (((st.wav.m_data.take n).drop (st.isample + 1 + 1)).takeWhile
      fun x => decide (|x| < threshold)).length = more)
    (h3 : 1 + more ≥ q)
    (hs : st.wav.Silence ((st.isample + 1) / c) ((1 + more) / c) true = some wav) :
    gateScan threshold q n c (fuel + 1) st
      = gateScan threshold q n c fuel
          { wav := wav
            isample := st.isample + 1 + (1 + more)
            firstSilentSample := if st.firstSilentCount = 0 then st.isample + 1 else st.firstSilentSample
            firstSilentCount := if st.firstSilentCount = 0 then 1 + more else st.firstSilentCount
            lastSilentSample := st.isample + 1
            lastSilentCount := 1 + more } := by
  rw [gateScan]
  simp only [h1, h2, if_true, hmore, h3, hs]

/-- Claim C23 at a failing input.  On the mono 10 Hz waveform of eight loud
samples followed by four quiet ones (threshold 1/2), the only qualifying
quiet run ends at the end of the buffer, but with `removeTrailing` set
nothing is deleted: the test `firstSilentSample != lastSilentSample` is false
when the trailing run is the only one, and the frame count stays 12.  When
another qualifying run precedes it, the same trailing run is deleted (12
frames become 9). -/
theorem trailing_silence_not_trimmed :
    NoiseGateFilter (Waveform.mk [1, 1, 1, 1, 1, 1, 1, 1, 0, 0, 0, 0] 10 1) (1 / 2) false true
        = some (true, Waveform.mk [1, 1, 1, 1, 1, 1, 1, 1, 0, 0, 0, 0] 10 1) ∧
      (Waveform.mk [1, 1, 1, 1, 1, 1, 1, 1, 0, 0, 0, 0] 10 1).GetNumSamples = 12 ∧
      NoiseGateFilter (Waveform.mk [0, 0, 0, 1, 1, 1, 1, 1, 0, 0, 0, 0] 10 1) (1 / 2) false true
        = some (true, Waveform.mk [0, 0, 0, 1, 1, 1, 1, 1, 0] 10 1) ∧
      (Waveform.mk [0, 0, 0, 1, 1, 1, 1, 1, 0] 10 1).GetNumSamples = 9 := by
  have hs1 : (Waveform.mk [1, 1, 1, 1, 1, 1, 1, 1, 0, 0, 0, 0] 10 1).Silence 9 3 true
      = some (Waveform.mk [1, 1, 1, 1, 1, 1, 1, 1, 0, 0, 0, 0] 10 1) := by
    simp [Waveform.Silence, SIZE, List.mapIdx_cons, roundF32_zero, finite32_zero, collect]
  have hs2 : (Waveform.mk [0, 0, 0, 1, 1, 1, 1, 1, 0, 0, 0, 0] 10 1).Silence 1 2 true
      = some (Waveform.mk [0, 0, 0, 1, 1, 1, 1, 1, 0, 0, 0, 0] 10 1) := by
    simp [Waveform.Silence, SIZE, List.mapIdx_cons, roundF32_zero, finite32_zero, collect]
  have hs3 : (Waveform.mk [0, 0, 0, 1, 1, 1, 1, 1, 0, 0, 0, 0] 10 1).Silence 9 3 true
      = some (Waveform.mk [0, 0, 0, 1, 1, 1, 1, 1, 0, 0, 0, 0] 10 1) := by
    simp [Waveform.Silence, SIZE, List.mapIdx_cons, roundF32_zero, finite32_zero, collect]
  have hd : (Waveform.mk [0, 0, 0, 1, 1, 1, 1, 1, 0, 0, 0, 0] 10 1).Delete 9 3
      = some (true, Waveform.mk [0, 0, 0, 1, 1, 1, 1, 1, 0] 10 1) := by
    simp [Waveform.Delete, Waveform.GetNumSamples, SIZE]
  have hn1 : (Waveform.mk [1, 1, 1, 1, 1, 1, 1, 1, 0, 0, 0, 0] 10 1).GetNumSamples = 12 := by
    simp [Waveform.GetNumSamples]
  have hn2 : (Waveform.mk [0, 0, 0, 1, 1, 1, 1, 1, 0, 0, 0, 0] 10 1).GetNumSamples = 12 := by
    simp [Waveform.GetNumSamples]
  refine ⟨?_, hn1, ?_, by simp [Waveform.GetNumSamples]⟩
  · have e1 := gateScan_loud (1 / 2) 2 12 1 11
      (GateScan.mk (Waveform.mk [1, 1, 1, 1, 1, 1, 1, 1, 0, 0, 0, 0] 10 1) 0 0 0 0 0) 8
      (by decide) (by norm_num) (by norm_num [List.takeWhile_cons])
    have e2 := gateScan_quiet (1 / 2) 2 12 1 10
      (GateScan.mk (Waveform.mk [1, 1, 1, 1, 1, 1, 1, 1, 0, 0, 0, 0] 10 1) 8 0 0 0 0) 2 _
      (by decide) (by norm_num) (by norm_num [List.takeWhile_cons]) (by decide) hs1
    have e3 := gateScan_stop (1 / 2) 2 12 1 10
      (GateScan.mk (Waveform.mk [1, 1, 1, 1, 1, 1, 1, 1, 0, 0, 0, 0] 10 1) 12 9 3 9 3) (by decide)
    simp only [zero_add, if_true, Nat.reduceAdd] at e1 e2
    have hq : 10 * 1 % SIZE / 5 = 2 := by norm_num [SIZE]
    have hN : 12 * 1 % SIZE = 12 := by norm_num [SIZE]
    simp only [NoiseGateFilter, Waveform.GetRate, Waveform.GetNumChannels, hn1, hq, hN, e1, e2, e3]
    simp
  · have e1 := gateScan_quiet (1 / 2) 2 12 1 11
      (GateScan.mk (Waveform.mk [0, 0, 0, 1, 1, 1, 1, 1, 0, 0, 0, 0] 10 1) 0 0 0 0 0) 1 _
      (by decide) (by norm_num) (by norm_num [List.takeWhile_cons]) (by decide) hs2
    have e2 := gateScan_loud (1 / 2) 2 12 1 10
      (GateScan.mk (Waveform.mk [0, 0, 0, 1, 1, 1, 1, 1, 0, 0, 0, 0] 10 1) 3 1 2 1 2) 5
      (by decide) (by norm_num) (by norm_num [List.takeWhile_cons])
    have e3 := gateScan_quiet (1 / 2) 2 12 1 9
      (GateScan.mk (Waveform.mk [0, 0, 0, 1, 1, 1, 1, 1, 0, 0, 0, 0] 10 1) 8 1 2 1 2) 2 _
      (by decide) (by norm_num) (by norm_num [List.takeWhile_cons]) (by decide) hs3
    have e4 := gateScan_stop (1 / 2) 2 12 1 9
      (GateScan.mk (Waveform.mk [0, 0, 0, 1, 1, 1, 1, 1, 0, 0, 0, 0] 10 1) 12 1 2 9 3) (by decide)
    simp only [zero_add, if_true, Nat.reduceAdd] at e1 e2 e3
    simp only [(by decide : ¬ (2 : Nat) = 0), if_false] at e3
    have hq : 10 * 1 % SIZE / 5 = 2 := by norm_num [SIZE]
    have hN : 12 * 1 % SIZE = 12 := by norm_num [SIZE]
    simp only [NoiseGateFilter, Waveform.GetRate, Waveform.GetNumChannels, hn2, hq, hN, e1, e2, e3, e4]
    norm_num [SIZE, hn2, hd]
/-! ## C24: the soft-silence ramp -/

/-- A ramped value is finite when the sample is at most 2^64 in magnitude and
the ramp length is below 2^61. -/
theorem soft_ramp_finite (old : ℚ) (N k : Nat) (hold : |old| ≤ (2 : ℚ) ^ (64 : Int)) (hk : k < N)
    (hN : N < 2 ^ 61) :
    |roundF32 (roundF32 (old * roundF32 ((N - 1 - k : Nat) : ℚ)) / roundF32 (N : ℚ))| ≤ FLT_MAX := by
  have hf : |roundF32 ((N - 1 - k : Nat) : ℚ)| ≤ (2 : ℚ) ^ (61 : Int) := by
    apply roundF32_abs_le_pow2 _ 61 (by norm_num)
    rw [abs_of_nonneg (Nat.cast_nonneg _)]
    have : N - 1 - k ≤ 2 ^ 61 := by omega
    have h2 : ((N - 1 - k : Nat) : ℚ) ≤ ((2 ^ 61 : Nat) : ℚ) := Nat.cast_le.mpr this
    have e : ((2 ^ 61 : Nat) : ℚ) = (2 : ℚ) ^ (61 : Int) := by norm_num
    rw [e] at h2
    exact h2
  have hp : |old * roundF32 ((N - 1 - k : Nat) : ℚ)| ≤ (2 : ℚ) ^ (125 : Int) := by
    rw [abs_mul]
    calc |old| * |roundF32 ((N - 1 - k : Nat) : ℚ)| ≤ (2 : ℚ) ^ (64 : Int) * (2 : ℚ) ^ (61 : Int) :=
          mul_le_mul hold hf (abs_nonneg _) (by positivity)
      _ = (2 : ℚ) ^ (125 : Int) := by rw [← zpow_add₀ (by norm_num : (2 : ℚ) ≠ 0)]; norm_num
  have hrp := roundF32_abs_le_pow2 _ 125 (by norm_num) hp
  have hNq : (1 : ℚ) ≤ (N : ℚ) := by
    have : 1 ≤ N := by omega
    exact_mod_cast this
  have hd : (1 / 2 : ℚ) ≤ roundF32 (N : ℚ) := by
    have hn : (2 : ℚ) ^ (-126 : Int) ≤ |(N : ℚ)| := by
      rw [abs_of_pos (by linarith)]
      have : (2 : ℚ) ^ (-126 : Int) ≤ 1 := zpow_le_one_of_nonpos₀ (by norm_num) (by norm_num)
      linarith
    have herr := roundTo_rel_err 24 (-126) (N : ℚ) hn
    rw [abs_of_pos (by linarith : (0 : ℚ) < (N : ℚ))] at herr
    have h1 := (abs_le.mp herr).1
    have h2 : (2 : ℚ) ^ (-((24 : Nat) : Int)) ≤ 1 / 2 := by norm_num [zpow_neg]
    have h3 : (N : ℚ) * (2 : ℚ) ^ (-((24 : Nat) : Int)) ≤ (N : ℚ) * (1 / 2) :=
      mul_le_mul_of_nonneg_left h2 (by linarith)
    rw [roundF32]
    generalize (2 : ℚ) ^ (-((24 : Nat) : Int)) = t at *
    generalize roundTo 24 (-126) (N : ℚ) = r at *
    linarith
  have hq : |roundF32 (old * roundF32 ((N - 1 - k : Nat) : ℚ)) / roundF32 (N : ℚ)|
      ≤ (2 : ℚ) ^ (126 : Int) := by
    rw [abs_div, abs_of_pos (by linarith : (0 : ℚ) < roundF32 (N : ℚ)), div_le_iff₀ (by linarith)]
    have e : (2 : ℚ) ^ (126 : Int) = 2 * (2 : ℚ) ^ (125 : Int) := by
      rw [show (126 : Int) = 1 + 125 by norm_num, zpow_add₀ (by norm_num : (2 : ℚ) ≠ 0), zpow_one]
    rw [e]
    have h125 : (0 : ℚ) ≤ (2 : ℚ) ^ (125 : Int) := by positivity
    generalize (2 : ℚ) ^ (125 : Int) = B at *
    generalize roundF32 (N : ℚ) = d at *
    generalize |roundF32 (old * roundF32 ((N - 1 - k : Nat) : ℚ))| = a at *
    nlinarith
  exact le_trans (roundF32_abs_le_pow2 _ 126 (by norm_num) hq) (pow2_le_FLT_MAX 126 (by norm_num))


/-- The buffer that `Silence(start, count, true)` leaves, sample by sample. -/
theorem Silence_soft_elements (w : Waveform) (start count : Nat)
    (hrep : w.representable) (hsum : start + count < SIZE)
    (hprod : w.m_rate * w.m_numChannels < SIZE)
    (hB : ∀ x ∈ w.m_data, |x| ≤ (2 : ℚ) ^ (64 : Int)) :
    ∃ w', w.Silence start count true = some w' ∧ w'.m_rate = w.m_rate ∧
      w'.m_numChannels = w.m_numChannels ∧ w'.GetNumSamples = w.GetNumSamples ∧
      ∀ j : Nat, w'.m_data[j]? = (w.m_data[j]?).map fun old =>
        if start ≤ j / w.m_numChannels ∧ j / w.m_numChannels < min (start + count) w.GetNumSamples then
          if j - start * w.m_numChannels < w.m_rate * w.m_numChannels / 10 then
            roundF32 (roundF32 (old
                * roundF32 ((w.m_rate * w.m_numChannels / 10 - 1 - (j - start * w.m_numChannels) : Nat) : ℚ))
              / roundF32 ((w.m_rate * w.m_numChannels / 10 : Nat) : ℚ))
          else 0
        else old := by
  obtain ⟨hlen, _, _⟩ := hrep
  have hMS := vectorMaxSize_lt_SIZE
  have hN61 : w.m_rate * w.m_numChannels / 10 < 2 ^ 61 := by
    norm_num [SIZE] at hprod
    omega
  have hunch : ∀ (j : Nat),
      ¬ (start ≤ j / w.m_numChannels ∧ j / w.m_numChannels < min (start + count) w.GetNumSamples) →
      w.m_data[j]? = (w.m_data[j]?).map fun old =>
        if start ≤ j / w.m_numChannels ∧ j / w.m_numChannels < min (start + count) w.GetNumSamples then
          if j - start * w.m_numChannels < w.m_rate * w.m_numChannels / 10 then
            roundF32 (roundF32 (old
                * roundF32 ((w.m_rate * w.m_numChannels / 10 - 1 - (j - start * w.m_numChannels) : Nat) : ℚ))
              / roundF32 ((w.m_rate * w.m_numChannels / 10 : Nat) : ℚ))
          else 0
        else old := by
    intro j hj
    cases w.m_data[j]? with
    | none => rfl
    | some y => simp only [Option.map_some', hj, if_false]
  unfold Waveform.Silence
  by_cases h0 : w.m_data = [] ∨ w.m_numChannels < 1 ∨ count < 1
  · rw [if_pos h0]
    refine ⟨w, rfl, rfl, rfl, rfl, ?_⟩
    intro j
    apply hunch
    rintro ⟨h1, h2⟩
    rcases h0 with h | h | h
    · have : w.GetNumSamples = 0 := by simp [Waveform.GetNumSamples, h]
      omega
    · have hz : w.m_numChannels = 0 := by omega
      have : w.GetNumSamples = 0 := by simp [Waveform.GetNumSamples, hz]
      omega
    · omega
  · rw [if_neg h0]
    push_neg at h0
    obtain ⟨hne, hc, hcount⟩ := h0
    have hc0 : w.m_numChannels ≠ 0 := by omega
    have hns := GetNumSamples_eq w hne hc0
    rw [← hns]
    by_cases h1 : start ≥ w.GetNumSamples
    · simp only [h1, if_true]
      refine ⟨w, rfl, rfl, rfl, rfl, ?_⟩
      intro j
      apply hunch
      rintro ⟨h2, h3⟩
      omega
    · simp only [h1, if_false]
      have hmod : (count + start) % SIZE = count + start := Nat.mod_eq_of_lt (by omega)
      have hpm : w.m_rate * w.m_numChannels % SIZE = w.m_rate * w.m_numChannels := Nat.mod_eq_of_lt hprod
      rw [hmod, hpm]
      set cnt := (if count + start > w.GetNumSamples then w.GetNumSamples - start else count) with hcnt
      have hcnt_eq : start + cnt = min (start + count) w.GetNumSamples := by
        simp only [hcnt]
        split_ifs <;> omega
      have hle : (start + cnt) * w.m_numChannels ≤ w.m_data.length := by
        have h2 : start + cnt ≤ w.GetNumSamples := by omega
        exact le_trans (Nat.mul_le_mul_right _ h2) (GetNumSamples_mul_le w)
      have hstop : cnt * w.m_numChannels % SIZE = cnt * w.m_numChannels := by
        apply Nat.mod_eq_of_lt
        have : cnt * w.m_numChannels ≤ (start + cnt) * w.m_numChannels :=
          Nat.mul_le_mul_right _ (by omega)
        omega
      rw [hstop]
      have hfit : ¬ (start * w.m_numChannels + cnt * w.m_numChannels > w.m_data.length) := by
        rw [← Nat.add_mul]
        omega
      simp only [hfit, if_false, true_and]
      rw [collect_mapIdx _ (fun j value =>
        if start * w.m_numChannels ≤ j ∧ j < start * w.m_numChannels + cnt * w.m_numChannels then
          if j - start * w.m_numChannels < w.m_rate * w.m_numChannels / 10 then
            roundF32 (roundF32 (value
                * roundF32 ((w.m_rate * w.m_numChannels / 10 - 1 - (j - start * w.m_numChannels) : Nat) : ℚ))
              / roundF32 ((w.m_rate * w.m_numChannels / 10 : Nat) : ℚ))
          else 0
        else value) w.m_data (by
          intro j x hx
          have hxm : x ∈ w.m_data := List.getElem?_mem hx
          simp only
          split_ifs with ha hb
          · exact finite32_of_le _ (soft_ramp_finite x _ _ (hB x hxm) hb hN61)
          · rfl
          · rfl)]
      refine ⟨_, rfl, rfl, rfl, ?_, ?_⟩
      · simp [Waveform.GetNumSamples, hne, hc0]
      · intro j
        simp only [List.getElem?_mapIdx]
        have hcpos : 0 < w.m_numChannels := by omega
        have e1 : start * w.m_numChannels ≤ j ↔ start ≤ j / w.m_numChannels :=
          (Nat.le_div_iff_mul_le hcpos).symm
        have e2 : j < start * w.m_numChannels + cnt * w.m_numChannels ↔ j / w.m_numChannels < start + cnt := by
          rw [← Nat.add_mul]
          exact (Nat.div_lt_iff_lt_mul hcpos).symm
        rw [← hcnt_eq]
        cases w.m_data[j]? with
        | none => rfl
        | some y => simp only [Option.map_some', e1, e2]


/-- Claim C24 fails as stated.  On a two-frame mono buffer,
`Silence(1, 2^64-1, true)` computes `count + start` as 0 in `size_t`, so the
range is not clamped to the buffer and the loop stores outside the sample
storage.  And on the one-frame mono buffer `[1.0]` at 48000 Hz (N = 4800) the
ramped value is computed in `float`: the sample becomes 16773721 / 2^24, not
4799/4800. -/
theorem silence_soft_count_overflow :
    (Waveform.mk [1, 2] 48000 1).Silence 1 (2 ^ 64 - 1) true = none ∧
      (∃ w', (Waveform.mk [1] 48000 1).Silence 0 1 true = some w' ∧
        w'.m_data[0]? = some (16773721 / 2 ^ 24)) ∧
      (16773721 / 2 ^ 24 : ℚ) ≠ 1 * 4799 / 4800 := by
  refine ⟨by simp [Waveform.Silence, SIZE], ?_, by norm_num⟩
  obtain ⟨w', hs, _, _, _, hel⟩ := Silence_soft_elements (Waveform.mk [1] 48000 1) 0 1
    (by norm_num [Waveform.representable, vectorMaxSize, U32, SIZE]) (by norm_num [SIZE])
    (by norm_num [SIZE])
    (by
      intro x hx
      have hx1 : x = 1 := by simpa using hx
      rw [hx1]
      norm_num)
  refine ⟨w', hs, ?_⟩
  have hn : (Waveform.mk [1] 48000 1).GetNumSamples = 1 := by simp [Waveform.GetNumSamples]
  have h1 : roundF32 ((4799 : Nat) : ℚ) = 4799 := by
    have := roundF32_natCast 4799 (by norm_num)
    simpa using this
  have h2 : roundF32 ((4800 : Nat) : ℚ) = 4800 := by
    have := roundF32_natCast 4800 (by norm_num)
    simpa using this
  have h3 : roundF32 (1 * 4799) = 4799 := by
    have := roundF32_natCast 4799 (by norm_num)
    simpa using this
  have h4 : roundF32 ((4799 : ℚ) / 4800) = 16773721 / 2 ^ 24 := by
    have h := roundTo_eval 24 (-126) ((4799 : ℚ) / 4800) (-1) 16773721
      (by norm_num [abs_of_pos]) (by norm_num [abs_of_pos]) (by norm_num [abs_lt])
    rw [roundF32, h]
    norm_num
  have e := hel 0
  have e0 : (Waveform.mk [1] 48000 1).m_data[0]? = some (1 : ℚ) := rfl
  rw [e0, hn] at e
  dsimp only [Option.map_some'] at e
  have c1 : (48000 * 1 / 10 - 1 - (0 - 0 * 1) : Nat) = 4799 := by norm_num
  have c2 : (48000 * 1 / 10 : Nat) = 4800 := by norm_num
  rw [c1, c2, h1, h2, h3, h4] at e
  rw [e]
  rw [if_pos (by decide), if_pos (by decide)]

/-- Claim C24, amended.  For every buffer (rate x channelCount below 2^64,
samples of magnitude at most 2^64) and every start and count whose sum fits
`size_t`, `Silence(start, count, true)` returns; with N = rate x channelCount
/ 10 (integer division) and the range of frames [start, min(start+count,
frameCount)), the k-th interleaved sample slot of the range becomes
old x (N-1-k) / N evaluated in `float` (N-1-k and N converted to `float`, the
product rounded, then the quotient rounded) when k < N and 0 when k >= N;
samples outside the range, the frame count, the channel count and the rate are
unchanged. -/
theorem silence_soft_ramp (w : Waveform) (start count : Nat)
    (hrep : w.representable) (hsum : start + count < SIZE)
    (hprod : w.m_rate * w.m_numChannels < SIZE)
    (hB : ∀ x ∈ w.m_data, |x| ≤ (2 : ℚ) ^ (64 : Int)) :
    ∃ w', w.Silence start count true = some w' ∧ w'.m_rate = w.m_rate ∧
      w'.m_numChannels = w.m_numChannels ∧ w'.GetNumSamples = w.GetNumSamples ∧
      ∀ j : Nat, w'.m_data[j]? = (w.m_data[j]?).map fun old =>
        if start ≤ j / w.m_numChannels ∧ j / w.m_numChannels < min (start + count) w.GetNumSamples then
          if j - start * w.m_numChannels < w.m_rate * w.m_numChannels / 10 then
            roundF32 (roundF32 (old
                * roundF32 ((w.m_rate * w.m_numChannels / 10 - 1 - (j - start * w.m_numChannels) : Nat) : ℚ))
              / roundF32 ((w.m_rate * w.m_numChannels / 10 : Nat) : ℚ))
          else 0
        else old :=
  Silence_soft_elements w start count hrep hsum hprod hB


theorem silence_soft_ramp_witness :
    ∃ w', (Waveform.mk [1, 2, 3, 4, 5, 6] 20 1).Silence 1 4 true = some w' ∧ w'.m_rate = 20 ∧
      w'.m_numChannels = 1 ∧ w'.GetNumSamples = (Waveform.mk [1, 2, 3, 4, 5, 6] 20 1).GetNumSamples ∧
      ∀ j : Nat, w'.m_data[j]? = (([1, 2, 3, 4, 5, 6] : List ℚ)[j]?).map fun old =>
        if 1 ≤ j / 1 ∧ j / 1 < min (1 + 4) (Waveform.mk [1, 2, 3, 4, 5, 6] 20 1).GetNumSamples then
          if j - 1 * 1 < 20 * 1 / 10 then
            roundF32 (roundF32 (old * roundF32 ((20 * 1 / 10 - 1 - (j - 1 * 1) : Nat) : ℚ))
              / roundF32 ((20 * 1 / 10 : Nat) : ℚ))
          else 0
        else old :=
  silence_soft_ramp (Waveform.mk [1, 2, 3, 4, 5, 6] 20 1) 1 4
    (by norm_num [Waveform.representable, vectorMaxSize, U32, SIZE]) (by norm_num [SIZE])
    (by norm_num [SIZE])
    (by
      intro x hx
      simp only [List.mem_cons, List.mem_singleton, List.not_mem_nil, or_false] at hx
      have e : (2 : ℚ) ^ (64 : Int) = 18446744073709551616 := by norm_num
      rw [e]
      rcases hx with h | h | h | h | h | h <;> rw [h] <;> rw [abs_of_pos (by norm_num)] <;> norm_num)


/-! ## C25: chunks that the WAV reader skips -/

theorem fread_at (pre rest : List Byte) (n : Nat) :
    fread { content := pre ++ rest, pos := pre.length } n
      = (rest.take n, { content := pre ++ rest, pos := pre.length + (rest.take n).length }) := by
  simp [fread]

theorem fread_exact (pre x rest : List Byte) :
    fread { content := pre ++ (x ++ rest), pos := pre.length } x.length
      = (x, { content := pre ++ (x ++ rest), pos := pre.length + x.length }) := by
  simp [fread]

theorem toLong_small (n : Nat) (h : n < 2 ^ 31) : toLong n = (n : Int) := by
  have h1 : n % U32 = n := Nat.mod_eq_of_lt (by norm_num [U32] at *; omega)
  simp only [toLong, h1, h, if_true]

theorem fseekCur_forward (fp : FILE) (n : Nat) (h : n < 2 ^ 31) :
    fseekCur fp (toLong n) = some { fp with pos := fp.pos + n } := by
  rw [toLong_small n h, fseekCur, if_pos (by omega)]
  congr 2

theorem list_of_length_four (l : List Byte) (h : l.length = 4) : ∃ a b c d, l = [a, b, c, d] := by
  match l, h with
  | [a, b, c, d], _ => exact ⟨a, b, c, d, rfl⟩

/-- A counterexample to claim C25.  The file `junkWavFile` already has a
`JUNK` chunk before `fmt ` and reads successfully; with one more `JUNK` chunk
inserted between `WAVE` and `fmt ` neither the header nor the samples can be
read, because the reader skips a single `JUNK` chunk only. -/
theorem second_junk_chunk_rejected :
    WAVFileReadHeader 1 junkWavFile = Res.ok (WAVInfo.mk 48000 1 8 false 1) ∧
      WAVFileReadSamples 1 junkWavFile 1 = Res.ok [7] ∧
      WAVFileReadHeader 1 twoJunkWavFile = Res.fail ∧
      WAVFileReadSamples 1 twoJunkWavFile 1 = Res.fail := by
  refine ⟨by decide, by decide, by decide, by decide⟩

theorem sig_plain (sz rest : List Byte) (hsz : sz.length = 4) :
    read_and_confirm_wav_signature { content := tagRIFF ++ sz ++ tagWAVE ++ tagFmt ++ rest, pos := 0 }
      = some { content := tagRIFF ++ sz ++ tagWAVE ++ tagFmt ++ rest,
               pos := (tagRIFF ++ sz ++ tagWAVE ++ tagFmt).length } := by
  obtain ⟨a, b, c, d, rfl⟩ := list_of_length_four sz hsz
  simp [read_and_confirm_wav_signature, fread, tagRIFF, tagWAVE, tagFmt, tagJUNK]

theorem sig_junk (sz junk rest : List Byte) (hsz : sz.length = 4) (hj : junk.length < 2 ^ 31) :
    read_and_confirm_wav_signature
        (FILE.mk (tagRIFF ++ sz ++ tagWAVE ++ riffChunk tagJUNK junk ++ tagFmt ++ rest) 0)
      = some (FILE.mk (tagRIFF ++ sz ++ tagWAVE ++ riffChunk tagJUNK junk ++ tagFmt ++ rest)
          (tagRIFF ++ sz ++ tagWAVE ++ riffChunk tagJUNK junk ++ tagFmt).length) := by
  obtain ⟨a, b, c, d, rfl⟩ := list_of_length_four sz hsz
  have hlt : junk.length < 2 ^ 32 := by omega
  have hv : leVal (le32 junk.length) = junk.length := leVal_le32 _ hlt
  generalize hF : tagRIFF ++ [a, b, c, d] ++ tagWAVE ++ riffChunk tagJUNK junk ++ tagFmt ++ rest = F
  have r1 : fread (FILE.mk F 0) 16 = (tagRIFF ++ [a, b, c, d] ++ tagWAVE ++ tagJUNK, FILE.mk F 16) := by
    subst hF
    simp [fread, tagRIFF, tagWAVE, tagJUNK, riffChunk]
  have r2 : fread (FILE.mk F 16) 4 = (le32 junk.length, FILE.mk F 20) := by
    have e : F = (tagRIFF ++ [a, b, c, d] ++ tagWAVE ++ tagJUNK) ++ (le32 junk.length ++ (junk ++ tagFmt ++ rest)) := by
      rw [← hF]
      simp only [riffChunk, List.append_assoc]
    rw [e]
    exact fread_exact (tagRIFF ++ [a, b, c, d] ++ tagWAVE ++ tagJUNK) (le32 junk.length)
      (junk ++ tagFmt ++ rest)
  have r3 : fread (FILE.mk F (20 + junk.length)) 4 = (tagFmt, FILE.mk F (20 + junk.length + 4)) := by
    have e : F = (tagRIFF ++ [a, b, c, d] ++ tagWAVE ++ tagJUNK ++ le32 junk.length ++ junk) ++ (tagFmt ++ rest) := by
      rw [← hF]
      simp only [riffChunk, List.append_assoc]
    have hl : (tagRIFF ++ [a, b, c, d] ++ tagWAVE ++ tagJUNK ++ le32 junk.length ++ junk).length
        = 20 + junk.length := by
      simp [tagRIFF, tagWAVE, tagJUNK, le32]
      omega
    have := fread_exact (tagRIFF ++ [a, b, c, d] ++ tagWAVE ++ tagJUNK ++ le32 junk.length ++ junk) tagFmt rest
    rw [hl] at this
    rw [e]
    exact this
  have hov : overlay (le32 junk.length) [0, 0, 0, 0] = le32 junk.length := by
    simp [overlay, le32]
  have hov2 : overlay tagFmt tagJUNK = tagFmt := by decide
  unfold read_and_confirm_wav_signature
  rw [r1]
  simp only
  rw [r2]
  simp only [hov, hv, fseekCur_forward _ _ hj, Option.getD_some]
  rw [r3]
  simp [tagRIFF, tagWAVE, tagJUNK, tagFmt, riffChunk, le32]
  exact ⟨by decide, by omega⟩

theorem fmt_at (pre rec extra rest : List Byte) (hrec : rec.length = 16) (hextra : extra.length < 2 ^ 31) :
    read_and_confirm_format_header
        (FILE.mk (pre ++ (le32 (16 + extra.length) ++ rec ++ extra ++ rest)) pre.length)
      = if (WAVFHDR.ofBytes rec).nBits ≠ 8 ∧ (WAVFHDR.ofBytes rec).nBits ≠ 16
            ∧ (WAVFHDR.ofBytes rec).nBits ≠ 32 then none
        else if (WAVFHDR.ofBytes rec).wFmtTag ≠ 1 ∧ (WAVFHDR.ofBytes rec).wFmtTag ≠ 3 then none
        else if (WAVFHDR.ofBytes rec).nChannels < 1 ∨ (WAVFHDR.ofBytes rec).nChannels > 5 then none
        else some (WAVFHDR.ofBytes rec,
          FILE.mk (pre ++ (le32 (16 + extra.length) ++ rec ++ extra ++ rest))
            (pre ++ (le32 (16 + extra.length) ++ rec ++ extra)).length) := by
  generalize hF : pre ++ (le32 (16 + extra.length) ++ rec ++ extra ++ rest) = F
  have hv : leVal (le32 (16 + extra.length)) = 16 + extra.length := leVal_le32 _ (by omega)
  have r1 : fread (FILE.mk F pre.length) 4 = (le32 (16 + extra.length), FILE.mk F (pre.length + 4)) := by
    have e : F = pre ++ (le32 (16 + extra.length) ++ (rec ++ extra ++ rest)) := by
      rw [← hF]
      simp only [List.append_assoc]
    rw [e]
    exact fread_exact pre (le32 (16 + extra.length)) (rec ++ extra ++ rest)
  have r2 : fread (FILE.mk F (pre.length + 4)) sizeofWAVFHDR = (rec, FILE.mk F (pre.length + 4 + 16)) := by
    have e : F = (pre ++ le32 (16 + extra.length)) ++ (rec ++ (extra ++ rest)) := by
      rw [← hF]
      simp only [List.append_assoc]
    have hl : (pre ++ le32 (16 + extra.length)).length = pre.length + 4 := by simp [le32]
    have := fread_exact (pre ++ le32 (16 + extra.length)) rec (extra ++ rest)
    rw [hl, hrec] at this
    rw [e]
    exact this
  have hlen : (pre ++ (le32 (16 + extra.length) ++ rec ++ extra)).length
      = pre.length + 4 + 16 + extra.length := by
    simp [le32, hrec]
    omega
  have hsub : 16 + extra.length - sizeofWAVFHDR = extra.length := by simp [sizeofWAVFHDR]
  have hl4 : (le32 (16 + extra.length)).length = 4 := rfl
  have hge : ¬ (16 + extra.length < sizeofWAVFHDR) := by simp [sizeofWAVFHDR]
  unfold read_and_confirm_format_header
  rw [r1]
  simp only [hv, hl4, ne_eq, not_true_eq_false, if_false, hge]
  rw [r2]
  simp only [hrec, sizeofWAVFHDR, ne_eq, not_true_eq_false, if_false]
  have hsub2 : 16 + extra.length - 16 = extra.length := by omega
  rw [hsub2, fseekCur_forward _ _ hextra, hlen]

theorem scan_chunks (dsb tail : List Byte) (hdsb : dsb.length = 4) :
    ∀ (cs : List (List Byte × List Byte)) (pre : List Byte) (budget : Nat),
      (∀ c ∈ cs, foreignChunk c) → cs.length < budget →
      read_and_confirm_data_header budget
          (FILE.mk (pre ++ (riffChunks cs ++ (tagData ++ dsb ++ tail))) pre.length)
        = Res.ok (leVal dsb, FILE.mk (pre ++ (riffChunks cs ++ (tagData ++ dsb ++ tail)))
            (pre ++ (riffChunks cs ++ (tagData ++ dsb))).length) := by
  intro cs
  induction cs with
  | nil =>
    intro pre budget _ hb
    obtain ⟨b, rfl⟩ : ∃ b, budget = b + 1 := ⟨budget - 1, by simp at hb; omega⟩
    have hnil : riffChunks [] = [] := rfl
    simp only [hnil, List.nil_append]
    have r1 : fread (FILE.mk (pre ++ (tagData ++ dsb ++ tail)) pre.length) 4
        = (tagData, FILE.mk (pre ++ (tagData ++ dsb ++ tail)) (pre.length + 4)) := by
      have e : pre ++ (tagData ++ dsb ++ tail) = pre ++ (tagData ++ (dsb ++ tail)) := by
        simp only [List.append_assoc]
      rw [e]
      exact fread_exact pre tagData (dsb ++ tail)
    have r2 : fread (FILE.mk (pre ++ (tagData ++ dsb ++ tail)) (pre.length + 4)) 4
        = (dsb, FILE.mk (pre ++ (tagData ++ dsb ++ tail)) (pre.length + 4 + 4)) := by
      have e : pre ++ (tagData ++ dsb ++ tail) = (pre ++ tagData) ++ (dsb ++ tail) := by
        simp only [List.append_assoc]
      have hl : (pre ++ tagData).length = pre.length + 4 := by simp [tagData]
      have := fread_exact (pre ++ tagData) dsb tail
      rw [hl, hdsb] at this
      rw [e]
      exact this
    have hlen : (pre ++ (tagData ++ dsb)).length = pre.length + 4 + 4 := by
      simp [tagData, hdsb]
    have hl4 : tagData.length = 4 := rfl
    unfold read_and_confirm_data_header
    rw [r1]
    simp only [hl4, ne_eq, not_true_eq_false, if_false]
    rw [r2]
    simp only [hdsb, ne_eq, not_true_eq_false, if_false, if_true, hlen]
  | cons c cs ih =>
    intro pre budget hcs hb
    obtain ⟨b, rfl⟩ : ∃ b, budget = b + 1 := ⟨budget - 1, by simp at hb; omega⟩
    obtain ⟨ht4, htag, hbody⟩ := hcs c (List.mem_cons_self c cs)
    have hcons : riffChunks (c :: cs) = c.1 ++ le32 c.2.length ++ c.2 ++ riffChunks cs := by
      simp [riffChunks, riffChunk]
    generalize hF : pre ++ (riffChunks (c :: cs) ++ (tagData ++ dsb ++ tail)) = F
    have r1 : fread (FILE.mk F pre.length) 4 = (c.1, FILE.mk F (pre.length + 4)) := by
      have e : F = pre ++ (c.1 ++ (le32 c.2.length ++ c.2 ++ riffChunks cs ++ (tagData ++ dsb ++ tail))) := by
        rw [← hF, hcons]
        simp only [List.append_assoc]
      have := fread_exact pre c.1 (le32 c.2.length ++ c.2 ++ riffChunks cs ++ (tagData ++ dsb ++ tail))
      rw [ht4] at this
      rw [e]
      exact this
    have r2 : fread (FILE.mk F (pre.length + 4)) 4 = (le32 c.2.length, FILE.mk F (pre.length + 4 + 4)) := by
      have e : F = (pre ++ c.1) ++ (le32 c.2.length ++ (c.2 ++ riffChunks cs ++ (tagData ++ dsb ++ tail))) := by
        rw [← hF, hcons]
        simp only [List.append_assoc]
      have hl : (pre ++ c.1).length = pre.length + 4 := by simp [ht4]
      have := fread_exact (pre ++ c.1) (le32 c.2.length) (c.2 ++ riffChunks cs ++ (tagData ++ dsb ++ tail))
      rw [hl] at this
      rw [e]
      exact this
    have hv : leVal (le32 c.2.length) = c.2.length := leVal_le32 _ (by omega)
    have hl4 : (le32 c.2.length).length = 4 := rfl
    have hpre : (pre ++ (c.1 ++ le32 c.2.length ++ c.2)).length = pre.length + 4 + 4 + c.2.length := by
      simp [ht4, le32]
      omega
    have e3 : F = (pre ++ (c.1 ++ le32 c.2.length ++ c.2)) ++ (riffChunks cs ++ (tagData ++ dsb ++ tail)) := by
      rw [← hF, hcons]
      simp only [List.append_assoc]
    have hrec := ih (pre ++ (c.1 ++ le32 c.2.length ++ c.2)) b
      (fun x hx => hcs x (List.mem_cons_of_mem c hx)) (by simp at hb; omega)
    rw [← e3, hpre] at hrec
    have hfin : (pre ++ (c.1 ++ le32 c.2.length ++ c.2) ++ (riffChunks cs ++ (tagData ++ dsb))).length
        = (pre ++ (riffChunks (c :: cs) ++ (tagData ++ dsb))).length := by
      rw [hcons]
      simp only [List.append_assoc]
    rw [hfin] at hrec
    unfold read_and_confirm_data_header
    rw [r1]
    simp only [ht4, ne_eq, not_true_eq_false, if_false]
    rw [r2]
    simp only [hl4, ne_eq, not_true_eq_false, if_false, htag, hv]
    rw [fseekCur_forward _ _ hbody]
    exact hrec

theorem readHeaders_wellformed (pfx rec extra dsb tail : List Byte) (cs : List (List Byte × List Byte))
    (budget : Nat)
    (hsig : ∀ rest, read_and_confirm_wav_signature (FILE.mk (pfx ++ rest) 0)
      = some (FILE.mk (pfx ++ rest) pfx.length))
    (hrec : rec.length = 16) (hextra : extra.length < 2 ^ 31) (hdsb : dsb.length = 4)
    (hcs : ∀ c ∈ cs, foreignChunk c) (hb : cs.length < budget) :
    readHeaders budget
        (pfx ++ (le32 (16 + extra.length) ++ rec ++ extra ++ (riffChunks cs ++ (tagData ++ dsb ++ tail))))
      = if ((WAVFHDR.ofBytes rec).nBits ≠ 8 ∧ (WAVFHDR.ofBytes rec).nBits ≠ 16
              ∧ (WAVFHDR.ofBytes rec).nBits ≠ 32)
            ∨ ((WAVFHDR.ofBytes rec).wFmtTag ≠ 1 ∧ (WAVFHDR.ofBytes rec).wFmtTag ≠ 3)
            ∨ ((WAVFHDR.ofBytes rec).nChannels < 1 ∨ (WAVFHDR.ofBytes rec).nChannels > 5) then Res.fail
        else Res.ok (WAVFHDR.ofBytes rec, leVal dsb,
          FILE.mk ((pfx ++ (le32 (16 + extra.length) ++ rec ++ extra) ++ (riffChunks cs ++ (tagData ++ dsb)))
              ++ tail)
            (pfx ++ (le32 (16 + extra.length) ++ rec ++ extra) ++ (riffChunks cs ++ (tagData ++ dsb))).length) := by
  have hfmt := fmt_at pfx rec extra (riffChunks cs ++ (tagData ++ dsb ++ tail)) hrec hextra
  have hscan := scan_chunks dsb tail hdsb cs (pfx ++ (le32 (16 + extra.length) ++ rec ++ extra)) budget hcs hb
  have e1 : pfx ++ (le32 (16 + extra.length) ++ rec ++ extra) ++ (riffChunks cs ++ (tagData ++ dsb ++ tail))
      = pfx ++ (le32 (16 + extra.length) ++ rec ++ extra ++ (riffChunks cs ++ (tagData ++ dsb ++ tail))) := by
    simp only [List.append_assoc]
  have e2 : (pfx ++ (le32 (16 + extra.length) ++ rec ++ extra) ++ (riffChunks cs ++ (tagData ++ dsb))) ++ tail
      = pfx ++ (le32 (16 + extra.length) ++ rec ++ extra ++ (riffChunks cs ++ (tagData ++ dsb ++ tail))) := by
    simp only [List.append_assoc]
  rw [e1] at hscan
  rw [e2]
  unfold readHeaders
  rw [hsig]
  simp only
  rw [hfmt]
  by_cases h1 : (WAVFHDR.ofBytes rec).nBits ≠ 8 ∧ (WAVFHDR.ofBytes rec).nBits ≠ 16
      ∧ (WAVFHDR.ofBytes rec).nBits ≠ 32
  · rw [if_pos h1, if_pos (Or.inl h1)]
  · rw [if_neg h1]
    by_cases h2 : (WAVFHDR.ofBytes rec).wFmtTag ≠ 1 ∧ (WAVFHDR.ofBytes rec).wFmtTag ≠ 3
    · rw [if_pos h2, if_pos (Or.inr (Or.inl h2))]
    · rw [if_neg h2]
      by_cases h3 : (WAVFHDR.ofBytes rec).nChannels < 1 ∨ (WAVFHDR.ofBytes rec).nChannels > 5
      · rw [if_pos h3, if_pos (Or.inr (Or.inr h3))]
      · have hno : ¬ (((WAVFHDR.ofBytes rec).nBits ≠ 8 ∧ (WAVFHDR.ofBytes rec).nBits ≠ 16
              ∧ (WAVFHDR.ofBytes rec).nBits ≠ 32)
            ∨ ((WAVFHDR.ofBytes rec).wFmtTag ≠ 1 ∧ (WAVFHDR.ofBytes rec).wFmtTag ≠ 3)
            ∨ ((WAVFHDR.ofBytes rec).nChannels < 1 ∨ (WAVFHDR.ofBytes rec).nChannels > 5)) := by
          rintro (h | h | h)
          · exact h1 h
          · exact h2 h
          · exact h3 h
        rw [if_neg h3, if_neg hno]
        simp only
        rw [hscan]

theorem read_outcome (rec extra dsb tail : List Byte) (hrec : rec.length = 16)
    (hextra : extra.length < 2 ^ 31) (hdsb : dsb.length = 4) :
    ∃ (H : Res WAVInfo) (S : Nat → Res (List Byte)),
      ∀ (pfx : List Byte) (cs : List (List Byte × List Byte)) (budget : Nat),
        (∀ rest, read_and_confirm_wav_signature (FILE.mk (pfx ++ rest) 0)
          = some (FILE.mk (pfx ++ rest) pfx.length)) →
        (∀ c ∈ cs, foreignChunk c) → cs.length < budget →
        WAVFileReadHeader budget
            (pfx ++ (le32 (16 + extra.length) ++ rec ++ extra ++ (riffChunks cs ++ (tagData ++ dsb ++ tail))))
          = H ∧
        ∀ n, WAVFileReadSamples budget
            (pfx ++ (le32 (16 + extra.length) ++ rec ++ extra ++ (riffChunks cs ++ (tagData ++ dsb ++ tail)))) n
          = S n := by
  by_cases hbad : ((WAVFHDR.ofBytes rec).nBits ≠ 8 ∧ (WAVFHDR.ofBytes rec).nBits ≠ 16
        ∧ (WAVFHDR.ofBytes rec).nBits ≠ 32)
      ∨ ((WAVFHDR.ofBytes rec).wFmtTag ≠ 1 ∧ (WAVFHDR.ofBytes rec).wFmtTag ≠ 3)
      ∨ ((WAVFHDR.ofBytes rec).nChannels < 1 ∨ (WAVFHDR.ofBytes rec).nChannels > 5)
  · refine ⟨Res.fail, fun _ => Res.fail, ?_⟩
    intro pfx cs budget hsig hcs hb
    have h := readHeaders_wellformed pfx rec extra dsb tail cs budget hsig hrec hextra hdsb hcs hb
    rw [if_pos hbad] at h
    refine ⟨by simp only [WAVFileReadHeader, h], ?_⟩
    intro n
    simp only [WAVFileReadSamples, h]
    split_ifs <;> rfl
  · refine ⟨Res.ok (WAVInfo.mk (WAVFHDR.ofBytes rec).Rate (WAVFHDR.ofBytes rec).nChannels
        (WAVFHDR.ofBytes rec).nBits ((WAVFHDR.ofBytes rec).wFmtTag == 3)
        (leVal dsb / (WAVFHDR.ofBytes rec).nChannels / ((WAVFHDR.ofBytes rec).nBits / 8))),
      fun n => if n = 0 then Res.fail else if n < leVal dsb then Res.fail
        else if (tail.take (leVal dsb)).length ≠ leVal dsb then Res.fail
        else Res.ok (tail.take (leVal dsb)), ?_⟩
    intro pfx cs budget hsig hcs hb
    have h := readHeaders_wellformed pfx rec extra dsb tail cs budget hsig hrec hextra hdsb hcs hb
    rw [if_neg hbad] at h
    refine ⟨by simp only [WAVFileReadHeader, h], ?_⟩
    intro n
    simp only [WAVFileReadSamples, h, fread_at]

/-- Claim C25, amended.  Take a WAV file made of the prologue ("RIFF", size
field, "WAVE"), the format chunk, any chunks with a tag other than "data" and
the data chunk, in which the format chunk and the skipped chunks hold as many
bytes as their length fields say and are shorter than 2^31 bytes.  Inserting
one "JUNK" chunk (shorter than 2^31 bytes) between "WAVE" and "fmt ", or
replacing the chunks between the format chunk and the data chunk by any other
such chunks (in particular inserting some), changes neither the result of
`WAVFileReadHeader` nor that of `WAVFileReadSamples`, for every step budget
larger than the number of skipped chunks. -/
theorem foreign_chunks_skipped (sz rec extra dsb tail junk : List Byte)
    (cs cs1 : List (List Byte × List Byte)) (budget budget1 n : Nat)
    (hsz : sz.length = 4) (hrec : rec.length = 16) (hextra : extra.length < 2 ^ 31)
    (hdsb : dsb.length = 4) (hjunk : junk.length < 2 ^ 31)
    (hcs : ∀ c ∈ cs, foreignChunk c) (hcs1 : ∀ c ∈ cs1, foreignChunk c)
    (hb : cs.length < budget) (hb1 : cs1.length < budget1) :
    WAVFileReadHeader budget (tagRIFF ++ sz ++ tagWAVE ++ riffChunk tagJUNK junk ++ tagFmt
          ++ (le32 (16 + extra.length) ++ rec ++ extra ++ (riffChunks cs ++ (tagData ++ dsb ++ tail))))
        = WAVFileReadHeader budget (tagRIFF ++ sz ++ tagWAVE ++ tagFmt
          ++ (le32 (16 + extra.length) ++ rec ++ extra ++ (riffChunks cs ++ (tagData ++ dsb ++ tail)))) ∧
      WAVFileReadSamples budget (tagRIFF ++ sz ++ tagWAVE ++ riffChunk tagJUNK junk ++ tagFmt
          ++ (le32 (16 + extra.length) ++ rec ++ extra ++ (riffChunks cs ++ (tagData ++ dsb ++ tail)))) n
        = WAVFileReadSamples budget (tagRIFF ++ sz ++ tagWAVE ++ tagFmt
          ++ (le32 (16 + extra.length) ++ rec ++ extra ++ (riffChunks cs ++ (tagData ++ dsb ++ tail)))) n ∧
      WAVFileReadHeader budget1 (tagRIFF ++ sz ++ tagWAVE ++ tagFmt
          ++ (le32 (16 + extra.length) ++ rec ++ extra ++ (riffChunks cs1 ++ (tagData ++ dsb ++ tail))))
        = WAVFileReadHeader budget (tagRIFF ++ sz ++ tagWAVE ++ tagFmt
          ++ (le32 (16 + extra.length) ++ rec ++ extra ++ (riffChunks cs ++ (tagData ++ dsb ++ tail)))) ∧
      WAVFileReadSamples budget1 (tagRIFF ++ sz ++ tagWAVE ++ tagFmt
          ++ (le32 (16 + extra.length) ++ rec ++ extra ++ (riffChunks cs1 ++ (tagData ++ dsb ++ tail)))) n
        = WAVFileReadSamples budget (tagRIFF ++ sz ++ tagWAVE ++ tagFmt
          ++ (le32 (16 + extra.length) ++ rec ++ extra ++ (riffChunks cs ++ (tagData ++ dsb ++ tail)))) n := by
  obtain ⟨H, S, hHS⟩ := read_outcome rec extra dsb tail hrec hextra hdsb
  have hplain : ∀ rest, read_and_confirm_wav_signature
      (FILE.mk ((tagRIFF ++ sz ++ tagWAVE ++ tagFmt) ++ rest) 0)
      = some (FILE.mk ((tagRIFF ++ sz ++ tagWAVE ++ tagFmt) ++ rest)
          (tagRIFF ++ sz ++ tagWAVE ++ tagFmt).length) := fun rest => sig_plain sz rest hsz
  have hjk : ∀ rest, read_and_confirm_wav_signature
      (FILE.mk ((tagRIFF ++ sz ++ tagWAVE ++ riffChunk tagJUNK junk ++ tagFmt) ++ rest) 0)
      = some (FILE.mk ((tagRIFF ++ sz ++ tagWAVE ++ riffChunk tagJUNK junk ++ tagFmt) ++ rest)
          (tagRIFF ++ sz ++ tagWAVE ++ riffChunk tagJUNK junk ++ tagFmt).length) :=
    fun rest => sig_junk sz junk rest hsz hjunk
  obtain ⟨a1, a2⟩ := hHS _ cs budget hplain hcs hb
  obtain ⟨b1, b2⟩ := hHS _ cs budget hjk hcs hb
  obtain ⟨c1, c2⟩ := hHS _ cs1 budget1 hplain hcs1 hb1
  exact ⟨b1.trans a1.symm, (b2 n).trans (a2 n).symm, c1.trans a1.symm, (c2 n).trans (a2 n).symm⟩

theorem foreign_chunks_skipped_witness :
    WAVFileReadSamples 2 (tagRIFF ++ [0, 0, 0, 0] ++ tagWAVE ++ tagFmt
          ++ (le32 (16 + ([] : List Byte).length) ++ (WAVFHDR.mk 1 1 48000 48000 1 8).bytes ++ []
            ++ (riffChunks [(tagJUNK, [9])] ++ (tagData ++ le32 1 ++ [7])))) 1
      = WAVFileReadSamples 1 (tagRIFF ++ [0, 0, 0, 0] ++ tagWAVE ++ tagFmt
          ++ (le32 (16 + ([] : List Byte).length) ++ (WAVFHDR.mk 1 1 48000 48000 1 8).bytes ++ []
            ++ (riffChunks [] ++ (tagData ++ le32 1 ++ [7])))) 1 :=
  (foreign_chunks_skipped [0, 0, 0, 0] (WAVFHDR.mk 1 1 48000 48000 1 8).bytes [] (le32 1) [7] []
    [] [(tagJUNK, [9])] 1 2 1 rfl rfl (by norm_num) rfl (by norm_num)
    (by intro c hc; simp at hc)
    (by
      intro c hc
      simp only [List.mem_singleton] at hc
      subst hc
      exact ⟨rfl, by decide, by norm_num⟩)
    (by decide) (by decide)).2.2.2

/-! ## C26, C27: fields of a written WAV file -/

theorem WAVFileWrite_bytes (header : WAVInfo) (samples : List Byte)
    (hcount : header.m_sample_count ≠ 0)
    (hbits : header.m_bits = 8 ∨ header.m_bits = 16 ∨ header.m_bits = 32)
    (hcb : header.m_channels * header.m_bits < U32)
    (hfit : header.m_channels * (header.m_bits / 8) * header.m_sample_count < U32)
    (hlen : header.m_channels * (header.m_bits / 8) * header.m_sample_count ≤ samples.length) :
    ∃ record : List Byte, record.length = 16 ∧
      WAVFileWrite header samples = Res.ok (tagRIFF
        ++ le32 ((32 + header.m_channels * (header.m_bits / 8) * header.m_sample_count) % U32)
        ++ (tagWAVE ++ tagFmt ++ le32 16 ++ record ++ tagData
          ++ le32 (header.m_channels * (header.m_bits / 8) * header.m_sample_count)
          ++ samples.take (header.m_channels * (header.m_bits / 8) * header.m_sample_count))) := by
  have hcalc : header.CalculateBufferSize
      = header.m_channels * (header.m_bits / 8) * header.m_sample_count :=
    CalculateBufferSize_exact _ _ _ hbits hcb hfit
  have hb : ¬ (header.m_bits ≠ 8 ∧ header.m_bits ≠ 16 ∧ header.m_bits ≠ 32) := by
    rintro ⟨h1, h2, h3⟩
    rcases hbits with h | h | h
    · exact h1 h
    · exact h2 h
    · exact h3 h
  have hl : ¬ (samples.length < header.m_channels * (header.m_bits / 8) * header.m_sample_count) := by
    omega
  refine ⟨(WAVFHDR.mk (if header.m_is_float then 3 else 1) (header.m_channels % U16)
    (header.m_rate % U32) (header.m_rate * (header.m_bits / 8) % U32)
    (header.m_bits / 8 * header.m_channels % U32 % U16) (header.m_bits % U16)).bytes,
    WAVFHDR.bytes_length _, ?_⟩
  simp only [WAVFileWrite, hcount, hb, if_false, hcalc, hl, sizeofWAVFHDR, List.append_assoc]
  rfl

/-- Claim C26 at its failing inputs.  For every accepted input (frame count
>= 1, bits 8, 16 or 32, the sample buffer holding the data) for which
channels x bits fits 32 bits and the data length channels x (bits/8) x
frameCount is below 2^32 - 32, the 4-byte little-endian field at byte offset 4
of the written file holds 16 + sizeof(WAVFHDR) + the data length = 32 + the
data length, while the file has 44 + the data length bytes: the field is
neither the number of bytes of the file nor the RIFF chunk size (the file size
minus 8). -/
theorem riff_size_field_is_twelve_short (header : WAVInfo) (samples : List Byte)
    (hcount : header.m_sample_count ≠ 0)
    (hbits : header.m_bits = 8 ∨ header.m_bits = 16 ∨ header.m_bits = 32)
    (hcb : header.m_channels * header.m_bits < U32)
    (hfit : 32 + header.m_channels * (header.m_bits / 8) * header.m_sample_count < U32)
    (hlen : header.m_channels * (header.m_bits / 8) * header.m_sample_count ≤ samples.length) :
    ∃ file, WAVFileWrite header samples = Res.ok file ∧
      leVal ((file.drop 4).take 4) = 32 + header.m_channels * (header.m_bits / 8) * header.m_sample_count ∧
      file.length = 44 + header.m_channels * (header.m_bits / 8) * header.m_sample_count ∧
      leVal ((file.drop 4).take 4) ≠ file.length ∧ leVal ((file.drop 4).take 4) ≠ file.length - 8 := by
  obtain ⟨record, hrec, hw⟩ := WAVFileWrite_bytes header samples hcount hbits hcb (by omega) hlen
  have hv := leVal_le32 (32 + header.m_channels * (header.m_bits / 8) * header.m_sample_count)
    (by norm_num [U32] at hfit ⊢; omega)
  rw [Nat.mod_eq_of_lt hfit] at hw
  generalize header.m_channels * (header.m_bits / 8) * header.m_sample_count = ds at *
  have hfield : ∀ rest : List Byte, ((tagRIFF ++ le32 (32 + ds) ++ rest).drop 4).take 4 = le32 (32 + ds) := by
    intro rest
    simp [tagRIFF, le32]
  have hlength : (tagRIFF ++ le32 (32 + ds) ++ (tagWAVE ++ tagFmt ++ le32 16 ++ record ++ tagData
      ++ le32 ds ++ samples.take ds)).length = 44 + ds := by
    simp [tagRIFF, le32, tagWAVE, tagFmt, tagData, hrec]
    omega
  refine ⟨_, hw, ?_, hlength, ?_, ?_⟩
  · rw [hfield, hv]
  · rw [hfield, hv, hlength]
    omega
  · rw [hfield, hv, hlength]
    omega

theorem riff_size_field_is_twelve_short_witness :
    ∃ file, WAVFileWrite (WAVInfo.mk 48000 2 16 false 1) [1, 2, 3, 4] = Res.ok file ∧
      leVal ((file.drop 4).take 4) = 32 + 2 * (16 / 8) * 1 ∧
      file.length = 44 + 2 * (16 / 8) * 1 ∧
      leVal ((file.drop 4).take 4) ≠ file.length ∧ leVal ((file.drop 4).take 4) ≠ file.length - 8 :=
  riff_size_field_is_twelve_short (WAVInfo.mk 48000 2 16 false 1) [1, 2, 3, 4] (by decide) (by decide)
    (by norm_num [U32]) (by norm_num [U32]) (by decide)

/-- Claim C27 at a failing input.  For 16-bit stereo at 48000 Hz the written
format record has block align 4 and bytes-per-second 96000: the code stores
rate x (bits/8) and leaves the channel count out, where playback needs
rate x blockAlign = 192000 bytes per second. -/
theorem bytes_per_second_ignores_channels :
    WAVFileWrite (WAVInfo.mk 48000 2 16 false 1) [1, 2, 3, 4] = Res.ok stereoWavFile ∧
      leVal ((stereoWavFile.drop 28).take 4) = 96000 ∧
      leVal ((stereoWavFile.drop 32).take 2) = 4 ∧
      leVal ((stereoWavFile.drop 24).take 4) = 48000 ∧
      48000 * 4 = 192000 ∧ 48000 * 2 * (16 / 8) = 192000 := by
  refine ⟨by decide, by decide, by decide, by decide, by norm_num, by norm_num⟩
/-! ## C28: the Normalize ceiling on whole chunks -/

theorem Normalize_clamped (powf : ℚ → ℚ → ℚ) (w : Waveform) (dbLevel : ℚ) :
    Waveform.Normalize powf w dbLevel
      = Waveform.Normalize powf w
          (if (if dbLevel > 0 then 0 else dbLevel) < -100 then -100 else (if dbLevel > 0 then 0 else dbLevel)) := by
  have h : ∀ d : ℚ, -100 ≤ d → d ≤ 0 →
      (if (if d > 0 then 0 else d) < -100 then -100 else (if d > 0 then 0 else d)) = d := by
    intro d h1 h2
    rw [if_neg (not_lt.mpr h2), if_neg (not_lt.mpr h1)]
  have hc1 : -100 ≤ (if (if dbLevel > 0 then 0 else dbLevel) < -100 then -100
      else (if dbLevel > 0 then 0 else dbLevel)) := by
    split_ifs <;> linarith
  have hc2 : (if (if dbLevel > 0 then 0 else dbLevel) < -100 then -100
      else (if dbLevel > 0 then 0 else dbLevel)) ≤ 0 := by
    split_ifs <;> linarith
  have := h _ hc1 hc2
  unfold Waveform.Normalize
  simp only [this]

theorem powfInt_minus_one : powfInt 10 (roundF32 (-20 / 20)) = 13421773 / 134217728 := by
  have e : ((-20 : ℚ) / 20) = ((-1 : Int) : ℚ) := by norm_num
  rw [e, roundF32_intCast (-1) (by decide), powfInt, Int.floor_intCast]
  have h := roundTo_eval 24 (-126) ((10 : ℚ) ^ (-1 : Int)) (-4) 13421773
    (by norm_num [abs_of_pos]) (by norm_num [abs_of_pos]) (by norm_num [abs_lt])
  rw [roundF32, h]
  norm_num

/-- Claim C28 fails as stated.  The arithmetic is that of `float`: for the mono
100 Hz buffer holding the one sample 8391413 / 2^23 (chunk length C = 1) and
the target -20 dB, whose ceiling L is the `float` 13421773 / 2^27 nearest to
0.1, the gain is the rounded quotient L / sample and the rounded product is
13421774 / 2^27, above L.  And the chunk count is held in an `unsigned`: for
the mono 100 Hz buffer of 2^32 samples equal to 2 it is computed as 0, no
chunk is processed, and after `Normalize(0)` the samples are still 2, above
the ceiling L = 1. -/
theorem normalize_chunk_count_wraps :
    Waveform.Normalize powfInt (Waveform.mk [8391413 / 8388608] 100 1) (-20)
        = some (Waveform.mk [13421774 / 134217728] 100 1) ∧
      powfInt 10 (roundF32 (-20 / 20)) = 13421773 / 134217728 ∧
      ¬ (|(13421774 / 134217728 : ℚ)| ≤ 13421773 / 134217728) ∧
      Waveform.Normalize powfInt hugeBuffer 0 = some hugeBuffer ∧
      truncQ (roundF32 (roundF32 (roundF32 (hugeBuffer.m_rate : ℚ) * roundF32 (1 / 100))
        * roundF32 (hugeBuffer.m_numChannels : ℚ))) = 1 ∧
      hugeBuffer.m_data.length = 2 ^ 32 * 1 ∧
      hugeBuffer.m_data[0]? = some 2 ∧ powfInt 10 (roundF32 (0 / 20)) = 1 ∧ ¬ (|(2 : ℚ)| ≤ 1) := by
  have hlen : hugeBuffer.m_data.length = 2 ^ 32 := by
    show (List.replicate (2 ^ 32) (2 : ℚ)).length = 2 ^ 32
    rw [List.length_replicate]
  have hne : hugeBuffer.m_data ≠ [] := by
    intro h0
    have := congrArg List.length h0
    rw [hlen, List.length_nil] at this
    norm_num at this
  refine ⟨?_, powfInt_minus_one, by norm_num [abs_of_pos], ?_, chunk_length_100_mono, ?_, ?_,
    powfInt_zero, by norm_num [abs_of_pos]⟩
  · have hone : roundF32 ((8391413 / 8388608 : ℚ) * 1) = 8391413 / 8388608 := by
      have h := roundF32_pow2_mul 8391413 (-23) (by decide) (by norm_num)
      have e : ((8391413 : Int) : ℚ) * (2 : ℚ) ^ (-23 : Int) = (8391413 / 8388608 : ℚ) * 1 := by norm_num
      rw [e] at h
      rw [h]
      norm_num
    have hg : roundF32 ((13421773 / 134217728 : ℚ) / (8391413 / 8388608)) = 13417287 / 134217728 := by
      have h := roundTo_eval 24 (-126) ((13421773 / 134217728 : ℚ) / (8391413 / 8388608)) (-4) 13417287
        (by norm_num [abs_of_pos]) (by norm_num [abs_of_pos]) (by norm_num [abs_lt])
      rw [roundF32, h]
      norm_num
    have hy : roundF32 ((8391413 / 8388608 : ℚ) * (13417287 / 134217728)) = 13421774 / 134217728 := by
      have h := roundTo_eval 24 (-126) ((8391413 / 8388608 : ℚ) * (13417287 / 134217728)) (-4) 13421774
        (by norm_num [abs_of_pos]) (by norm_num [abs_of_pos]) (by norm_num [abs_lt])
      rw [roundF32, h]
      norm_num
    exact Normalize_one_sample powfInt (8391413 / 8388608) (13421773 / 134217728) (13417287 / 134217728)
      (13421774 / 134217728) (-20) 100 (-20) (by norm_num) (by norm_num) powfInt_minus_one
      chunk_length_100_mono (by norm_num) (by rw [roundF32_fiftieth]; norm_num) (by norm_num)
      (by rw [hone]; norm_num) hg (by norm_num [FLT_MAX, abs_of_pos]) hy
      (by norm_num [FLT_MAX, abs_of_pos])
  · exact Normalize_no_chunks powfInt hugeBuffer 0 1 hne (le_refl 1) (by decide) chunk_length_100_mono
      (le_refl 1) (by norm_num [U32]) (by rw [hlen]; norm_num [U32])
  · rw [hlen, Nat.mul_one]
  · show (List.replicate (2 ^ 32) (2 : ℚ))[0]? = some 2
    exact List.getElem?_replicate_of_lt (by norm_num)

/-- Claim C28, amended.  Let L = powf(10, d/20) be the linear ceiling for the
clamped level d, with L in [2^-17, 1], and let C be the chunk length that the
code computes in `float` from rate x 0.01f x channelCount.  If C >= 1, the
samples are at most 2^100 in magnitude and their number is a positive exact
multiple of C below 2^32, then `Normalize` returns and afterwards every sample
satisfies |sample| <= L x (1 + 2^-22): in each chunk the gain g satisfies
peak x g <= L x (1 + 2^-23), and the product of a sample and the gain is
rounded to `float` once more. -/
theorem normalize_chunk_ceiling (powf : ℚ → ℚ → ℚ) (w : Waveform) (dbLevel : ℚ) (C k : Nat)
    (hL : 1 / 131072 ≤ powf 10 (roundF32 ((if (if dbLevel > 0 then 0 else dbLevel) < -100 then -100
        else (if dbLevel > 0 then 0 else dbLevel)) / 20)) ∧
      powf 10 (roundF32 ((if (if dbLevel > 0 then 0 else dbLevel) < -100 then -100
        else (if dbLevel > 0 then 0 else dbLevel)) / 20)) ≤ 1)
    (hC : truncQ (roundF32 (roundF32 (roundF32 (w.m_rate : ℚ) * roundF32 (1 / 100))
      * roundF32 (w.m_numChannels : ℚ))) = (C : Int))
    (hC1 : 1 ≤ C) (hk : 1 ≤ k) (hlen : w.m_data.length = k * C) (h32 : w.m_data.length < U32)
    (hB : ∀ x ∈ w.m_data, |x| ≤ 2 ^ 100) :
    ∃ w', Waveform.Normalize powf w dbLevel = some w' ∧ w'.m_data.length = w.m_data.length ∧
      ∀ (j : Nat) (x : ℚ), w'.m_data[j]? = some x →
        |x| ≤ powf 10 (roundF32 ((if (if dbLevel > 0 then 0 else dbLevel) < -100 then -100
          else (if dbLevel > 0 then 0 else dbLevel)) / 20)) * (1 + 1 / 4194304) := by
  have hc1 : -100 ≤ (if (if dbLevel > 0 then 0 else dbLevel) < -100 then -100
      else (if dbLevel > 0 then 0 else dbLevel)) := by
    split_ifs <;> linarith
  have hc2 : (if (if dbLevel > 0 then 0 else dbLevel) < -100 then -100
      else (if dbLevel > 0 then 0 else dbLevel)) ≤ 0 := by
    split_ifs <;> linarith
  obtain ⟨w', h1, _, _, h4, h5⟩ :=
    normalize_whole_chunks_bound powf w _ C k ⟨hc1, hc2⟩ hL hC hC1 hk hlen h32 hB
  rw [← Normalize_clamped] at h1
  exact ⟨w', h1, h4, h5⟩

theorem normalize_chunk_ceiling_witness :
    ∃ w', Waveform.Normalize powfInt (Waveform.mk [1, 2, 3, 4, 5, 6] 100 2) 0 = some w' ∧
      w'.m_data.length = (Waveform.mk [1, 2, 3, 4, 5, 6] 100 2).m_data.length ∧
      ∀ (j : Nat) (x : ℚ), w'.m_data[j]? = some x →
        |x| ≤ powfInt 10 (roundF32 ((if (if (0 : ℚ) > 0 then 0 else 0) < -100 then -100
          else (if (0 : ℚ) > 0 then 0 else 0)) / 20)) * (1 + 1 / 4194304) :=
  normalize_chunk_ceiling powfInt (Waveform.mk [1, 2, 3, 4, 5, 6] 100 2) 0 2 3
    (by
      rw [if_neg (by norm_num), if_neg (by norm_num), powfInt_zero]
      norm_num)
    chunk_length_100_stereo (by norm_num) (by norm_num) (by simp) (by norm_num [U32])
    (by
      intro x hx
      simp only [List.mem_cons, List.mem_singleton, List.not_mem_nil, or_false] at hx
      rcases hx with h | h | h | h | h | h <;> rw [h] <;> rw [abs_of_pos (by norm_num)] <;> norm_num)
/-! ## C29: stretching to the current length -/

theorem Stretch_same_data (w : Waveform) (hc1 : 1 ≤ w.m_numChannels)
    (hdiv : w.m_numChannels ∣ w.m_data.length) (hN : 1 ≤ w.GetNumSamples)
    (hprec : w.GetNumSamples * w.GetNumSamples < 2 ^ 53) :
    ((List.replicate (w.GetNumSamples * w.m_numChannels) (0 : ℚ)).mapIdx fun j zero =>
      if stretchSourceIndex (j / w.m_numChannels) w.GetNumSamples w.GetNumSamples ≥ w.GetNumSamples
      then zero
      else (w.m_data[stretchSourceIndex (j / w.m_numChannels) w.GetNumSamples w.GetNumSamples
        * w.m_numChannels + j % w.m_numChannels]?).getD 0) = w.m_data := by
  have hne : w.m_data ≠ [] := by
    intro h
    simp [Waveform.GetNumSamples, h] at hN
  have hns := GetNumSamples_eq w hne (by omega)
  have hfull : w.GetNumSamples * w.m_numChannels = w.m_data.length := by
    rw [hns]
    exact Nat.div_mul_cancel hdiv
  have hN53 : w.GetNumSamples < 2 ^ 53 := by
    have : w.GetNumSamples * 1 ≤ w.GetNumSamples * w.GetNumSamples := Nat.mul_le_mul_left _ hN
    omega
  apply List.ext_getElem?
  intro j
  rw [List.getElem?_mapIdx]
  by_cases hj : j < w.m_data.length
  · have hlt : j / w.m_numChannels < w.GetNumSamples := by
      rw [Nat.div_lt_iff_lt_mul (by omega), hfull]
      exact hj
    have hle : j / w.m_numChannels * w.GetNumSamples ≤ w.GetNumSamples * w.GetNumSamples :=
      Nat.mul_le_mul_right _ (le_of_lt hlt)
    have hq : stretchSourceIndex (j / w.m_numChannels) w.GetNumSamples w.GetNumSamples
        = j / w.m_numChannels := by
      rw [stretchSourceIndex_exact _ _ _ (by omega) (by omega) (by omega) hN53 hN53]
      exact Nat.mul_div_cancel _ (by omega)
    have hidx : j / w.m_numChannels * w.m_numChannels + j % w.m_numChannels = j :=
      Nat.div_add_mod' j w.m_numChannels
    rw [List.getElem?_replicate_of_lt (by rw [hfull]; exact hj)]
    simp only [Option.map_some', hq, ge_iff_le, Nat.not_le.mpr hlt, if_false, hidx,
      List.getElem?_eq_getElem hj, Option.getD_some]
  · have h1 : (List.replicate (w.GetNumSamples * w.m_numChannels) (0 : ℚ)).length ≤ j := by
      rw [List.length_replicate, hfull]
      omega
    have h2 : w.m_data[j]? = none := List.getElem?_eq_none (by omega)
    rw [List.getElem?_eq_none h1, h2]
    rfl

/-- Claim C29 fails as stated.  On the mono buffer of 94906269 frames in which
frame i holds i mod 2, `Stretch(94906269)` computes the source index of frame
94906265 in `double`: the product 94906265 x 94906269 exceeds 2^53 and is
rounded, the quotient comes out below 94906265, and the frame receives the
sample of frame 94906264 (the value 0) instead of keeping its own (the value
1). -/
theorem stretch_to_current_length_changes_long_buffer :
    longRamp.invariant ∧ longRamp.representable ∧ longRamp.GetNumSamples = 94906269 ∧
      longRamp.m_data[94906265]? = some 1 ∧
      ∃ w1, longRamp.Stretch longRamp.GetNumSamples = some (true, w1) ∧
        w1.m_data[94906265]? = some 0 := by
  obtain ⟨hlen, hc, hN, hat, hst⟩ := longRamp_stretch
  refine ⟨?_, ?_, hN, ?_, ?_⟩
  · refine ⟨?_, ?_, ?_⟩
    · rw [hc]
      exact one_dvd _
    · rw [hc]
    · rw [hc]
      decide
  · refine ⟨?_, ?_, ?_⟩
    · rw [hlen]
      norm_num [vectorMaxSize]
    · norm_num [longRamp, U32]
    · rw [hc]
      norm_num [SIZE]
  · rw [hat 94906265 (by norm_num)]
    norm_num
  · rw [hN]
    exact hst

/-- Claim C29, amended.  For every buffer of the data model (whole frames,
channel count in [1,256], within the size limit of the vector) with frame
count N >= 1 and N x N < 2^53 (that is N <= 94906265: the source index is
computed in `double`), `Stretch(N)` returns true and leaves every sample, the
channel count and the rate unchanged; if moreover N x currentRate < 2^53,
`Resample(currentRate)` leaves the buffer unchanged as well. -/
theorem stretch_to_current_length (w : Waveform) (hinv : w.invariant) (hrep : w.representable)
    (hN : 1 ≤ w.GetNumSamples) (hprec : w.GetNumSamples * w.GetNumSamples < 2 ^ 53) :
    w.Stretch w.GetNumSamples = some (true, w) ∧
      (w.GetNumSamples * w.m_rate < 2 ^ 53 → ∃ b, w.Resample w.m_rate = some (b, w)) := by
  obtain ⟨hdiv, hc1, hc2⟩ := hinv
  obtain ⟨hlen, hr32, _⟩ := hrep
  have hS : w.Stretch w.GetNumSamples = some (true, w) := by
    by_cases hl : w.m_data.length ≤ 1
    · have h1 : ¬ (w.GetNumSamples < 1) := by omega
      simp only [Waveform.Stretch, h1, hl, if_true, if_false]
    · have hfit : w.GetNumSamples * w.m_numChannels ≤ vectorMaxSize :=
        le_trans (GetNumSamples_mul_le w) hlen
      rw [Stretch_result w w.GetNumSamples hc1 hc2 (by omega) hN hfit,
        Stretch_same_data w hc1 hdiv hN hprec]
  refine ⟨hS, ?_⟩
  intro hprec2
  by_cases hr : w.m_rate < 1
  · exact ⟨false, by simp only [Waveform.Resample, hr, if_true]⟩
  · by_cases hl : w.m_data.length ≤ 1
    · exact ⟨true, by simp only [Waveform.Resample, hr, hl, if_true, if_false]⟩
    · refine ⟨true, ?_⟩
      have hq : w.GetNumSamples * w.m_rate / w.m_rate = w.GetNumSamples :=
        Nat.mul_div_cancel _ (by omega)
      have hmax : max 1 (w.GetNumSamples * w.m_rate / w.m_rate) = w.GetNumSamples := by
        rw [hq]
        exact max_eq_right hN
      rw [Resample_exact w w.m_rate (by omega) (by omega) hr32 hr32 (by omega) hprec2 w
        (by rw [hmax]; exact hS)]

theorem stretch_to_current_length_witness :
    (Waveform.mk [1, 2, 3, 4, 5, 6] 48000 2).Stretch (Waveform.mk [1, 2, 3, 4, 5, 6] 48000 2).GetNumSamples
        = some (true, Waveform.mk [1, 2, 3, 4, 5, 6] 48000 2) ∧
      ∃ b, (Waveform.mk [1, 2, 3, 4, 5, 6] 48000 2).Resample 48000
        = some (b, Waveform.mk [1, 2, 3, 4, 5, 6] 48000 2) := by
  have hn : (Waveform.mk [1, 2, 3, 4, 5, 6] 48000 2).GetNumSamples = 3 := by simp [Waveform.GetNumSamples]
  have h := stretch_to_current_length (Waveform.mk [1, 2, 3, 4, 5, 6] 48000 2) (by decide)
    (by norm_num [Waveform.representable, vectorMaxSize, U32, SIZE]) (by rw [hn]; decide)
    (by rw [hn]; norm_num)
  exact ⟨h.1, h.2 (by rw [hn]; norm_num)⟩

/-! ## C30: loading a WAV file needs whole frames -/

theorem format_header_valid (fp fp1 : FILE) (hdr : WAVFHDR)
    (h : read_and_confirm_format_header fp = some (hdr, fp1)) :
    (hdr.nBits = 8 ∨ hdr.nBits = 16 ∨ hdr.nBits = 32) ∧ 1 ≤ hdr.nChannels ∧ hdr.nChannels ≤ 5 := by
  unfold read_and_confirm_format_header at h
  simp only at h
  split_ifs at h with h1 h2 h3 h4 h5 h6
  cases hs : fseekCur (fread (fread fp 4).2 sizeofWAVFHDR).2
      (toLong (leVal (fread fp 4).1 - sizeofWAVFHDR)) with
  | none => simp [hs] at h
  | some fp3 =>
    simp only [hs, Option.some.injEq, Prod.mk.injEq] at h
    obtain ⟨rfl, _⟩ := h
    refine ⟨?_, ?_, ?_⟩ <;> omega

theorem readHeaders_valid (budget : Nat) (file : List Byte) (hdr : WAVFHDR) (d : Nat) (fp : FILE)
    (h : readHeaders budget file = Res.ok (hdr, d, fp)) :
    (hdr.nBits = 8 ∨ hdr.nBits = 16 ∨ hdr.nBits = 32) ∧ 1 ≤ hdr.nChannels ∧ hdr.nChannels ≤ 5 := by
  unfold readHeaders at h
  cases h1 : read_and_confirm_wav_signature { content := file, pos := 0 } with
  | none => simp [h1] at h
  | some fp1 =>
    simp only [h1] at h
    cases h2 : read_and_confirm_format_header fp1 with
    | none => simp [h2] at h
    | some r =>
      obtain ⟨hdr1, fp2⟩ := r
      simp only [h2] at h
      cases h3 : read_and_confirm_data_header budget fp2 with
      | ok r3 =>
        obtain ⟨d3, fp3⟩ := r3
        simp only [h3, Res.ok.injEq, Prod.mk.injEq] at h
        obtain ⟨rfl, _, _⟩ := h
        exact format_header_valid fp1 fp2 hdr1 h2
      | fail => simp [h3] at h
      | fault => simp [h3] at h
      | timeout => simp [h3] at h

theorem buffer_smaller_than_data (c b d : Nat) (hb : b = 8 ∨ b = 16 ∨ b = 32) (hc1 : 1 ≤ c) (hc5 : c ≤ 5)
    (hd : ¬ (0 < d ∧ c * (b / 8) ∣ d)) :
    c * (d / c / (b / 8)) % U32 * b % U32 / 8 = 0 ∨ c * (d / c / (b / 8)) % U32 * b % U32 / 8 < d := by
  simp only [U32]
  rcases hb with rfl | rfl | rfl <;> interval_cases c <;> norm_num at hd ⊢ <;> omega

theorem load_fails_on_partial_frame (budget : Nat) (file : List Byte) (wav : Waveform) (cb : StatusCallback)
    (hdr : WAVFHDR) (d : Nat) (fp : FILE) (h : readHeaders budget file = Res.ok (hdr, d, fp))
    (hd : ¬ (0 < d ∧ hdr.nChannels * (hdr.nBits / 8) ∣ d)) :
    ∃ w', WaveformLoadFromWAV budget file wav cb = Res.ok (false, w') := by
  obtain ⟨hb, hc1, hc5⟩ := readHeaders_valid budget file hdr d fp h
  have hH : WAVFileReadHeader budget file = Res.ok (WAVInfo.mk hdr.Rate hdr.nChannels hdr.nBits
      (hdr.wFmtTag == 3) (d / hdr.nChannels / (hdr.nBits / 8))) := by
    simp only [WAVFileReadHeader, h]
  have hsmall := buffer_smaller_than_data hdr.nChannels hdr.nBits d hb hc1 hc5 hd
  have hS : WAVFileReadSamples budget file
      (hdr.nChannels * (d / hdr.nChannels / (hdr.nBits / 8)) % U32 * hdr.nBits % U32 / 8) = Res.fail := by
    unfold WAVFileReadSamples
    rcases hsmall with h0 | hlt
    · rw [if_pos h0]
    · by_cases h0 : hdr.nChannels * (d / hdr.nChannels / (hdr.nBits / 8)) % U32 * hdr.nBits % U32 / 8 = 0
      · rw [if_pos h0]
      · rw [if_neg h0]
        simp only [h, hlt, if_true]
  unfold WaveformLoadFromWAV
  by_cases hc0 : cancelled cb 0 = true
  · exact ⟨wav, by rw [if_pos hc0]⟩
  · rw [if_neg hc0, hH]
    simp only
    by_cases hc1' : cancelled cb (1 / 10) = true
    · exact ⟨_, by rw [if_pos hc1']⟩
    · rw [if_neg hc1', hS]
      exact ⟨_, rfl⟩

/-- Claim C30.  `WaveformLoadFromWAV` returns true only if the header stages
succeed and the declared length of the data chunk is a positive exact
multiple of channels x (bits/8); whenever the header stages succeed but that
length is zero or leaves a partial trailing frame, the load returns false. -/
theorem wav_load_needs_whole_frames (budget : Nat) (file : List Byte) (wav : Waveform)
    (cb : StatusCallback) :
    (∀ w', WaveformLoadFromWAV budget file wav cb = Res.ok (true, w') →
        ∃ hdr d fp, readHeaders budget file = Res.ok (hdr, d, fp) ∧ 0 < d ∧
          hdr.nChannels * (hdr.nBits / 8) ∣ d) ∧
      (∀ hdr d fp, readHeaders budget file = Res.ok (hdr, d, fp) →
        ¬ (0 < d ∧ hdr.nChannels * (hdr.nBits / 8) ∣ d) →
        ∃ w', WaveformLoadFromWAV budget file wav cb = Res.ok (false, w')) := by
  refine ⟨?_, fun hdr d fp h hd => load_fails_on_partial_frame budget file wav cb hdr d fp h hd⟩
  intro w' hload
  cases hr : readHeaders budget file with
  | ok r =>
    obtain ⟨hdr, d, fp⟩ := r
    refine ⟨hdr, d, fp, rfl, ?_⟩
    by_contra hd
    have hd' : ¬ (0 < d ∧ hdr.nChannels * (hdr.nBits / 8) ∣ d) := hd
    obtain ⟨w1, hfail⟩ := load_fails_on_partial_frame budget file wav cb hdr d fp hr hd'
    rw [hfail] at hload
    simp at hload
  | fail =>
    exfalso
    unfold WaveformLoadFromWAV at hload
    simp only [WAVFileReadHeader, hr] at hload
    split_ifs at hload <;> simp at hload
  | fault =>
    exfalso
    unfold WaveformLoadFromWAV at hload
    simp only [WAVFileReadHeader, hr] at hload
    split_ifs at hload
    simp at hload
  | timeout =>
    exfalso
    unfold WaveformLoadFromWAV at hload
    simp only [WAVFileReadHeader, hr] at hload
    split_ifs at hload
    simp at hload

theorem wav_load_needs_whole_frames_witness :
    ∃ w', WaveformLoadFromWAV 1 partialFrameFile Waveform.fresh none = Res.ok (false, w') :=
  (wav_load_needs_whole_frames 1 partialFrameFile Waveform.fresh none).2
    (WAVFHDR.mk 1 1 48000 96000 2 16) 3 (FILE.mk partialFrameFile 44) (by decide) (by decide)

end WaveTools
